import Mathlib

/-!
OpinionDynamics: a shallow embedding of the OpDyn model.

The C++ sources (`update.hh`, `utils.hh`, `revision.hh`, `ageing.hh`) are embedded as
pure functions over an arbitrary linearly ordered field `α` standing for `double`, so
that every statement is one about exact arithmetic.  Conventions:

* machine integers are naturals or integers with explicit wrap-around (`toU32`,
  `toU64`, `toI32`, `subU32`);
* the functions of the C math library with a non-algebraic result (`pow` with a real
  exponent, `exp`, `log`) are passed in as a record `Libm`; `pow(x, 2)` is the square
  `x ^ 2`; theorems that need their analytic properties are stated over `ℝ` for a
  record that computes the real functions (`Libm.IsReal`);
* a quotient by zero has the value 0 of the field, where IEEE arithmetic yields an
  infinity or a NaN: statements that depend on such a quotient assume it away;
* the random generator is a stream of draws with a read position (`Rng`); every
  distribution call consumes one draw;
* networks are passed and returned explicitly; a vertex descriptor is a natural number;
* log messages are not part of the state; loops that need not end carry fuel.
-/

namespace OpDyn

/-! ## Numeric environment -/

/-- The C math library functions the model calls with non-algebraic results. -/
structure Libm (α : Type) where
  pow : α → α → α
  exp : α → α
  log : α → α

/-- A math library over the reals is exact when it computes the real functions. -/
def Libm.IsReal (m : Libm ℝ) : Prop :=
  (∀ x y : ℝ, m.pow x y = x ^ y) ∧ (∀ x : ℝ, m.exp x = Real.exp x) ∧
    (∀ x : ℝ, m.log x = Real.log x)

/-- Conversion of a C `int` to `unsigned int` (usual arithmetic conversions). -/
def toU32 (i : Int) : Nat := (i % 4294967296).toNat

/-- Conversion of a C `int` to `size_t` (64 bit). -/
def toU64 (i : Int) : Nat := (i % 18446744073709551616).toNat

/-- Wrap an integer into the range of a 32 bit signed `int`. -/
def toI32 (i : Int) : Int := Int.bmod i 4294967296

/-- Subtraction of two `unsigned int` values: the result is taken modulo `2^32`. -/
def subU32 (a b : Nat) : Nat := (a % 4294967296 + 4294967296 - b % 4294967296) % 4294967296

/-! ## Data model (`OpDyn.hh`) -/

/-- A user of the user network (`struct User`). -/
structure User (α : Type) where
  opinion : α
  tolerance : α
  susceptibility : α
  age : Nat
  used_media : Nat

/-- A medium of the media network (`struct Medium`). -/
structure Medium (α : Type) where
  opinion : α
  tolerance : α
  susceptibility : α
  persuasiveness : α
  ads : α
  ads_normalized : α
  users : Nat
  users_previous : Nat

/-- The directed user network: `boost::adjacency_list<setS, vecS, bidirectionalS, User, Weight>`.
Vertices are `0 .. num_vertices - 1`; `out v` is the out-edge set of `v` as pairs
`(target, attr)` in iteration order (ascending target, no target twice). -/
structure Network_u (α : Type) where
  num_vertices : Nat
  vertex : Nat → User α
  out : Nat → List (Nat × α)

/-- The undirected media network: `boost::adjacency_list<setS, vecS, undirectedS, Medium, Weight>`.
The list `adj v` holds the edges incident to `v` as pairs `(neighbour, attr)`. -/
structure Network_m (α : Type) where
  num_vertices : Nat
  vertex : Nat → Medium α
  adj : Nat → List (Nat × α)

variable {α : Type}

/-- Assignment to the bundled property `nw[v]`. -/
def Network_u.setVertex (nw : Network_u α) (v : Nat) (u : User α) : Network_u α :=
  { nw with vertex := fun x => if x = v then u else nw.vertex x }

/-- Assignment to the out-edge list of `v`. -/
def Network_u.setOut (nw : Network_u α) (v : Nat) (es : List (Nat × α)) : Network_u α :=
  { nw with out := fun x => if x = v then es else nw.out x }

/-! ## Opinion and tolerance update rules (`update.hh`) -/

section update
variable [LinearOrderedField α]

/-- The user-user overload of `update::opinion(v, nb, nw)`. -/
def update.opinion (v nb : Nat) (nw : Network_u α) : Network_u α :=
  if |(nw.vertex v).opinion - (nw.vertex nb).opinion| ≤ (nw.vertex v).tolerance then
    nw.setVertex v { nw.vertex v with
      opinion := (nw.vertex v).opinion
        + (nw.vertex v).susceptibility * ((nw.vertex nb).opinion - (nw.vertex v).opinion) }
  else nw

/-- The user-medium overload of `update::opinion(v, nb, nw_1, nw_2)`; both networks
are handed back, the media network being passed by reference as well. -/
def update.opinion_media (v nb : Nat) (nw_1 : Network_u α) (nw_2 : Network_m α) :
    Network_u α × Network_m α :=
  if |(nw_1.vertex v).opinion - (nw_2.vertex nb).opinion| ≤ (nw_1.vertex v).tolerance then
    (nw_1.setVertex v { nw_1.vertex v with
      opinion := (nw_1.vertex v).opinion
        + (nw_1.vertex v).susceptibility * (nw_2.vertex nb).persuasiveness
          * ((nw_2.vertex nb).opinion - (nw_1.vertex v).opinion) }, nw_2)
  else (nw_1, nw_2)

/-- The tolerance rule `update::tolerance(v, nw, previous_opinion, radicalisation_parameter)`. -/
def update.tolerance (m : Libm α) (v : Nat) (nw : Network_u α)
    (previous_opinion radicalisation_parameter : α) : Network_u α :=
  let x := |previous_opinion - 0.5|
  let y := |(nw.vertex v).opinion - 0.5|
  let r := 1 + radicalisation_parameter * (y ^ 2 - x ^ 2)
  nw.setVertex v { nw.vertex v with tolerance := m.pow (nw.vertex v).tolerance r }

end update

/-! ## Random stream -/

/-- One value taken from the random stream.  A distribution that consumes it reads the
component of its kind: `u` for a uniform real in the unit interval, `z` for a standard
normal variate, `n` for the raw integer an integer distribution reduces to its range. -/
structure Draw (α : Type) where
  u : α
  z : α
  n : Nat

/-- The state of the shared pseudo-random stream: the sequence of draws and the
number of draws consumed so far. -/
structure Rng (α : Type) where
  stream : Nat → Draw α
  pos : Nat

/-- The draw the next distribution call will consume. -/
def Rng.peek (rng : Rng α) : Draw α := rng.stream rng.pos

/-- The stream after one draw has been consumed. -/
def Rng.advance (rng : Rng α) : Rng α := { rng with pos := rng.pos + 1 }

/-! ## Numeric and random utilities (`utils.hh`) -/

section utils
variable [LinearOrderedField α]

/-- The function `get_rand_int(a, b, rng)`: uniform integer in `[a, b-1]`. -/
def utils.get_rand_int (a b : Int) (rng : Rng α) : Int × Rng α :=
  (a + (rng.peek.n : Int) % (b - a), rng.advance)

/-- The function `get_rand_double(a, b, rng)`: uniform real between `a` and `b`. -/
def utils.get_rand_double (a b : α) (rng : Rng α) : α × Rng α :=
  (a + rng.peek.u * (b - a), rng.advance)

/-- The function `get_Gaussian_double(mu, sigma, rng)`. -/
def utils.get_Gaussian_double (mu sigma : α) (rng : Rng α) : α × Rng α :=
  (mu + sigma * rng.peek.z, rng.advance)

/-- The keys `peak`, `val_at_0`, `val_at_peak` of the age-dependent curve. -/
structure CurveConfig (α : Type) where
  peak : α
  val_at_0 : α
  val_at_peak : α

/-- The function `utils::susceptibility(cfg, age)`. -/
def utils.susceptibility (cfg : CurveConfig α) (age : Int) : α :=
  let s_0 := cfg.peak
  let s_1 := cfg.val_at_0
  let s_2 := cfg.val_at_peak
  let c := 1 / s_2
  let b := (1 - c * s_1) / (c * s_1 * s_0 ^ 2)
  let denom := c * (1 + b * ((age : α) - s_0) ^ 2)
  1 / denom

/-- The function `set_init_uniform(interval, rng)` at `ValType = double`; the logged
error of the last branch is not part of the result. -/
def utils.set_init_uniform (interval : α × α) (rng : Rng α) : α × Rng α :=
  if interval.1 = interval.2 then (interval.1, rng)
  else if interval.2 > interval.1 then utils.get_rand_double interval.1 interval.2 rng
  else (0, rng)

/-- The resampling loop of `set_init_Gauss`, unrolled at most `fuel` times. -/
def utils.set_init_Gauss_loop (distribution_info : α × α) :
    Nat → α → Rng α → Option (α × Rng α)
  | 0, parameter, rng =>
    if parameter ≤ 0 ∨ parameter ≥ 1 then none else some (parameter, rng)
  | fuel + 1, parameter, rng =>
    if parameter ≤ 0 ∨ parameter ≥ 1 then
      let d := utils.get_Gaussian_double distribution_info.1 distribution_info.2 rng
      utils.set_init_Gauss_loop distribution_info fuel d.1 d.2
    else some (parameter, rng)

/-- The function `set_init_Gauss(distribution_info, rng)`; `none` when the loop has
not left within `fuel` resamplings. -/
def utils.set_init_Gauss (fuel : Nat) (distribution_info : α × α) (rng : Rng α) :
    Option (α × Rng α) :=
  let d := utils.get_Gaussian_double distribution_info.1 distribution_info.2 rng
  utils.set_init_Gauss_loop distribution_info fuel d.1 d.2

/-- The configuration node read by `utils::initialize`: the keys `distribution_type`,
`const_val`, `uniform_int`, `mean`, `stddev` and the sub-node `custom`. -/
structure Config (α : Type) where
  distribution_type : String
  const_val : α
  uniform_int : α × α
  mean : α
  stddev : α
  custom : CurveConfig α

/-- What a call can end in: a value, the exception `std::invalid_argument`, a failed
assertion, an operation without defined behaviour (a remainder modulo zero), or a
loop that has not finished within the fuel given. -/
inductive Outcome (β : Type) where
  | value : β → Outcome β
  | invalid_argument : String → Outcome β
  | assertion_failed : Outcome β
  | undefined : Outcome β
  | out_of_fuel : Outcome β

/-- The overload `utils::initialize(cfg, rng)`. -/
def utils.initialize (fuel : Nat) (cfg : Config α) (rng : Rng α) : Outcome (α × Rng α) :=
  if cfg.distribution_type = "constant" then .value (cfg.const_val, rng)
  else if cfg.distribution_type = "uniform" then
    .value ( utils.set_init_uniform cfg.uniform_int rng)
  else if cfg.distribution_type = "gaussian" then
    match utils.set_init_Gauss fuel (cfg.mean, cfg.stddev) rng with
    | some r => .value r
    | none => .out_of_fuel
  else .value (0, rng)

/-- The overload `utils::initialize(age, cfg, rng)`. -/
def utils.initialize_age (fuel : Nat) (age : Int) (cfg : Config α) (rng : Rng α) :
    Outcome (α × Rng α) :=
  if cfg.distribution_type = "age-dependent" then
    let s_0 := cfg.custom.peak
    let s_1 := cfg.custom.val_at_0
    let s_2 := cfg.custom.val_at_peak
    if s_0 < 0 then
      .invalid_argument "Invalid value for 'peak':age value must be greater than 0!"
    else if s_1 < 0 ∨ s_1 > 1 then
      .invalid_argument "Invalid suscepbility value val_at_0:susceptibility must be in [0, 1]!"
    else if s_2 < 0 ∨ s_2 > 1 then
      .invalid_argument "Invalid suscepbility value val_at_peak:susceptibility must be in [0, 1]!"
    else .value ( utils.susceptibility cfg.custom age, rng)
  else utils.initialize fuel cfg rng

end utils

/-! ## Graph operations (`boost::adjacency_list`) -/

section graph

/-- The number of out-edges of `v`: `out_degree(v, nw)`. -/
def Network_u.out_degree (nw : Network_u α) (v : Nat) : Nat := (nw.out v).length

/-- Whether the edge `u → v` exists: `edge(u, v, nw).second`. -/
def Network_u.has_edge (nw : Network_u α) (u v : Nat) : Bool :=
  (nw.out u).any (fun e => e.1 == v)

/-- The weight `nw[edge(u, v, nw).first].attr`; the value for a missing edge, which
the C++ code leaves undefined, is 0. -/
def Network_u.weight [Zero α] (nw : Network_u α) (u v : Nat) : α :=
  match (nw.out u).find? (fun e => e.1 == v) with
  | some e => e.2
  | none => 0

/-- The number of in-edges of `v`: `in_degree(v, nw)`. -/
def Network_u.in_degree (nw : Network_u α) (v : Nat) : Nat :=
  ((List.range nw.num_vertices).filter (fun u => nw.has_edge u v)).length

/-- The total degree of `v`: `degree(v, nw)`, in-degree plus out-degree. -/
def Network_u.degree (nw : Network_u α) (v : Nat) : Nat := nw.in_degree v + nw.out_degree v

/-- Insertion into an out-edge set ordered by target; an edge to a target that is
already present is not inserted (`setS` forbids parallel edges). -/
def insertEdge (t : Nat) (w : α) : List (Nat × α) → List (Nat × α)
  | [] => [(t, w)]
  | e :: es =>
    if e.1 = t then e :: es
    else if t < e.1 then (t, w) :: e :: es
    else e :: insertEdge t w es

/-- The call `add_edge(u, v, {w}, nw)`. -/
def Network_u.add_edge (nw : Network_u α) (u v : Nat) (w : α) : Network_u α :=
  nw.setOut u (insertEdge v w (nw.out u))

/-- The call `remove_edge(u, v, nw)`. -/
def Network_u.remove_edge (nw : Network_u α) (u v : Nat) : Network_u α :=
  nw.setOut u ((nw.out u).filter (fun e => e.1 != v))

/-- The call `clear_vertex(v, nw)`: all in- and out-edges of `v` are removed. -/
def Network_u.clear_vertex (nw : Network_u α) (v : Nat) : Network_u α :=
  { nw with out := fun x => if x = v then [] else (nw.out x).filter (fun e => e.1 != v) }

/-- The sources of the in-edges of `v`, in iteration order. -/
def Network_u.in_sources (nw : Network_u α) (v : Nat) : List Nat :=
  (List.range nw.num_vertices).filter (fun u => nw.has_edge u v)

/-- Assignment `nw[edge(u, v)].attr = w` to an existing edge. -/
def Network_u.setWeight (nw : Network_u α) (u v : Nat) (w : α) : Network_u α :=
  nw.setOut u ((nw.out u).map (fun e => if e.1 = v then (e.1, w) else e))

/-- The function `boost::random_vertex(g, gen)`: with more than one vertex, a vertex
drawn from the uniform integer distribution on `[0, num_vertices - 1]`; otherwise the
first vertex, and nothing is drawn. -/
def random_vertex (nw : Network_u α) (rng : Rng α) : Nat × Rng α :=
  if nw.num_vertices > 1 then (rng.peek.n % nw.num_vertices, rng.advance) else (0, rng)

end graph

/-! ## Revision (`revision.hh`) -/

/-- The model modes of `modes.hh`, with their enumerator values. -/
inductive Mode where
  | None
  | Ageing
  | Media
  | Ageing_and_Media
  deriving DecidableEq, Repr

/-- The integer value of an enumerator of `Mode`. -/
def Mode.toNat : Mode → Nat
  | .None => 0
  | .Ageing => 1
  | .Media => 2
  | .Ageing_and_Media => 3

/-- The compile-time condition `model_mode == Mode::Ageing or Mode::Ageing_and_Media`
of `update_weights`: its right operand is the enumerator itself, converted to `bool`. -/
def revision.age_branch (model_mode : Mode) : Bool :=
  model_mode == Mode.Ageing || (Mode.Ageing_and_Media.toNat != 0)

/-- A `std::uniform_real_distribution<double>` with bounds `a` and `b`. -/
structure UniformReal (α : Type) where
  a : α
  b : α

section revision
variable [LinearOrderedField α]

/-- One call `prob_distr(rng)`: the draw `u` of the unit interval scaled to the bounds. -/
def UniformReal.draw (d : UniformReal α) (rng : Rng α) : α × Rng α :=
  (d.a + rng.peek.u * (d.b - d.a), rng.advance)

/-- The function `utils::get_rand_nb(nw, v, rng)`: the out-neighbour of `v` at a
uniformly drawn position of the adjacency list.  For a vertex without out-edges the
C++ code is undefined; the value here is `v`. -/
def utils.get_rand_nb (nw : Network_u α) (v : Nat) (rng : Rng α) : Nat × Rng α :=
  let r := utils.get_rand_int 0 (nw.out_degree v) rng
  (((nw.out v).get? r.1.toNat).elim v Prod.fst, r.2)

/-- The scan of `pairwise_weighted_update` over the adjacent vertices: the first
neighbour at which the cumulative weight has reached `nb_prob_frac`, if any. -/
def revision.choose_partner (nb_prob_frac : α) : List (Nat × α) → α → Option Nat
  | [], _ => none
  | e :: es, cumulative_weights =>
    let c := if cumulative_weights < nb_prob_frac then cumulative_weights + e.2
      else cumulative_weights
    if c ≥ nb_prob_frac then some e.1 else revision.choose_partner nb_prob_frac es c

/-- The function `pairwise_weighted_update(v, nw, prob_distr, rng, radicalisation_parameter)`. -/
def revision.pairwise_weighted_update (m : Libm α) (v : Nat) (nw : Network_u α)
    (prob_distr : UniformReal α) (rng : Rng α) (radicalisation_parameter : α) :
    Network_u α × Rng α :=
  let d := prob_distr.draw rng
  let nb := (revision.choose_partner d.1 (nw.out v) 0).getD v
  let old_opinion := (nw.vertex v).opinion
  let nw1 := update.opinion v nb nw
  let nw2 := update.tolerance m v nw1 old_opinion radicalisation_parameter
  (nw2, d.2)

/-- The new weight of the out-edge `v → t` of weight `a` in the first loop of
`update_weights`: multiplied by the reduction factor and clamped at 0. -/
def revision.reduced_weight (m : Libm α) (model_mode : Mode) (v : Nat) (nw : Network_u α)
    (weighting : α) (t : Nat) (a : α) : α :=
  let a1 :=
    if revision.age_branch model_mode then
      a * ((1 - weighting * |(nw.vertex t).opinion - (nw.vertex v).opinion|)
        + m.exp (m.log 0.5 / 0.5 * (subU32 (nw.vertex t).age (nw.vertex v).age : α)
            / ((nw.vertex v).age : α)))
    else
      a * (1 - weighting * |(nw.vertex t).opinion - (nw.vertex v).opinion|)
  if a1 < 0 then 0 else a1

/-- The state carried through the loops of `update_weights`. -/
structure WeightState (α : Type) where
  edges : List (Nat × α)
  to_drop : List Nat
  sum_of_reduced_weights : α
  rng : Rng α

/-- The first loop of `update_weights`, over the out-edges of `v`: edges beyond the
tolerance are marked with probability `rewiring`, every weight is reduced, and the
reduced weights are summed. -/
def revision.reduce_loop (m : Libm α) (model_mode : Mode) (v : Nat) (nw : Network_u α)
    (weighting rewiring : α) (prob_distr : UniformReal α) :
    List (Nat × α) → List Nat → α → Rng α → WeightState α
  | [], to_drop, sum, rng =>
    { edges := [], to_drop := to_drop, sum_of_reduced_weights := sum, rng := rng }
  | e :: es, to_drop, sum, rng =>
    let marked : List Nat × Rng α :=
      if |(nw.vertex e.1).opinion - (nw.vertex v).opinion| > (nw.vertex v).tolerance then
        let d := prob_distr.draw rng
        (if d.1 < rewiring then to_drop ++ [e.1] else to_drop, d.2)
      else (to_drop, rng)
    let a := revision.reduced_weight m model_mode v nw weighting e.1 e.2
    let r := revision.reduce_loop m model_mode v nw weighting rewiring prob_distr es
      marked.1 (sum + a) marked.2
    { r with edges := (e.1, a) :: r.edges }

/-- The state carried through the rewiring loop of `update_weights`. -/
structure RewireState (α : Type) where
  nw : Network_u α
  to_add : List Nat
  sum_of_reduced_weights : α
  rng : Rng α

/-- The candidate `w` of one round of the rewiring loop: a neighbour of a neighbour,
or a random vertex when that one is already adjacent, is `v` itself, or the first
neighbour drawn is marked for removal. -/
def revision.rewire_candidate (v : Nat) (to_drop : List Nat) (nw : Network_u α)
    (rng : Rng α) : Nat × Rng α :=
  let r0 := utils.get_rand_nb nw v rng
  if r0.1 ∉ to_drop then
    let r1 := if nw.out_degree r0.1 ≠ 0 then utils.get_rand_nb nw r0.1 r0.2 else r0
    if nw.has_edge v r1.1 ∨ v = r1.1 then random_vertex nw r1.2 else r1
  else random_vertex nw r0.2

/-- The second loop of `update_weights`, over the marked targets still to handle. -/
def revision.rewire_loop (v : Nat) (to_drop : List Nat) :
    List Nat → RewireState α → RewireState α
  | [], s => s
  | d :: ds, s =>
    let c := revision.rewire_candidate v to_drop s.nw s.rng
    if ¬ s.nw.has_edge v c.1 ∧ c.1 ∉ s.to_add ∧ v ≠ c.1 then
      revision.rewire_loop v to_drop ds
        { nw := s.nw.remove_edge v d, to_add := s.to_add ++ [c.1],
          sum_of_reduced_weights := s.sum_of_reduced_weights - s.nw.weight v d, rng := c.2 }
    else revision.rewire_loop v to_drop ds { s with rng := c.2 }

/-- The function `update_weights<model_mode>(v, nw, weighting, rewiring, rewiring_count,
prob_distr, rng)`.  The counter is a by-value parameter: its final local value is the
second component of the result. -/
def revision.update_weights (m : Libm α) (model_mode : Mode) (v : Nat) (nw : Network_u α)
    (weighting rewiring : α) (rewiring_count : Nat) (prob_distr : UniformReal α)
    (rng : Rng α) : Network_u α × Nat × Rng α :=
  if nw.out_degree v ≠ 0 then
    let s1 := revision.reduce_loop m model_mode v nw weighting rewiring prob_distr
      (nw.out v) [] 0 rng
    let s2 := revision.rewire_loop v s1.to_drop s1.to_drop
      { nw := nw.setOut v s1.edges, to_add := [],
        sum_of_reduced_weights := s1.sum_of_reduced_weights, rng := s1.rng }
    let init_weight : α :=
      if s2.nw.out_degree v ≠ 0 then
        if s2.sum_of_reduced_weights < 10e-5 then 1 / (s2.to_add.length : α)
        else s2.sum_of_reduced_weights / (s2.nw.out_degree v : α)
      else 1 / (s2.to_add.length : α)
    (s2.to_add.foldl (fun g w => g.add_edge v w init_weight) s2.nw,
      (rewiring_count + s2.to_add.length) % 4294967296, s2.rng)
  else (nw, rewiring_count, rng)

/-- The function `normalize_weights(v, nw)`; the log messages are not part of the state. -/
def revision.normalize_weights (v : Nat) (nw : Network_u α) : Network_u α :=
  if nw.out_degree v ≠ 0 then
    let weight_norm := (nw.out v).foldl (fun acc e => acc + e.2) 0
    if weight_norm ≠ 0 then nw.setOut v ((nw.out v).map (fun e => (e.1, e.2 / weight_norm)))
    else nw
  else nw

/-- The function `user_revision<model_mode>(nw_u, weighting, rewiring, rewiring_count,
prob_distr, radicalisation_parameter, rng)`; the result holds the network, the
caller's counter and the random stream. -/
def revision.user_revision (m : Libm α) (model_mode : Mode) (nw_u : Network_u α)
    (weighting rewiring : α) (rewiring_count : Nat) (prob_distr : UniformReal α)
    (radicalisation_parameter : α) (rng : Rng α) : Network_u α × Nat × Rng α :=
  let r := random_vertex nw_u rng
  let v := r.1
  if nw_u.out_degree v ≠ 0 then
    let p := revision.pairwise_weighted_update m v nw_u prob_distr r.2 radicalisation_parameter
    let u := revision.update_weights m model_mode v p.1 weighting rewiring rewiring_count
      prob_distr p.2
    ( revision.normalize_weights v u.1, rewiring_count, u.2.2)
  else (nw_u, rewiring_count, r.2)

end revision

/-! ## Media and information revision (`revision.hh`) -/

section media
variable [LinearOrderedField α]

/-- Assignment to the bundled property `nw_m[v]`. -/
def Network_m.setVertex (nw : Network_m α) (v : Nat) (d : Medium α) : Network_m α :=
  { nw with vertex := fun x => if x = v then d else nw.vertex x }

/-- The number of edges incident to the medium `v`: `out_degree(v, nw_m)`. -/
def Network_m.out_degree (nw : Network_m α) (v : Nat) : Nat := (nw.adj v).length

/-- The weight `nw_m[edge(u, v, nw_m).first].attr`; the value for a missing edge, which
the C++ code leaves undefined, is 0. -/
def Network_m.weight (nw : Network_m α) (u v : Nat) : α :=
  match (nw.adj u).find? (fun e => e.1 == v) with
  | some e => e.2
  | none => 0

/-- The function `boost::random_vertex(g, gen)` on the media network. -/
def random_medium (nw : Network_m α) (rng : Rng α) : Nat × Rng α :=
  if nw.num_vertices > 1 then (rng.peek.n % nw.num_vertices, rng.advance) else (0, rng)

/-- The function `make_periodic(val)`. -/
def revision.make_periodic (val : α) : α :=
  if val < -0.5 then -1 else if val > 0.5 then 1 else 0

/-- The function `distance_periodic(x, y)`. -/
def revision.distance_periodic (x y : α) : α :=
  |x - y - revision.make_periodic (x - y)|

/-- The function `normalize_ads(nw_m)`: the sum of all `ads`, then every
`ads_normalized` set to `ads/sum`. -/
def revision.normalize_ads (nw_m : Network_m α) : Network_m α :=
  let sum := (List.range nw_m.num_vertices).foldl (fun acc v => acc + (nw_m.vertex v).ads) 0
  { nw_m with vertex := fun v =>
      if v < nw_m.num_vertices then
        { nw_m.vertex v with ads_normalized := (nw_m.vertex v).ads / sum }
      else nw_m.vertex v }

/-- The function `user_char_BC(own_opinion, new_opinion, tolerance, periodic)`. -/
def revision.user_char_BC (own_opinion new_opinion tolerance : α) (periodic : Bool) : α × Bool :=
  if periodic then
    if revision.distance_periodic new_opinion own_opinion ≤ tolerance then (1, true)
    else (0, false)
  else
    if |new_opinion - own_opinion| ≤ tolerance then (1, true) else (0, false)

/-- The search of `media_revision` for the fittest neighbour of `v` over the adjacent
media: the pair of `fittest_nb` and `found`. -/
def revision.fittest_scan (nw_m : Network_m α) (v : Nat) :
    List (Nat × α) → Nat × Bool → Nat × Bool
  | [], s => s
  | e :: es, s =>
    if |(nw_m.vertex v).opinion - (nw_m.vertex e.1).opinion| ≤ (nw_m.vertex v).tolerance
        ∧ (nw_m.vertex e.1).users > (nw_m.vertex s.1).users then
      revision.fittest_scan nw_m v es (e.1, true)
    else revision.fittest_scan nw_m v es s

/-- The opinion of `v` after the shift of `media_revision` towards the fittest
neighbour `f`, before clamping; `coin` is the value returned by `rand()`. -/
def revision.shifted_opinion (coin : Nat) (nw_m : Network_m α) (v f : Nat) : α :=
  if |(nw_m.vertex v).opinion - (nw_m.vertex f).opinion| > (nw_m.vertex v).tolerance / 3 then
    (nw_m.vertex v).opinion
      + (nw_m.vertex v).susceptibility * nw_m.weight v f
        * ((nw_m.vertex f).opinion - (nw_m.vertex v).opinion)
  else
    let sgn0 : Int :=
      if (nw_m.vertex v).opinion ≠ (nw_m.vertex f).opinion
          ∧ (nw_m.vertex v).opinion < (nw_m.vertex f).opinion then -1 else 1
    let sgn : Int :=
      if (nw_m.vertex v).opinion = (nw_m.vertex f).opinion then 2 * ((coin : Int) % 2) - 1
      else sgn0
    (nw_m.vertex f).opinion + (sgn : α) * (nw_m.vertex v).tolerance / 3

/-- The function `media_revision(nw_m, rng)`; `coin` is the value `rand()` returns if
it is called. -/
def revision.media_revision (coin : Nat) (nw_m : Network_m α) (rng : Rng α) :
    Network_m α × Rng α :=
  let r := random_medium nw_m rng
  let v := r.1
  let nw1 := nw_m.setVertex v { nw_m.vertex v with ads := (nw_m.vertex v).ads * 0.9 }
  let nw2 :=
    if nw1.out_degree v ≠ 0 then
      let s := revision.fittest_scan nw1 v (nw1.adj v) (v, false)
      if s.2 then
        nw1.setVertex v { nw1.vertex v with opinion := revision.shifted_opinion coin nw1 v s.1 }
      else nw1
    else nw1
  let nw3 :=
    if (nw2.vertex v).opinion < 0 then nw2.setVertex v { nw2.vertex v with opinion := 0 }
    else nw2
  let nw4 :=
    if (nw3.vertex v).opinion > 1 then nw3.setVertex v { nw3.vertex v with opinion := 1 }
    else nw3
  let nw5 := nw4.setVertex v { nw4.vertex v with ads := ((nw4.vertex v).users : α) }
  let nw6 := revision.normalize_ads nw5
  (nw6.setVertex v { nw6.vertex v with users_previous := (nw6.vertex v).users }, r.2)

/-- The scan of `information_revision` over the media: the first medium at which the
cumulative ad fraction has reached `new_medium_ad_fraction`, if any. -/
def revision.choose_medium (new_medium_ad_fraction : α) (nw_m : Network_m α) :
    List Nat → α → Option Nat
  | [], _ => none
  | x :: xs, sum_ad_fraction =>
    let c := if sum_ad_fraction < new_medium_ad_fraction
      then sum_ad_fraction + (nw_m.vertex x).ads_normalized else sum_ad_fraction
    if c ≥ new_medium_ad_fraction then some x
    else revision.choose_medium new_medium_ad_fraction nw_m xs c

/-- The function `information_revision(nw_u, nw_m, prob_distr, radicalisation_parameter,
rng)`.  The audience counters are `unsigned int`. -/
def revision.information_revision (m : Libm α) (nw_u : Network_u α) (nw_m : Network_m α)
    (prob_distr : UniformReal α) (radicalisation_parameter : α) (rng : Rng α) :
    Network_u α × Network_m α × Rng α :=
  let r := random_vertex nw_u rng
  let v := r.1
  let d := prob_distr.draw r.2
  let new_medium :=
    (revision.choose_medium d.1 nw_m (List.range nw_m.num_vertices) 0).getD 0
  let user_char := revision.user_char_BC (nw_u.vertex v).opinion
    (nw_m.vertex new_medium).opinion (nw_u.vertex v).tolerance false
  let opinion_old := (nw_u.vertex v).opinion
  let d2 := prob_distr.draw d.2
  if d2.1 ≤ user_char.1 then
    let nw_u1 := if user_char.2 then (update.opinion_media v new_medium nw_u nw_m).1 else nw_u
    let nw_u2 := update.tolerance m v nw_u1 opinion_old radicalisation_parameter
    let old_medium := (nw_u2.vertex v).used_media
    let nw_m1 := nw_m.setVertex old_medium { nw_m.vertex old_medium with
      users := ((nw_m.vertex old_medium).users + 4294967295) % 4294967296 }
    let nw_m2 := nw_m1.setVertex new_medium { nw_m1.vertex new_medium with
      users := ((nw_m1.vertex new_medium).users + 1) % 4294967296 }
    (nw_u2.setVertex v { nw_u2.vertex v with used_media := new_medium }, nw_m2, d2.2)
  else (nw_u, nw_m, d2.2)

/-- The number of users of `nw_u` whose `used_media` is `m`. -/
def audience_count (nw_u : Network_u α) (m : Nat) : Nat :=
  ((List.range nw_u.num_vertices).filter (fun v => (nw_u.vertex v).used_media = m)).length

/-- The audience-count predicate: every medium's `users` is the number of users whose
`used_media` is that medium. -/
def audience_invariant (nw_u : Network_u α) (nw_m : Network_m α) : Prop :=
  ∀ m, m < nw_m.num_vertices → (nw_m.vertex m).users = audience_count nw_u m

/-- The sum of `ads_normalized` over all media. -/
def Network_m.ads_normalized_sum (nw : Network_m α) : α :=
  ((List.range nw.num_vertices).map (fun v => (nw.vertex v).ads_normalized)).sum

end media

/-! ## Ageing (`ageing.hh`) -/

section ageing
variable [LinearOrderedField α] [FloorRing α]

/-- The cast `(int)x` of a `double`: truncation towards zero. -/
def truncToInt (x : α) : Int := if 0 ≤ x then ⌊x⌋ else ⌈x⌉

/-- The containers filled by `user_selection_and_ageing` and its local counter. -/
structure Pools where
  children : List Nat
  parents : List Nat
  peers : List Nat
  peers_to_add : Int
  deriving DecidableEq, Repr

/-- The rule `user_selection_and_ageing` applies to the vertex `v`.  Sizes are
`size_t`, ages `unsigned int` and the bounds `int`: a comparison between them is
made on the unsigned type. -/
def ageing.selection_rule (cfg : CurveConfig α) (child_ages parent_ages senior_ages : Int × Int)
    (vertices_to_remove : Int) (v : Nat) (s : Pools × Network_u α) : Pools × Network_u α :=
  let age := ((s.2.vertex v).age + 1) % 4294967296
  let nw := s.2.setVertex v { s.2.vertex v with
    age := age, susceptibility := utils.susceptibility cfg (toI32 age) }
  let p := s.1
  if p.peers.length < toU64 p.peers_to_add ∨ p.children.length < toU64 vertices_to_remove
      ∨ p.parents.length < toU64 vertices_to_remove then
    let p1 : Pools :=
      if toU32 senior_ages.1 ≤ age ∧ p.children.length < toU64 vertices_to_remove then
        { p with children := p.children ++ [v],
                 peers_to_add := toI32 (p.peers_to_add + (nw.degree v : Int) - 2) }
      else p
    let p2 : Pools :=
      if toU32 parent_ages.1 ≤ age ∧ age ≤ toU32 parent_ages.2
          ∧ p1.parents.length < p1.children.length then
        { p1 with parents := p1.parents ++ [v] }
      else p1
    let p3 : Pools :=
      if age ≤ toU32 child_ages.2 ∧ p2.peers.length < toU64 p2.peers_to_add then
        { p2 with peers := p2.peers ++ [v] }
      else p2
    (p3, nw)
  else (p, nw)

/-- The function `user_selection_and_ageing`.  The shuffled visiting order of
`apply_rule<IterateOver::vertices, Update::async, Shuffle::on>` is produced by the
parameter `shuffle` from the vertex list and the random stream. -/
def ageing.user_selection_and_ageing (shuffle : List Nat → Rng α → List Nat × Rng α)
    (children parents peers : List Nat) (child_ages parent_ages senior_ages : Int × Int)
    (replacement_rate : α) (nw : Network_u α) (rng : Rng α) (cfg : CurveConfig α) :
    Pools × Network_u α × Rng α :=
  let vertices_to_remove := truncToInt ((nw.num_vertices : α) * replacement_rate)
  let order := shuffle (List.range nw.num_vertices) rng
  let r := order.1.foldl
    (fun s v => ageing.selection_rule cfg child_ages parent_ages senior_ages
      vertices_to_remove v s)
    ({ children := children, parents := parents, peers := peers, peers_to_add := 0 }, nw)
  (r.1, r.2, order.2)

/-- The function `remove_edges(v, nw)`. -/
def ageing.remove_edges (v : Nat) (nw : Network_u α) : Network_u α :=
  let nw1 := (nw.in_sources v).foldl
    (fun g w =>
      let g1 := g.setWeight w v 0
      if g1.out_degree w > 1 then revision.normalize_weights w g1 else g1)
    nw
  nw1.clear_vertex v

/-- The loop `while (taken(peer)) peer = random_vertex(nw, rng)` of `add_edges`, run
for at most `fuel` redraws. -/
def ageing.redraw_peer (nw : Network_u α) (taken : Nat → Bool) :
    Nat → Nat → Rng α → Option (Nat × Rng α)
  | 0, peer, rng => if taken peer then none else some (peer, rng)
  | fuel + 1, peer, rng =>
    if taken peer then
      let r := random_vertex nw rng
      ageing.redraw_peer nw taken fuel r.1 r.2
    else some (peer, rng)

/-- The state carried through the peer loops of `add_edges`. -/
structure PeerState (α : Type) where
  nw : Network_u α
  rng : Rng α
  peer_opinions : α

/-- The out-edge loop of `add_edges`: `count` rounds starting at index `j`. -/
def ageing.peer_out_loop (fuel : Nat) (child : Nat) (peers : List Nat) (out_deg : Int) :
    Nat → Int → PeerState α → Outcome (PeerState α)
  | 0, _, s => .value s
  | count + 1, j, s =>
    if peers.length = 0 then .undefined
    else
      match ageing.redraw_peer s.nw (fun p => s.nw.has_edge child p) fuel
          (peers.getD (toU64 j % peers.length) 0) s.rng with
      | none => .out_of_fuel
      | some r =>
        let nw1 := revision.normalize_weights r.1
          (s.nw.add_edge child r.1 (0.5 / (out_deg : α)))
        ageing.peer_out_loop fuel child peers out_deg count (j + 1)
          { nw := nw1, rng := r.2, peer_opinions := s.peer_opinions + (nw1.vertex r.1).opinion }

/-- The in-edge loop of `add_edges`: `count` rounds starting at index `j`. -/
def ageing.peer_in_loop (fuel : Nat) (child : Nat) (peers : List Nat) (in_deg : Int) :
    Nat → Int → PeerState α → Outcome (PeerState α)
  | 0, _, s => .value s
  | count + 1, j, s =>
    if peers.length = 0 then .undefined
    else
      match ageing.redraw_peer s.nw (fun p => s.nw.has_edge p child) fuel
          (peers.getD (toU64 j % peers.length) 0) s.rng with
      | none => .out_of_fuel
      | some r =>
        let nw1 := revision.normalize_weights r.1
          (s.nw.add_edge r.1 child (0.5 / (in_deg : α)))
        ageing.peer_in_loop fuel child peers in_deg count (j + 1)
          { nw := nw1, rng := r.2, peer_opinions := s.peer_opinions + (nw1.vertex r.1).opinion }

/-- The function `add_edges(child, parent, peers, out_deg, in_deg, deg, iter_number, nw,
log, rng)`; the warning it may log is not part of the state. -/
def ageing.add_edges (fuel : Nat) (child parent : Nat) (peers : List Nat)
    (out_deg in_deg deg : Int) (iter_number : Int) (nw : Network_u α) (rng : Rng α) :
    Outcome (Network_u α × Rng α) :=
  let init_weight : α := if deg ≤ 2 ∨ out_deg ≤ 1 then 1 else 0.5
  let nw1 := nw.add_edge child parent init_weight
  let out1 := if out_deg > 0 then out_deg - 1 else out_deg
  let in1 := if out_deg > 0 then in_deg else in_deg - 1
  if in1 > 0 ∨ out1 > 0 then
    let nw2 := revision.normalize_weights parent (nw1.add_edge parent child 0.1)
    let in2 := if in1 > 0 then in1 - 1 else in1
    let out2 := if in1 > 0 then out1 else out1 - 1
    if in2 ≤ 0 ∧ out2 ≤ 0 then .value (nw2, rng)
    else
      match ageing.peer_out_loop fuel child peers out2 out2.toNat iter_number
          { nw := nw2, rng := rng, peer_opinions := 0 } with
      | .value s =>
        match ageing.peer_in_loop fuel child peers in2 in2.toNat (out2 + iter_number) s with
        | .value t =>
          .value (t.nw.setVertex child { t.nw.vertex child with
            opinion := 0.5 * ((t.nw.vertex parent).opinion
              + t.peer_opinions / ((in2 + out2 : Int) : α)) }, t.rng)
        | .invalid_argument msg => .invalid_argument msg
        | .assertion_failed => .assertion_failed
        | .undefined => .undefined
        | .out_of_fuel => .out_of_fuel
      | .invalid_argument msg => .invalid_argument msg
      | .assertion_failed => .assertion_failed
      | .undefined => .undefined
      | .out_of_fuel => .out_of_fuel
  else .value ( revision.normalize_weights parent nw1, rng)

/-- The function `reinitialize(child, parent, num_media, nw, rng, cfg)`. -/
def ageing.reinitialize (child parent : Nat) (num_media : Int) (nw : Network_u α)
    (rng : Rng α) (cfg : CurveConfig α) : Network_u α × Rng α :=
  let r := utils.get_rand_int 0 num_media rng
  (nw.setVertex child
    { age := 1, opinion := (nw.vertex parent).opinion, tolerance := (nw.vertex parent).tolerance,
      susceptibility := utils.susceptibility cfg 1, used_media := toU64 r.1 }, r.2)

/-- The assertions of `check_and_test(child, parent, deg, in_deg, out_deg, nw)`: whether
all of them hold.  The parent is used for a log message only. -/
def ageing.check_and_test (child : Nat) (deg in_deg out_deg : Int) (nw : Network_u α) : Bool :=
  let deg_after : Int := nw.degree child
  let in_deg_after : Int := nw.in_degree child
  let out_deg_after : Int := nw.out_degree child
  decide (deg = deg_after) && decide (|in_deg - in_deg_after| ≤ 1)
    && decide (|out_deg - out_deg_after| ≤ 1) && (decide (deg = 0) || decide (out_deg_after ≥ 1))

/-- The part of the body of the loop of `ageing` that replaces one child: the degree
snapshot, `reinitialize`, and for a child of positive degree `remove_edges` and
`add_edges`. -/
def ageing.replace_child (fuel : Nat) (child parent : Nat) (peers : List Nat) (num_media : Int)
    (at_peer : Int) (nw : Network_u α) (rng : Rng α) (cfg : CurveConfig α) :
    Outcome (Network_u α × Rng α) :=
  let deg : Int := nw.degree child
  let in_deg : Int := nw.in_degree child
  let out_deg : Int := nw.out_degree child
  let r := ageing.reinitialize child parent num_media nw rng cfg
  if deg = 0 then .value r
  else ageing.add_edges fuel child parent peers out_deg in_deg deg at_peer
    ( ageing.remove_edges child r.1) r.2

/-- The loop of `ageing` over the children from index `i` on; a child without edges
skips `check_and_test`. -/
def ageing.children_loop (fuel : Nat) (parents peers : List Nat) (num_media : Int)
    (cfg : CurveConfig α) : List Nat → Nat → Int → Network_u α → Rng α →
    Outcome (Network_u α × Rng α)
  | [], _, _, nw, rng => .value (nw, rng)
  | child :: rest, i, at_peer, nw, rng =>
    let parent := parents.getD (i % parents.length) 0
    let deg : Int := nw.degree child
    let in_deg : Int := nw.in_degree child
    let out_deg : Int := nw.out_degree child
    match ageing.replace_child fuel child parent peers num_media at_peer nw rng cfg with
    | .value r =>
      if deg = 0 then
        ageing.children_loop fuel parents peers num_media cfg rest (i + 1) at_peer r.1 r.2
      else if ageing.check_and_test child deg in_deg out_deg r.1 then
        ageing.children_loop fuel parents peers num_media cfg rest (i + 1)
          (if deg > 2 then at_peer + (deg - 2) else at_peer) r.1 r.2
      else .assertion_failed
    | .invalid_argument msg => .invalid_argument msg
    | .assertion_failed => .assertion_failed
    | .undefined => .undefined
    | .out_of_fuel => .out_of_fuel

/-- The function `ageing(replacement_rate, num_media, child_ages, parent_ages, senior_ages,
nw, log, rng, cfg)`. -/
def ageing.ageing (shuffle : List Nat → Rng α → List Nat × Rng α) (fuel : Nat)
    (replacement_rate : α) (num_media : Int) (child_ages parent_ages senior_ages : Int × Int)
    (nw : Network_u α) (rng : Rng α) (cfg : CurveConfig α) : Outcome (Network_u α × Rng α) :=
  let sel := ageing.user_selection_and_ageing shuffle [] [] [] child_ages parent_ages
    senior_ages replacement_rate nw rng cfg
  if sel.1.parents.length = 0 then .value sel.2
  else ageing.children_loop fuel sel.1.parents sel.1.peers num_media cfg sel.1.children 0 0
    sel.2.1 sel.2.2

end ageing

/-! ## Initialisation of integer properties (`utils.hh`) -/

section utils_int
variable [LinearOrderedField α] [FloorRing α]

/-- The function `set_init_uniform(interval, rng)` at `ValType = int`: the bounds are
converted to `double` for `get_rand_double`, and the `double` it returns is converted
to the `int` result, which truncates towards zero. -/
def utils.set_init_uniform_int (interval : Int × Int) (rng : Rng α) : Int × Rng α :=
  if interval.1 = interval.2 then (interval.1, rng)
  else if interval.2 > interval.1 then
    let d := utils.get_rand_double (interval.1 : α) (interval.2 : α) rng
    (truncToInt d.1, d.2)
  else (0, rng)

end utils_int

/-! ## Graph analysis (`graph_analysis.hh`) -/

section analysis
variable [LinearOrderedField α]

/-- The order of `std::sort` on `std::pair<double, size_t>`: `a` is before `b`, or is
`b`, under the lexicographic `operator<` of the pairs. -/
def pair_le (a b : α × Nat) : Prop := a.1 < b.1 ∨ (a.1 = b.1 ∧ a.2 ≤ b.2)

instance pair_le_decidable : DecidableRel (pair_le : α × Nat → α × Nat → Prop) :=
  fun a b => inferInstanceAs (Decidable (a.1 < b.1 ∨ (a.1 = b.1 ∧ a.2 ≤ b.2)))

/-- The vector `op_v` of `opinion_groups` after `std::sort`: the pairs of opinion and
vertex in ascending order.  The pairs are pairwise different, so their sorted
arrangement does not depend on the sorting algorithm. -/
def sorted_opinions (nw : Network_u α) : List (α × Nat) :=
  ((List.range nw.num_vertices).map (fun v => ((nw.vertex v).opinion, v))).insertionSort pair_le

/-- One round `i` of the cutting loop of `opinion_groups` on the state `(start, groups)`:
where the opinions at `i` and `i + 1` are at least `tolerance` apart, the entries
`start .. i` are pushed as a group and `start` becomes `i + 1`. -/
def opinion_groups_step (op_v : List (α × Nat)) (tolerance : α) (st : Nat × List (List Nat))
    (i : Nat) : Nat × List (List Nat) :=
  if |(op_v.getD i (0, 0)).1 - (op_v.getD (i + 1) (0, 0)).1| ≥ tolerance then
    (i + 1, st.2 ++ [((op_v.drop st.1).take (i + 1 - st.1)).map Prod.snd])
  else st

/-- The function `opinion_groups(nw, tolerance)`.  On a graph without vertices the bound
`op_v.size() - 1` of the loop wraps around and the loop reads outside the vector. -/
def opinion_groups (nw : Network_u α) (tolerance : α) : Outcome (List (List Nat)) :=
  let op_v := sorted_opinions nw
  if op_v.length = 0 then .undefined
  else
    let s := (List.range (op_v.length - 1)).foldl (opinion_groups_step op_v tolerance) (0, [])
    .value (s.2 ++ [(op_v.drop s.1).map Prod.snd])

/-- A loop of the fill functions: `f` is called on each vertex of the list in turn
with the container filled so far; `none` as soon as a call has run out of fuel. -/
def visit_each (f : Nat → List Nat → Option (List Nat)) :
    List Nat → List Nat → Option (List Nat)
  | [], c => some c
  | w :: ws, c =>
    match f w c with
    | none => none
    | some c1 => visit_each f ws c1

/-- The function `fill_opinion_cluster(v, c, tolerance, nw)` with recursion depth at most
`fuel`.  The parameter `tolerance` is not read: the test of both loops uses the
susceptibility of `v`, which is also what the recursive calls are given. -/
def fill_opinion_cluster (nw : Network_u α) : Nat → Nat → List Nat → α → Option (List Nat)
  | 0, _, _, _ => none
  | fuel + 1, v, c, _ =>
    if v ∈ c then some c
    else
      match visit_each
          (fun w c1 => fill_opinion_cluster nw fuel w c1 (nw.vertex v).susceptibility)
          (((nw.out v).map Prod.fst).filter (fun w =>
            |(nw.vertex v).opinion - (nw.vertex w).opinion| ≤ (nw.vertex v).susceptibility))
          (c ++ [v]) with
      | none => none
      | some c1 =>
        visit_each
          (fun w c2 => fill_opinion_cluster nw fuel w c2 (nw.vertex v).susceptibility)
          ((nw.in_sources v).filter (fun w =>
            |(nw.vertex v).opinion - (nw.vertex w).opinion| ≤ (nw.vertex v).susceptibility))
          c1

/-- The loop of `opinion_clusters` over the vertices still to visit. -/
def opinion_clusters_loop (fuel : Nat) (nw : Network_u α) (tolerance : α) :
    List Nat → List (List Nat) → Option (List (List Nat))
  | [], opinion_clusters => some opinion_clusters
  | v :: vs, opinion_clusters =>
    if opinion_clusters.any (fun c => decide (v ∈ c)) then
      opinion_clusters_loop fuel nw tolerance vs opinion_clusters
    else
      match fill_opinion_cluster nw fuel v [] tolerance with
      | none => none
      | some temp_c =>
        opinion_clusters_loop fuel nw tolerance vs (opinion_clusters ++ [temp_c])

/-- The function `opinion_clusters(nw, tolerance)`. -/
def opinion_clusters (fuel : Nat) (nw : Network_u α) (tolerance : α) :
    Option (List (List Nat)) :=
  opinion_clusters_loop fuel nw tolerance (List.range nw.num_vertices) []

end analysis

/-- The function `fill_community(v, c, nw)` with recursion depth at most `fuel`. -/
def fill_community (nw : Network_u α) : Nat → Nat → List Nat → Option (List Nat)
  | 0, _, _ => none
  | fuel + 1, v, c =>
    if v ∈ c then some c
    else visit_each (fun w c1 => fill_community nw fuel w c1) ((nw.out v).map Prod.fst) (c ++ [v])

/-- The loop of `closed_communities` over the vertices still to visit.  A vertex that
is in no community yet and has fewer than two in-edges is pushed to every community
that holds a target of one of its out-edges (the `break` leaves the loop over the
members only). -/
def closed_communities_loop (fuel : Nat) (nw : Network_u α) :
    List Nat → List (List Nat) → Option (List (List Nat))
  | [], cc => some cc
  | v :: vs, cc =>
    if cc.any (fun c => decide (v ∈ c)) then closed_communities_loop fuel nw vs cc
    else if nw.in_degree v < 2 ∧ cc.any (fun c => c.any (fun w => nw.has_edge v w)) then
      closed_communities_loop fuel nw vs
        (cc.map (fun c => if c.any (fun w => nw.has_edge v w) then c ++ [v] else c))
    else
      match fill_community nw fuel v [] with
      | none => none
      | some temp_c => closed_communities_loop fuel nw vs (cc ++ [temp_c])

/-- The function `closed_communities(nw)`. -/
def closed_communities (fuel : Nat) (nw : Network_u α) : Option (List (List Nat)) :=
  closed_communities_loop fuel nw (List.range nw.num_vertices) []

/-- The function `fill_weighted_opinion_cluster(v, c, min_weight, nw)` with recursion depth
at most `fuel`: an edge is followed if the opinion at its other end is within the
susceptibility of `v` and its weight times the out-degree of its source is at least
`min_weight`. -/
def fill_weighted_opinion_cluster [LinearOrderedField α] (nw : Network_u α) :
    Nat → Nat → List Nat → α → Option (List Nat)
  | 0, _, _, _ => none
  | fuel + 1, v, c, min_weight =>
    if v ∈ c then some c
    else
      match visit_each
          (fun w c1 => fill_weighted_opinion_cluster nw fuel w c1 min_weight)
          (((nw.out v).map Prod.fst).filter (fun w =>
            |(nw.vertex v).opinion - (nw.vertex w).opinion| ≤ (nw.vertex v).susceptibility
              ∧ nw.weight v w * (nw.out_degree v : α) ≥ min_weight))
          (c ++ [v]) with
      | none => none
      | some c1 =>
        visit_each
          (fun w c2 => fill_weighted_opinion_cluster nw fuel w c2 min_weight)
          ((nw.in_sources v).filter (fun w =>
            |(nw.vertex v).opinion - (nw.vertex w).opinion| ≤ (nw.vertex v).susceptibility
              ∧ nw.weight w v * (nw.out_degree w : α) ≥ min_weight))
          c1

/-- The loop of `weighted_opinion_clusters` over the vertices still to visit. -/
def weighted_opinion_clusters_loop [LinearOrderedField α] (fuel : Nat) (nw : Network_u α)
    (min_weight : α) : List Nat → List (List Nat) → Option (List (List Nat))
  | [], opinion_clusters => some opinion_clusters
  | v :: vs, opinion_clusters =>
    if opinion_clusters.any (fun c => decide (v ∈ c)) then
      weighted_opinion_clusters_loop fuel nw min_weight vs opinion_clusters
    else
      match fill_weighted_opinion_cluster nw fuel v [] min_weight with
      | none => none
      | some temp_c =>
        weighted_opinion_clusters_loop fuel nw min_weight vs (opinion_clusters ++ [temp_c])

/-- The function `weighted_opinion_clusters(nw, tolerance, min_weight)`; a negative
`min_weight` (the default argument is -1) is replaced by 0.1.  The parameter
`tolerance` is not read. -/
def weighted_opinion_clusters [LinearOrderedField α] (fuel : Nat) (nw : Network_u α)
    (_tolerance : α) (min_weight : α) : Option (List (List Nat)) :=
  weighted_opinion_clusters_loop fuel nw (if min_weight < 0 then 0.1 else min_weight)
    (List.range nw.num_vertices) []

/-! ## The step of the model (`OpDyn.hh`) -/

section step
variable [LinearOrderedField α] [FloorRing α]

/-- The constant members of the class `OpDyn` read by `perform_step`. -/
structure StepParams (α : Type) where
  weighting : α
  rewiring : α
  uniform_distr_prob_val : UniformReal α
  radicalisation_parameter : α
  media_time_constant : Int
  life_cycle : Nat
  replacement_rate : α
  num_media : Nat
  child_ages : Int × Int
  parent_ages : Int × Int
  senior_ages : Int × Int
  cfg : CurveConfig α

/-- The members of the class `OpDyn` written by `perform_step`. -/
structure ModelState (α : Type) where
  nw_u : Network_u α
  nw_m : Network_m α
  rewiring_count : Nat
  rng : Rng α

/-- The first block of `perform_step`, under the condition `model_mode == None or Media`:
the right operand of `or` is the enumerator itself, converted to `bool`. -/
def perform_step_users (m : Libm α) (model_mode : Mode) (p : StepParams α)
    (s : ModelState α) : ModelState α :=
  if model_mode == Mode.None || (Mode.Media.toNat != 0) then
    let r := revision.user_revision m Mode.None s.nw_u p.weighting p.rewiring s.rewiring_count
      p.uniform_distr_prob_val p.radicalisation_parameter s.rng
    { s with nw_u := r.1, rewiring_count := r.2.1, rng := r.2.2 }
  else s

/-- The second block of `perform_step`, under the condition
`model_mode == Media or Ageing_and_Media`.  The time is a `size_t` and the remainder
is taken after converting `_media_time_constant` to it. -/
def perform_step_media (m : Libm α) (coin : Nat) (model_mode : Mode) (p : StepParams α)
    (time : Nat) (s : ModelState α) : Outcome (ModelState α) :=
  if model_mode == Mode.Media || (Mode.Ageing_and_Media.toNat != 0) then
    let r := revision.information_revision m s.nw_u s.nw_m p.uniform_distr_prob_val
      p.radicalisation_parameter s.rng
    let s1 : ModelState α := { s with nw_u := r.1, nw_m := r.2.1, rng := r.2.2 }
    if toU64 p.media_time_constant = 0 then .undefined
    else if time % toU64 p.media_time_constant = 0 then
      let q := revision.media_revision coin s1.nw_m s1.rng
      .value { s1 with nw_m := q.1, rng := q.2 }
    else .value s1
  else .value s

/-- The third block of `perform_step`, under the condition
`model_mode == Ageing or Ageing_and_Media`. -/
def perform_step_ageing (m : Libm α) (shuffle : List Nat → Rng α → List Nat × Rng α)
    (fuel : Nat) (model_mode : Mode) (p : StepParams α) (time : Nat) (s : ModelState α) :
    Outcome (ModelState α) :=
  if model_mode == Mode.Ageing || (Mode.Ageing_and_Media.toNat != 0) then
    let r := revision.user_revision m Mode.Ageing s.nw_u p.weighting p.rewiring s.rewiring_count
      p.uniform_distr_prob_val p.radicalisation_parameter s.rng
    let s1 : ModelState α := { s with nw_u := r.1, rewiring_count := r.2.1, rng := r.2.2 }
    if p.life_cycle = 0 then .undefined
    else if time % p.life_cycle = 1 then
      match ageing.ageing shuffle fuel p.replacement_rate (toI32 p.num_media) p.child_ages
          p.parent_ages p.senior_ages s1.nw_u s1.rng p.cfg with
      | .value q => .value { s1 with nw_u := q.1, rng := q.2 }
      | .invalid_argument msg => .invalid_argument msg
      | .assertion_failed => .assertion_failed
      | .undefined => .undefined
      | .out_of_fuel => .out_of_fuel
    else .value s1
  else .value s

/-- The function `OpDyn<model_mode>::perform_step()` at the time `time`; `coin` is the
value `rand()` returns if `media_revision` calls it. -/
def perform_step (m : Libm α) (shuffle : List Nat → Rng α → List Nat × Rng α) (fuel : Nat)
    (coin : Nat) (model_mode : Mode) (p : StepParams α) (time : Nat) (s : ModelState α) :
    Outcome (ModelState α) :=
  match perform_step_media m coin model_mode p time (perform_step_users m model_mode p s) with
  | .value s2 => perform_step_ageing m shuffle fuel model_mode p time s2
  | .invalid_argument msg => .invalid_argument msg
  | .assertion_failed => .assertion_failed
  | .undefined => .undefined
  | .out_of_fuel => .out_of_fuel

end step

/-! ## The program (`OpDyn.cc`) -/

/-- The function `main` as a function of the configuration entries `user_ageing` and
`media_status`: the modes of the models that were constructed and run, in order, and
the exit code.  A model run is taken to raise nothing; `return 0` ends the `try` block
and each `catch` returns 1. -/
def main (ageing media : String) : List Mode × Int :=
  if ageing = "on" then
    if media = "on" then ([Mode.Ageing_and_Media], 0)
    else if media = "off" then ([Mode.Ageing], 0)
    else ([], 1)
  else if ageing = "off" then
    let ran : List Mode := if media = "on" then [Mode.Media] else []
    if media = "off" then (ran ++ [Mode.None], 0)
    else (ran, 1)
  else ([], 1)

/-! ## Concrete inputs used by the examples below -/

/-- A network without edges whose vertices all carry the record `u`, except vertex
`w`, which carries `x`. -/
def twoKinds (n : Nat) (u : User α) (w : Nat) (x : User α) : Network_u α :=
  { num_vertices := n, vertex := fun i => if i = w then x else u, out := fun _ => [] }

/-- A media network without edges whose media all carry the record `d`. -/
def constMedia (n : Nat) (d : Medium α) : Network_m α :=
  { num_vertices := n, vertex := fun _ => d, adj := fun _ => [] }

/-- A random stream that delivers the same draw for ever. -/
def constRng (d : Draw α) : Rng α := { stream := fun _ => d, pos := 0 }

/-- The first state of `test_opinion_update`: vertex 2 with opinion 0.5, tolerance 1
and susceptibility 1, vertex 3 with opinion 1 and tolerance 0.25. -/
def testOpinionNet : Network_u ℚ :=
  twoKinds 200 { opinion := 1, tolerance := 1 / 4, susceptibility := 0, age := 0, used_media := 0 }
    2 { opinion := 1 / 2, tolerance := 1, susceptibility := 1, age := 0, used_media := 0 }

/-- A configuration node of constant distribution type with value 3, as may stand
under `persuasiveness.media`. -/
def persuasiveCfg : Config ℚ :=
  { distribution_type := "constant", const_val := 3, uniform_int := (0, 0), mean := 0,
    stddev := 0, custom := { peak := 0, val_at_0 := 0, val_at_peak := 0 } }

/-- The age-dependent configuration of the susceptibility scenario. -/
def scenarioCfg : Config ℚ :=
  { distribution_type := "age-dependent", const_val := 0, uniform_int := (0, 0), mean := 0,
    stddev := 0, custom := { peak := 40, val_at_0 := 1 / 10, val_at_peak := 9 / 10 } }

/-- The sum of the weights of the out-edges of `v`. -/
def Network_u.weight_sum [AddMonoid α] (nw : Network_u α) (v : Nat) : α :=
  ((nw.out v).map Prod.snd).sum

/-- Two users of equal age with opinions 0 and 1 and tolerance 1/2, joined by the
single edge `0 → 1` of weight 1. -/
def farApart [LinearOrderedField α] : Network_u α :=
  { num_vertices := 2,
    vertex := fun i => if i = 0 then ⟨0, 1 / 2, 1, 1, 0⟩ else ⟨1, 1 / 2, 1, 1, 0⟩,
    out := fun i => if i = 0 then [(1, 1)] else [] }

/-- The value of an outcome, if it is one. -/
def Outcome.get? {β : Type} : Outcome β → Option β
  | .value b => some b
  | _ => none

/-- Whether an outcome is a failed assertion. -/
def Outcome.isAssertionFailed {β : Type} : Outcome β → Bool
  | .assertion_failed => true
  | _ => false

/-- A population of five: the senior 0 (age 79) with out-edges to 2, 3 and 4 and the
in-edge from 3, a user of parent age (1), a user of child age (2) and two users of
age 49 (3 and 4). -/
def seniorNet : Network_u ℚ :=
  { num_vertices := 5,
    vertex := fun i =>
      if i = 0 then ⟨1 / 2, 1 / 2, 1 / 2, 79, 0⟩
      else if i = 1 then ⟨1 / 4, 1 / 2, 1 / 2, 29, 0⟩
      else if i = 2 then ⟨3 / 4, 1 / 2, 1 / 2, 4, 0⟩
      else ⟨1 / 2, 1 / 2, 1 / 2, 49, 0⟩,
    out := fun i =>
      if i = 0 then [(2, 1 / 3), (3, 1 / 3), (4, 1 / 3)] else if i = 3 then [(0, 1)] else [] }

/-- The visiting order that leaves the vertex list as it is and draws nothing. -/
def keepOrder : List Nat → Rng α → List Nat × Rng α := fun l r => (l, r)

/-- A vertex 0 with the two out-edges `0 → 1` of weight 0.3 and `0 → 2` of weight 0.7;
all users have opinion 1/2 and tolerance 1. -/
def rouletteNet [LinearOrderedField α] : Network_u α :=
  { num_vertices := 3,
    vertex := fun _ => ⟨1 / 2, 1, 1, 1, 0⟩,
    out := fun i => if i = 0 then [(1, 3 / 10), (2, 7 / 10)] else [] }

/-- A random stream whose every uniform draw is `u`. -/
def uniformRng (u : α) [Zero α] : Rng α := { stream := fun _ => ⟨u, 0, 0⟩, pos := 0 }

/-- Two media without edges: medium 0 with 5 users and no ads, medium 1 with ads 5
and no users. -/
def driftedMedia : Network_m ℚ :=
  { num_vertices := 2,
    vertex := fun i =>
      if i = 0 then ⟨1 / 2, 1 / 2, 1 / 2, 1 / 2, 0, 0, 5, 0⟩
      else ⟨1 / 2, 1 / 2, 1 / 2, 1 / 2, 5, 1, 0, 5⟩,
    adj := fun _ => [] }

/-- Two media without edges, both used by nobody but medium 0, which has 2 users. -/
def audienceMedia : Network_m ℚ :=
  { num_vertices := 2,
    vertex := fun i =>
      if i = 0 then ⟨1 / 2, 1 / 2, 1 / 2, 1 / 2, 2, 1, 2, 2⟩
      else ⟨1 / 2, 1 / 2, 1 / 2, 1 / 2, 0, 0, 0, 0⟩,
    adj := fun _ => [] }

/-- A random stream whose every integer draw is `n`. -/
def intRng (n : Nat) : Rng ℚ := { stream := fun _ => ⟨0, 0, n⟩, pos := 0 }

/-- Three users without edges but the one from the parent 1 to user 2, whose weight has
been reduced to 0. -/
def zeroWeightNet : Network_u ℚ :=
  { num_vertices := 3,
    vertex := fun _ => ⟨1 / 2, 1 / 2, 1 / 2, 30, 0⟩,
    out := fun i => if i = 1 then [(2, 0)] else [] }

/-- Two adjacent media of opinion 1/2 and tolerance 3/10, with `a` and `b` users. -/
def pairMedia (a b : Nat) : Network_m ℚ :=
  { num_vertices := 2,
    vertex := fun i =>
      if i = 0 then ⟨1 / 2, 3 / 10, 1 / 2, 1 / 2, a, 0, a, a⟩
      else ⟨1 / 2, 3 / 10, 1 / 2, 1 / 2, b, 0, b, b⟩,
    adj := fun i => if i = 0 then [(1, 1)] else if i = 1 then [(0, 1)] else [] }

/-- Two users joined by the edge from 0 to 1: user 0 of opinion 0 and susceptibility 0,
user 1 of opinion 1/2 and susceptibility 1. -/
def lopsidedNet : Network_u ℚ :=
  { num_vertices := 2,
    vertex := fun i => if i = 0 then ⟨0, 1 / 2, 0, 30, 0⟩ else ⟨1 / 2, 1 / 2, 1, 30, 0⟩,
    out := fun i => if i = 0 then [(1, 1)] else [] }

/-- Three users; user 2 has an edge to each of the users 0 and 1, which have no
out-edges. -/
def forkNet : Network_u ℚ :=
  { num_vertices := 3,
    vertex := fun _ => ⟨1 / 2, 1 / 2, 1 / 2, 30, 0⟩,
    out := fun i => if i = 2 then [(0, 1 / 2), (1, 1 / 2)] else [] }

/-- Four users: 1 has an edge to 0, and 2 and 3 each have an edge to 1. -/
def chainNet : Network_u ℚ :=
  { num_vertices := 4,
    vertex := fun _ => ⟨1 / 2, 1 / 2, 1 / 2, 30, 0⟩,
    out := fun i => if i = 0 then [] else if i = 1 then [(0, 1)] else [(1, 1)] }

/-- A model state with one user of opinion 0 and age 30, without edges, and one medium
of opinion 1. -/
def loneState : ModelState ℚ :=
  { nw_u := twoKinds 1 ⟨0, 1 / 2, 1 / 2, 30, 0⟩ 0 ⟨0, 1 / 2, 1 / 2, 30, 0⟩,
    nw_m := constMedia 1 ⟨1, 1 / 2, 1 / 2, 1 / 2, 1, 1, 1, 1⟩,
    rewiring_count := 0,
    rng := uniformRng (1 / 2) }

/-- Parameters of a run: media revision every second step, ageing in every step whose
time is odd, replacement rate 1/5. -/
def loneParams : StepParams ℚ :=
  { weighting := 1 / 2, rewiring := 0, uniform_distr_prob_val := ⟨0, 1⟩,
    radicalisation_parameter := 0, media_time_constant := 2, life_cycle := 2,
    replacement_rate := 1 / 5, num_media := 1, child_ages := (0, 10),
    parent_ages := (20, 40), senior_ages := (70, 1000), cfg := scenarioCfg.custom }

/-- Whether an outcome is an operation without defined behaviour. -/
def Outcome.isUndefined {β : Type} : Outcome β → Bool
  | .undefined => true
  | _ => false

/-- The population `seniorNet` with user 2 of age 49 instead of 4: a senior (0), a user
of parent age (1) and nobody of child age. -/
def noYouthNet : Network_u ℚ :=
  { seniorNet with
    vertex := fun i => if i = 2 then ⟨3 / 4, 1 / 2, 1 / 2, 49, 0⟩ else seniorNet.vertex i }

/-- Three users of age 1 and tolerance 1/2: user 0 (opinion 0) has its only edge to
user 1 (opinion 1); user 2 (opinion 0) has no edges. -/
def rewireNet [LinearOrderedField α] : Network_u α :=
  { num_vertices := 3,
    vertex := fun i => if i = 1 then ⟨1, 1 / 2, 1, 1, 0⟩ else ⟨0, 1 / 2, 1, 1, 0⟩,
    out := fun i => if i = 0 then [(1, 1)] else [] }

/-- A random stream whose uniform draws are all `u` and whose integer draws are `a` at
position 0 and `b` afterwards. -/
def stepRng [Zero α] (u : α) (a b : Nat) : Rng α :=
  { stream := fun i => ⟨u, 0, if i = 0 then a else b⟩, pos := 0 }

/-! ## Definitions used in the statements and proofs -/

/-- The record of a user after the age step of the selection pass. -/
def ageing.aged [LinearOrderedField α] (cfg : CurveConfig α) (u : User α) : User α :=
  { u with age := (u.age + 1) % 4294967296,
           susceptibility := utils.susceptibility cfg (toI32 (((u.age + 1) % 4294967296 : Nat))) }

/-- The invariant of the selection pass after the vertices `done` have been visited. -/
def ageing.PoolsInv (ca pa sa : Int × Int) (vtr : Int) (done : List Nat)
    (s : Pools × Network_u α) : Prop :=
  (s.1.children.length : Int) ≤ vtr ∧ s.1.parents.length ≤ s.1.children.length ∧
  (∀ c ∈ s.1.children, c ∈ done ∧ toU32 sa.1 ≤ (s.2.vertex c).age) ∧
  (∀ c ∈ s.1.parents, c ∈ done ∧ toU32 pa.1 ≤ (s.2.vertex c).age
    ∧ (s.2.vertex c).age ≤ toU32 pa.2) ∧
  (∀ c ∈ s.1.peers, c ∈ done ∧ (s.2.vertex c).age ≤ toU32 ca.2) ∧
  s.1.children.Nodup ∧ s.1.parents.Nodup ∧ s.1.peers.Nodup

/-- What one round of the loop of `remove_edges(v)` makes of the out-edge list of the
source of an in-edge: the weight towards `v` set to 0, then the normalisation if the
list has more than one edge. -/
def ageing.detached [LinearOrderedField α] (v : Nat) (l : List (Nat × α)) : List (Nat × α) :=
  let l1 := l.map (fun e => if e.1 = v then (e.1, 0) else e)
  if l1.length > 1 then
    if (l1.foldl (fun acc e => acc + e.2) 0) ≠ 0 then
      l1.map (fun e => (e.1, e.2 / l1.foldl (fun acc e => acc + e.2) 0))
    else l1
  else l1

/-- One round of the loop of `remove_edges(v)`, for the in-edge from `w`. -/
def ageing.detach_step [LinearOrderedField α] (v : Nat) (g : Network_u α) (w : Nat) :
    Network_u α :=
  if (g.setWeight w v 0).out_degree w > 1 then
    revision.normalize_weights w (g.setWeight w v 0)
  else g.setWeight w v 0

/-- One round of the out-edge loop of `add_edges` with the peer `p`. -/
def ageing.attach_out [LinearOrderedField α] (child : Nat) (out_deg : Int) (g : Network_u α)
    (p : Nat) : Network_u α :=
  revision.normalize_weights p (g.add_edge child p (0.5 / (out_deg : α)))

/-- One round of the in-edge loop of `add_edges` with the peer `p`. -/
def ageing.attach_in [LinearOrderedField α] (child : Nat) (in_deg : Int) (g : Network_u α)
    (p : Nat) : Network_u α :=
  revision.normalize_weights p (g.add_edge p child (0.5 / (in_deg : α)))

/-- The media network of `media_revision` after the decay of the ads of `v`. -/
def revision.decayed [LinearOrderedField α] (nw_m : Network_m α) (v : Nat) : Network_m α :=
  nw_m.setVertex v { nw_m.vertex v with ads := (nw_m.vertex v).ads * 0.9 }

/-- The part of `media_revision` that shifts the opinion of `v` towards its fittest
neighbour, if there is one. -/
def revision.media_shift [LinearOrderedField α] (coin : Nat) (nw1 : Network_m α) (v : Nat) :
    Network_m α :=
  if nw1.out_degree v ≠ 0 then
    let s := revision.fittest_scan nw1 v (nw1.adj v) (v, false)
    if s.2 then
      nw1.setVertex v { nw1.vertex v with opinion := revision.shifted_opinion coin nw1 v s.1 }
    else nw1
  else nw1

/-- The part of `media_revision` after the shift: the two clamps, the new ads, their
normalisation and the stored user number. -/
def revision.media_finish [LinearOrderedField α] (v : Nat) (nw2 : Network_m α) :
    Network_m α :=
  let nw3 :=
    if (nw2.vertex v).opinion < 0 then nw2.setVertex v { nw2.vertex v with opinion := 0 }
    else nw2
  let nw4 :=
    if (nw3.vertex v).opinion > 1 then nw3.setVertex v { nw3.vertex v with opinion := 1 }
    else nw3
  let nw5 := nw4.setVertex v { nw4.vertex v with ads := ((nw4.vertex v).users : α) }
  let nw6 := revision.normalize_ads nw5
  nw6.setVertex v { nw6.vertex v with users_previous := (nw6.vertex v).users }

/-- The groups of `opinion_groups` by recursion over the sorted pairs: `cur` holds the
vertices of the group under construction. -/
def cut_runs [LinearOrderedField α] (tolerance : α) : List (α × Nat) → List Nat → List (List Nat)
  | [], cur => [cur]
  | [x], cur => [cur ++ [x.2]]
  | x :: y :: r, cur =>
    if |x.1 - y.1| ≥ tolerance then (cur ++ [x.2]) :: cut_runs tolerance (y :: r) []
    else cut_runs tolerance (y :: r) (cur ++ [x.2])

/-- The recursion shared by the fill functions: `nexts v` lists the vertices the call
for `v` recurses into, in order. -/
def flood (nexts : Nat → List Nat) : Nat → Nat → List Nat → Option (List Nat)
  | 0, _, _ => none
  | fuel + 1, v, c =>
    if v ∈ c then some c else visit_each (flood nexts fuel) (nexts v) (c ++ [v])

/-- The vertices `fill_opinion_cluster` recurses into from `v`: the out-neighbours and
then the in-neighbours whose opinion is within the susceptibility of `v`. -/
def cluster_nexts [LinearOrderedField α] (nw : Network_u α) (v : Nat) : List Nat :=
  ((nw.out v).map Prod.fst).filter (fun w =>
      |(nw.vertex v).opinion - (nw.vertex w).opinion| ≤ (nw.vertex v).susceptibility)
    ++ (nw.in_sources v).filter (fun w =>
      |(nw.vertex v).opinion - (nw.vertex w).opinion| ≤ (nw.vertex v).susceptibility)

/-- What a fill call or loop that turns the container `c` into `c1` guarantees, `S`
being the vertices it was started on: `c` is kept as a prefix, no vertex is listed
twice, every vertex is a vertex of the graph, and every vertex of `c1` was in `c`, is
one of `S` or is among the `nexts` of a vertex of `c1`. -/
def FloodPost (nexts : Nat → List Nat) (N : Nat) (c S c1 : List Nat) : Prop :=
  (∃ t, c1 = c ++ t) ∧ c1.Nodup ∧ (∀ x ∈ c1, x < N) ∧
    ∀ x ∈ c1, x ∈ c ∨ x ∈ S ∨ ∃ y ∈ c1, x ∈ nexts y

/-- The three denominators of `utils::susceptibility(cfg, age)`: `s_2` (in `c`),
`c*s_1*pow(s_0, 2)` (in `b`) and `denom`. -/
def utils.susceptibility_denominators [LinearOrderedField α] (cfg : CurveConfig α)
    (age : Int) : α × α × α :=
  let s_0 := cfg.peak
  let s_1 := cfg.val_at_0
  let s_2 := cfg.val_at_peak
  let c := 1 / s_2
  let b := (1 - c * s_1) / (c * s_1 * s_0 ^ 2)
  (s_2, c * s_1 * s_0 ^ 2, c * (1 + b * ((age : α) - s_0) ^ 2))

/-- The vertices `fill_weighted_opinion_cluster` recurses into from `v`. -/
def weighted_nexts [LinearOrderedField α] (nw : Network_u α) (min_weight : α) (v : Nat) :
    List Nat :=
  ((nw.out v).map Prod.fst).filter (fun w =>
      |(nw.vertex v).opinion - (nw.vertex w).opinion| ≤ (nw.vertex v).susceptibility
        ∧ nw.weight v w * (nw.out_degree v : α) ≥ min_weight)
    ++ (nw.in_sources v).filter (fun w =>
      |(nw.vertex v).opinion - (nw.vertex w).opinion| ≤ (nw.vertex v).susceptibility
        ∧ nw.weight w v * (nw.out_degree w : α) ≥ min_weight)

/-- The peers the out-edge loop of `add_edges` attaches the child to, in the order of its
rounds: the value of `peer` at each call `add_edge(child, peer, ...)`; `none` when the
loop does not return. -/
def ageing.peer_out_attached [LinearOrderedField α] (fuel : Nat) (child : Nat)
    (peers : List Nat) (out_deg : Int) : Nat → Int → PeerState α → Option (List Nat)
  | 0, _, _ => some []
  | count + 1, j, s =>
    if peers.length = 0 then none
    else
      match ageing.redraw_peer s.nw (fun p => s.nw.has_edge child p) fuel
          (peers.getD (toU64 j % peers.length) 0) s.rng with
      | none => none
      | some r =>
        let nw1 := revision.normalize_weights r.1
          (s.nw.add_edge child r.1 (0.5 / (out_deg : α)))
        (ageing.peer_out_attached fuel child peers out_deg count (j + 1)
          { nw := nw1, rng := r.2,
            peer_opinions := s.peer_opinions + (nw1.vertex r.1).opinion }).map
          (fun rs => r.1 :: rs)

/-- The peers the in-edge loop of `add_edges` attaches to the child, in the order of its
rounds: the value of `peer` at each call `add_edge(peer, child, ...)`; `none` when the
loop does not return. -/
def ageing.peer_in_attached [LinearOrderedField α] (fuel : Nat) (child : Nat)
    (peers : List Nat) (in_deg : Int) : Nat → Int → PeerState α → Option (List Nat)
  | 0, _, _ => some []
  | count + 1, j, s =>
    if peers.length = 0 then none
    else
      match ageing.redraw_peer s.nw (fun p => s.nw.has_edge p child) fuel
          (peers.getD (toU64 j % peers.length) 0) s.rng with
      | none => none
      | some r =>
        let nw1 := revision.normalize_weights r.1
          (s.nw.add_edge r.1 child (0.5 / (in_deg : α)))
        (ageing.peer_in_attached fuel child peers in_deg count (j + 1)
          { nw := nw1, rng := r.2,
            peer_opinions := s.peer_opinions + (nw1.vertex r.1).opinion }).map
          (fun rs => r.1 :: rs)

/-- The peers `add_edges` attaches: those of its out-edge loop and those of its in-edge
loop, each in the order of the rounds; both lists are empty when `add_edges` returns
before the loops, and the value is `none` when a loop does not return. -/
def ageing.attached_peers [LinearOrderedField α] (fuel : Nat) (child parent : Nat)
    (peers : List Nat) (out_deg in_deg deg : Int) (iter_number : Int) (nw : Network_u α)
    (rng : Rng α) : Option (List Nat × List Nat) :=
  let init_weight : α := if deg ≤ 2 ∨ out_deg ≤ 1 then 1 else 0.5
  let nw1 := nw.add_edge child parent init_weight
  let out1 := if out_deg > 0 then out_deg - 1 else out_deg
  let in1 := if out_deg > 0 then in_deg else in_deg - 1
  if in1 > 0 ∨ out1 > 0 then
    let nw2 := revision.normalize_weights parent (nw1.add_edge parent child 0.1)
    let in2 := if in1 > 0 then in1 - 1 else in1
    let out2 := if in1 > 0 then out1 else out1 - 1
    if in2 ≤ 0 ∧ out2 ≤ 0 then some ([], [])
    else
      match ageing.peer_out_loop fuel child peers out2 out2.toNat iter_number
          { nw := nw2, rng := rng, peer_opinions := 0 } with
      | .value s =>
        match ageing.peer_out_attached fuel child peers out2 out2.toNat iter_number
            { nw := nw2, rng := rng, peer_opinions := 0 } with
        | some outs =>
          (ageing.peer_in_attached fuel child peers in2 in2.toNat (out2 + iter_number) s).map
            (fun ins => (outs, ins))
        | none => none
      | _ => none
  else some ([], [])

/-! ## Theorems -/

/-! ### Shared lemmas -/

theorem setVertex_vertex_self (nw : Network_u α) (v : Nat) (u : User α) :
    (nw.setVertex v u).vertex v = u := by
  simp [Network_u.setVertex]

theorem setVertex_vertex_other (nw : Network_u α) (v w : Nat) (u : User α) (h : w ≠ v) :
    (nw.setVertex v u).vertex w = nw.vertex w := by
  simp [Network_u.setVertex, h]

theorem setVertex_same (nw : Network_u α) (v : Nat) : nw.setVertex v (nw.vertex v) = nw := by
  cases nw with
  | mk n vx out =>
    simp only [Network_u.setVertex, Network_u.mk.injEq, true_and, and_true]
    funext x
    by_cases h : x = v <;> simp [h]

/-! ### C3: bounded-confidence no-op -/

/-- C3: when the opinion distance between `v` and the reference exceeds the tolerance
of `v`, both overloads of `update::opinion` return the user network exactly as it was;
and in every case the tolerance, susceptibility, age and medium of `v`, the whole
record of the reference `nb`, every other vertex, the edges and the media network
are unchanged. -/
theorem opinion_noop_outside_tolerance [LinearOrderedField α] (v nb : Nat)
    (nw : Network_u α) (nw_m : Network_m α) :
    (|(nw.vertex v).opinion - (nw.vertex nb).opinion| > (nw.vertex v).tolerance →
      update.opinion v nb nw = nw) ∧
    (|(nw.vertex v).opinion - (nw_m.vertex nb).opinion| > (nw.vertex v).tolerance →
      update.opinion_media v nb nw nw_m = (nw, nw_m)) ∧
    (((update.opinion v nb nw).vertex v).tolerance = (nw.vertex v).tolerance ∧
      ((update.opinion v nb nw).vertex v).susceptibility = (nw.vertex v).susceptibility ∧
      ((update.opinion v nb nw).vertex v).age = (nw.vertex v).age ∧
      ((update.opinion v nb nw).vertex v).used_media = (nw.vertex v).used_media ∧
      (update.opinion v nb nw).vertex nb = nw.vertex nb ∧
      (∀ w, w ≠ v → (update.opinion v nb nw).vertex w = nw.vertex w) ∧
      (update.opinion v nb nw).out = nw.out ∧
      (update.opinion v nb nw).num_vertices = nw.num_vertices) ∧
    (((update.opinion_media v nb nw nw_m).1.vertex v).tolerance = (nw.vertex v).tolerance ∧
      ((update.opinion_media v nb nw nw_m).1.vertex v).susceptibility
        = (nw.vertex v).susceptibility ∧
      ((update.opinion_media v nb nw nw_m).1.vertex v).age = (nw.vertex v).age ∧
      ((update.opinion_media v nb nw nw_m).1.vertex v).used_media = (nw.vertex v).used_media ∧
      (update.opinion_media v nb nw nw_m).2 = nw_m ∧
      (∀ w, w ≠ v → (update.opinion_media v nb nw nw_m).1.vertex w = nw.vertex w) ∧
      (update.opinion_media v nb nw nw_m).1.out = nw.out ∧
      (update.opinion_media v nb nw nw_m).1.num_vertices = nw.num_vertices) := by
  refine ⟨fun h => ?_, fun h => ?_, ?_, ?_⟩
  · simp [update.opinion, not_le.mpr h]
  · simp [update.opinion_media, not_le.mpr h]
  · unfold update.opinion
    split_ifs with h
    · refine ⟨by simp [Network_u.setVertex], by simp [Network_u.setVertex],
        by simp [Network_u.setVertex], by simp [Network_u.setVertex], ?_,
        fun w hw => by simp [Network_u.setVertex, hw], rfl, rfl⟩
      by_cases hnb : nb = v
      · subst hnb
        simp [Network_u.setVertex]
      · simp [Network_u.setVertex, hnb]
    · exact ⟨rfl, rfl, rfl, rfl, rfl, fun _ _ => rfl, rfl, rfl⟩
  · unfold update.opinion_media
    split_ifs with h
    · exact ⟨by simp [Network_u.setVertex], by simp [Network_u.setVertex],
        by simp [Network_u.setVertex], by simp [Network_u.setVertex], rfl,
        fun w hw => by simp [Network_u.setVertex, hw], rfl, rfl⟩
    · exact ⟨rfl, rfl, rfl, rfl, rfl, fun _ _ => rfl, rfl, rfl⟩

/-- C3 at a concrete input: a user with opinion 0 and tolerance 1/4 facing a
reference (user or medium) of opinion 1 is returned unchanged. -/
theorem opinion_noop_outside_tolerance_witness :
    update.opinion 0 1
        (twoKinds 2 ⟨1, 1, 1, 1, 0⟩ 0 (⟨0, 1 / 4, 1, 1, 0⟩ : User ℚ))
      = twoKinds 2 ⟨1, 1, 1, 1, 0⟩ 0 ⟨0, 1 / 4, 1, 1, 0⟩ ∧
    update.opinion_media 0 1
        (twoKinds 2 ⟨1, 1, 1, 1, 0⟩ 0 (⟨0, 1 / 4, 1, 1, 0⟩ : User ℚ))
        (constMedia 2 ⟨1, 1, 1, 1, 0, 0, 0, 0⟩)
      = (twoKinds 2 ⟨1, 1, 1, 1, 0⟩ 0 ⟨0, 1 / 4, 1, 1, 0⟩,
          constMedia 2 ⟨1, 1, 1, 1, 0, 0, 0, 0⟩) :=
  ⟨(opinion_noop_outside_tolerance 0 1 _ (constMedia 2 ⟨1, 1, 1, 1, 0, 0, 0, 0⟩)).1
      (by norm_num [twoKinds]),
   (opinion_noop_outside_tolerance 0 1 _ (constMedia 2 ⟨1, 1, 1, 1, 0, 0, 0, 0⟩)).2.1
      (by norm_num [twoKinds, constMedia])⟩

/-! ### C4: bounded-confidence assimilation -/

/-- C4: within tolerance the user-user `update::opinion` sets the opinion of `v` to
`opinion(v) + susceptibility(v) * (opinion(nb) - opinion(v))`; the result for `v`
is the same in any network that agrees on the record of `v` and on the opinion of
`nb`, so the tolerance and susceptibility of the reference play no role. -/
theorem opinion_assimilation [LinearOrderedField α] (v nb : Nat) (nw : Network_u α)
    (h : |(nw.vertex v).opinion - (nw.vertex nb).opinion| ≤ (nw.vertex v).tolerance) :
    ((update.opinion v nb nw).vertex v).opinion
        = (nw.vertex v).opinion
          + (nw.vertex v).susceptibility * ((nw.vertex nb).opinion - (nw.vertex v).opinion) ∧
    ∀ nw2 : Network_u α, nw2.vertex v = nw.vertex v →
      (nw2.vertex nb).opinion = (nw.vertex nb).opinion →
      (update.opinion v nb nw2).vertex v = (update.opinion v nb nw).vertex v := by
  refine ⟨by simp [update.opinion, h, Network_u.setVertex], fun nw2 hv hnb => ?_⟩
  simp [update.opinion, hv, hnb, h, Network_u.setVertex]

/-- C4 on the values of `test_opinion_update`: opinion 0.5 moves to 1 with
susceptibility 1, then 1 moves to 0.5 and 0.5 to 0.25 with susceptibility 0.5
towards a reference of opinion 0. -/
theorem opinion_assimilation_witness :
    ((update.opinion 2 3 testOpinionNet).vertex 2).opinion = 1 ∧
    ((update.opinion 2 3
        (twoKinds 200 ⟨0, 1 / 4, 0, 0, 0⟩ 2 (⟨1, 1, 1 / 2, 0, 0⟩ : User ℚ))).vertex 2).opinion
      = 1 / 2 ∧
    ((update.opinion 2 3
        (twoKinds 200 ⟨0, 1 / 4, 0, 0, 0⟩ 2 (⟨1 / 2, 1, 1 / 2, 0, 0⟩ : User ℚ))).vertex 2).opinion
      = 1 / 4 := by
  refine ⟨?_, ?_, ?_⟩
  · rw [(opinion_assimilation 2 3 testOpinionNet (by norm_num [testOpinionNet, twoKinds, abs_le])).1]
    norm_num [testOpinionNet, twoKinds]
  · rw [(opinion_assimilation 2 3 _ (by norm_num [twoKinds, abs_le])).1]
    norm_num [twoKinds]
  · rw [(opinion_assimilation 2 3 _ (by norm_num [twoKinds, abs_le])).1]
    norm_num [twoKinds]

/-! ### C5: the tolerance update rule -/

/-- C5: `update::tolerance` replaces the tolerance of `v` by `tolerance(v)^r` with
`r = 1 + k*((opinion(v)-0.5)^2 - (p-0.5)^2)` and changes nothing else; over the reals
the values of `test_tolerance_update` come out as `0.5^1.5` (previous opinion 0.5,
opinion 1, `k = 2`) and as `1` (previous opinion 0, opinion 0.5, `k = 4`). -/
theorem tolerance_update_rule :
    (∀ (β : Type) [LinearOrderedField β] (m : Libm β) (v : Nat) (nw : Network_u β) (p k : β),
      update.tolerance m v nw p k
        = nw.setVertex v { nw.vertex v with
            tolerance := m.pow (nw.vertex v).tolerance
              (1 + k * (((nw.vertex v).opinion - 0.5) ^ 2 - (p - 0.5) ^ 2)) }) ∧
    (∀ m : Libm ℝ, m.IsReal → ∀ (v : Nat) (nw : Network_u ℝ),
      (nw.vertex v).opinion = 1 → (nw.vertex v).tolerance = 0.5 →
      ((update.tolerance m v nw 0.5 2).vertex v).tolerance = (0.5 : ℝ) ^ (1.5 : ℝ)) ∧
    (∀ m : Libm ℝ, m.IsReal → ∀ (v : Nat) (nw : Network_u ℝ),
      (nw.vertex v).opinion = 0.5 → (nw.vertex v).tolerance = 0.5 →
      ((update.tolerance m v nw 0 4).vertex v).tolerance = 1) := by
  refine ⟨?_, ?_, ?_⟩
  · intro β _ m v nw p k
    simp only [update.tolerance, sq_abs]
  · intro m hm v nw ho ht
    simp only [update.tolerance, sq_abs, setVertex_vertex_self, ho, ht, hm.1]
    norm_num
  · intro m hm v nw ho ht
    simp only [update.tolerance, sq_abs, setVertex_vertex_self, ho, ht, hm.1]
    norm_num

/-- C5 at the first state of `test_tolerance_update`, with the real power function. -/
theorem tolerance_update_rule_witness :
    ((update.tolerance (Libm.mk (fun x y : ℝ => x ^ y) Real.exp Real.log) 4
        (twoKinds 200 ⟨1, 1, 1, 1, 0⟩ 4 ⟨1, 0.5, 1, 1, 0⟩) 0.5 2).vertex 4).tolerance
      = (0.5 : ℝ) ^ (1.5 : ℝ) :=
  tolerance_update_rule.2.1 _ ⟨fun _ _ => rfl, fun _ => rfl, fun _ => rfl⟩ 4 _
    (by simp [twoKinds]) (by simp [twoKinds])

/-! ### C6: direction of the tolerance update -/

/-- C6: over the reals, for a tolerance strictly between 0 and 1 and `k > 0`, the
tolerance strictly decreases when the opinion has moved away from 0.5, strictly
increases when it has moved towards 0.5, and is unchanged for `k = 0`, for an
unchanged opinion, or for an unchanged distance from 0.5. -/
theorem tolerance_direction (m : Libm ℝ) (hm : m.IsReal) (v : Nat) (nw : Network_u ℝ)
    (p k : ℝ) (ht0 : 0 < (nw.vertex v).tolerance) (ht1 : (nw.vertex v).tolerance < 1) :
    (0 < k → |(nw.vertex v).opinion - 0.5| > |p - 0.5| →
      ((update.tolerance m v nw p k).vertex v).tolerance < (nw.vertex v).tolerance) ∧
    (0 < k → |(nw.vertex v).opinion - 0.5| < |p - 0.5| →
      (nw.vertex v).tolerance < ((update.tolerance m v nw p k).vertex v).tolerance) ∧
    (k = 0 ∨ (nw.vertex v).opinion = p ∨ |(nw.vertex v).opinion - 0.5| = |p - 0.5| →
      ((update.tolerance m v nw p k).vertex v).tolerance = (nw.vertex v).tolerance) := by
  simp only [update.tolerance, setVertex_vertex_self, hm.1]
  refine ⟨fun hk h => ?_, fun hk h => ?_, fun h => ?_⟩
  · have hsq : |p - 0.5| ^ 2 < |(nw.vertex v).opinion - 0.5| ^ 2 :=
      pow_lt_pow_left₀ h (abs_nonneg _) (by norm_num)
    have hr : (1 : ℝ) < 1 + k * (|(nw.vertex v).opinion - 0.5| ^ 2 - |p - 0.5| ^ 2) := by
      nlinarith
    calc (nw.vertex v).tolerance ^ (1 + k * (|(nw.vertex v).opinion - 0.5| ^ 2 - |p - 0.5| ^ 2))
        < (nw.vertex v).tolerance ^ (1 : ℝ) := Real.rpow_lt_rpow_of_exponent_gt ht0 ht1 hr
      _ = (nw.vertex v).tolerance := Real.rpow_one _
  · have hsq : |(nw.vertex v).opinion - 0.5| ^ 2 < |p - 0.5| ^ 2 :=
      pow_lt_pow_left₀ h (abs_nonneg _) (by norm_num)
    have hr : 1 + k * (|(nw.vertex v).opinion - 0.5| ^ 2 - |p - 0.5| ^ 2) < (1 : ℝ) := by
      nlinarith
    calc (nw.vertex v).tolerance = (nw.vertex v).tolerance ^ (1 : ℝ) := (Real.rpow_one _).symm
      _ < (nw.vertex v).tolerance
            ^ (1 + k * (|(nw.vertex v).opinion - 0.5| ^ 2 - |p - 0.5| ^ 2)) :=
          Real.rpow_lt_rpow_of_exponent_gt ht0 ht1 hr
  · have hr : 1 + k * (|(nw.vertex v).opinion - 0.5| ^ 2 - |p - 0.5| ^ 2) = (1 : ℝ) := by
      rcases h with h | h | h
      · simp [h]
      · simp [h]
      · simp [h]
    rw [hr, Real.rpow_one]

/-- C6 at a concrete input: tolerance 0.5 and `k = 2`, opinion moved from 0.5 to 1
(radicalisation), so the tolerance has decreased. -/
theorem tolerance_direction_witness :
    ((update.tolerance (Libm.mk (fun x y : ℝ => x ^ y) Real.exp Real.log) 4
        (twoKinds 200 ⟨1, 1, 1, 1, 0⟩ 4 ⟨1, 0.5, 1, 1, 0⟩) 0.5 2).vertex 4).tolerance
      < ((twoKinds 200 ⟨1, 1, 1, 1, 0⟩ 4 (⟨1, 0.5, 1, 1, 0⟩ : User ℝ)).vertex 4).tolerance :=
  (tolerance_direction _ ⟨fun _ _ => rfl, fun _ => rfl, fun _ => rfl⟩ 4 _ 0.5 2
    (by norm_num [twoKinds]) (by norm_num [twoKinds])).1 (by norm_num)
    (by norm_num [twoKinds, abs_of_nonneg])

/-! ### C7: the tolerance stays in (0,1] -/

/-- C7, counterexample: with tolerance 0.5, previous opinion 0, opinion 0.5 and
radicalisation parameter 8 the exponent is `-1` and the new tolerance is 2. -/
theorem tolerance_leaves_unit_interval :
    ((update.tolerance (Libm.mk (fun x y : ℝ => x ^ y) Real.exp Real.log) 0
        (twoKinds 1 ⟨0.5, 0.5, 1, 1, 0⟩ 0 ⟨0.5, 0.5, 1, 1, 0⟩) 0 8).vertex 0).tolerance = 2 ∧
    ¬ (((update.tolerance (Libm.mk (fun x y : ℝ => x ^ y) Real.exp Real.log) 0
        (twoKinds 1 ⟨0.5, 0.5, 1, 1, 0⟩ 0 ⟨0.5, 0.5, 1, 1, 0⟩) 0 8).vertex 0).tolerance ≤ 1) := by
  have h : ((update.tolerance (Libm.mk (fun x y : ℝ => x ^ y) Real.exp Real.log) 0
        (twoKinds 1 ⟨0.5, 0.5, 1, 1, 0⟩ 0 ⟨0.5, 0.5, 1, 1, 0⟩) 0 8).vertex 0).tolerance = 2 := by
    simp only [update.tolerance, setVertex_vertex_self, twoKinds, if_true, sq_abs]
    have e : (1 : ℝ) + 8 * ((0.5 - 0.5) ^ 2 - (0 - 0.5) ^ 2) = -1 := by norm_num
    rw [e, Real.rpow_neg_one]
    norm_num
  exact ⟨h, by rw [h]; norm_num⟩

/-- C7 as amended: over the reals, for a tolerance in (0,1], previous and current
opinion in [0,1] and a radicalisation parameter `k` with `-4 ≤ k ≤ 4`, the tolerance
produced by `update::tolerance` is again in (0,1]. -/
theorem tolerance_stays_in_unit_interval (m : Libm ℝ) (hm : m.IsReal) (v : Nat)
    (nw : Network_u ℝ) (p k : ℝ)
    (ht : 0 < (nw.vertex v).tolerance ∧ (nw.vertex v).tolerance ≤ 1)
    (hp : 0 ≤ p ∧ p ≤ 1) (ho : 0 ≤ (nw.vertex v).opinion ∧ (nw.vertex v).opinion ≤ 1)
    (hk : -4 ≤ k ∧ k ≤ 4) :
    0 < ((update.tolerance m v nw p k).vertex v).tolerance ∧
      ((update.tolerance m v nw p k).vertex v).tolerance ≤ 1 := by
  simp only [update.tolerance, setVertex_vertex_self, hm.1, sq_abs]
  have hx0 : 0 ≤ (p - 0.5) ^ 2 := sq_nonneg _
  have hy0 : 0 ≤ ((nw.vertex v).opinion - 0.5) ^ 2 := sq_nonneg _
  have hx1 : (p - 0.5) ^ 2 ≤ 1 / 4 := by nlinarith [hp.1, hp.2]
  have hy1 : ((nw.vertex v).opinion - 0.5) ^ 2 ≤ 1 / 4 := by nlinarith [ho.1, ho.2]
  have hr : 0 ≤ 1 + k * (((nw.vertex v).opinion - 0.5) ^ 2 - (p - 0.5) ^ 2) := by
    nlinarith [mul_nonneg (sub_nonneg.mpr hk.1)
        (sub_nonneg.mpr (show (p - 0.5) ^ 2 - ((nw.vertex v).opinion - 0.5) ^ 2 ≤ 1 / 4 by
          linarith)),
      mul_nonneg (sub_nonneg.mpr hk.2)
        (sub_nonneg.mpr (show ((nw.vertex v).opinion - 0.5) ^ 2 - (p - 0.5) ^ 2 ≤ 1 / 4 by
          linarith))]
  exact ⟨Real.rpow_pos_of_pos ht.1 _, Real.rpow_le_one ht.1.le ht.2 hr⟩

/-- C7 as amended, at the last state of `test_tolerance_update` (`k = 4`). -/
theorem tolerance_stays_in_unit_interval_witness :
    0 < ((update.tolerance (Libm.mk (fun x y : ℝ => x ^ y) Real.exp Real.log) 6
        (twoKinds 200 ⟨1, 1, 1, 1, 0⟩ 6 ⟨0.5, 0.5, 1, 1, 0⟩) 0 4).vertex 6).tolerance ∧
    ((update.tolerance (Libm.mk (fun x y : ℝ => x ^ y) Real.exp Real.log) 6
        (twoKinds 200 ⟨1, 1, 1, 1, 0⟩ 6 ⟨0.5, 0.5, 1, 1, 0⟩) 0 4).vertex 6).tolerance ≤ 1 :=
  tolerance_stays_in_unit_interval _ ⟨fun _ _ => rfl, fun _ => rfl, fun _ => rfl⟩ 6 _ 0 4
    (by norm_num [twoKinds]) (by norm_num) (by norm_num [twoKinds]) (by norm_num)

/-! ### C8: user opinions stay in [0,1] -/

/-- C8, counterexample: the constant distribution type lets the configuration set a
persuasiveness of 3; a user of opinion 0 and susceptibility 1 meeting such a medium
of opinion 1/2 within tolerance ends with opinion 3/2. -/
theorem opinion_media_leaves_unit_interval :
    utils.initialize 0 persuasiveCfg (constRng ⟨0, 0, 0⟩)
      = Outcome.value (3, constRng ⟨0, 0, 0⟩) ∧
    ((update.opinion_media 0 0 (twoKinds 1 ⟨0, 1, 1, 1, 0⟩ 0 (⟨0, 1, 1, 1, 0⟩ : User ℚ))
        (constMedia 1 ⟨1 / 2, 1, 1, 3, 0, 0, 0, 0⟩)).1.vertex 0).opinion = 3 / 2 ∧
    ¬ (((update.opinion_media 0 0 (twoKinds 1 ⟨0, 1, 1, 1, 0⟩ 0 (⟨0, 1, 1, 1, 0⟩ : User ℚ))
        (constMedia 1 ⟨1 / 2, 1, 1, 3, 0, 0, 0, 0⟩)).1.vertex 0).opinion ≤ 1) := by
  refine ⟨?_, ?_, ?_⟩
  · simp [persuasiveCfg, utils.initialize]
  · norm_num [update.opinion_media, twoKinds, constMedia, Network_u.setVertex, abs_le]
  · norm_num [update.opinion_media, twoKinds, constMedia, Network_u.setVertex, abs_le]

/-- C8 as amended: for a user with opinion and susceptibility in [0,1] and a reference
with opinion in [0,1] that is a neighbour user, or a medium whose persuasiveness lies
in [0,1], the opinion produced by `update::opinion` is again in [0,1]. -/
theorem opinion_stays_in_unit_interval [LinearOrderedField α] (v nb : Nat)
    (nw : Network_u α) (nw_m : Network_m α)
    (ho : 0 ≤ (nw.vertex v).opinion ∧ (nw.vertex v).opinion ≤ 1)
    (hs : 0 ≤ (nw.vertex v).susceptibility ∧ (nw.vertex v).susceptibility ≤ 1) :
    (0 ≤ (nw.vertex nb).opinion ∧ (nw.vertex nb).opinion ≤ 1 →
      0 ≤ ((update.opinion v nb nw).vertex v).opinion ∧
        ((update.opinion v nb nw).vertex v).opinion ≤ 1) ∧
    (0 ≤ (nw_m.vertex nb).opinion ∧ (nw_m.vertex nb).opinion ≤ 1 →
      0 ≤ (nw_m.vertex nb).persuasiveness ∧ (nw_m.vertex nb).persuasiveness ≤ 1 →
      0 ≤ ((update.opinion_media v nb nw nw_m).1.vertex v).opinion ∧
        ((update.opinion_media v nb nw nw_m).1.vertex v).opinion ≤ 1) := by
  obtain ⟨ho0, ho1⟩ := ho
  obtain ⟨hs0, hs1⟩ := hs
  constructor
  · rintro ⟨hr0, hr1⟩
    unfold update.opinion
    split_ifs with h
    · simp only [setVertex_vertex_self]
      constructor
      · nlinarith [mul_nonneg hs0 hr0, mul_nonneg (sub_nonneg.mpr hs1) ho0]
      · nlinarith [mul_nonneg hs0 (sub_nonneg.mpr hr1),
          mul_nonneg (sub_nonneg.mpr hs1) (sub_nonneg.mpr ho1)]
    · exact ⟨ho0, ho1⟩
  · rintro ⟨hr0, hr1⟩ ⟨hp0, hp1⟩
    unfold update.opinion_media
    have hq0 : 0 ≤ (nw.vertex v).susceptibility * (nw_m.vertex nb).persuasiveness :=
      mul_nonneg hs0 hp0
    have hq1 : (nw.vertex v).susceptibility * (nw_m.vertex nb).persuasiveness ≤ 1 :=
      mul_le_one₀ hs1 hp0 hp1
    split_ifs with h
    · simp only [setVertex_vertex_self]
      constructor
      · nlinarith [mul_nonneg hq0 hr0, mul_nonneg (sub_nonneg.mpr hq1) ho0]
      · nlinarith [mul_nonneg hq0 (sub_nonneg.mpr hr1),
          mul_nonneg (sub_nonneg.mpr hq1) (sub_nonneg.mpr ho1)]
    · exact ⟨ho0, ho1⟩

/-- C8 as amended, at a concrete input: opinion 1/2 and susceptibility 1/2 facing a
user of opinion 1 and a medium of opinion 1 and persuasiveness 1/2. -/
theorem opinion_stays_in_unit_interval_witness :
    (0 ≤ ((update.opinion 0 1
        (twoKinds 2 ⟨1, 1, 1, 1, 0⟩ 0 (⟨1 / 2, 1, 1 / 2, 1, 0⟩ : User ℚ))).vertex 0).opinion ∧
      ((update.opinion 0 1
        (twoKinds 2 ⟨1, 1, 1, 1, 0⟩ 0 (⟨1 / 2, 1, 1 / 2, 1, 0⟩ : User ℚ))).vertex 0).opinion
        ≤ 1) ∧
    (0 ≤ ((update.opinion_media 0 1
        (twoKinds 2 ⟨1, 1, 1, 1, 0⟩ 0 (⟨1 / 2, 1, 1 / 2, 1, 0⟩ : User ℚ))
        (constMedia 2 ⟨1, 1, 1, 1 / 2, 0, 0, 0, 0⟩)).1.vertex 0).opinion ∧
      ((update.opinion_media 0 1
        (twoKinds 2 ⟨1, 1, 1, 1, 0⟩ 0 (⟨1 / 2, 1, 1 / 2, 1, 0⟩ : User ℚ))
        (constMedia 2 ⟨1, 1, 1, 1 / 2, 0, 0, 0, 0⟩)).1.vertex 0).opinion ≤ 1) :=
  ⟨(opinion_stays_in_unit_interval 0 1 _ (constMedia 2 ⟨1, 1, 1, 1 / 2, 0, 0, 0, 0⟩)
      (by norm_num [twoKinds]) (by norm_num [twoKinds])).1 (by norm_num [twoKinds]),
   (opinion_stays_in_unit_interval 0 1 _ (constMedia 2 ⟨1, 1, 1, 1 / 2, 0, 0, 0, 0⟩)
      (by norm_num [twoKinds]) (by norm_num [twoKinds])).2 (by norm_num [constMedia])
      (by norm_num [constMedia])⟩

/-! ### C9: anchor values of the susceptibility curve -/

/-- C9: for a curve with `peak > 0`, `val_at_0` in (0,1] and `val_at_peak` in (0,1],
`utils::susceptibility` returns exactly `val_at_peak` at the age equal to the peak
and exactly `val_at_0` at age 0. -/
theorem susceptibility_anchor_values [LinearOrderedField α] (cfg : CurveConfig α)
    (age : Int) (h0 : 0 < cfg.peak)
    (h1 : 0 < cfg.val_at_0 ∧ cfg.val_at_0 ≤ 1)
    (h2 : 0 < cfg.val_at_peak ∧ cfg.val_at_peak ≤ 1)
    (hage : (age : α) = cfg.peak) :
    utils.susceptibility cfg age = cfg.val_at_peak ∧
      utils.susceptibility cfg 0 = cfg.val_at_0 := by
  have hp : cfg.peak ≠ 0 := ne_of_gt h0
  have hs1 : cfg.val_at_0 ≠ 0 := ne_of_gt h1.1
  have hs2 : cfg.val_at_peak ≠ 0 := ne_of_gt h2.1
  constructor
  · simp only [utils.susceptibility, hage, sub_self]
    field_simp
  · simp only [utils.susceptibility, Int.cast_zero, zero_sub]
    have key : 1 / cfg.val_at_peak * (1 + (1 - 1 / cfg.val_at_peak * cfg.val_at_0)
        / (1 / cfg.val_at_peak * cfg.val_at_0 * cfg.peak ^ 2) * (-cfg.peak) ^ 2)
        = 1 / cfg.val_at_0 := by
      field_simp
      ring
    rw [key, one_div_one_div]

/-- C9 on the scenario values: peak 40, value 0.1 at age 0, value 0.9 at the peak. -/
theorem susceptibility_anchor_values_witness :
    utils.susceptibility scenarioCfg.custom 40 = 9 / 10 ∧
      utils.susceptibility scenarioCfg.custom 0 = 1 / 10 :=
  susceptibility_anchor_values scenarioCfg.custom 40 (by norm_num [scenarioCfg])
    (by norm_num [scenarioCfg]) (by norm_num [scenarioCfg]) (by norm_num [scenarioCfg])

/-! ### C10: validation of the age-dependent curve -/

/-- C10: with distribution type `age-dependent`, `utils::initialize(age, cfg, rng)`
raises `invalid_argument` exactly when `peak < 0` or `val_at_0` or `val_at_peak` lies
outside [0,1]; otherwise it returns `susceptibility(cfg["custom"], age)` and the
random stream is handed back untouched. -/
theorem initialize_age_dependent_validation [LinearOrderedField α] (fuel : Nat) (age : Int)
    (cfg : Config α) (rng : Rng α) (hd : cfg.distribution_type = "age-dependent") :
    ((∃ msg, utils.initialize_age fuel age cfg rng = Outcome.invalid_argument msg) ↔
      (cfg.custom.peak < 0 ∨ ¬ (0 ≤ cfg.custom.val_at_0 ∧ cfg.custom.val_at_0 ≤ 1) ∨
        ¬ (0 ≤ cfg.custom.val_at_peak ∧ cfg.custom.val_at_peak ≤ 1))) ∧
    (¬ (cfg.custom.peak < 0 ∨ ¬ (0 ≤ cfg.custom.val_at_0 ∧ cfg.custom.val_at_0 ≤ 1) ∨
        ¬ (0 ≤ cfg.custom.val_at_peak ∧ cfg.custom.val_at_peak ≤ 1)) →
      utils.initialize_age fuel age cfg rng
        = Outcome.value ( utils.susceptibility cfg.custom age, rng)) := by
  unfold utils.initialize_age
  simp only [hd, if_true]
  by_cases hp : cfg.custom.peak < 0
  · simp [hp]
  · by_cases h1 : cfg.custom.val_at_0 < 0 ∨ cfg.custom.val_at_0 > 1
    · have h1n : ¬ (0 ≤ cfg.custom.val_at_0 ∧ cfg.custom.val_at_0 ≤ 1) := by
        rintro ⟨a, b⟩
        rcases h1 with h | h
        · exact absurd a (not_le.mpr h)
        · exact absurd b (not_le.mpr h)
      simp [hp, h1, h1n]
    · have h1p : 0 ≤ cfg.custom.val_at_0 ∧ cfg.custom.val_at_0 ≤ 1 := by
        push_neg at h1
        exact h1
      by_cases h2 : cfg.custom.val_at_peak < 0 ∨ cfg.custom.val_at_peak > 1
      · have h2n : ¬ (0 ≤ cfg.custom.val_at_peak ∧ cfg.custom.val_at_peak ≤ 1) := by
          rintro ⟨a, b⟩
          rcases h2 with h | h
          · exact absurd a (not_le.mpr h)
          · exact absurd b (not_le.mpr h)
        simp [hp, h1, h2, h2n]
      · have h2p : 0 ≤ cfg.custom.val_at_peak ∧ cfg.custom.val_at_peak ≤ 1 := by
          push_neg at h2
          exact h2
        simp [hp, h1, h2, h1p, h2p]

/-- C10 on the scenario configuration: the curve is accepted, the value at age 40 is
0.9 and the stream position is still 0. -/
theorem initialize_age_dependent_validation_witness :
    utils.initialize_age 0 40 scenarioCfg (constRng ⟨0, 0, 0⟩)
      = Outcome.value ( utils.susceptibility scenarioCfg.custom 40, constRng ⟨0, 0, 0⟩) :=
  (initialize_age_dependent_validation 0 40 scenarioCfg (constRng ⟨0, 0, 0⟩) rfl).2
    (by norm_num [scenarioCfg])

theorem foldl_add_snd [LinearOrderedField α] (l : List (Nat × α)) (c : α) :
    l.foldl (fun acc e => acc + e.2) c = c + (l.map Prod.snd).sum := by
  induction l generalizing c with
  | nil => simp
  | cons e es ih => simp [ih, add_assoc]

theorem sum_snd_div [LinearOrderedField α] (l : List (Nat × α)) (c : α) :
    ((l.map (fun e => (e.1, e.2 / c))).map Prod.snd).sum = (l.map Prod.snd).sum / c := by
  induction l with
  | nil => simp
  | cons e es ih =>
    simp only [List.map_cons, List.sum_cons, ih]
    ring

theorem all_zero_of_nonneg_of_sum_zero [LinearOrderedField α] (l : List (Nat × α))
    (h0 : ∀ e ∈ l, 0 ≤ e.2) (hs : (l.map Prod.snd).sum = 0) : ∀ e ∈ l, e.2 = 0 := by
  induction l with
  | nil => simp
  | cons e es ih =>
    have he : 0 ≤ e.2 := h0 e (List.mem_cons_self _ _)
    have hes : ∀ x ∈ es, 0 ≤ x.2 := fun x hx => h0 x (List.mem_cons_of_mem _ hx)
    have hsum : 0 ≤ (es.map Prod.snd).sum :=
      List.sum_nonneg (by
        intro x hx
        obtain ⟨y, hy, rfl⟩ := List.mem_map.1 hx
        exact hes y hy)
    simp only [List.map_cons, List.sum_cons] at hs
    have h1 : e.2 = 0 := by linarith
    have h2 : (es.map Prod.snd).sum = 0 := by linarith
    intro x hx
    rcases List.mem_cons.1 hx with rfl | hx
    · exact h1
    · exact ih hes h2 x hx

theorem setOut_out_self (nw : Network_u α) (v : Nat) (es : List (Nat × α)) :
    (nw.setOut v es).out v = es := by
  simp [Network_u.setOut]

/-- After `normalize_weights(v, nw)` on non-negative weights, the out-weights of `v`
sum to 1 or are all zero. -/
theorem normalize_weights_sum [LinearOrderedField α] (v : Nat) (nw : Network_u α)
    (h0 : ∀ e ∈ nw.out v, 0 ≤ e.2) :
    ( revision.normalize_weights v nw).weight_sum v = 1 ∨
      ∀ e ∈ ( revision.normalize_weights v nw).out v, e.2 = 0 := by
  unfold revision.normalize_weights
  by_cases hd : nw.out_degree v ≠ 0
  · rw [if_pos hd]
    simp only [foldl_add_snd, zero_add]
    by_cases hn : ((nw.out v).map Prod.snd).sum ≠ 0
    · left
      rw [if_pos hn]
      simp only [Network_u.weight_sum, setOut_out_self, sum_snd_div]
      exact div_self hn
    · right
      rw [if_neg hn]
      exact all_zero_of_nonneg_of_sum_zero _ h0 (not_not.1 hn)
  · right
    rw [if_neg hd]
    have : nw.out v = [] := List.length_eq_zero.1 (not_not.1 hd)
    simp [this]

theorem reduced_weight_nonneg [LinearOrderedField α] (m : Libm α) (model_mode : Mode) (v : Nat)
    (nw : Network_u α) (weighting : α) (t : Nat) (a : α) :
    0 ≤ revision.reduced_weight m model_mode v nw weighting t a := by
  unfold revision.reduced_weight
  simp only
  split_ifs with h1 h2 h3
  · exact le_refl _
  · exact not_lt.1 h2
  · exact le_refl _
  · exact not_lt.1 h3

theorem reduce_loop_edges_nonneg [LinearOrderedField α] (m : Libm α) (model_mode : Mode)
    (v : Nat) (nw : Network_u α) (weighting rewiring : α) (prob_distr : UniformReal α)
    (es : List (Nat × α)) (to_drop : List Nat) (sum : α) (rng : Rng α) :
    ∀ e ∈ (revision.reduce_loop m model_mode v nw weighting rewiring prob_distr es
      to_drop sum rng).edges, 0 ≤ e.2 := by
  induction es generalizing to_drop sum rng with
  | nil => simp [revision.reduce_loop]
  | cons x xs ih =>
    intro e he
    simp only [revision.reduce_loop, List.mem_cons] at he
    rcases he with rfl | he
    · exact reduced_weight_nonneg _ _ _ _ _ _ _
    · exact ih _ _ _ e he

theorem rewire_loop_nonneg [LinearOrderedField α] (v : Nat) (to_drop ds : List Nat)
    (s : RewireState α) (h0 : ∀ e ∈ s.nw.out v, 0 ≤ e.2) :
    ∀ e ∈ (revision.rewire_loop v to_drop ds s).nw.out v, 0 ≤ e.2 := by
  induction ds generalizing s with
  | nil => simpa [revision.rewire_loop] using h0
  | cons d ds ih =>
    simp only [revision.rewire_loop]
    split_ifs with h
    · apply ih
      intro e he
      simp only [Network_u.remove_edge, setOut_out_self] at he
      exact h0 e (List.mem_filter.1 he).1
    · exact ih _ h0

theorem mem_insertEdge (t : Nat) (w : α) (l : List (Nat × α)) (e : Nat × α)
    (he : e ∈ insertEdge t w l) : e = (t, w) ∨ e ∈ l := by
  induction l with
  | nil => simpa [insertEdge] using he
  | cons x xs ih =>
    simp only [insertEdge] at he
    split_ifs at he with h1 h2
    · exact Or.inr he
    · rcases List.mem_cons.1 he with h | h
      · exact Or.inl h
      · exact Or.inr h
    · rcases List.mem_cons.1 he with h | h
      · exact Or.inr (h ▸ List.mem_cons_self _ _)
      · rcases ih h with h | h
        · exact Or.inl h
        · exact Or.inr (List.mem_cons_of_mem _ h)

theorem foldl_add_edge_nonneg [LinearOrderedField α] (v : Nat) (w : α) (hw : 0 ≤ w)
    (ts : List Nat) (nw : Network_u α) (h0 : ∀ e ∈ nw.out v, 0 ≤ e.2) :
    ∀ e ∈ (ts.foldl (fun g t => g.add_edge v t w) nw).out v, 0 ≤ e.2 := by
  induction ts generalizing nw with
  | nil => simpa using h0
  | cons t ts ih =>
    simp only [List.foldl_cons]
    apply ih
    intro e he
    simp only [Network_u.add_edge, setOut_out_self] at he
    rcases mem_insertEdge _ _ _ _ he with rfl | h
    · exact hw
    · exact h0 e h

/-- Every out-edge of `v` has a non-negative weight after `update_weights`. -/
theorem update_weights_nonneg [LinearOrderedField α] (m : Libm α) (model_mode : Mode) (v : Nat)
    (nw : Network_u α) (weighting rewiring : α) (rewiring_count : Nat)
    (prob_distr : UniformReal α) (rng : Rng α) (hd : nw.out_degree v ≠ 0) :
    ∀ e ∈ (revision.update_weights m model_mode v nw weighting rewiring rewiring_count
      prob_distr rng).1.out v, 0 ≤ e.2 := by
  unfold revision.update_weights
  simp only [hd, ne_eq, not_false_eq_true, if_true]
  apply foldl_add_edge_nonneg
  · split_ifs <;>
      first
      | exact div_nonneg zero_le_one (Nat.cast_nonneg _)
      | exact div_nonneg (le_trans (show (0 : α) ≤ 10e-5 by norm_num) (not_lt.1 (by assumption))) (Nat.cast_nonneg _)
  · apply rewire_loop_nonneg
    simp only [setOut_out_self]
    exact reduce_loop_edges_nonneg _ _ _ _ _ _ _ _ _ _ _

theorem update_opinion_out [LinearOrderedField α] (v nb : Nat) (nw : Network_u α) :
    (update.opinion v nb nw).out = nw.out := by
  unfold update.opinion
  split_ifs <;> rfl

theorem update_tolerance_out [LinearOrderedField α] (m : Libm α) (v : Nat) (nw : Network_u α)
    (p k : α) : (update.tolerance m v nw p k).out = nw.out := rfl

theorem pairwise_weighted_update_out [LinearOrderedField α] (m : Libm α) (v : Nat)
    (nw : Network_u α) (prob_distr : UniformReal α) (rng : Rng α) (k : α) :
    (revision.pairwise_weighted_update m v nw prob_distr rng k).1.out = nw.out := by
  simp only [revision.pairwise_weighted_update, update_tolerance_out, update_opinion_out]

/-! ### C1: weight normalisation after user revision -/

/-- C1, counterexample: two users of opinions 0 and 1, tolerance 1/2 and the single
edge `0 → 1` of weight 1; with `weighting = 3` and `rewiring = 0` the reduction factor
is `(1 - 3) + exp 0 = -1`, the weight is clamped to 0, the total is 0 and
`normalize_weights` leaves it: the out-weights of the revised vertex 0 sum to 0. -/
theorem user_revision_zero_weights :
    (random_vertex (farApart : Network_u ℝ) (constRng ⟨0, 0, 0⟩)).1 = 0 ∧
    (farApart : Network_u ℝ).out_degree 0 = 1 ∧
    (revision.user_revision (Libm.mk (fun x y : ℝ => x ^ y) Real.exp Real.log) Mode.None
        farApart 3 0 0 ⟨0, 1⟩ 0 (constRng ⟨0, 0, 0⟩)).1.out 0 = [(1, 0)] ∧
    (revision.user_revision (Libm.mk (fun x y : ℝ => x ^ y) Real.exp Real.log) Mode.None
        farApart 3 0 0 ⟨0, 1⟩ 0 (constRng ⟨0, 0, 0⟩)).1.weight_sum 0 ≠ 1 := by
  have h : (revision.user_revision (Libm.mk (fun x y : ℝ => x ^ y) Real.exp Real.log) Mode.None
        farApart 3 0 0 ⟨0, 1⟩ 0 (constRng ⟨0, 0, 0⟩)).1.out 0 = [(1, 0)] := by
    norm_num [revision.user_revision, random_vertex, farApart, constRng, Rng.peek, Rng.advance,
      Network_u.out_degree, revision.pairwise_weighted_update, UniformReal.draw,
      revision.choose_partner, update.opinion, update.tolerance, Network_u.setVertex,
      revision.update_weights, revision.reduce_loop, revision.reduced_weight,
      revision.age_branch, Mode.toNat, subU32, revision.rewire_loop, Network_u.setOut,
      revision.normalize_weights]
  refine ⟨by simp [random_vertex, farApart, constRng, Rng.peek], by simp [farApart,
    Network_u.out_degree], h, ?_⟩
  simp [Network_u.weight_sum, h]

/-- C1 as amended: for every user graph and every sequence of random draws, if
`user_revision` selects a vertex `v` with out-degree > 0 (and of age at least 1, so
that the quotient by the age of `v` is defined), then after the step the outgoing
edge weights of `v` sum to 1, unless they are all zero (their total is zero and
`normalize_weights` leaves them as they are). -/
theorem user_revision_weights_normalised [LinearOrderedField α] (m : Libm α)
    (model_mode : Mode) (nw_u : Network_u α) (weighting rewiring : α) (rewiring_count : Nat)
    (prob_distr : UniformReal α) (radicalisation_parameter : α) (rng : Rng α)
    (hv : nw_u.out_degree (random_vertex nw_u rng).1 ≠ 0)
    (_hage : 1 ≤ (nw_u.vertex (random_vertex nw_u rng).1).age) :
    (revision.user_revision m model_mode nw_u weighting rewiring rewiring_count prob_distr
        radicalisation_parameter rng).1.weight_sum (random_vertex nw_u rng).1 = 1 ∨
    ∀ e ∈ (revision.user_revision m model_mode nw_u weighting rewiring rewiring_count prob_distr
        radicalisation_parameter rng).1.out (random_vertex nw_u rng).1, e.2 = 0 := by
  unfold revision.user_revision
  simp only [hv, ne_eq, not_false_eq_true, if_true]
  apply normalize_weights_sum
  apply update_weights_nonneg
  simpa [Network_u.out_degree, pairwise_weighted_update_out] using hv

/-- C1 as amended, at a concrete input: two users of opinions 0 and 1 joined by one
edge, `weighting = 1/2`, over the reals. -/
theorem user_revision_weights_normalised_witness :
    (revision.user_revision (Libm.mk (fun x y : ℝ => x ^ y) Real.exp Real.log) Mode.None
        farApart (1 / 2) 0 0 ⟨0, 1⟩ 0 (constRng ⟨0, 0, 0⟩)).1.weight_sum
          (random_vertex (farApart : Network_u ℝ) (constRng ⟨0, 0, 0⟩)).1 = 1 ∨
    ∀ e ∈ (revision.user_revision (Libm.mk (fun x y : ℝ => x ^ y) Real.exp Real.log) Mode.None
        farApart (1 / 2) 0 0 ⟨0, 1⟩ 0 (constRng ⟨0, 0, 0⟩)).1.out
          (random_vertex (farApart : Network_u ℝ) (constRng ⟨0, 0, 0⟩)).1, e.2 = 0 :=
  user_revision_weights_normalised _ Mode.None farApart (1 / 2) 0 0 ⟨0, 1⟩ 0
    (constRng ⟨0, 0, 0⟩) (by simp [random_vertex, farApart, constRng, Rng.peek,
      Network_u.out_degree]) (by simp [random_vertex, farApart, constRng, Rng.peek])

/-! ### C2: degree preservation under ageing -/

/-- C2, the code at a failing input: in `seniorNet` with replacement rate 1/5 the
selection pass yields the child 0 (degree 4: in 1, out 3), the parent 1 and the single
peer 2.  The second peer round of `add_edges` meets the edge `0 → 2` it has just added,
falls back to `random_vertex`, draws the child itself and adds the self-loop `0 → 0`:
after `add_edges` the child has degree 5 (in 2, out 3), the assertions of
`check_and_test` fail and `ageing` stops on them. -/
theorem ageing_self_loop_breaks_degree :
    (ageing.user_selection_and_ageing keepOrder [] [] [] (0, 10) (20, 40) (70, 1000) (1 / 5)
        seniorNet (constRng ⟨0, 0, 0⟩) scenarioCfg.custom).1
      = { children := [0], parents := [1], peers := [2], peers_to_add := 2 } ∧
    (seniorNet.degree 0, seniorNet.in_degree 0, seniorNet.out_degree 0) = (4, 1, 3) ∧
    ( ageing.replace_child 10 0 1 [2] 1 0
        (ageing.user_selection_and_ageing keepOrder [] [] [] (0, 10) (20, 40) (70, 1000) (1 / 5)
          seniorNet (constRng ⟨0, 0, 0⟩) scenarioCfg.custom).2.1
        (ageing.user_selection_and_ageing keepOrder [] [] [] (0, 10) (20, 40) (70, 1000) (1 / 5)
          seniorNet (constRng ⟨0, 0, 0⟩) scenarioCfg.custom).2.2 scenarioCfg.custom).get?.map
          (fun r => (r.1.degree 0, r.1.in_degree 0, r.1.out_degree 0, r.1.has_edge 0 0,
            ageing.check_and_test 0 4 1 3 r.1))
      = some (5, 2, 3, true, false) ∧
    ( ageing.ageing keepOrder 10 (1 / 5) 1 (0, 10) (20, 40) (70, 1000) seniorNet
        (constRng ⟨0, 0, 0⟩) scenarioCfg.custom).isAssertionFailed = true := by
  refine ⟨?_, ?_, ?_, ?_⟩
  · decide!
  · decide!
  · decide!
  · decide!

theorem choose_partner_crossing [LinearOrderedField α] (u : α) (l : List (Nat × α)) (c : α)
    (i : Nat) (hi : i < l.length) (hc : c < u)
    (hlt : ∀ j, j < i → c + ((l.take (j + 1)).map Prod.snd).sum < u)
    (hge : u ≤ c + ((l.take (i + 1)).map Prod.snd).sum) :
    revision.choose_partner u l c = some (l.get ⟨i, hi⟩).1 := by
  induction l generalizing c i with
  | nil => simp at hi
  | cons e es ih =>
    cases i with
    | zero =>
      simp only [List.take_succ_cons, List.take_zero, List.map_cons, List.map_nil,
        List.sum_cons, List.sum_nil, add_zero] at hge
      simp [revision.choose_partner, hc, hge]
    | succ k =>
      have h0 : c + e.2 < u := by
        have := hlt 0 (Nat.succ_pos k)
        simpa using this
      have hk : k < es.length := by simpa using hi
      have := ih (c + e.2) k hk h0
        (by
          intro j hj
          have := hlt (j + 1) (Nat.succ_lt_succ hj)
          simpa [add_assoc] using this)
        (by simpa [add_assoc] using hge)
      simp [revision.choose_partner, hc, not_le.mpr h0, this]

/-! ### C11: roulette neighbour selection -/

/-- C11: let the out-edges of `v` have non-negative weights (or the draw `u` be
positive).  If `i` is the first position of the adjacency list at which the cumulative
weight `w_1 + ... + w_i` is at least the uniform draw `u`, then the scan of
`pairwise_weighted_update` yields the target of that edge, and the update is the
opinion and tolerance update of `v` with that target as interaction partner. -/
theorem roulette_selects_first_crossing [LinearOrderedField α] (m : Libm α) (v : Nat)
    (nw : Network_u α) (prob_distr : UniformReal α) (rng : Rng α) (k : α)
    (i : Nat) (hi : i < (nw.out v).length)
    (hw : 0 < (prob_distr.draw rng).1 ∨ ∀ e ∈ nw.out v, 0 ≤ e.2)
    (hlt : ∀ j, j < i →
      (((nw.out v).take (j + 1)).map Prod.snd).sum < (prob_distr.draw rng).1)
    (hge : (prob_distr.draw rng).1 ≤ (((nw.out v).take (i + 1)).map Prod.snd).sum) :
    revision.choose_partner (prob_distr.draw rng).1 (nw.out v) 0
      = some ((nw.out v).get ⟨i, hi⟩).1 ∧
    revision.pairwise_weighted_update m v nw prob_distr rng k
      = (update.tolerance m v (update.opinion v ((nw.out v).get ⟨i, hi⟩).1 nw)
          (nw.vertex v).opinion k, (prob_distr.draw rng).2) := by
  have key : revision.choose_partner (prob_distr.draw rng).1 (nw.out v) 0
      = some ((nw.out v).get ⟨i, hi⟩).1 := by
    by_cases hu : 0 < (prob_distr.draw rng).1
    · exact choose_partner_crossing _ _ 0 i hi hu (by simpa using hlt) (by simpa using hge)
    · have hnn : ∀ e ∈ nw.out v, 0 ≤ e.2 := hw.resolve_left hu
      have hu0 : (prob_distr.draw rng).1 ≤ 0 := not_lt.1 hu
      generalize hl : nw.out v = l at hi hlt hge hnn
      cases l with
      | nil => simp at hi
      | cons e es =>
        have hi0 : i = 0 := by
          by_contra hne
          have := hlt 0 (Nat.pos_of_ne_zero hne)
          simp only [List.take_succ_cons, List.take_zero, List.map_cons, List.map_nil,
            List.sum_cons, List.sum_nil, add_zero] at this
          have h1 := hnn e (List.mem_cons_self _ _)
          linarith
        subst hi0
        simp [revision.choose_partner, hu, hu0]
  refine ⟨key, ?_⟩
  simp only [revision.pairwise_weighted_update, key, Option.getD_some]

/-- C11 on the scenario values: weights 0.3 and 0.7 and the uniform draw 0.5 select the
target of the second edge. -/
theorem roulette_selects_first_crossing_witness :
    revision.choose_partner (1 / 2 : ℝ) ((rouletteNet : Network_u ℝ).out 0) 0 = some 2 ∧
    revision.pairwise_weighted_update (Libm.mk (fun x y : ℝ => x ^ y) Real.exp Real.log) 0
        rouletteNet ⟨0, 1⟩ (uniformRng (1 / 2)) 0
      = (update.tolerance (Libm.mk (fun x y : ℝ => x ^ y) Real.exp Real.log) 0
          (update.opinion 0 2 rouletteNet) ((rouletteNet : Network_u ℝ).vertex 0).opinion 0,
          (uniformRng (1 / 2 : ℝ)).advance) := by
  have h := roulette_selects_first_crossing
    (Libm.mk (fun x y : ℝ => x ^ y) Real.exp Real.log)
    0 rouletteNet ⟨0, 1⟩ (uniformRng (1 / 2)) 0 1
    (by simp [rouletteNet])
    (Or.inl (by norm_num [UniformReal.draw, uniformRng, Rng.peek]))
    (by
      intro j hj
      have : j = 0 := by omega
      subst this
      norm_num [UniformReal.draw, uniformRng, Rng.peek, rouletteNet])
    (by norm_num [UniformReal.draw, uniformRng, Rng.peek, rouletteNet])
  have e1 : ((⟨0, 1⟩ : UniformReal ℝ).draw (uniformRng (1 / 2))).1 = 1 / 2 := by
    norm_num [UniformReal.draw, uniformRng, Rng.peek]
  have e2 : ((⟨0, 1⟩ : UniformReal ℝ).draw (uniformRng (1 / 2))).2
      = (uniformRng (1 / 2 : ℝ)).advance := rfl
  have e3 : (((rouletteNet : Network_u ℝ).out 0).get ⟨1, by simp [rouletteNet]⟩).1 = 2 := by
    simp [rouletteNet]
  rw [e1, e2, e3] at h
  exact h

theorem count_update (f : Nat → Nat) (v new m : Nat) (n : Nat) (hv : v < n) :
    ((List.range n).filter (fun x => decide ((if x = v then new else f x) = m))).length
        + (if f v = m then 1 else 0)
      = ((List.range n).filter (fun x => decide (f x = m))).length
        + (if new = m then 1 else 0) := by
  induction n with
  | zero => omega
  | succ k ih =>
    rw [List.range_succ, List.filter_append, List.filter_append, List.length_append,
      List.length_append]
    by_cases hk : v = k
    · subst hk
      have hsame : (List.range v).filter (fun x => decide ((if x = v then new else f x) = m))
          = (List.range v).filter (fun x => decide (f x = m)) := by
        apply List.filter_congr
        intro x hx
        have : x ≠ v := ne_of_lt (List.mem_range.1 hx)
        simp [this]
      rw [hsame]
      by_cases h1 : f v = m <;> by_cases h2 : new = m <;> simp [h1, h2]
    · have hvk : v < k := by omega
      have := ih hvk
      have hne : ¬ k = v := fun e => hk e.symm
      simp only [List.filter_cons, List.filter_nil, hne, if_false]
      by_cases h3 : f k = m <;> simp [h3] <;> omega

theorem random_vertex_lt [LinearOrderedField α] (nw : Network_u α) (rng : Rng α)
    (h : 0 < nw.num_vertices) : (random_vertex nw rng).1 < nw.num_vertices := by
  unfold random_vertex
  split_ifs with h1
  · exact Nat.mod_lt _ h
  · exact h

theorem switch_keeps_audience [LinearOrderedField α] (nw_u g : Network_u α)
    (nw_m : Network_m α) (v new : Nat) (hv : v < nw_u.num_vertices)
    (hN2 : nw_u.num_vertices < 4294967296) (hnum : g.num_vertices = nw_u.num_vertices)
    (hused : ∀ x, (g.vertex x).used_media = (nw_u.vertex x).used_media)
    (hinv : audience_invariant nw_u nw_m) :
    audience_invariant (g.setVertex v { g.vertex v with used_media := new })
      ((nw_m.setVertex (g.vertex v).used_media { nw_m.vertex (g.vertex v).used_media with
          users := ((nw_m.vertex (g.vertex v).used_media).users + 4294967295) % 4294967296
          }).setVertex new
        { (nw_m.setVertex (g.vertex v).used_media { nw_m.vertex (g.vertex v).used_media with
            users := ((nw_m.vertex (g.vertex v).used_media).users + 4294967295) % 4294967296
            }).vertex new with
          users := (((nw_m.setVertex (g.vertex v).used_media
            { nw_m.vertex (g.vertex v).used_media with
              users := ((nw_m.vertex (g.vertex v).used_media).users + 4294967295) % 4294967296
              }).vertex new).users + 1) % 4294967296 }) := by
  intro md hmd
  have hmd2 : md < nw_m.num_vertices := hmd
  have hc := count_update (fun x => (nw_u.vertex x).used_media) v new md
    nw_u.num_vertices hv
  have hcount : audience_count (g.setVertex v { g.vertex v with used_media := new }) md
      = ((List.range nw_u.num_vertices).filter (fun x =>
          decide ((if x = v then new else (nw_u.vertex x).used_media) = md))).length := by
    unfold audience_count
    have hnv : (g.setVertex v { g.vertex v with used_media := new }).num_vertices
        = nw_u.num_vertices := hnum
    rw [hnv]
    congr 1
    apply List.filter_congr
    intro x _
    by_cases hx : x = v
    · subst hx
      simp [Network_u.setVertex]
    · simp only [hx, if_false]
      rw [setVertex_vertex_other _ _ _ _ hx, hused]
  rw [hcount, hused]
  have hinvm := hinv md hmd2
  have hle : ((List.range nw_u.num_vertices).filter
      (fun x => decide ((nw_u.vertex x).used_media = md))).length ≤ nw_u.num_vertices :=
    (List.length_filter_le _ _).trans (le_of_eq (List.length_range _))
  have hle2 : ((List.range nw_u.num_vertices).filter (fun x =>
      decide ((if x = v then new else (nw_u.vertex x).used_media) = md))).length
      ≤ nw_u.num_vertices :=
    (List.length_filter_le _ _).trans (le_of_eq (List.length_range _))
  unfold audience_count at hinvm
  simp only at hc
  by_cases ho : (nw_u.vertex v).used_media = md
  · have hpos : 1 ≤ ((List.range nw_u.num_vertices).filter
        (fun x => decide ((nw_u.vertex x).used_media = md))).length := by
      apply List.length_pos.2
      intro hnil
      have : v ∈ (List.range nw_u.num_vertices).filter
          (fun x => decide ((nw_u.vertex x).used_media = md)) :=
        List.mem_filter.2 ⟨List.mem_range.2 hv, by simpa using ho⟩
      rw [hnil] at this
      simp at this
    by_cases hn : new = md
    · simp only [Network_m.setVertex, ho, hn, if_true] at hc ⊢
      rw [hinvm]
      omega
    · have hn2 : ¬ md = new := fun e => hn e.symm
      simp only [Network_m.setVertex, ho, hn, hn2, if_true, if_false] at hc ⊢
      rw [hinvm]
      omega
  · have ho2 : ¬ md = (nw_u.vertex v).used_media := fun e => ho e.symm
    by_cases hn : new = md
    · subst hn
      simp only [Network_m.setVertex, ho, ho2, if_true, if_false] at hc ⊢
      rw [hinvm]
      omega
    · have hn2 : ¬ md = new := fun e => hn e.symm
      simp only [Network_m.setVertex, ho, ho2, hn, hn2, if_false] at hc ⊢
      rw [hinvm]
      omega

theorem tolerance_media_meta [LinearOrderedField α] (m : Libm α) (v nb : Nat)
    (nw_u : Network_u α) (nw_m : Network_m α) (b : Bool) (o k : α) :
    (update.tolerance m v
        (if b = true then (update.opinion_media v nb nw_u nw_m).1 else nw_u) o k).num_vertices
      = nw_u.num_vertices
    ∧ ∀ x, ((update.tolerance m v
        (if b = true then (update.opinion_media v nb nw_u nw_m).1 else nw_u) o k).vertex
          x).used_media = (nw_u.vertex x).used_media := by
  cases b
  · refine ⟨rfl, fun x => ?_⟩
    by_cases hx : x = v <;> simp [update.tolerance, Network_u.setVertex, hx]
  · simp only [if_true, update.opinion_media]
    split_ifs
    · refine ⟨rfl, fun x => ?_⟩
      by_cases hx : x = v <;> simp [update.tolerance, Network_u.setVertex, hx]
    · refine ⟨rfl, fun x => ?_⟩
      by_cases hx : x = v <;> simp [update.tolerance, Network_u.setVertex, hx]

/-- The audience counts are kept by `information_revision`: on a user network with at
least one vertex and fewer than 2^32 of them, if every medium's `users` is the number
of users whose `used_media` is that medium, the same holds after the step, whether or
not the selected user switches to the chosen medium. -/
theorem information_revision_keeps_audience [LinearOrderedField α] (m : Libm α)
    (nw_u : Network_u α) (nw_m : Network_m α) (prob_distr : UniformReal α) (k : α)
    (rng : Rng α) (hN : 0 < nw_u.num_vertices) (hN2 : nw_u.num_vertices < 4294967296)
    (hinv : audience_invariant nw_u nw_m) :
    audience_invariant (revision.information_revision m nw_u nw_m prob_distr k rng).1
      (revision.information_revision m nw_u nw_m prob_distr k rng).2.1 := by
  have hv := random_vertex_lt nw_u rng hN
  unfold revision.information_revision
  dsimp only
  by_cases hsw : (prob_distr.draw (prob_distr.draw (random_vertex nw_u rng).2).2).1 ≤
    (revision.user_char_BC (nw_u.vertex (random_vertex nw_u rng).1).opinion
        (nw_m.vertex
            ((revision.choose_medium (prob_distr.draw (random_vertex nw_u rng).2).1 nw_m
              (List.range nw_m.num_vertices) 0).getD 0)).opinion
        (nw_u.vertex (random_vertex nw_u rng).1).tolerance false).1
  · rw [if_pos hsw]
    have hmeta := tolerance_media_meta m (random_vertex nw_u rng).1
      ((revision.choose_medium (prob_distr.draw (random_vertex nw_u rng).2).1 nw_m
              (List.range nw_m.num_vertices) 0).getD 0) nw_u nw_m
      (revision.user_char_BC (nw_u.vertex (random_vertex nw_u rng).1).opinion
        (nw_m.vertex
            ((revision.choose_medium (prob_distr.draw (random_vertex nw_u rng).2).1 nw_m
              (List.range nw_m.num_vertices) 0).getD 0)).opinion
        (nw_u.vertex (random_vertex nw_u rng).1).tolerance false).2
      (nw_u.vertex (random_vertex nw_u rng).1).opinion k
    exact switch_keeps_audience nw_u _ nw_m _ _ hv hN2 hmeta.1 hmeta.2 hinv
  · rw [if_neg hsw]
    exact hinv

theorem selection_rule_network [LinearOrderedField α] (cfg : CurveConfig α)
    (ca pa sa : Int × Int) (vtr : Int) (v : Nat) (s : Pools × Network_u α) :
    (ageing.selection_rule cfg ca pa sa vtr v s).2
      = s.2.setVertex v (ageing.aged cfg (s.2.vertex v)) := by
  unfold ageing.selection_rule
  simp only [ageing.aged]
  split_ifs <;> rfl

theorem selection_fold_out [LinearOrderedField α] (cfg : CurveConfig α)
    (ca pa sa : Int × Int) (vtr : Int) (vs : List Nat) (s : Pools × Network_u α) :
    (vs.foldl (fun s v => ageing.selection_rule cfg ca pa sa vtr v s) s).2.out = s.2.out ∧
    (vs.foldl (fun s v => ageing.selection_rule cfg ca pa sa vtr v s) s).2.num_vertices
      = s.2.num_vertices ∧
    ∀ x, ((vs.foldl (fun s v => ageing.selection_rule cfg ca pa sa vtr v s) s).2.vertex x).opinion
        = (s.2.vertex x).opinion ∧
      ((vs.foldl (fun s v => ageing.selection_rule cfg ca pa sa vtr v s) s).2.vertex x).tolerance
        = (s.2.vertex x).tolerance ∧
      ((vs.foldl (fun s v => ageing.selection_rule cfg ca pa sa vtr v s) s).2.vertex x).used_media
        = (s.2.vertex x).used_media := by
  induction vs generalizing s with
  | nil => simp
  | cons v vs ih =>
    simp only [List.foldl_cons]
    obtain ⟨h1, h2, h3⟩ := ih (ageing.selection_rule cfg ca pa sa vtr v s)
    rw [selection_rule_network] at h1 h2 h3
    refine ⟨h1, h2, fun x => ?_⟩
    obtain ⟨a, b, c⟩ := h3 x
    rw [a, b, c]
    by_cases hx : x = v
    · subst hx
      simp [Network_u.setVertex, ageing.aged]
    · simp [Network_u.setVertex, hx]

theorem selection_fold_vertex [LinearOrderedField α] (cfg : CurveConfig α)
    (ca pa sa : Int × Int) (vtr : Int) (vs : List Nat) (hnd : vs.Nodup)
    (s : Pools × Network_u α) (x : Nat) :
    (vs.foldl (fun s v => ageing.selection_rule cfg ca pa sa vtr v s) s).2.vertex x
      = if x ∈ vs then ageing.aged cfg (s.2.vertex x) else s.2.vertex x := by
  induction vs generalizing s with
  | nil => simp
  | cons v vs ih =>
    simp only [List.foldl_cons]
    rw [ih (List.nodup_cons.1 hnd).2, selection_rule_network]
    have hv : v ∉ vs := (List.nodup_cons.1 hnd).1
    by_cases hx : x = v
    · subst hx
      simp [Network_u.setVertex, hv]
    · by_cases hm : x ∈ vs
      · simp [Network_u.setVertex, hx, hm]
      · simp [Network_u.setVertex, hx, hm]

theorem selection_rule_parents_nil [LinearOrderedField α] (cfg : CurveConfig α)
    (ca pa sa : Int × Int) (vtr : Int) (v : Nat) (s : Pools × Network_u α)
    (hp : s.1.parents = [])
    (hv : ¬ (toU32 pa.1 ≤ ((s.2.vertex v).age + 1) % 4294967296
      ∧ ((s.2.vertex v).age + 1) % 4294967296 ≤ toU32 pa.2)) :
    (ageing.selection_rule cfg ca pa sa vtr v s).1.parents = [] := by
  unfold ageing.selection_rule
  simp only
  have hv2 : ∀ q : Prop, ¬ (toU32 pa.1 ≤ ((s.2.vertex v).age + 1) % 4294967296
      ∧ ((s.2.vertex v).age + 1) % 4294967296 ≤ toU32 pa.2 ∧ q) :=
    fun q h => hv ⟨h.1, h.2.1⟩
  split_ifs <;> simp_all

theorem selection_fold_parents_nil [LinearOrderedField α] (cfg : CurveConfig α)
    (ca pa sa : Int × Int) (vtr : Int) (vs : List Nat) (hnd : vs.Nodup)
    (s : Pools × Network_u α) (hp : s.1.parents = [])
    (hv : ∀ v ∈ vs, ¬ (toU32 pa.1 ≤ ((s.2.vertex v).age + 1) % 4294967296
      ∧ ((s.2.vertex v).age + 1) % 4294967296 ≤ toU32 pa.2)) :
    (vs.foldl (fun s v => ageing.selection_rule cfg ca pa sa vtr v s) s).1.parents = [] := by
  induction vs generalizing s with
  | nil => simpa using hp
  | cons v vs ih =>
    simp only [List.foldl_cons]
    have hn := List.nodup_cons.1 hnd
    apply ih hn.2
    · exact selection_rule_parents_nil cfg ca pa sa vtr v s hp (hv v (List.mem_cons_self _ _))
    · intro x hx
      have hxv : x ≠ v := fun h => hn.1 (h ▸ hx)
      rw [selection_rule_network]
      simpa [Network_u.setVertex, hxv] using hv x (List.mem_cons_of_mem _ hx)

theorem toU32_of_nonneg (a : Int) (h0 : 0 ≤ a) (h1 : a < 4294967296) : toU32 a = a.toNat := by
  unfold toU32
  rw [Int.emod_eq_of_lt h0 h1]

/-! ### C14: ageing without parents -/

/-- C14: if the visiting order is a permutation of the vertices, the bounds of the parent
age range are non-negative `int` values and no vertex has, after the age increment, an
age inside the parent age range, then `ageing` returns, and the network it returns has
the out-edge lists (targets and weights) and the vertex count of the network it was
given, and every user has the opinion, the tolerance and the `used_media` it had. -/
theorem ageing_skip_without_parents [LinearOrderedField α] [FloorRing α]
    (shuffle : List Nat → Rng α → List Nat × Rng α) (fuel : Nat) (replacement_rate : α)
    (num_media : Int) (child_ages parent_ages senior_ages : Int × Int) (nw : Network_u α)
    (rng : Rng α) (cfg : CurveConfig α)
    (hperm : ∀ l r, (shuffle l r).1.Perm l)
    (hlo : 0 ≤ parent_ages.1 ∧ parent_ages.1 < 2147483648)
    (hhi : 0 ≤ parent_ages.2 ∧ parent_ages.2 < 2147483648)
    (hnone : ∀ v, v < nw.num_vertices →
      ¬ (parent_ages.1 ≤ ((((nw.vertex v).age + 1) % 4294967296 : Nat) : Int)
        ∧ ((((nw.vertex v).age + 1) % 4294967296 : Nat) : Int) ≤ parent_ages.2)) :
    ∃ r, ageing.ageing shuffle fuel replacement_rate num_media child_ages parent_ages
        senior_ages nw rng cfg = Outcome.value r ∧
      r.1.out = nw.out ∧ r.1.num_vertices = nw.num_vertices ∧
      ∀ x, (r.1.vertex x).opinion = (nw.vertex x).opinion ∧
        (r.1.vertex x).tolerance = (nw.vertex x).tolerance ∧
        (r.1.vertex x).used_media = (nw.vertex x).used_media := by
  have hp := hperm (List.range nw.num_vertices) rng
  have hnd : (shuffle (List.range nw.num_vertices) rng).1.Nodup :=
    hp.nodup_iff.2 (List.nodup_range _)
  have e1 : toU32 parent_ages.1 = parent_ages.1.toNat :=
    toU32_of_nonneg _ hlo.1 (by omega)
  have e2 : toU32 parent_ages.2 = parent_ages.2.toNat :=
    toU32_of_nonneg _ hhi.1 (by omega)
  have hpar := selection_fold_parents_nil cfg child_ages parent_ages senior_ages
    (truncToInt ((nw.num_vertices : α) * replacement_rate))
    (shuffle (List.range nw.num_vertices) rng).1 hnd
    ({ children := [], parents := [], peers := [], peers_to_add := 0 }, nw) rfl
    (by
      intro v hv
      have hvn : v < nw.num_vertices := List.mem_range.1 (hp.mem_iff.1 hv)
      intro h
      apply hnone v hvn
      rw [e1, e2] at h
      dsimp only at h
      constructor
      · have := h.1
        omega
      · have := h.2
        omega)
  have hfr := selection_fold_out cfg child_ages parent_ages senior_ages
    (truncToInt ((nw.num_vertices : α) * replacement_rate))
    (shuffle (List.range nw.num_vertices) rng).1
    ({ children := [], parents := [], peers := [], peers_to_add := 0 }, nw)
  refine ⟨(ageing.user_selection_and_ageing shuffle [] [] [] child_ages parent_ages
    senior_ages replacement_rate nw rng cfg).2, ?_, ?_, ?_, ?_⟩
  · unfold ageing.ageing
    have hz : (ageing.user_selection_and_ageing shuffle [] [] [] child_ages parent_ages
        senior_ages replacement_rate nw rng cfg).1.parents = [] := hpar
    simp only [hz, List.length_nil, if_true]
  · exact hfr.1
  · exact hfr.2.1
  · exact hfr.2.2

theorem selection_rule_children [LinearOrderedField α] (cfg : CurveConfig α)
    (ca pa sa : Int × Int) (vtr : Int) (v : Nat) (s : Pools × Network_u α) :
    (ageing.selection_rule cfg ca pa sa vtr v s).1.children = s.1.children ∨
    ((ageing.selection_rule cfg ca pa sa vtr v s).1.children = s.1.children ++ [v] ∧
      toU32 sa.1 ≤ ((s.2.vertex v).age + 1) % 4294967296 ∧
      s.1.children.length < toU64 vtr) := by
  unfold ageing.selection_rule
  simp only
  split_ifs <;> simp_all

theorem selection_rule_parents [LinearOrderedField α] (cfg : CurveConfig α)
    (ca pa sa : Int × Int) (vtr : Int) (v : Nat) (s : Pools × Network_u α) :
    (ageing.selection_rule cfg ca pa sa vtr v s).1.parents = s.1.parents ∨
    ((ageing.selection_rule cfg ca pa sa vtr v s).1.parents = s.1.parents ++ [v] ∧
      (toU32 pa.1 ≤ ((s.2.vertex v).age + 1) % 4294967296 ∧
        ((s.2.vertex v).age + 1) % 4294967296 ≤ toU32 pa.2) ∧
      s.1.parents.length < (ageing.selection_rule cfg ca pa sa vtr v s).1.children.length) := by
  unfold ageing.selection_rule
  simp only
  split_ifs <;> simp_all

theorem selection_rule_peers [LinearOrderedField α] (cfg : CurveConfig α)
    (ca pa sa : Int × Int) (vtr : Int) (v : Nat) (s : Pools × Network_u α) :
    (ageing.selection_rule cfg ca pa sa vtr v s).1.peers = s.1.peers ∨
    ((ageing.selection_rule cfg ca pa sa vtr v s).1.peers = s.1.peers ++ [v] ∧
      ((s.2.vertex v).age + 1) % 4294967296 ≤ toU32 ca.2) := by
  unfold ageing.selection_rule
  simp only
  split_ifs <;> simp_all

theorem toU64_le_of_nonneg (a : Int) (h : 0 ≤ a) : (toU64 a : Int) ≤ a := by
  unfold toU64
  omega

theorem toU32_le_cast (a : Int) (n : Nat) (h1 : a < 4294967296) (h : toU32 a ≤ n) :
    a ≤ (n : Int) := by
  unfold toU32 at h
  omega

theorem le_toU32_cast (a : Int) (n : Nat) (h0 : 0 ≤ a) (h : n ≤ toU32 a) : (n : Int) ≤ a := by
  unfold toU32 at h
  omega

theorem selection_rule_inv [LinearOrderedField α] (cfg : CurveConfig α)
    (ca pa sa : Int × Int) (vtr : Int) (hvtr : 0 ≤ vtr) (v : Nat) (done : List Nat)
    (hv : v ∉ done) (s : Pools × Network_u α) (h : ageing.PoolsInv ca pa sa vtr done s) :
    ageing.PoolsInv ca pa sa vtr (v :: done) (ageing.selection_rule cfg ca pa sa vtr v s) := by
  obtain ⟨h1, h2, h3, h4, h5, h6, h7, h8⟩ := h
  have hnet := selection_rule_network cfg ca pa sa vtr v s
  have hage : ((ageing.selection_rule cfg ca pa sa vtr v s).2.vertex v).age
      = ((s.2.vertex v).age + 1) % 4294967296 := by
    rw [hnet]
    simp [Network_u.setVertex, ageing.aged]
  have hold : ∀ c, c ∈ done → (ageing.selection_rule cfg ca pa sa vtr v s).2.vertex c
      = s.2.vertex c := by
    intro c hc
    have hcv : c ≠ v := fun e => hv (e ▸ hc)
    rw [hnet]
    simp [Network_u.setVertex, hcv]
  have hch := selection_rule_children cfg ca pa sa vtr v s
  have hpa := selection_rule_parents cfg ca pa sa vtr v s
  have hpe := selection_rule_peers cfg ca pa sa vtr v s
  have hu := toU64_le_of_nonneg vtr hvtr
  have hlen : s.1.children.length
      ≤ (ageing.selection_rule cfg ca pa sa vtr v s).1.children.length := by
    rcases hch with e | ⟨e, _, _⟩ <;> simp [e]
  refine ⟨?_, ?_, ?_, ?_, ?_, ?_, ?_, ?_⟩
  · rcases hch with e | ⟨e, _, hl⟩
    · rw [e]; exact h1
    · rw [e]
      simp only [List.length_append, List.length_singleton]
      omega
  · rcases hpa with e | ⟨e, _, hl⟩
    · rw [e]; exact le_trans h2 hlen
    · rw [e]
      simp only [List.length_append, List.length_singleton]
      omega
  · intro c hc
    rcases hch with e | ⟨e, ht, _⟩
    · rw [e] at hc
      obtain ⟨a, b⟩ := h3 c hc
      exact ⟨List.mem_cons_of_mem _ a, by rw [hold c a]; exact b⟩
    · rw [e] at hc
      rcases List.mem_append.1 hc with hc | hc
      · obtain ⟨a, b⟩ := h3 c hc
        exact ⟨List.mem_cons_of_mem _ a, by rw [hold c a]; exact b⟩
      · have hcv : c = v := by simpa using hc
        subst hcv
        exact ⟨List.mem_cons_self _ _, by rw [hage]; exact ht⟩
  · intro c hc
    rcases hpa with e | ⟨e, ht, _⟩
    · rw [e] at hc
      obtain ⟨a, b⟩ := h4 c hc
      exact ⟨List.mem_cons_of_mem _ a, by rw [hold c a]; exact b⟩
    · rw [e] at hc
      rcases List.mem_append.1 hc with hc | hc
      · obtain ⟨a, b⟩ := h4 c hc
        exact ⟨List.mem_cons_of_mem _ a, by rw [hold c a]; exact b⟩
      · have hcv : c = v := by simpa using hc
        subst hcv
        exact ⟨List.mem_cons_self _ _, by rw [hage]; exact ht⟩
  · intro c hc
    rcases hpe with e | ⟨e, ht⟩
    · rw [e] at hc
      obtain ⟨a, b⟩ := h5 c hc
      exact ⟨List.mem_cons_of_mem _ a, by rw [hold c a]; exact b⟩
    · rw [e] at hc
      rcases List.mem_append.1 hc with hc | hc
      · obtain ⟨a, b⟩ := h5 c hc
        exact ⟨List.mem_cons_of_mem _ a, by rw [hold c a]; exact b⟩
      · have hcv : c = v := by simpa using hc
        subst hcv
        exact ⟨List.mem_cons_self _ _, by rw [hage]; exact ht⟩
  · rcases hch with e | ⟨e, _, _⟩
    · rw [e]; exact h6
    · rw [e]
      refine List.Nodup.append h6 (List.nodup_singleton _) ?_
      intro c hc1 hc2
      have hcv : c = v := by simpa using hc2
      exact hv (hcv ▸ (h3 c hc1).1)
  · rcases hpa with e | ⟨e, _, _⟩
    · rw [e]; exact h7
    · rw [e]
      refine List.Nodup.append h7 (List.nodup_singleton _) ?_
      intro c hc1 hc2
      have hcv : c = v := by simpa using hc2
      exact hv (hcv ▸ (h4 c hc1).1)
  · rcases hpe with e | ⟨e, _⟩
    · rw [e]; exact h8
    · rw [e]
      refine List.Nodup.append h8 (List.nodup_singleton _) ?_
      intro c hc1 hc2
      have hcv : c = v := by simpa using hc2
      exact hv (hcv ▸ (h5 c hc1).1)

theorem selection_fold_inv [LinearOrderedField α] (cfg : CurveConfig α)
    (ca pa sa : Int × Int) (vtr : Int) (hvtr : 0 ≤ vtr) (vs : List Nat) (hnd : vs.Nodup)
    (done : List Nat) (hd : ∀ v ∈ vs, v ∉ done) (s : Pools × Network_u α)
    (h : ageing.PoolsInv ca pa sa vtr done s) :
    ∃ done2, ageing.PoolsInv ca pa sa vtr done2
      (vs.foldl (fun s v => ageing.selection_rule cfg ca pa sa vtr v s) s) := by
  induction vs generalizing done s with
  | nil => exact ⟨done, h⟩
  | cons v vs ih =>
    simp only [List.foldl_cons]
    have hn := List.nodup_cons.1 hnd
    apply ih hn.2 (v :: done)
    · intro x hx hxd
      rcases List.mem_cons.1 hxd with e | e
      · exact hn.1 (e ▸ hx)
      · exact hd x (List.mem_cons_of_mem _ hx) e
    · exact selection_rule_inv cfg ca pa sa vtr hvtr v done (hd v (List.mem_cons_self _ _)) s h

theorem truncToInt_of_nonneg [LinearOrderedField α] [FloorRing α] (x : α) (h : 0 ≤ x) :
    truncToInt x = ⌊x⌋ := by
  simp [truncToInt, h]

/-! ### C15: the pools of the selection pass -/

/-- C15: after `user_selection_and_ageing`, started with empty containers on any graph
with any visiting order that is a permutation of the vertices, a replacement rate that
is not negative and age bounds in the range where the comparison of an `int` with an
`unsigned` age is the comparison of the numbers: the number of children is at most the
floor of `N * replacement_rate`, the number of parents is at most the number of
children, every child has an incremented age of at least `senior_ages.first`, every
parent has an age within the parent age range, every peer has an age of at most
`child_ages.second`, and no vertex appears twice in the same container. -/
theorem selection_pools [LinearOrderedField α] [FloorRing α]
    (shuffle : List Nat → Rng α → List Nat × Rng α)
    (child_ages parent_ages senior_ages : Int × Int) (replacement_rate : α)
    (nw : Network_u α) (rng : Rng α) (cfg : CurveConfig α)
    (hperm : ∀ l r, (shuffle l r).1.Perm l)
    (hrate : 0 ≤ replacement_rate)
    (hsa : senior_ages.1 < 2147483648) (hpa1 : parent_ages.1 < 2147483648)
    (hpa2 : 0 ≤ parent_ages.2) (hca2 : 0 ≤ child_ages.2) :
    ((ageing.user_selection_and_ageing shuffle [] [] [] child_ages parent_ages senior_ages
        replacement_rate nw rng cfg).1.children.length : Int)
      ≤ ⌊(nw.num_vertices : α) * replacement_rate⌋ ∧
    (ageing.user_selection_and_ageing shuffle [] [] [] child_ages parent_ages senior_ages
        replacement_rate nw rng cfg).1.parents.length
      ≤ (ageing.user_selection_and_ageing shuffle [] [] [] child_ages parent_ages senior_ages
        replacement_rate nw rng cfg).1.children.length ∧
    (∀ c ∈ (ageing.user_selection_and_ageing shuffle [] [] [] child_ages parent_ages
        senior_ages replacement_rate nw rng cfg).1.children,
      senior_ages.1 ≤ (((ageing.user_selection_and_ageing shuffle [] [] [] child_ages
        parent_ages senior_ages replacement_rate nw rng cfg).2.1.vertex c).age : Int)) ∧
    (∀ c ∈ (ageing.user_selection_and_ageing shuffle [] [] [] child_ages parent_ages
        senior_ages replacement_rate nw rng cfg).1.parents,
      parent_ages.1 ≤ (((ageing.user_selection_and_ageing shuffle [] [] [] child_ages
        parent_ages senior_ages replacement_rate nw rng cfg).2.1.vertex c).age : Int) ∧
      (((ageing.user_selection_and_ageing shuffle [] [] [] child_ages
        parent_ages senior_ages replacement_rate nw rng cfg).2.1.vertex c).age : Int)
        ≤ parent_ages.2) ∧
    (∀ c ∈ (ageing.user_selection_and_ageing shuffle [] [] [] child_ages parent_ages
        senior_ages replacement_rate nw rng cfg).1.peers,
      (((ageing.user_selection_and_ageing shuffle [] [] [] child_ages
        parent_ages senior_ages replacement_rate nw rng cfg).2.1.vertex c).age : Int)
        ≤ child_ages.2) ∧
    (ageing.user_selection_and_ageing shuffle [] [] [] child_ages parent_ages senior_ages
        replacement_rate nw rng cfg).1.children.Nodup ∧
    (ageing.user_selection_and_ageing shuffle [] [] [] child_ages parent_ages senior_ages
        replacement_rate nw rng cfg).1.parents.Nodup ∧
    (ageing.user_selection_and_ageing shuffle [] [] [] child_ages parent_ages senior_ages
        replacement_rate nw rng cfg).1.peers.Nodup := by
  have hp := hperm (List.range nw.num_vertices) rng
  have hnd : (shuffle (List.range nw.num_vertices) rng).1.Nodup :=
    hp.nodup_iff.2 (List.nodup_range _)
  have hx : (0 : α) ≤ (nw.num_vertices : α) * replacement_rate :=
    mul_nonneg (Nat.cast_nonneg _) hrate
  have hvtr : 0 ≤ truncToInt ((nw.num_vertices : α) * replacement_rate) := by
    rw [truncToInt_of_nonneg _ hx]
    exact Int.floor_nonneg.2 hx
  obtain ⟨done2, h1, h2, h3, h4, h5, h6, h7, h8⟩ :=
    selection_fold_inv cfg child_ages parent_ages senior_ages
      (truncToInt ((nw.num_vertices : α) * replacement_rate)) hvtr
      (shuffle (List.range nw.num_vertices) rng).1 hnd [] (by simp)
      ({ children := [], parents := [], peers := [], peers_to_add := 0 }, nw)
      ⟨by simpa using hvtr, le_refl _, by simp, by simp, by simp, List.nodup_nil,
        List.nodup_nil, List.nodup_nil⟩
  refine ⟨le_of_le_of_eq h1 (truncToInt_of_nonneg _ hx), h2, fun c hc => ?_, fun c hc => ?_, fun c hc => ?_, h6, h7, h8⟩
  · exact toU32_le_cast _ _ (by omega) (h3 c hc).2
  · exact ⟨toU32_le_cast _ _ (by omega) (h4 c hc).2.1, le_toU32_cast _ _ hpa2 (h4 c hc).2.2⟩
  · exact le_toU32_cast _ _ hca2 (h5 c hc).2

theorem toI32_of_lt (n : Nat) (h : n < 2147483648) : toI32 (n : Int) = (n : Int) := by
  unfold toI32 Int.bmod
  simp only
  split_ifs <;> omega

/-! ### C16: the age increment of the selection pass -/

/-- C16: for every graph and every visiting order that is a permutation of the vertices,
`user_selection_and_ageing` leaves every user `v` with an age below the `int` range
with its age increased by exactly 1 and with the susceptibility
`utils::susceptibility(cfg, new age)`, whatever the containers hold before and after
the pass, hence whether or not the user is collected and whether or not a parent is
found. -/
theorem selection_ages_every_user [LinearOrderedField α] [FloorRing α]
    (shuffle : List Nat → Rng α → List Nat × Rng α) (children parents peers : List Nat)
    (child_ages parent_ages senior_ages : Int × Int) (replacement_rate : α)
    (nw : Network_u α) (rng : Rng α) (cfg : CurveConfig α)
    (hperm : ∀ l r, (shuffle l r).1.Perm l) (v : Nat) (hv : v < nw.num_vertices)
    (hage : (nw.vertex v).age + 1 < 2147483648) :
    ((ageing.user_selection_and_ageing shuffle children parents peers child_ages parent_ages
        senior_ages replacement_rate nw rng cfg).2.1.vertex v).age = (nw.vertex v).age + 1 ∧
    ((ageing.user_selection_and_ageing shuffle children parents peers child_ages parent_ages
        senior_ages replacement_rate nw rng cfg).2.1.vertex v).susceptibility
      = utils.susceptibility cfg (((nw.vertex v).age + 1 : Nat) : Int) := by
  have hp := hperm (List.range nw.num_vertices) rng
  have hnd : (shuffle (List.range nw.num_vertices) rng).1.Nodup :=
    hp.nodup_iff.2 (List.nodup_range _)
  have hmem : v ∈ (shuffle (List.range nw.num_vertices) rng).1 :=
    hp.mem_iff.2 (List.mem_range.2 hv)
  have hmod : ((nw.vertex v).age + 1) % 4294967296 = (nw.vertex v).age + 1 :=
    Nat.mod_eq_of_lt (by omega)
  have key := selection_fold_vertex cfg child_ages parent_ages senior_ages
    (truncToInt ((nw.num_vertices : α) * replacement_rate))
    (shuffle (List.range nw.num_vertices) rng).1 hnd
    ({ children := children, parents := parents, peers := peers, peers_to_add := 0 }, nw) v
  rw [if_pos hmem] at key
  have key2 : (ageing.user_selection_and_ageing shuffle children parents peers child_ages
      parent_ages senior_ages replacement_rate nw rng cfg).2.1.vertex v
      = ageing.aged cfg (nw.vertex v) := key
  rw [key2]
  simp only [ageing.aged, hmod]
  rw [toI32_of_lt _ hage]
  exact ⟨trivial, rfl⟩

/-- C16 at a concrete input: in `seniorNet` the senior 0 (age 79, collected as a child)
and the user 3 (age 49, collected nowhere) both leave the pass one year older. -/
theorem selection_ages_every_user_witness :
    ((ageing.user_selection_and_ageing keepOrder [] [] [] (0, 10) (20, 40) (70, 1000) (1 / 5)
        seniorNet (constRng ⟨0, 0, 0⟩) scenarioCfg.custom).2.1.vertex 0).age = 79 + 1 ∧
    ((ageing.user_selection_and_ageing keepOrder [] [] [] (0, 10) (20, 40) (70, 1000) (1 / 5)
        seniorNet (constRng ⟨0, 0, 0⟩) scenarioCfg.custom).2.1.vertex 3).age = 49 + 1 :=
  ⟨(selection_ages_every_user keepOrder [] [] [] (0, 10) (20, 40) (70, 1000) (1 / 5)
      seniorNet (constRng ⟨0, 0, 0⟩) scenarioCfg.custom (fun l _ => List.Perm.refl l) 0
      (by decide) (by decide)).1,
   (selection_ages_every_user keepOrder [] [] [] (0, 10) (20, 40) (70, 1000) (1 / 5)
      seniorNet (constRng ⟨0, 0, 0⟩) scenarioCfg.custom (fun l _ => List.Perm.refl l) 3
      (by decide) (by decide)).1⟩

/-! ### C18: the reset of a child -/

/-- C18: for every child and parent with `child != parent` and a positive number of
media, `reinitialize` sets the age of the child to 1, its opinion and tolerance to those
of the parent, its susceptibility to `utils::susceptibility(cfg, 1)` and its
`used_media` to a value below `num_media`; the record of the parent and of every vertex
other than the child, the out-edge lists and the vertex count are unchanged. -/
theorem reinitialize_resets_child [LinearOrderedField α] (child parent : Nat)
    (num_media : Int) (nw : Network_u α) (rng : Rng α) (cfg : CurveConfig α)
    (hne : child ≠ parent) (hm : 0 < num_media) :
    (( ageing.reinitialize child parent num_media nw rng cfg).1.vertex child).age = 1 ∧
    (( ageing.reinitialize child parent num_media nw rng cfg).1.vertex child).opinion
      = (nw.vertex parent).opinion ∧
    (( ageing.reinitialize child parent num_media nw rng cfg).1.vertex child).tolerance
      = (nw.vertex parent).tolerance ∧
    (( ageing.reinitialize child parent num_media nw rng cfg).1.vertex child).susceptibility
      = utils.susceptibility cfg 1 ∧
    ((( ageing.reinitialize child parent num_media nw rng cfg).1.vertex child).used_media : Int)
      < num_media ∧
    ( ageing.reinitialize child parent num_media nw rng cfg).1.vertex parent = nw.vertex parent ∧
    (∀ x, x ≠ child →
      ( ageing.reinitialize child parent num_media nw rng cfg).1.vertex x = nw.vertex x) ∧
    ( ageing.reinitialize child parent num_media nw rng cfg).1.out = nw.out ∧
    ( ageing.reinitialize child parent num_media nw rng cfg).1.num_vertices
      = nw.num_vertices := by
  have hpc : parent ≠ child := fun e => hne e.symm
  refine ⟨by simp [ageing.reinitialize, Network_u.setVertex],
    by simp [ageing.reinitialize, Network_u.setVertex],
    by simp [ageing.reinitialize, Network_u.setVertex],
    by simp [ageing.reinitialize, Network_u.setVertex], ?_,
    by simp [ageing.reinitialize, Network_u.setVertex, hpc],
    fun x hx => by simp [ageing.reinitialize, Network_u.setVertex, hx], rfl, rfl⟩
  simp only [ageing.reinitialize, Network_u.setVertex, if_true, utils.get_rand_int, toU64]
  have h1 := Int.emod_nonneg (rng.peek.n : Int) (ne_of_gt hm)
  have h2 := Int.emod_lt_of_pos (rng.peek.n : Int) hm
  simp only [sub_zero, zero_add]
  omega

/-- C18 at a concrete input: the senior 0 of `seniorNet` reset after the parent 1, with
two media. -/
theorem reinitialize_resets_child_witness :
    (( ageing.reinitialize 0 1 2 seniorNet (intRng 1) scenarioCfg.custom).1.vertex 0).age = 1 ∧
    (( ageing.reinitialize 0 1 2 seniorNet (intRng 1) scenarioCfg.custom).1.vertex 0).opinion
      = (seniorNet.vertex 1).opinion ∧
    ((( ageing.reinitialize 0 1 2 seniorNet (intRng 1) scenarioCfg.custom).1.vertex 0).used_media
      : Int) < 2 :=
  ⟨(reinitialize_resets_child 0 1 2 seniorNet (intRng 1) scenarioCfg.custom (by decide)
      (by decide)).1,
   (reinitialize_resets_child 0 1 2 seniorNet (intRng 1) scenarioCfg.custom (by decide)
      (by decide)).2.1,
   (reinitialize_resets_child 0 1 2 seniorNet (intRng 1) scenarioCfg.custom (by decide)
      (by decide)).2.2.2.2.1⟩

/-! ### C14, C15: concrete inputs -/

/-- C14 at a concrete input: the two users of `farApart` have age 1, outside the parent
range 20 to 40, and `ageing` returns with the edges as they were. -/
theorem ageing_skip_without_parents_witness :
    ∃ r, ageing.ageing keepOrder 10 (1 / 5 : ℚ) 1 (0, 10) (20, 40) (70, 1000) farApart
        (constRng ⟨0, 0, 0⟩) scenarioCfg.custom = Outcome.value r ∧
      r.1.out = (farApart : Network_u ℚ).out ∧
      r.1.num_vertices = (farApart : Network_u ℚ).num_vertices ∧
      ∀ x, (r.1.vertex x).opinion = ((farApart : Network_u ℚ).vertex x).opinion ∧
        (r.1.vertex x).tolerance = ((farApart : Network_u ℚ).vertex x).tolerance ∧
        (r.1.vertex x).used_media = ((farApart : Network_u ℚ).vertex x).used_media :=
  ageing_skip_without_parents keepOrder 10 (1 / 5 : ℚ) 1 (0, 10) (20, 40) (70, 1000) farApart
    (constRng ⟨0, 0, 0⟩) scenarioCfg.custom (fun l _ => List.Perm.refl l)
    (by decide) (by decide)
    (by
      intro v _
      by_cases h : v = 0 <;> simp [farApart, h])

/-- C15 at a concrete input: the pools collected in `seniorNet` with replacement rate
1/5, where the floor of `5 * 1/5` is 1. -/
theorem selection_pools_witness :
    ((ageing.user_selection_and_ageing keepOrder [] [] [] (0, 10) (20, 40) (70, 1000) (1 / 5)
        seniorNet (constRng ⟨0, 0, 0⟩) scenarioCfg.custom).1.children.length : Int)
      ≤ ⌊((seniorNet.num_vertices : ℚ)) * (1 / 5)⌋ ∧
    (ageing.user_selection_and_ageing keepOrder [] [] [] (0, 10) (20, 40) (70, 1000) (1 / 5)
        seniorNet (constRng ⟨0, 0, 0⟩) scenarioCfg.custom).1.parents.length
      ≤ (ageing.user_selection_and_ageing keepOrder [] [] [] (0, 10) (20, 40) (70, 1000) (1 / 5)
        seniorNet (constRng ⟨0, 0, 0⟩) scenarioCfg.custom).1.children.length :=
  ⟨(selection_pools keepOrder (0, 10) (20, 40) (70, 1000) (1 / 5) seniorNet
      (constRng ⟨0, 0, 0⟩) scenarioCfg.custom (fun l _ => List.Perm.refl l) (by norm_num)
      (by decide) (by decide) (by decide) (by decide)).1,
   (selection_pools keepOrder (0, 10) (20, 40) (70, 1000) (1 / 5) seniorNet
      (constRng ⟨0, 0, 0⟩) scenarioCfg.custom (fun l _ => List.Perm.refl l) (by norm_num)
      (by decide) (by decide) (by decide) (by decide)).2.1⟩

/-! ### C12: normalisation of the ad fractions -/

/-- C12, the code at a failing input: in `driftedMedia` the medium 1 (ads 5, no users)
is chosen; its ads become its user count 0, the total of all ads is 0, and
`normalize_ads` divides every `ads` by this total: the ad fractions are the quotients
`0/0` (0 in exact arithmetic, NaN in IEEE arithmetic) and do not sum to 1. -/
theorem media_revision_zero_ads :
    (random_medium driftedMedia (intRng 1)).1 = 1 ∧
    ((revision.media_revision 0 driftedMedia (intRng 1)).1.vertex 0).ads = 0 ∧
    ((revision.media_revision 0 driftedMedia (intRng 1)).1.vertex 1).ads = 0 ∧
    (revision.media_revision 0 driftedMedia (intRng 1)).1.ads_normalized_sum = 0 ∧
    (revision.media_revision 0 driftedMedia (intRng 1)).1.ads_normalized_sum ≠ 1 := by
  refine ⟨?_, ?_, ?_, ?_, ?_⟩ <;> decide!

/-! ### C13: the audience-count invariant -/

/-- C13, the code at a failing input: both users of the network use medium 0, whose
`users` is 2, so the audience counts are right.  `reinitialize` of user 0 with the
integer draw 1 sets its `used_media` to 1 and cannot touch the media network: medium 0
still claims 2 users and has 1, medium 1 claims none and has 1. -/
theorem reinitialize_breaks_audience_count :
    audience_invariant (twoKinds 2 (⟨1 / 2, 1 / 2, 1 / 2, 30, 0⟩ : User ℚ) 0
      ⟨1 / 2, 1 / 2, 1 / 2, 80, 0⟩) audienceMedia ∧
    (( ageing.reinitialize 0 1 2 (twoKinds 2 (⟨1 / 2, 1 / 2, 1 / 2, 30, 0⟩ : User ℚ) 0
      ⟨1 / 2, 1 / 2, 1 / 2, 80, 0⟩) (intRng 1) scenarioCfg.custom).1.vertex 0).used_media = 1 ∧
    (audienceMedia.vertex 0).users = 2 ∧
    audience_count ( ageing.reinitialize 0 1 2 (twoKinds 2 (⟨1 / 2, 1 / 2, 1 / 2, 30, 0⟩ : User ℚ) 0
      ⟨1 / 2, 1 / 2, 1 / 2, 80, 0⟩) (intRng 1) scenarioCfg.custom).1 0 = 1 ∧
    ¬ audience_invariant ( ageing.reinitialize 0 1 2
      (twoKinds 2 (⟨1 / 2, 1 / 2, 1 / 2, 30, 0⟩ : User ℚ) 0 ⟨1 / 2, 1 / 2, 1 / 2, 80, 0⟩)
      (intRng 1) scenarioCfg.custom).1 audienceMedia := by
  have h1 : audience_count ( ageing.reinitialize 0 1 2
      (twoKinds 2 (⟨1 / 2, 1 / 2, 1 / 2, 30, 0⟩ : User ℚ) 0 ⟨1 / 2, 1 / 2, 1 / 2, 80, 0⟩)
      (intRng 1) scenarioCfg.custom).1 0 = 1 := by decide!
  refine ⟨?_, by decide!, by decide!, h1, ?_⟩
  · intro m hm
    have hm2 : m < 2 := hm
    interval_cases m <;> decide!
  · intro h
    have h0 := h 0 (by decide)
    rw [h1] at h0
    exact absurd h0 (by decide!)

theorem detach_step_out_self [LinearOrderedField α] (v : Nat) (g : Network_u α) (w : Nat) :
    (ageing.detach_step v g w).out w = ageing.detached v (g.out w) := by
  unfold ageing.detach_step ageing.detached revision.normalize_weights
  simp only [Network_u.out_degree, Network_u.setWeight, setOut_out_self]
  by_cases h1 : (List.map (fun e : Nat × α => if e.1 = v then (e.1, (0 : α)) else e)
      (g.out w)).length > 1
  · have h0 : (List.map (fun e : Nat × α => if e.1 = v then (e.1, (0 : α)) else e)
        (g.out w)).length ≠ 0 := by omega
    rw [if_pos h1, if_pos h1, if_pos h0]
    split_ifs <;> simp [Network_u.setOut]
  · rw [if_neg h1, if_neg h1]
    simp [Network_u.setOut]

theorem detach_step_out_other [LinearOrderedField α] (v : Nat) (g : Network_u α) (w x : Nat)
    (hx : x ≠ w) : (ageing.detach_step v g w).out x = g.out x := by
  unfold ageing.detach_step revision.normalize_weights
  simp only [Network_u.out_degree, Network_u.setWeight, setOut_out_self]
  split_ifs <;> simp [Network_u.setOut, hx]

theorem detach_step_meta [LinearOrderedField α] (v : Nat) (g : Network_u α) (w : Nat) :
    (ageing.detach_step v g w).num_vertices = g.num_vertices ∧
      (ageing.detach_step v g w).vertex = g.vertex := by
  unfold ageing.detach_step revision.normalize_weights
  simp only [Network_u.out_degree, Network_u.setWeight, setOut_out_self]
  split_ifs <;> simp [Network_u.setOut]

theorem map_fst_zeroed [LinearOrderedField α] (v : Nat) (l : List (Nat × α)) :
    (l.map (fun e : Nat × α => if e.1 = v then (e.1, (0 : α)) else e)).map Prod.fst
      = l.map Prod.fst := by
  induction l with
  | nil => rfl
  | cons e es ih =>
    rw [List.map_cons, List.map_cons, List.map_cons, ih]
    by_cases h : e.1 = v <;> simp [h]

theorem map_fst_div [LinearOrderedField α] (c : α) (l : List (Nat × α)) :
    (l.map (fun e : Nat × α => (e.1, e.2 / c))).map Prod.fst = l.map Prod.fst := by
  induction l with
  | nil => rfl
  | cons e es ih => rw [List.map_cons, List.map_cons, List.map_cons, ih]

theorem detached_targets [LinearOrderedField α] (v : Nat) (l : List (Nat × α)) :
    (ageing.detached v l).map Prod.fst = l.map Prod.fst := by
  unfold ageing.detached
  simp only
  split_ifs
  · rw [map_fst_div, map_fst_zeroed]
  · exact map_fst_zeroed v l
  · exact map_fst_zeroed v l

theorem remove_edges_eq_fold [LinearOrderedField α] (v : Nat) (nw : Network_u α) :
    ageing.remove_edges v nw
      = ((nw.in_sources v).foldl (ageing.detach_step v) nw).clear_vertex v := rfl

theorem detach_fold_out_not_mem [LinearOrderedField α] (v : Nat) (ws : List Nat)
    (g : Network_u α) (x : Nat) (hx : x ∉ ws) :
    (ws.foldl (ageing.detach_step v) g).out x = g.out x := by
  induction ws generalizing g with
  | nil => rfl
  | cons w ws ih =>
    simp only [List.foldl_cons]
    rw [ih _ (fun h => hx (List.mem_cons_of_mem _ h))]
    exact detach_step_out_other v g w x (fun h => hx (h ▸ List.mem_cons_self _ _))

theorem detach_fold_out_mem [LinearOrderedField α] (v : Nat) (ws : List Nat) (hnd : ws.Nodup)
    (g : Network_u α) (x : Nat) (hx : x ∈ ws) :
    (ws.foldl (ageing.detach_step v) g).out x = ageing.detached v (g.out x) := by
  induction ws generalizing g with
  | nil => simp at hx
  | cons w ws ih =>
    simp only [List.foldl_cons]
    have hn := List.nodup_cons.1 hnd
    by_cases hxw : x = w
    · subst hxw
      rw [detach_fold_out_not_mem v ws _ x hn.1, detach_step_out_self]
    · have hxs : x ∈ ws := by
        rcases List.mem_cons.1 hx with h | h
        · exact absurd h hxw
        · exact h
      rw [ih hn.2 _ hxs, detach_step_out_other v g w x hxw]

theorem detach_fold_targets [LinearOrderedField α] (v : Nat) (ws : List Nat)
    (g : Network_u α) (x : Nat) :
    ((ws.foldl (ageing.detach_step v) g).out x).map Prod.fst = (g.out x).map Prod.fst := by
  induction ws generalizing g with
  | nil => rfl
  | cons w ws ih =>
    simp only [List.foldl_cons]
    rw [ih]
    by_cases hxw : x = w
    · subst hxw
      rw [detach_step_out_self, detached_targets]
    · rw [detach_step_out_other v g w x hxw]

theorem detach_fold_meta [LinearOrderedField α] (v : Nat) (ws : List Nat) (g : Network_u α) :
    (ws.foldl (ageing.detach_step v) g).num_vertices = g.num_vertices ∧
      (ws.foldl (ageing.detach_step v) g).vertex = g.vertex := by
  induction ws generalizing g with
  | nil => exact ⟨rfl, rfl⟩
  | cons w ws ih =>
    simp only [List.foldl_cons]
    obtain ⟨a, b⟩ := ih (ageing.detach_step v g w)
    obtain ⟨c, d⟩ := detach_step_meta v g w
    exact ⟨a.trans c, b.trans d⟩

theorem any_fst_eq (b : Nat) (l : List (Nat × α)) :
    l.any (fun e => e.1 == b) = (l.map Prod.fst).any (fun t => t == b) := by
  induction l with
  | nil => rfl
  | cons e es ih => rw [List.map_cons, List.any_cons, List.any_cons, ih]

theorem has_edge_eq_of_targets (g h : Network_u α) (a b : Nat)
    (e : (g.out a).map Prod.fst = (h.out a).map Prod.fst) : g.has_edge a b = h.has_edge a b := by
  unfold Network_u.has_edge
  rw [any_fst_eq, any_fst_eq, e]

theorem any_filter_ne (v b : Nat) (hb : b ≠ v) (l : List (Nat × α)) :
    (l.filter (fun e => e.1 != v)).any (fun e => e.1 == b) = l.any (fun e => e.1 == b) := by
  induction l with
  | nil => rfl
  | cons e es ih =>
    rw [List.filter_cons]
    by_cases h : e.1 = v
    · have hne : (e.1 == b) = false := by
        simp only [beq_eq_false_iff_ne, ne_eq, h]
        exact fun e2 => hb e2.symm
      simp only [h, bne_self_eq_false, Bool.false_eq_true, if_false, List.any_cons, ih]
      rw [← h, hne, Bool.false_or]
    · have hb2 : (e.1 != v) = true := by simp [h]
      simp only [hb2, if_true, List.any_cons, ih]

theorem length_gt_one_of_two (v : Nat) (l : List (Nat × α)) (h1 : ∃ e ∈ l, e.1 = v)
    (h2 : ∃ e ∈ l, e.1 ≠ v) : 1 < l.length := by
  obtain ⟨a, ha, hav⟩ := h1
  obtain ⟨b, hb, hbv⟩ := h2
  match l, ha, hb with
  | [], ha, _ => simp at ha
  | [x], ha, hb =>
    simp only [List.mem_singleton] at ha hb
    exact absurd (ha ▸ hav) (hb ▸ hbv)
  | _ :: _ :: _, _, _ => simp

theorem sum_zeroed [LinearOrderedField α] (v : Nat) (l : List (Nat × α)) :
    ((l.map (fun e : Nat × α => if e.1 = v then (e.1, (0 : α)) else e)).map Prod.snd).sum
      = ((l.filter (fun e => e.1 != v)).map Prod.snd).sum := by
  induction l with
  | nil => rfl
  | cons e es ih =>
    rw [List.map_cons, List.map_cons, List.sum_cons, ih, List.filter_cons]
    by_cases h : e.1 = v <;> simp [h]

theorem sum_zeroed_div_filter [LinearOrderedField α] (v : Nat) (c : α) (l : List (Nat × α)) :
    ((((l.map (fun e : Nat × α => if e.1 = v then (e.1, (0 : α)) else e)).map
        (fun e => (e.1, e.2 / c))).filter (fun e => e.1 != v)).map Prod.snd).sum
      = ((l.filter (fun e => e.1 != v)).map Prod.snd).sum / c := by
  induction l with
  | nil => simp
  | cons e es ih =>
    rw [List.map_cons, List.map_cons, List.filter_cons, List.filter_cons]
    by_cases h : e.1 = v
    · simp only [h, if_true, bne_self_eq_false, Bool.false_eq_true, if_false]
      exact ih
    · have hb : (e.1 != v) = true := by simp [h]
      simp only [h, if_false, hb, if_true, List.map_cons, List.sum_cons, ih, add_div]

/-! ### C17: edge removal -/

/-- C17: for every graph and vertex `v`, after `remove_edges(v)` the in-degree and the
out-degree of `v` are 0, an edge between two vertices other than `v` is present exactly
if it was present before, and every vertex `w` other than `v` that had an edge to `v`
and whose remaining out-edges have a positive total weight has out-weights that sum
to 1. -/
theorem remove_edges_detaches [LinearOrderedField α] (v : Nat) (nw : Network_u α) :
    ( ageing.remove_edges v nw).in_degree v = 0 ∧
    ( ageing.remove_edges v nw).out_degree v = 0 ∧
    (∀ a b, a ≠ v → b ≠ v → ( ageing.remove_edges v nw).has_edge a b = nw.has_edge a b) ∧
    (∀ w, w < nw.num_vertices → w ≠ v → nw.has_edge w v = true →
      0 < (((nw.out w).filter (fun e => e.1 != v)).map Prod.snd).sum →
      ( ageing.remove_edges v nw).weight_sum w = 1) := by
  rw [remove_edges_eq_fold]
  refine ⟨?_, ?_, ?_, ?_⟩
  · have hno : ∀ u, (((nw.in_sources v).foldl (ageing.detach_step v) nw).clear_vertex v).has_edge
        u v = false := by
      intro u
      unfold Network_u.has_edge Network_u.clear_vertex
      by_cases hu : u = v
      · simp [hu]
      · simp [hu]
    unfold Network_u.in_degree
    rw [List.length_eq_zero, List.filter_eq_nil_iff]
    intro u _
    simp [hno u]
  · simp [Network_u.out_degree, Network_u.clear_vertex]
  · intro a b ha hb
    have h1 : (((nw.in_sources v).foldl (ageing.detach_step v) nw).clear_vertex v).has_edge a b
        = ((nw.in_sources v).foldl (ageing.detach_step v) nw).has_edge a b := by
      unfold Network_u.has_edge Network_u.clear_vertex
      simp only [ha, if_false]
      exact any_filter_ne v b hb _
    rw [h1]
    exact has_edge_eq_of_targets _ _ a b (detach_fold_targets v _ nw a)
  · intro w hw hwv hedge hpos
    have hmem : w ∈ nw.in_sources v := by
      unfold Network_u.in_sources
      exact List.mem_filter.2 ⟨List.mem_range.2 hw, hedge⟩
    have hnd : (nw.in_sources v).Nodup := by
      unfold Network_u.in_sources
      exact (List.nodup_range _).filter _
    unfold Network_u.weight_sum
    have hout : (((nw.in_sources v).foldl (ageing.detach_step v) nw).clear_vertex v).out w
        = (ageing.detached v (nw.out w)).filter (fun e => e.1 != v) := by
      simp only [Network_u.clear_vertex, hwv, if_false]
      rw [detach_fold_out_mem v _ hnd nw w hmem]
    rw [hout]
    have hlen : 1 < (nw.out w).length := by
      apply length_gt_one_of_two v
      · unfold Network_u.has_edge at hedge
        obtain ⟨e, he, hev⟩ := List.any_eq_true.1 hedge
        exact ⟨e, he, by simpa using hev⟩
      · by_contra hcon
        push_neg at hcon
        have : (nw.out w).filter (fun e => e.1 != v) = [] := by
          rw [List.filter_eq_nil_iff]
          intro e he
          simp [hcon e he]
        rw [this] at hpos
        simp at hpos
    unfold ageing.detached
    simp only [List.length_map, hlen, if_true, foldl_add_snd, zero_add, sum_zeroed]
    rw [if_pos (ne_of_gt hpos), sum_zeroed_div_filter]
    exact div_self (ne_of_gt hpos)

theorem normalize_weights_meta [LinearOrderedField α] (x : Nat) (g : Network_u α) :
    ( revision.normalize_weights x g).vertex = g.vertex ∧
      ( revision.normalize_weights x g).num_vertices = g.num_vertices := by
  unfold revision.normalize_weights
  dsimp only
  split_ifs <;> exact ⟨rfl, rfl⟩

theorem normalize_weights_out_other [LinearOrderedField α] (x y : Nat) (g : Network_u α)
    (h : y ≠ x) : ( revision.normalize_weights x g).out y = g.out y := by
  unfold revision.normalize_weights
  dsimp only
  split_ifs <;> simp [Network_u.setOut, h]

theorem normalize_weights_targets [LinearOrderedField α] (x y : Nat) (g : Network_u α) :
    (( revision.normalize_weights x g).out y).map Prod.fst = (g.out y).map Prod.fst := by
  by_cases h : y = x
  · subst h
    unfold revision.normalize_weights
    dsimp only
    split_ifs
    · rw [setOut_out_self, map_fst_div]
    · rfl
    · rfl
  · rw [normalize_weights_out_other x y g h]

theorem normalize_weights_has_edge [LinearOrderedField α] (x a b : Nat) (g : Network_u α) :
    ( revision.normalize_weights x g).has_edge a b = g.has_edge a b :=
  has_edge_eq_of_targets _ _ a b (normalize_weights_targets x a g)

theorem add_edge_out_other (g : Network_u α) (u t y : Nat) (w : α) (h : y ≠ u) :
    (g.add_edge u t w).out y = g.out y := by
  simp [Network_u.add_edge, Network_u.setOut, h]

theorem add_edge_out_self (g : Network_u α) (u t : Nat) (w : α) :
    (g.add_edge u t w).out u = insertEdge t w (g.out u) := by
  simp [Network_u.add_edge, Network_u.setOut]

theorem mem_insertEdge_of_mem (t : Nat) (w : α) (l : List (Nat × α)) (e : Nat × α)
    (he : e ∈ l) : e ∈ insertEdge t w l := by
  induction l with
  | nil => simp at he
  | cons x xs ih =>
    simp only [insertEdge]
    split_ifs
    · exact he
    · exact List.mem_cons_of_mem _ he
    · rcases List.mem_cons.1 he with h | h
      · exact h ▸ List.mem_cons_self _ _
      · exact List.mem_cons_of_mem _ (ih h)

theorem any_insertEdge_self (t : Nat) (w : α) (l : List (Nat × α)) :
    (insertEdge t w l).any (fun e => e.1 == t) = true := by
  induction l with
  | nil => simp [insertEdge]
  | cons x xs ih =>
    simp only [insertEdge]
    split_ifs with h1 h2
    · simp [h1]
    · simp
    · rw [List.any_cons, ih, Bool.or_true]

theorem has_edge_add_edge_self (g : Network_u α) (u t : Nat) (w : α) :
    (g.add_edge u t w).has_edge u t = true := by
  unfold Network_u.has_edge
  rw [add_edge_out_self]
  exact any_insertEdge_self t w _

theorem has_edge_add_edge_mono (g : Network_u α) (u t a b : Nat) (w : α)
    (h : g.has_edge a b = true) : (g.add_edge u t w).has_edge a b = true := by
  by_cases ha : a = u
  · subst ha
    unfold Network_u.has_edge at h ⊢
    rw [add_edge_out_self]
    obtain ⟨e, he, hb⟩ := List.any_eq_true.1 h
    exact List.any_eq_true.2 ⟨e, mem_insertEdge_of_mem t w _ e he, hb⟩
  · unfold Network_u.has_edge at h ⊢
    rw [add_edge_out_other g u t a w ha]
    exact h

theorem sum_insertEdge_new [LinearOrderedField α] (t : Nat) (w : α) (l : List (Nat × α))
    (h : l.any (fun e => e.1 == t) = false) :
    ((insertEdge t w l).map Prod.snd).sum = (l.map Prod.snd).sum + w := by
  induction l with
  | nil => simp [insertEdge]
  | cons x xs ih =>
    rw [List.any_cons, Bool.or_eq_false_iff] at h
    have hx : ¬ x.1 = t := by simpa using h.1
    simp only [insertEdge, hx, if_false]
    split_ifs
    · simp only [List.map_cons, List.sum_cons]
      ring
    · simp only [List.map_cons, List.sum_cons, ih h.2]
      ring

theorem redraw_peer_free (nw : Network_u α) (taken : Nat → Bool) (fuel peer : Nat)
    (rng : Rng α) (r : Nat × Rng α) (h : ageing.redraw_peer nw taken fuel peer rng = some r) :
    taken r.1 = false := by
  induction fuel generalizing peer rng with
  | zero =>
    simp only [ageing.redraw_peer] at h
    split_ifs at h with ht
    simp only [Option.some.injEq] at h
    rw [← h]
    simpa using ht
  | succ n ih =>
    simp only [ageing.redraw_peer] at h
    split_ifs at h with ht
    · exact ih _ _ h
    · simp only [Option.some.injEq] at h
      rw [← h]
      simpa using ht

theorem attach_out_facts [LinearOrderedField α] (child : Nat) (od : Int) (g : Network_u α)
    (p : Nat) (hp : g.has_edge child p = false) :
    (ageing.attach_out child od g p).vertex = g.vertex ∧
    (∀ a b, g.has_edge a b = true → (ageing.attach_out child od g p).has_edge a b = true) ∧
    (ageing.attach_out child od g p).has_edge child p = true ∧
    (p ≠ child → (ageing.attach_out child od g p).weight_sum child
      = g.weight_sum child + 0.5 / (od : α)) ∧
    (∀ x, x ≠ child → x ≠ p → (ageing.attach_out child od g p).out x = g.out x) := by
  unfold ageing.attach_out
  refine ⟨(normalize_weights_meta _ _).1, fun a b h => ?_, ?_, fun hpc => ?_, fun x hx hxp => ?_⟩
  · rw [normalize_weights_has_edge]
    exact has_edge_add_edge_mono _ _ _ _ _ _ h
  · rw [normalize_weights_has_edge]
    exact has_edge_add_edge_self _ _ _ _
  · unfold Network_u.weight_sum
    rw [normalize_weights_out_other _ _ _ (fun e => hpc e.symm), add_edge_out_self]
    exact sum_insertEdge_new _ _ _ hp
  · rw [normalize_weights_out_other _ _ _ hxp, add_edge_out_other _ _ _ _ _ hx]

theorem attach_in_facts [LinearOrderedField α] (child : Nat) (id : Int) (g : Network_u α)
    (p : Nat) :
    (ageing.attach_in child id g p).vertex = g.vertex ∧
    (∀ a b, g.has_edge a b = true → (ageing.attach_in child id g p).has_edge a b = true) ∧
    (ageing.attach_in child id g p).has_edge p child = true ∧
    (∀ x, x ≠ p → (ageing.attach_in child id g p).out x = g.out x) := by
  unfold ageing.attach_in
  refine ⟨(normalize_weights_meta _ _).1, fun a b h => ?_, ?_, fun x hxp => ?_⟩
  · rw [normalize_weights_has_edge]
    exact has_edge_add_edge_mono _ _ _ _ _ _ h
  · rw [normalize_weights_has_edge]
    exact has_edge_add_edge_self _ _ _ _
  · rw [normalize_weights_out_other _ _ _ hxp, add_edge_out_other _ _ _ _ _ hxp]

theorem peer_out_loop_facts [LinearOrderedField α] (fuel child : Nat) (peers : List Nat)
    (od : Int) (count : Nat) (j : Int) (s t : PeerState α)
    (h : ageing.peer_out_loop fuel child peers od count j s = Outcome.value t) :
    t.nw.vertex = s.nw.vertex ∧
    (∀ a b, s.nw.has_edge a b = true → t.nw.has_edge a b = true) ∧
    (∃ rs : List Nat, rs.length = count ∧
      t.peer_opinions = s.peer_opinions + (rs.map (fun p => (s.nw.vertex p).opinion)).sum ∧
      ∀ p ∈ rs, t.nw.has_edge child p = true) ∧
    (t.nw.has_edge child child = false →
      t.nw.weight_sum child = s.nw.weight_sum child + (count : α) * (0.5 / (od : α))) ∧
    (∀ x, x ≠ child → s.nw.has_edge child x = true → t.nw.out x = s.nw.out x) := by
  induction count generalizing j s with
  | zero =>
    simp only [ageing.peer_out_loop, Outcome.value.injEq] at h
    subst h
    exact ⟨rfl, fun _ _ h => h, ⟨[], rfl, by simp, by simp⟩, fun _ => by simp, fun _ _ _ => rfl⟩
  | succ n ih =>
    rw [ageing.peer_out_loop] at h
    split_ifs at h with hl
    split at h
    · exact absurd h (by simp)
    · rename_i r hrd
      have hfree : s.nw.has_edge child r.1 = false := redraw_peer_free _ _ _ _ _ _ hrd
      obtain ⟨f1, f2, f3, f4, f5⟩ := attach_out_facts child od s.nw r.1 hfree
      obtain ⟨i1, i2, ⟨rs, hrs, hop, hedges⟩, i4, i5⟩ := ih _ _ h
      have i1' : t.nw.vertex = s.nw.vertex := i1.trans f1
      refine ⟨i1', fun a b hab => i2 a b (f2 a b hab), ⟨r.1 :: rs, by simp [hrs], ?_, ?_⟩,
        fun hself => ?_, fun x hx hxe => ?_⟩
      · rw [hop]
        have e1 : (ageing.attach_out child od s.nw r.1).vertex = s.nw.vertex := f1
        simp only [List.map_cons, List.sum_cons]
        change s.peer_opinions + ((ageing.attach_out child od s.nw r.1).vertex r.1).opinion
          + (rs.map (fun p => ((ageing.attach_out child od s.nw r.1).vertex p).opinion)).sum = _
        rw [e1]
        ring
      · intro p hp
        rcases List.mem_cons.1 hp with e | e
        · rw [e]
          exact i2 _ _ f3
        · exact hedges p e
      · have hs1 : (ageing.attach_out child od s.nw r.1).has_edge child child = false := by
          by_contra hc
          have := i2 child child (by simpa using hc)
          rw [hself] at this
          exact absurd this (by simp)
        have hrc : r.1 ≠ child := by
          intro e
          rw [e] at f3
          rw [e] at hs1
          rw [hs1] at f3
          exact absurd f3 (by simp)
        have h4 := i4 hself
        have e4 : (ageing.attach_out child od s.nw r.1).weight_sum child
            = s.nw.weight_sum child + 0.5 / (od : α) := f4 hrc
        change t.nw.weight_sum child
          = (ageing.attach_out child od s.nw r.1).weight_sum child + _ at h4
        rw [h4, e4]
        push_cast
        ring
      · have hxr : x ≠ r.1 := by
          intro e
          rw [← e] at hfree
          rw [hfree] at hxe
          exact absurd hxe (by simp)
        have := i5 x hx (f2 _ _ hxe)
        exact this.trans (f5 x hx hxr)

theorem peer_in_loop_facts [LinearOrderedField α] (fuel child : Nat) (peers : List Nat)
    (id : Int) (count : Nat) (j : Int) (s t : PeerState α)
    (h : ageing.peer_in_loop fuel child peers id count j s = Outcome.value t) :
    t.nw.vertex = s.nw.vertex ∧
    (∀ a b, s.nw.has_edge a b = true → t.nw.has_edge a b = true) ∧
    (∃ rs : List Nat, rs.length = count ∧
      t.peer_opinions = s.peer_opinions + (rs.map (fun p => (s.nw.vertex p).opinion)).sum ∧
      ∀ p ∈ rs, t.nw.has_edge p child = true) ∧
    (t.nw.has_edge child child = false → t.nw.out child = s.nw.out child) ∧
    (∀ x, s.nw.has_edge x child = true → t.nw.out x = s.nw.out x) := by
  induction count generalizing j s with
  | zero =>
    simp only [ageing.peer_in_loop, Outcome.value.injEq] at h
    subst h
    exact ⟨rfl, fun _ _ h => h, ⟨[], rfl, by simp, by simp⟩, fun _ => rfl, fun _ _ => rfl⟩
  | succ n ih =>
    rw [ageing.peer_in_loop] at h
    split_ifs at h with hl
    split at h
    · exact absurd h (by simp)
    · rename_i r hrd
      have hfree : s.nw.has_edge r.1 child = false := redraw_peer_free _ _ _ _ _ _ hrd
      obtain ⟨f1, f2, f3, f4⟩ := attach_in_facts child id s.nw r.1
      obtain ⟨i1, i2, ⟨rs, hrs, hop, hedges⟩, i4, i5⟩ := ih _ _ h
      have i1' : t.nw.vertex = s.nw.vertex := i1.trans f1
      refine ⟨i1', fun a b hab => i2 a b (f2 a b hab), ⟨r.1 :: rs, by simp [hrs], ?_, ?_⟩,
        fun hself => ?_, fun x hxe => ?_⟩
      · rw [hop]
        have e1 : (ageing.attach_in child id s.nw r.1).vertex = s.nw.vertex := f1
        simp only [List.map_cons, List.sum_cons]
        change s.peer_opinions + ((ageing.attach_in child id s.nw r.1).vertex r.1).opinion
          + (rs.map (fun p => ((ageing.attach_in child id s.nw r.1).vertex p).opinion)).sum = _
        rw [e1]
        ring
      · intro p hp
        rcases List.mem_cons.1 hp with e | e
        · rw [e]
          exact i2 _ _ f3
        · exact hedges p e
      · have hs1 : (ageing.attach_in child id s.nw r.1).has_edge child child = false := by
          by_contra hc
          have := i2 child child (by simpa using hc)
          rw [hself] at this
          exact absurd this (by simp)
        have hrc : child ≠ r.1 := by
          intro e
          rw [← e] at f3
          rw [← e] at hs1
          rw [hs1] at f3
          exact absurd f3 (by simp)
        exact (i4 hself).trans (f4 child hrc)
      · have hxr : x ≠ r.1 := by
          intro e
          rw [← e] at hfree
          rw [hfree] at hxe
          exact absurd hxe (by simp)
        exact (i5 x (f2 _ _ hxe)).trans (f4 x hxr)

theorem add_edges_cases [LinearOrderedField α] (fuel child parent : Nat) (peers : List Nat)
    (out_deg in_deg deg iter_number : Int) (nw : Network_u α) (rng : Rng α)
    (r : Network_u α × Rng α) (h0 : 0 ≤ out_deg) (h1 : 0 ≤ in_deg)
    (hd : deg = out_deg + in_deg) (hd1 : 1 ≤ deg)
    (h : ageing.add_edges fuel child parent peers out_deg in_deg deg iter_number nw rng
      = Outcome.value r) :
    (deg = 1 ∧ r = ( revision.normalize_weights parent (nw.add_edge child parent 1), rng)) ∨
    (deg = 2 ∧ r = ( revision.normalize_weights parent
      ((nw.add_edge child parent 1).add_edge parent child 0.1), rng)) ∨
    (3 ≤ deg ∧ ∃ out2 in2 : Int, ∃ iw : α, ∃ s t : PeerState α,
      0 ≤ out2 ∧ 0 ≤ in2 ∧ out2 + in2 = deg - 2 ∧
      ((out2 = 0 ∧ iw = 1) ∨ (0 < out2 ∧ iw = 0.5)) ∧
      ageing.peer_out_loop fuel child peers out2 out2.toNat iter_number
        { nw := revision.normalize_weights parent
            ((nw.add_edge child parent iw).add_edge parent child 0.1),
          rng := rng, peer_opinions := 0 } = Outcome.value s ∧
      ageing.peer_in_loop fuel child peers in2 in2.toNat (out2 + iter_number) s
        = Outcome.value t ∧
      r = (t.nw.setVertex child { t.nw.vertex child with
        opinion := 0.5 * ((t.nw.vertex parent).opinion
          + t.peer_opinions / ((in2 + out2 : Int) : α)) }, t.rng)) := by
  unfold ageing.add_edges at h
  dsimp only at h
  split_ifs at h
  all_goals first
    | (exfalso; omega)
    | (simp only [Outcome.value.injEq] at h
       exact Or.inl ⟨by omega, h.symm⟩)
    | (simp only [Outcome.value.injEq] at h
       exact Or.inr (Or.inl ⟨by omega, h.symm⟩))
    | (refine Or.inr (Or.inr ⟨by omega, ?_⟩)
       split at h
       · rename_i s hs
         split at h
         · rename_i t ht
           simp only [Outcome.value.injEq] at h
           refine ⟨_, _, _, s, t, ?_, ?_, ?_, ?_, hs, ht, h.symm⟩
           · omega
           · omega
           · omega
           · first
               | exact Or.inl ⟨by omega, rfl⟩
               | exact Or.inr ⟨by omega, rfl⟩
         all_goals exact absurd h (by simp)
       all_goals exact absurd h (by simp))

theorem has_edge_setVertex (g : Network_u α) (x : Nat) (u : User α) (a b : Nat) :
    (g.setVertex x u).has_edge a b = g.has_edge a b := rfl

theorem weight_sum_setVertex [LinearOrderedField α] (g : Network_u α) (x : Nat) (u : User α)
    (a : Nat) : (g.setVertex x u).weight_sum a = g.weight_sum a := rfl

theorem normalize_weights_weight_sum [LinearOrderedField α] (x : Nat) (g : Network_u α)
    (h : g.weight_sum x ≠ 0) : ( revision.normalize_weights x g).weight_sum x = 1 := by
  unfold Network_u.weight_sum at h
  have hd : g.out_degree x ≠ 0 := by
    intro hz
    have : g.out x = [] := List.length_eq_zero.1 hz
    rw [this] at h
    simp at h
  unfold revision.normalize_weights
  rw [if_pos hd]
  simp only [foldl_add_snd, zero_add]
  rw [if_pos h]
  simp only [Network_u.weight_sum, setOut_out_self, sum_snd_div]
  exact div_self h

theorem linked_parent_facts [LinearOrderedField α] (child parent : Nat) (iw : α)
    (nw : Network_u α) (hpc : parent ≠ child) (hout : nw.out child = [])
    (hin : nw.has_edge parent child = false) :
    ( revision.normalize_weights parent
        ((nw.add_edge child parent iw).add_edge parent child 0.1)).has_edge child parent = true ∧
    ( revision.normalize_weights parent
        ((nw.add_edge child parent iw).add_edge parent child 0.1)).has_edge parent child = true ∧
    ( revision.normalize_weights parent
        ((nw.add_edge child parent iw).add_edge parent child 0.1)).weight_sum child = iw ∧
    ((∀ e ∈ nw.out parent, 0 ≤ e.2) →
      ( revision.normalize_weights parent
        ((nw.add_edge child parent iw).add_edge parent child 0.1)).weight_sum parent = 1) := by
  have hcp : child ≠ parent := fun e => hpc e.symm
  refine ⟨?_, ?_, ?_, fun hnn => ?_⟩
  · rw [normalize_weights_has_edge]
    exact has_edge_add_edge_mono _ _ _ _ _ _ (has_edge_add_edge_self _ _ _ _)
  · rw [normalize_weights_has_edge]
    exact has_edge_add_edge_self _ _ _ _
  · unfold Network_u.weight_sum
    rw [normalize_weights_out_other _ _ _ hcp, add_edge_out_other _ _ _ _ _ hcp,
      add_edge_out_self, hout]
    simp [insertEdge]
  · apply normalize_weights_weight_sum
    unfold Network_u.weight_sum
    rw [add_edge_out_self, add_edge_out_other _ _ _ _ _ hpc]
    rw [sum_insertEdge_new _ _ _ hin]
    have hs : 0 ≤ ((nw.out parent).map Prod.snd).sum :=
      List.sum_nonneg (by
        intro x hx
        obtain ⟨y, hy, rfl⟩ := List.mem_map.1 hx
        exact hnn y hy)
    have : (0 : α) < 0.1 := by norm_num
    linarith

/-! ### C19: weight sums after reconnection -/

/-- C19, amended: for a child without out-edges and without an in-edge from the parent
(as after `remove_edges`) and a pre-replacement degree `deg = out_deg + in_deg` of at
least 1, if `add_edges` returns and has attached no self-loop to the child, then the
out-weights of the child sum to 1; and the out-weights of the parent sum to 1 if they
were non-negative and either `deg` is at least 2 (the parent then gets an edge of weight
0.1 to the child) or their total was positive. -/
theorem add_edges_weight_sums [LinearOrderedField α] (fuel child parent : Nat)
    (peers : List Nat) (out_deg in_deg deg iter_number : Int) (nw : Network_u α) (rng : Rng α)
    (r : Network_u α × Rng α) (h0 : 0 ≤ out_deg) (h1 : 0 ≤ in_deg)
    (hd : deg = out_deg + in_deg) (hd1 : 1 ≤ deg)
    (hout : nw.out child = []) (hin : nw.has_edge parent child = false)
    (hr : ageing.add_edges fuel child parent peers out_deg in_deg deg iter_number nw rng
      = Outcome.value r)
    (hself : r.1.has_edge child child = false) :
    r.1.weight_sum child = 1 ∧
    ((∀ e ∈ nw.out parent, 0 ≤ e.2) → (2 ≤ deg ∨ 0 < nw.weight_sum parent) →
      r.1.weight_sum parent = 1) := by
  have hB : ( revision.normalize_weights parent (nw.add_edge child parent (1 : α))).has_edge
      child parent = true := by
    rw [normalize_weights_has_edge]
    exact has_edge_add_edge_self _ _ _ _
  rcases add_edges_cases fuel child parent peers out_deg in_deg deg iter_number nw rng r
    h0 h1 hd hd1 hr with ⟨hdeg, rfl⟩ | ⟨hdeg, rfl⟩ | ⟨hdeg, out2, in2, iw, s, t, ho2, hi2, hsum,
      hiw, hs, ht, rfl⟩
  · have hpc : parent ≠ child := by
      intro e
      rw [e] at hB
      rw [e] at hself
      rw [hself] at hB
      exact absurd hB (by simp)
    have hcp : child ≠ parent := fun e => hpc e.symm
    refine ⟨?_, fun hnn hpos => ?_⟩
    · show ( revision.normalize_weights parent (nw.add_edge child parent (1 : α))).weight_sum
        child = 1
      unfold Network_u.weight_sum
      rw [normalize_weights_out_other _ _ _ hcp, add_edge_out_self, hout]
      simp [insertEdge]
    · show ( revision.normalize_weights parent (nw.add_edge child parent (1 : α))).weight_sum
        parent = 1
      apply normalize_weights_weight_sum
      unfold Network_u.weight_sum
      rw [add_edge_out_other _ _ _ _ _ hpc]
      rcases hpos with hp | hp
      · omega
      · exact ne_of_gt hp
  · have hA := fun hpc => linked_parent_facts child parent (1 : α) nw hpc hout hin
    have hpc : parent ≠ child := by
      intro e
      have h2 : ( revision.normalize_weights parent
          ((nw.add_edge child parent (1 : α)).add_edge parent child 0.1)).has_edge
          child parent = true := by
        rw [normalize_weights_has_edge]
        exact has_edge_add_edge_mono _ _ _ _ _ _ (has_edge_add_edge_self _ _ _ _)
      rw [e] at h2
      rw [e] at hself
      have h3 : ( revision.normalize_weights child
          ((nw.add_edge child child (1 : α)).add_edge child child 0.1)).has_edge
          child child = false := hself
      rw [h3] at h2
      exact absurd h2 (by simp)
    obtain ⟨_, _, a3, a4⟩ := hA hpc
    exact ⟨a3, fun hnn _ => a4 hnn⟩
  · have hself_t : t.nw.has_edge child child = false := hself
    obtain ⟨_, i2, _, i4, i5⟩ := peer_in_loop_facts _ _ _ _ _ _ _ _ ht
    obtain ⟨_, o2, _, o4, o5⟩ := peer_out_loop_facts _ _ _ _ _ _ _ _ hs
    have hself_s : s.nw.has_edge child child = false := by
      by_contra hc
      have := i2 child child (by simpa using hc)
      rw [hself_t] at this
      exact absurd this (by simp)
    have hpc : parent ≠ child := by
      intro e
      have h2 : ( revision.normalize_weights parent
          ((nw.add_edge child parent iw).add_edge parent child 0.1)).has_edge
          child parent = true := by
        rw [normalize_weights_has_edge]
        exact has_edge_add_edge_mono _ _ _ _ _ _ (has_edge_add_edge_self _ _ _ _)
      have h3 := o2 _ _ h2
      rw [e] at h3
      rw [hself_s] at h3
      exact absurd h3 (by simp)
    obtain ⟨a1, a2, a3, a4⟩ := linked_parent_facts child parent iw nw hpc hout hin
    refine ⟨?_, fun hnn _ => ?_⟩
    · rw [weight_sum_setVertex]
      have e1 : t.nw.weight_sum child = s.nw.weight_sum child := by
        unfold Network_u.weight_sum
        rw [i4 hself_t]
      rw [e1, o4 hself_s]
      change ( revision.normalize_weights parent
          ((nw.add_edge child parent iw).add_edge parent child 0.1)).weight_sum child + _ = 1
      rw [a3]
      rcases hiw with ⟨hz, hw⟩ | ⟨hp, hw⟩
      · rw [hz, hw]
        simp
      · rw [hw]
        have hne : ((out2 : Int) : α) ≠ 0 := by
          exact_mod_cast (ne_of_gt hp)
        have hcast : ((out2.toNat : Nat) : α) = ((out2 : Int) : α) := by
          have : ((out2.toNat : Nat) : Int) = out2 := Int.toNat_of_nonneg ho2
          exact_mod_cast congrArg (fun z : Int => (z : α)) this
        rw [hcast]
        field_simp
        norm_num
    · rw [weight_sum_setVertex]
      have e1 : t.nw.out parent = s.nw.out parent := i5 parent (o2 _ _ a2)
      have e2 : s.nw.out parent = ( revision.normalize_weights parent
          ((nw.add_edge child parent iw).add_edge parent child 0.1)).out parent :=
        o5 parent hpc a1
      unfold Network_u.weight_sum
      rw [e1, e2]
      exact a4 hnn

theorem add_edge_vertex (g : Network_u α) (u t : Nat) (w : α) :
    (g.add_edge u t w).vertex = g.vertex := rfl

theorem sum_map_unit_bounds [LinearOrderedField α] (f : Nat → α) (l : List Nat)
    (h : ∀ x ∈ l, 0 ≤ f x ∧ f x ≤ 1) :
    0 ≤ (l.map f).sum ∧ (l.map f).sum ≤ (l.length : α) := by
  induction l with
  | nil => simp
  | cons x xs ih =>
    obtain ⟨a, b⟩ := ih (fun y hy => h y (List.mem_cons_of_mem _ hy))
    obtain ⟨c, d⟩ := h x (List.mem_cons_self _ _)
    simp only [List.map_cons, List.sum_cons, List.length_cons, Nat.cast_succ]
    constructor <;> linarith

/-- The effect of `add_edges` on the user records: none when the child has degree at most
2; with `deg - 2` peer rounds the child's opinion becomes the mean of the parent's opinion
and of the mean opinion of the peers attached, and no other record changes. -/
theorem add_edges_opinion [LinearOrderedField α] (fuel child parent : Nat)
    (peers : List Nat) (out_deg in_deg deg iter_number : Int) (nw : Network_u α) (rng : Rng α)
    (r : Network_u α × Rng α) (h0 : 0 ≤ out_deg) (h1 : 0 ≤ in_deg)
    (hd : deg = out_deg + in_deg) (hd1 : 1 ≤ deg)
    (hr : ageing.add_edges fuel child parent peers out_deg in_deg deg iter_number nw rng
      = Outcome.value r) :
    (deg ≤ 2 → r.1.vertex = nw.vertex) ∧
    (3 ≤ deg → ∃ outs ins : List Nat,
      ((outs.length + ins.length : Nat) : Int) = deg - 2 ∧
      (∀ p ∈ outs, r.1.has_edge child p = true) ∧
      (∀ p ∈ ins, r.1.has_edge p child = true) ∧
      (r.1.vertex child).opinion = 0.5 * (nw.vertex parent).opinion
        + 0.5 * (((outs ++ ins).map (fun p => (nw.vertex p).opinion)).sum
          / ((outs ++ ins).length : α)) ∧
      (∀ x, x ≠ child → r.1.vertex x = nw.vertex x)) := by
  rcases add_edges_cases fuel child parent peers out_deg in_deg deg iter_number nw rng r
    h0 h1 hd hd1 hr with ⟨hdeg, rfl⟩ | ⟨hdeg, rfl⟩ | ⟨hdeg, out2, in2, iw, s, t, ho2, hi2, hsum,
      hiw, hs, ht, rfl⟩
  · refine ⟨fun _ => ?_, fun h3 => by omega⟩
    exact (normalize_weights_meta _ _).1
  · refine ⟨fun _ => ?_, fun h3 => by omega⟩
    exact (normalize_weights_meta _ _).1
  · refine ⟨fun h2 => by omega, fun _ => ?_⟩
    obtain ⟨i1, i2, ⟨ins, hins, hpi, hei⟩, _, _⟩ := peer_in_loop_facts _ _ _ _ _ _ _ _ ht
    obtain ⟨o1, o2, ⟨outs, houts, hpo, heo⟩, _, _⟩ := peer_out_loop_facts _ _ _ _ _ _ _ _ hs
    have hA : ( revision.normalize_weights parent
        ((nw.add_edge child parent iw).add_edge parent child 0.1)).vertex = nw.vertex :=
      (normalize_weights_meta _ _).1
    have hsv : s.nw.vertex = nw.vertex := o1.trans hA
    have htv : t.nw.vertex = nw.vertex := i1.trans hsv
    have hlen : ((outs.length + ins.length : Nat) : Int) = deg - 2 := by
      rw [houts, hins]
      omega
    refine ⟨outs, ins, hlen, fun p hp => ?_, fun p hp => ?_, ?_, fun x hx => ?_⟩
    · rw [has_edge_setVertex]
      exact i2 _ _ (heo p hp)
    · rw [has_edge_setVertex]
      exact hei p hp
    · have hpo2 : s.peer_opinions = (outs.map (fun p => (nw.vertex p).opinion)).sum := by
        rw [hpo]
        change (0 : α) + (outs.map (fun p => (( revision.normalize_weights parent
          ((nw.add_edge child parent iw).add_edge parent child 0.1)).vertex p).opinion)).sum = _
        rw [hA, zero_add]
      have hpi2 : t.peer_opinions
          = ((outs ++ ins).map (fun p => (nw.vertex p).opinion)).sum := by
        rw [hpi, hpo2, hsv, List.map_append, List.sum_append]
      have hcast : ((in2 + out2 : Int) : α) = ((outs ++ ins).length : α) := by
        have e : ((outs ++ ins).length : Int) = in2 + out2 := by
          rw [List.length_append]
          omega
        rw [← e]
        simp
      simp only [setVertex_vertex_self]
      rw [htv, hpi2, hcast]
      ring
    · rw [setVertex_vertex_other _ _ _ _ hx, htv]

theorem remove_edges_vertex [LinearOrderedField α] (v : Nat) (nw : Network_u α) :
    ( ageing.remove_edges v nw).vertex = nw.vertex := by
  rw [remove_edges_eq_fold]
  exact (detach_fold_meta v _ nw).2

/-! ### C20: the opinion of a replaced child -/

theorem peer_out_loop_attached [LinearOrderedField α] (fuel child : Nat) (peers : List Nat)
    (od : Int) (count : Nat) (j : Int) (s t : PeerState α)
    (h : ageing.peer_out_loop fuel child peers od count j s = Outcome.value t) :
    ∃ rs : List Nat, ageing.peer_out_attached fuel child peers od count j s = some rs ∧
      rs.length = count ∧
      t.peer_opinions = s.peer_opinions + (rs.map (fun p => (s.nw.vertex p).opinion)).sum ∧
      ∀ p ∈ rs, t.nw.has_edge child p = true := by
  induction count generalizing j s with
  | zero =>
    simp only [ageing.peer_out_loop, Outcome.value.injEq] at h
    subst h
    exact ⟨[], rfl, rfl, by simp, by simp⟩
  | succ n ih =>
    rw [ageing.peer_out_loop] at h
    rw [ageing.peer_out_attached]
    split_ifs at h with hl
    rw [if_neg hl]
    split at h
    · exact absurd h (by simp)
    · rename_i r hrd
      try rw [hrd]
      dsimp only
      have hfree : s.nw.has_edge child r.1 = false := redraw_peer_free _ _ _ _ _ _ hrd
      obtain ⟨f1, f2, f3, _, _⟩ := attach_out_facts child od s.nw r.1 hfree
      obtain ⟨_, i2, _, _, _⟩ := peer_out_loop_facts _ _ _ _ _ _ _ _ h
      obtain ⟨rs, hrs, hlen, hop, hedges⟩ := ih _ _ h
      refine ⟨r.1 :: rs, by rw [hrs]; rfl, by simp [hlen], ?_, ?_⟩
      · rw [hop]
        have e1 : (ageing.attach_out child od s.nw r.1).vertex = s.nw.vertex := f1
        simp only [List.map_cons, List.sum_cons]
        change s.peer_opinions + ((ageing.attach_out child od s.nw r.1).vertex r.1).opinion
          + (rs.map (fun p => ((ageing.attach_out child od s.nw r.1).vertex p).opinion)).sum = _
        rw [e1]
        ring
      · intro p hp
        rcases List.mem_cons.1 hp with e | e
        · rw [e]
          exact i2 _ _ f3
        · exact hedges p e

theorem peer_in_loop_attached [LinearOrderedField α] (fuel child : Nat) (peers : List Nat)
    (id : Int) (count : Nat) (j : Int) (s t : PeerState α)
    (h : ageing.peer_in_loop fuel child peers id count j s = Outcome.value t) :
    ∃ rs : List Nat, ageing.peer_in_attached fuel child peers id count j s = some rs ∧
      rs.length = count ∧
      t.peer_opinions = s.peer_opinions + (rs.map (fun p => (s.nw.vertex p).opinion)).sum ∧
      ∀ p ∈ rs, t.nw.has_edge p child = true := by
  induction count generalizing j s with
  | zero =>
    simp only [ageing.peer_in_loop, Outcome.value.injEq] at h
    subst h
    exact ⟨[], rfl, rfl, by simp, by simp⟩
  | succ n ih =>
    rw [ageing.peer_in_loop] at h
    rw [ageing.peer_in_attached]
    split_ifs at h with hl
    rw [if_neg hl]
    split at h
    · exact absurd h (by simp)
    · rename_i r hrd
      try rw [hrd]
      dsimp only
      obtain ⟨f1, f2, f3, _⟩ := attach_in_facts child id s.nw r.1
      obtain ⟨_, i2, _, _, _⟩ := peer_in_loop_facts _ _ _ _ _ _ _ _ h
      obtain ⟨rs, hrs, hlen, hop, hedges⟩ := ih _ _ h
      refine ⟨r.1 :: rs, by rw [hrs]; rfl, by simp [hlen], ?_, ?_⟩
      · rw [hop]
        have e1 : (ageing.attach_in child id s.nw r.1).vertex = s.nw.vertex := f1
        simp only [List.map_cons, List.sum_cons]
        change s.peer_opinions + ((ageing.attach_in child id s.nw r.1).vertex r.1).opinion
          + (rs.map (fun p => ((ageing.attach_in child id s.nw r.1).vertex p).opinion)).sum = _
        rw [e1]
        ring
      · intro p hp
        rcases List.mem_cons.1 hp with e | e
        · rw [e]
          exact i2 _ _ f3
        · exact hedges p e

theorem attached_peers_cases [LinearOrderedField α] (fuel child parent : Nat) (peers : List Nat)
    (out_deg in_deg deg iter_number : Int) (nw : Network_u α) (rng : Rng α)
    (r : Network_u α × Rng α) (h0 : 0 ≤ out_deg) (h1 : 0 ≤ in_deg)
    (hd : deg = out_deg + in_deg) (hd1 : 1 ≤ deg)
    (h : ageing.add_edges fuel child parent peers out_deg in_deg deg iter_number nw rng
      = Outcome.value r) :
    (deg ≤ 2 ∧
      ageing.attached_peers fuel child parent peers out_deg in_deg deg iter_number nw rng
        = some ([], [])) ∨
    (3 ≤ deg ∧ ∃ out2 in2 : Int, ∃ iw : α, ∃ s t : PeerState α,
      0 ≤ out2 ∧ 0 ≤ in2 ∧ out2 + in2 = deg - 2 ∧
      ageing.peer_out_loop fuel child peers out2 out2.toNat iter_number
        { nw := revision.normalize_weights parent
            ((nw.add_edge child parent iw).add_edge parent child 0.1),
          rng := rng, peer_opinions := 0 } = Outcome.value s ∧
      ageing.peer_in_loop fuel child peers in2 in2.toNat (out2 + iter_number) s
        = Outcome.value t ∧
      r = (t.nw.setVertex child { t.nw.vertex child with
        opinion := 0.5 * ((t.nw.vertex parent).opinion
          + t.peer_opinions / ((in2 + out2 : Int) : α)) }, t.rng) ∧
      ∀ outs ins : List Nat,
        ageing.peer_out_attached fuel child peers out2 out2.toNat iter_number
          { nw := revision.normalize_weights parent
              ((nw.add_edge child parent iw).add_edge parent child 0.1),
            rng := rng, peer_opinions := 0 } = some outs →
        ageing.peer_in_attached fuel child peers in2 in2.toNat (out2 + iter_number) s
          = some ins →
        ageing.attached_peers fuel child parent peers out_deg in_deg deg iter_number nw rng
          = some (outs, ins)) := by
  unfold ageing.add_edges at h
  unfold ageing.attached_peers
  dsimp only at h ⊢
  split_ifs at h ⊢
  all_goals first
    | (exfalso; omega)
    | exact Or.inl ⟨by omega, rfl⟩
    | (refine Or.inr ⟨by omega, ?_⟩
       split at h
       · rename_i s hs
         split at h
         · rename_i t ht
           simp only [Outcome.value.injEq] at h
           refine ⟨_, _, _, s, t, ?_, ?_, ?_, hs, ht, h.symm, ?_⟩
           · omega
           · omega
           · omega
           · intro outs ins ho hi
             rw [hs]
             dsimp only
             rw [ho]
             dsimp only
             rw [hi]
             rfl
         all_goals exact absurd h (by simp)
       all_goals exact absurd h (by simp))

/-- The effect of `add_edges` on the opinion of the child: with `deg - 2` peer rounds it
becomes the mean of the parent's opinion and of the mean opinion of the peers attached,
which are those listed by `attached_peers`; no other record changes. -/
theorem add_edges_blend [LinearOrderedField α] (fuel child parent : Nat)
    (peers : List Nat) (out_deg in_deg deg iter_number : Int) (nw : Network_u α) (rng : Rng α)
    (r : Network_u α × Rng α) (h0 : 0 ≤ out_deg) (h1 : 0 ≤ in_deg)
    (hd : deg = out_deg + in_deg) (hd1 : 1 ≤ deg)
    (hr : ageing.add_edges fuel child parent peers out_deg in_deg deg iter_number nw rng
      = Outcome.value r) :
    (deg ≤ 2 →
      ageing.attached_peers fuel child parent peers out_deg in_deg deg iter_number nw rng
        = some ([], [])) ∧
    (3 ≤ deg → ∃ outs ins : List Nat,
      ageing.attached_peers fuel child parent peers out_deg in_deg deg iter_number nw rng
        = some (outs, ins) ∧
      ((outs.length + ins.length : Nat) : Int) = deg - 2 ∧
      (∀ p ∈ outs, r.1.has_edge child p = true) ∧
      (∀ p ∈ ins, r.1.has_edge p child = true) ∧
      (r.1.vertex child).opinion = 0.5 * (nw.vertex parent).opinion
        + 0.5 * (((outs ++ ins).map (fun p => (nw.vertex p).opinion)).sum
          / ((outs ++ ins).length : α))) := by
  rcases attached_peers_cases fuel child parent peers out_deg in_deg deg iter_number nw rng r
    h0 h1 hd hd1 hr with ⟨hdeg, he⟩ | ⟨hdeg, out2, in2, iw, s, t, ho2, hi2, hsum, hs, ht, rfl,
      hatt⟩
  · exact ⟨fun _ => he, fun h3 => by omega⟩
  · refine ⟨fun h2 => by omega, fun _ => ?_⟩
    obtain ⟨i1, i2, _, _, _⟩ := peer_in_loop_facts _ _ _ _ _ _ _ _ ht
    obtain ⟨o1, _, _, _, _⟩ := peer_out_loop_facts _ _ _ _ _ _ _ _ hs
    obtain ⟨ins, hia, hins, hpi, hei⟩ := peer_in_loop_attached _ _ _ _ _ _ _ _ ht
    obtain ⟨outs, hoa, houts, hpo, heo⟩ := peer_out_loop_attached _ _ _ _ _ _ _ _ hs
    have hA : ( revision.normalize_weights parent
        ((nw.add_edge child parent iw).add_edge parent child 0.1)).vertex = nw.vertex :=
      (normalize_weights_meta _ _).1
    have hsv : s.nw.vertex = nw.vertex := o1.trans hA
    have htv : t.nw.vertex = nw.vertex := i1.trans hsv
    have hlen : ((outs.length + ins.length : Nat) : Int) = deg - 2 := by
      rw [houts, hins]
      omega
    refine ⟨outs, ins, hatt outs ins hoa hia, hlen, fun p hp => ?_, fun p hp => ?_, ?_⟩
    · rw [has_edge_setVertex]
      exact i2 _ _ (heo p hp)
    · rw [has_edge_setVertex]
      exact hei p hp
    · have hpo2 : s.peer_opinions = (outs.map (fun p => (nw.vertex p).opinion)).sum := by
        rw [hpo]
        change (0 : α) + (outs.map (fun p => (( revision.normalize_weights parent
          ((nw.add_edge child parent iw).add_edge parent child 0.1)).vertex p).opinion)).sum = _
        rw [hA, zero_add]
      have hpi2 : t.peer_opinions
          = ((outs ++ ins).map (fun p => (nw.vertex p).opinion)).sum := by
        rw [hpi, hpo2, hsv, List.map_append, List.sum_append]
      have hcast : ((in2 + out2 : Int) : α) = ((outs ++ ins).length : α) := by
        have e : ((outs ++ ins).length : Int) = in2 + out2 := by
          rw [List.length_append]
          omega
        rw [← e]
        simp
      simp only [setVertex_vertex_self]
      rw [htv, hpi2, hcast]
      ring

theorem redraw_peer_of_free (nw : Network_u α) (taken : Nat → Bool) (fuel peer : Nat)
    (rng : Rng α) (h : taken peer = false) :
    ageing.redraw_peer nw taken fuel peer rng = some (peer, rng) := by
  cases fuel <;> simp [ageing.redraw_peer, h]

theorem has_edge_add_edge_cases (g : Network_u α) (u t a b : Nat) (w : α)
    (h : (g.add_edge u t w).has_edge a b = true) :
    (a = u ∧ b = t) ∨ g.has_edge a b = true := by
  by_cases ha : a = u
  · subst ha
    unfold Network_u.has_edge at h ⊢
    rw [add_edge_out_self] at h
    obtain ⟨e, he, hb⟩ := List.any_eq_true.1 h
    rcases mem_insertEdge t w _ e he with e1 | e1
    · left
      rw [e1] at hb
      have hb2 : t = b := by simpa using hb
      exact ⟨rfl, hb2.symm⟩
    · right
      exact List.any_eq_true.2 ⟨e, e1, hb⟩
  · right
    unfold Network_u.has_edge at h ⊢
    rw [add_edge_out_other g u t a w ha] at h
    exact h

theorem pool_peer_mem (peers : List Nat) (k : Nat) (hl : peers.length ≠ 0) :
    peers.getD (k % peers.length) 0 ∈ peers := by
  have hlt : k % peers.length < peers.length := Nat.mod_lt _ (Nat.pos_of_ne_zero hl)
  rw [List.getD_eq_getElem _ _ hlt]
  exact List.getElem_mem _

theorem pool_shift (peers : List Nat) (j : Int) :
    (fun i : Nat => peers.getD (toU64 (j + 1 + (i : Int)) % peers.length) 0)
      = (fun i : Nat => peers.getD (toU64 (j + (i : Int)) % peers.length) 0) ∘ Nat.succ := by
  funext i
  have e : j + 1 + (i : Int) = j + ((Nat.succ i : Nat) : Int) := by
    push_cast
    ring
  simp only [Function.comp, e]

theorem peer_out_loop_pool [LinearOrderedField α] (fuel child : Nat) (peers : List Nat)
    (od : Int) (count : Nat) (j : Int) (s : PeerState α) (hl : peers.length ≠ 0)
    (hfree : ∀ p ∈ (List.range count).map
      (fun i : Nat => peers.getD (toU64 (j + (i : Int)) % peers.length) 0),
      s.nw.has_edge child p = false)
    (hnd : ((List.range count).map
      (fun i : Nat => peers.getD (toU64 (j + (i : Int)) % peers.length) 0)).Nodup) :
    ∃ t, ageing.peer_out_loop fuel child peers od count j s = Outcome.value t ∧
      t.rng = s.rng ∧
      (∀ a b, t.nw.has_edge a b = true → a = child ∨ s.nw.has_edge a b = true) ∧
      ageing.peer_out_attached fuel child peers od count j s
        = some ((List.range count).map
          (fun i : Nat => peers.getD (toU64 (j + (i : Int)) % peers.length) 0)) := by
  induction count generalizing j s
    with
  | zero => exact ⟨s, rfl, rfl, fun a b h => Or.inr h, rfl⟩
  | succ n ih =>
    rw [List.range_succ_eq_map, List.map_cons, List.map_map, ← pool_shift] at hnd hfree ⊢
    simp only [Nat.cast_zero, add_zero] at hnd hfree ⊢
    obtain ⟨hnot, hnd2⟩ := List.nodup_cons.1 hnd
    have hp0 := hfree _ (List.mem_cons_self _ _)
    rw [ageing.peer_out_loop, ageing.peer_out_attached, if_neg hl, if_neg hl,
      redraw_peer_of_free _ _ _ _ _ hp0]
    dsimp only
    -- the edges of the child after this round
    have hstep : ∀ a b, (ageing.attach_out child od s.nw
        (peers.getD (toU64 j % peers.length) 0)).has_edge a b = true →
        (a = child ∧ b = peers.getD (toU64 j % peers.length) 0) ∨ s.nw.has_edge a b = true := by
      intro a b h
      unfold ageing.attach_out at h
      rw [normalize_weights_has_edge] at h
      exact has_edge_add_edge_cases _ _ _ _ _ _ h
    obtain ⟨t, ht, hrng, hedge, hatt⟩ := ih (j + 1)
      { nw := ageing.attach_out child od s.nw (peers.getD (toU64 j % peers.length) 0),
        rng := s.rng,
        peer_opinions := s.peer_opinions + ((ageing.attach_out child od s.nw
          (peers.getD (toU64 j % peers.length) 0)).vertex
            (peers.getD (toU64 j % peers.length) 0)).opinion }
      (by
        intro p hp
        cases hq : (ageing.attach_out child od s.nw
            (peers.getD (toU64 j % peers.length) 0)).has_edge child p with
        | false => rfl
        | true =>
          exfalso
          rcases hstep child p hq with ⟨_, e⟩ | e
          · exact hnot (e ▸ hp)
          · rw [hfree p (List.mem_cons_of_mem _ hp)] at e
            exact Bool.noConfusion e)
      hnd2
    refine ⟨t, ht, hrng, ?_, ?_⟩
    · intro a b h
      rcases hedge a b h with e | e
      · exact Or.inl e
      · rcases hstep a b e with ⟨e1, _⟩ | e1
        · exact Or.inl e1
        · exact Or.inr e1
    · exact congrArg (Option.map (fun rs => peers.getD (toU64 j % peers.length) 0 :: rs)) hatt

theorem peer_in_loop_pool [LinearOrderedField α] (fuel child : Nat) (peers : List Nat)
    (id : Int) (count : Nat) (j : Int) (s : PeerState α) (hl : peers.length ≠ 0)
    (hfree : ∀ p ∈ (List.range count).map
      (fun i : Nat => peers.getD (toU64 (j + (i : Int)) % peers.length) 0),
      s.nw.has_edge p child = false)
    (hnd : ((List.range count).map
      (fun i : Nat => peers.getD (toU64 (j + (i : Int)) % peers.length) 0)).Nodup) :
    ∃ t, ageing.peer_in_loop fuel child peers id count j s = Outcome.value t ∧
      t.rng = s.rng ∧
      ageing.peer_in_attached fuel child peers id count j s
        = some ((List.range count).map
          (fun i : Nat => peers.getD (toU64 (j + (i : Int)) % peers.length) 0)) := by
  induction count generalizing j s
    with
  | zero => exact ⟨s, rfl, rfl, rfl⟩
  | succ n ih =>
    rw [List.range_succ_eq_map, List.map_cons, List.map_map, ← pool_shift] at hnd hfree ⊢
    simp only [Nat.cast_zero, add_zero] at hnd hfree ⊢
    obtain ⟨hnot, hnd2⟩ := List.nodup_cons.1 hnd
    have hp0 := hfree _ (List.mem_cons_self _ _)
    rw [ageing.peer_in_loop, ageing.peer_in_attached, if_neg hl, if_neg hl,
      redraw_peer_of_free s.nw (fun p => s.nw.has_edge p child) fuel _ s.rng hp0]
    dsimp only
    have hstep : ∀ a b, (ageing.attach_in child id s.nw
        (peers.getD (toU64 j % peers.length) 0)).has_edge a b = true →
        (a = peers.getD (toU64 j % peers.length) 0 ∧ b = child) ∨ s.nw.has_edge a b = true := by
      intro a b h
      unfold ageing.attach_in at h
      rw [normalize_weights_has_edge] at h
      exact has_edge_add_edge_cases _ _ _ _ _ _ h
    obtain ⟨t, ht, hrng, hatt⟩ := ih (j + 1)
      { nw := ageing.attach_in child id s.nw (peers.getD (toU64 j % peers.length) 0),
        rng := s.rng,
        peer_opinions := s.peer_opinions + ((ageing.attach_in child id s.nw
          (peers.getD (toU64 j % peers.length) 0)).vertex
            (peers.getD (toU64 j % peers.length) 0)).opinion }
      (by
        intro p hp
        cases hq : (ageing.attach_in child id s.nw
            (peers.getD (toU64 j % peers.length) 0)).has_edge p child with
        | false => rfl
        | true =>
          exfalso
          rcases hstep p child hq with ⟨e, _⟩ | e
          · exact hnot (e ▸ hp)
          · rw [hfree p (List.mem_cons_of_mem _ hp)] at e
            exact Bool.noConfusion e)
      hnd2
    exact ⟨t, ht, hrng,
      congrArg (Option.map (fun rs => peers.getD (toU64 j % peers.length) 0 :: rs)) hatt⟩

theorem range_map_add (f : Int → Nat) (iter : Int) (a b : Nat) :
    (List.range (a + b)).map (fun i : Nat => f (iter + (i : Int)))
      = (List.range a).map (fun i : Nat => f (iter + (i : Int)))
        ++ (List.range b).map (fun i : Nat => f ((a : Int) + iter + (i : Int))) := by
  rw [List.range_add, List.map_append, List.map_map]
  congr 1
  apply List.map_congr_left
  intro i _
  simp only [Function.comp]
  congr 1
  push_cast
  ring

/-- The two peer loops of `add_edges` when the pool entries they visit are distinct
peers, none of them the child or the parent, and the child has no edges yet: no peer is
redrawn, both loops return, and the peers attached are the pool entries visited. -/
theorem peer_phase_pool [LinearOrderedField α] (fuel child parent : Nat) (peers : List Nat)
    (od id : Int) (iw : α) (iter_number : Int) (nw : Network_u α) (rng : Rng α) (n : Nat)
    (hod : 0 ≤ od) (hsum : od.toNat + id.toNat = n)
    (hout : ∀ x, nw.has_edge child x = false) (hin : ∀ x, nw.has_edge x child = false)
    (hl : peers.length ≠ 0) (hc : child ∉ peers) (hp : parent ∉ peers)
    (hnd : ((List.range n).map
      (fun i : Nat => peers.getD (toU64 (iter_number + (i : Int)) % peers.length) 0)).Nodup) :
    ∃ s t outs ins,
      ageing.peer_out_loop fuel child peers od od.toNat iter_number
        { nw := revision.normalize_weights parent
            ((nw.add_edge child parent iw).add_edge parent child 0.1),
          rng := rng, peer_opinions := 0 } = Outcome.value s ∧
      ageing.peer_in_loop fuel child peers id id.toNat (od + iter_number) s
        = Outcome.value t ∧
      t.rng = rng ∧
      ageing.peer_out_attached fuel child peers od od.toNat iter_number
        { nw := revision.normalize_weights parent
            ((nw.add_edge child parent iw).add_edge parent child 0.1),
          rng := rng, peer_opinions := 0 } = some outs ∧
      ageing.peer_in_attached fuel child peers id id.toNat (od + iter_number) s = some ins ∧
      outs ++ ins = (List.range n).map
        (fun i : Nat => peers.getD (toU64 (iter_number + (i : Int)) % peers.length) 0) := by
  have hod2 : ((od.toNat : Nat) : Int) = od := Int.toNat_of_nonneg hod
  have hsplit := range_map_add (fun k => peers.getD (toU64 k % peers.length) 0) iter_number
    od.toNat id.toNat
  rw [hsum, hod2] at hsplit
  rw [hsplit, List.nodup_append] at hnd
  obtain ⟨hnd1, hnd2, _⟩ := hnd
  have hmem : ∀ (c : Nat) (j : Int), ∀ p ∈ (List.range c).map
      (fun i : Nat => peers.getD (toU64 (j + (i : Int)) % peers.length) 0), p ∈ peers := by
    intro c j p hp
    obtain ⟨i, _, rfl⟩ := List.mem_map.1 hp
    exact pool_peer_mem peers _ hl
  have hS0 : ∀ a b, ( revision.normalize_weights parent
      ((nw.add_edge child parent iw).add_edge parent child 0.1)).has_edge a b = true →
      (a = parent ∧ b = child) ∨ (a = child ∧ b = parent) ∨ nw.has_edge a b = true := by
    intro a b h
    rw [normalize_weights_has_edge] at h
    rcases has_edge_add_edge_cases _ _ _ _ _ _ h with e | e
    · exact Or.inl e
    · rcases has_edge_add_edge_cases _ _ _ _ _ _ e with e1 | e1
      · exact Or.inr (Or.inl e1)
      · exact Or.inr (Or.inr e1)
  obtain ⟨s, hs, hsr, hse, hso⟩ := peer_out_loop_pool fuel child peers od od.toNat iter_number
    { nw := revision.normalize_weights parent
        ((nw.add_edge child parent iw).add_edge parent child 0.1),
      rng := rng, peer_opinions := 0 } hl
    (by
      intro p hpm
      have hpp := hmem _ _ p hpm
      cases hq : ( revision.normalize_weights parent
          ((nw.add_edge child parent iw).add_edge parent child 0.1)).has_edge child p with
      | false => rfl
      | true =>
        exfalso
        rcases hS0 child p hq with ⟨_, e⟩ | ⟨_, e⟩ | e
        · exact hc (e ▸ hpp)
        · exact hp (e ▸ hpp)
        · rw [hout p] at e
          exact Bool.noConfusion e)
    hnd1
  obtain ⟨t, ht, htr, hto⟩ := peer_in_loop_pool fuel child peers id id.toNat (od + iter_number) s
    hl
    (by
      intro p hpm
      have hpp := hmem _ _ p hpm
      cases hq : s.nw.has_edge p child with
      | false => rfl
      | true =>
        exfalso
        rcases hse p child hq with e | e
        · exact hc (e ▸ hpp)
        · rcases hS0 p child e with ⟨e1, _⟩ | ⟨e1, _⟩ | e1
          · exact hp (e1 ▸ hpp)
          · exact hc (e1 ▸ hpp)
          · rw [hin p] at e1
            exact Bool.noConfusion e1)
    hnd2
  exact ⟨s, t, _, _, hs, ht, htr.trans hsr, hso, hto, hsplit.symm⟩

/-- When the pool entries visited by the peer loops are distinct peers, none of them the
child or the parent, `add_edges` for a detached child of degree at least 3 returns
without drawing, and the peers it attaches are the pool entries visited. -/
theorem add_edges_pool [LinearOrderedField α] (fuel child parent : Nat) (peers : List Nat)
    (out_deg in_deg deg iter_number : Int) (nw : Network_u α) (rng : Rng α) (n : Nat)
    (h0 : 0 ≤ out_deg) (h1 : 0 ≤ in_deg) (hd : deg = out_deg + in_deg) (h3 : (n : Int) + 2 = deg)
    (hn : 1 ≤ n)
    (hout : ∀ x, nw.has_edge child x = false) (hin : ∀ x, nw.has_edge x child = false)
    (hl : peers.length ≠ 0) (hc : child ∉ peers) (hp : parent ∉ peers)
    (hnd : ((List.range n).map
      (fun i : Nat => peers.getD (toU64 (iter_number + (i : Int)) % peers.length) 0)).Nodup) :
    ∃ r outs ins,
      ageing.add_edges fuel child parent peers out_deg in_deg deg iter_number nw rng
        = Outcome.value r ∧ r.2 = rng ∧
      ageing.attached_peers fuel child parent peers out_deg in_deg deg iter_number nw rng
        = some (outs, ins) ∧
      outs ++ ins = (List.range n).map
        (fun i : Nat => peers.getD (toU64 (iter_number + (i : Int)) % peers.length) 0) := by
  unfold ageing.add_edges ageing.attached_peers
  dsimp only
  split_ifs
  all_goals first
    | (exfalso; omega)
    | (obtain ⟨s, t, outs, ins, hs, ht, hrng, ho, hi, happ⟩ := peer_phase_pool fuel child parent
        peers (out_deg - 1) (in_deg - 1) (1 : α) iter_number nw rng n (by omega) (by omega)
        hout hin hl hc hp hnd
       rw [hs]
       dsimp only
       rw [ht, ho]
       dsimp only
       rw [hi]
       exact ⟨_, outs, ins, rfl, hrng, rfl, happ⟩)
    | (obtain ⟨s, t, outs, ins, hs, ht, hrng, ho, hi, happ⟩ := peer_phase_pool fuel child parent
        peers (out_deg - 1) (in_deg - 1) (0.5 : α) iter_number nw rng n (by omega) (by omega)
        hout hin hl hc hp hnd
       rw [hs]
       dsimp only
       rw [ht, ho]
       dsimp only
       rw [hi]
       exact ⟨_, outs, ins, rfl, hrng, rfl, happ⟩)
    | (obtain ⟨s, t, outs, ins, hs, ht, hrng, ho, hi, happ⟩ := peer_phase_pool fuel child parent
        peers (out_deg - 1 - 1) in_deg (0.5 : α) iter_number nw rng n (by omega) (by omega)
        hout hin hl hc hp hnd
       rw [hs]
       dsimp only
       rw [ht, ho]
       dsimp only
       rw [hi]
       exact ⟨_, outs, ins, rfl, hrng, rfl, happ⟩)
    | (obtain ⟨s, t, outs, ins, hs, ht, hrng, ho, hi, happ⟩ := peer_phase_pool fuel child parent
        peers out_deg (in_deg - 1 - 1) (1 : α) iter_number nw rng n (by omega) (by omega)
        hout hin hl hc hp hnd
       rw [hs]
       dsimp only
       rw [ht, ho]
       dsimp only
       rw [hi]
       exact ⟨_, outs, ins, rfl, hrng, rfl, happ⟩)

theorem remove_edges_isolates [LinearOrderedField α] (v : Nat) (nw : Network_u α) (x : Nat) :
    ( ageing.remove_edges v nw).has_edge v x = false ∧
    ( ageing.remove_edges v nw).has_edge x v = false := by
  rw [remove_edges_eq_fold]
  unfold Network_u.clear_vertex Network_u.has_edge
  dsimp only
  constructor
  · rw [if_pos rfl]
    rfl
  · split_ifs
    · rfl
    · rw [List.any_eq_false]
      intro e he
      have := (List.mem_filter.1 he).2
      simpa using this

theorem add_edges_returns_small [LinearOrderedField α] (fuel child parent : Nat)
    (peers : List Nat) (out_deg in_deg deg iter_number : Int) (nw : Network_u α) (rng : Rng α)
    (h0 : 0 ≤ out_deg) (h1 : 0 ≤ in_deg) (hd : deg = out_deg + in_deg) (hd2 : deg ≤ 2) :
    ∃ r, ageing.add_edges fuel child parent peers out_deg in_deg deg iter_number nw rng
      = Outcome.value r := by
  unfold ageing.add_edges
  dsimp only
  split_ifs
  all_goals first
    | (exfalso; omega)
    | exact ⟨_, rfl⟩

/-- C20: when `replace_child` returns for a child of degree at most 2 (no peer edge is
attached), the opinion of the child is the opinion of the parent; for a child of degree
at least 3 the peers attached, listed by `attached_peers` in the order of the calls
`add_edge(child, peer)` and `add_edge(peer, child)`, are `degree - 2` in all, each is
joined to the child by an edge, and the opinion of the child is
`0.5 * parent.opinion + 0.5 * mean`, the mean being taken over the opinions of the
attached peers, once per attached peer edge; it lies in [0,1] when all opinions do.
`replace_child` returns for every child of degree at most 2; for a child of degree at
least 3 it returns when the pool entries `peers.at(j % peers.size())` visited by the
`degree - 2` rounds are distinct peers, none of them the child or the parent: then the
peers attached are these pool entries, and the opinion of the child is the blend of the
parent's opinion with their mean opinion. -/
theorem replace_child_opinion [LinearOrderedField α] (fuel child parent : Nat)
    (peers : List Nat) (num_media at_peer : Int) (nw : Network_u α) (rng : Rng α)
    (cfg : CurveConfig α) :
    (∀ r : Network_u α × Rng α,
      ageing.replace_child fuel child parent peers num_media at_peer nw rng cfg
        = Outcome.value r →
      (nw.degree child ≤ 2 → (r.1.vertex child).opinion = (nw.vertex parent).opinion) ∧
      (3 ≤ nw.degree child → ∃ outs ins : List Nat,
        ageing.attached_peers fuel child parent peers (nw.out_degree child)
          (nw.in_degree child) (nw.degree child) at_peer
          ( ageing.remove_edges child
            ( ageing.reinitialize child parent num_media nw rng cfg).1)
          ( ageing.reinitialize child parent num_media nw rng cfg).2 = some (outs, ins) ∧
        outs.length + ins.length = nw.degree child - 2 ∧
        (∀ p ∈ outs, r.1.has_edge child p = true) ∧
        (∀ p ∈ ins, r.1.has_edge p child = true) ∧
        (r.1.vertex child).opinion = 0.5 * (nw.vertex parent).opinion
          + 0.5 * (((outs ++ ins).map (fun p =>
              (( ageing.reinitialize child parent num_media nw rng cfg).1.vertex p).opinion)).sum
            / ((outs ++ ins).length : α)) ∧
        ((∀ x, 0 ≤ (nw.vertex x).opinion ∧ (nw.vertex x).opinion ≤ 1) →
          0 ≤ (r.1.vertex child).opinion ∧ (r.1.vertex child).opinion ≤ 1))) ∧
    (nw.degree child ≤ 2 → ∃ r : Network_u α × Rng α,
      ageing.replace_child fuel child parent peers num_media at_peer nw rng cfg
        = Outcome.value r) ∧
    (3 ≤ nw.degree child → peers.length ≠ 0 → child ∉ peers → parent ∉ peers →
      ((List.range (nw.degree child - 2)).map
        (fun i : Nat => peers.getD (toU64 (at_peer + (i : Int)) % peers.length) 0)).Nodup →
      ∃ (r : Network_u α × Rng α) (outs ins : List Nat),
        ageing.replace_child fuel child parent peers num_media at_peer nw rng cfg
          = Outcome.value r ∧
        ageing.attached_peers fuel child parent peers (nw.out_degree child)
          (nw.in_degree child) (nw.degree child) at_peer
          ( ageing.remove_edges child
            ( ageing.reinitialize child parent num_media nw rng cfg).1)
          ( ageing.reinitialize child parent num_media nw rng cfg).2 = some (outs, ins) ∧
        outs ++ ins = (List.range (nw.degree child - 2)).map
          (fun i : Nat => peers.getD (toU64 (at_peer + (i : Int)) % peers.length) 0) ∧
        (r.1.vertex child).opinion = 0.5 * (nw.vertex parent).opinion
          + 0.5 * ((((List.range (nw.degree child - 2)).map
              (fun i : Nat => peers.getD (toU64 (at_peer + (i : Int)) % peers.length) 0)).map
                (fun p => (nw.vertex p).opinion)).sum
            / ((nw.degree child - 2 : Nat) : α))) := by
  have hre : ∀ x, (( ageing.reinitialize child parent num_media nw rng cfg).1.vertex x).opinion
      = if x = child then (nw.vertex parent).opinion else (nw.vertex x).opinion := by
    intro x
    by_cases hx : x = child
    · simp [ageing.reinitialize, Network_u.setVertex, hx]
    · simp [ageing.reinitialize, Network_u.setVertex, hx]
  have hrp : (( ageing.reinitialize child parent num_media nw rng cfg).1.vertex parent).opinion
      = (nw.vertex parent).opinion := by
    rw [hre]
    split_ifs with h
    · rfl
    · rfl
  have hdeg : (nw.degree child : Int)
      = (nw.out_degree child : Int) + (nw.in_degree child : Int) := by
    unfold Network_u.degree
    push_cast
    ring
  have hA : ∀ r : Network_u α × Rng α,
      ageing.replace_child fuel child parent peers num_media at_peer nw rng cfg
        = Outcome.value r →
      (nw.degree child ≤ 2 → (r.1.vertex child).opinion = (nw.vertex parent).opinion) ∧
      (3 ≤ nw.degree child → ∃ outs ins : List Nat,
        ageing.attached_peers fuel child parent peers (nw.out_degree child)
          (nw.in_degree child) (nw.degree child) at_peer
          ( ageing.remove_edges child
            ( ageing.reinitialize child parent num_media nw rng cfg).1)
          ( ageing.reinitialize child parent num_media nw rng cfg).2 = some (outs, ins) ∧
        outs.length + ins.length = nw.degree child - 2 ∧
        (∀ p ∈ outs, r.1.has_edge child p = true) ∧
        (∀ p ∈ ins, r.1.has_edge p child = true) ∧
        (r.1.vertex child).opinion = 0.5 * (nw.vertex parent).opinion
          + 0.5 * (((outs ++ ins).map (fun p =>
              (( ageing.reinitialize child parent num_media nw rng cfg).1.vertex p).opinion)).sum
            / ((outs ++ ins).length : α)) ∧
        ((∀ x, 0 ≤ (nw.vertex x).opinion ∧ (nw.vertex x).opinion ≤ 1) →
          0 ≤ (r.1.vertex child).opinion ∧ (r.1.vertex child).opinion ≤ 1)) := by
    intro r hr
    unfold ageing.replace_child at hr
    dsimp only at hr
    by_cases hz : (nw.degree child : Int) = 0
    · rw [if_pos hz] at hr
      simp only [Outcome.value.injEq] at hr
      subst hr
      refine ⟨fun _ => ?_, fun h3 => ?_⟩
      · rw [hre, if_pos rfl]
      · exfalso
        omega
    · rw [if_neg hz] at hr
      obtain ⟨a1, _⟩ := add_edges_opinion fuel child parent peers _ _ _ at_peer _ _ r
        (Int.natCast_nonneg _) (Int.natCast_nonneg _) hdeg (by omega) hr
      obtain ⟨_, a2⟩ := add_edges_blend fuel child parent peers _ _ _ at_peer _ _ r
        (Int.natCast_nonneg _) (Int.natCast_nonneg _) hdeg (by omega) hr
      refine ⟨fun h2 => ?_, fun h3 => ?_⟩
      · rw [a1 (by omega), remove_edges_vertex, hre, if_pos rfl]
      · obtain ⟨outs, ins, hatt, hlen, he1, he2, hop⟩ := a2 (by omega)
        rw [remove_edges_vertex] at hop
        refine ⟨outs, ins, hatt, by omega, he1, he2, ?_, fun hall => ?_⟩
        · rw [hop, hrp]
        · rw [hop, hrp]
          have hb : ∀ p ∈ outs ++ ins,
              0 ≤ (( ageing.reinitialize child parent num_media nw rng cfg).1.vertex p).opinion ∧
              (( ageing.reinitialize child parent num_media nw rng cfg).1.vertex p).opinion
                ≤ 1 := by
            intro p _
            rw [hre]
            split_ifs
            · exact hall parent
            · exact hall p
          obtain ⟨s0, s1⟩ := sum_map_unit_bounds _ _ hb
          have hpos : (0 : α) < ((outs ++ ins).length : α) := by
            have : 0 < (outs ++ ins).length := by
              rw [List.length_append]
              omega
            exact_mod_cast this
          obtain ⟨p0, p1⟩ := hall parent
          have m0 : 0 ≤ ((outs ++ ins).map (fun p =>
              (( ageing.reinitialize child parent num_media nw rng cfg).1.vertex p).opinion)).sum
              / ((outs ++ ins).length : α) := div_nonneg s0 hpos.le
          have m1 : ((outs ++ ins).map (fun p =>
              (( ageing.reinitialize child parent num_media nw rng cfg).1.vertex p).opinion)).sum
              / ((outs ++ ins).length : α) ≤ 1 := (div_le_one hpos).2 s1
          constructor
          · have : (0 : α) ≤ 0.5 := by norm_num
            nlinarith
          · have e : (0.5 : α) = 1 / 2 := by norm_num
            rw [e]
            linarith
  refine ⟨hA, ?_, ?_⟩
  · intro h2
    unfold ageing.replace_child
    dsimp only
    by_cases hz : (nw.degree child : Int) = 0
    · rw [if_pos hz]
      exact ⟨_, rfl⟩
    · rw [if_neg hz]
      exact add_edges_returns_small fuel child parent peers _ _ _ at_peer _ _
        (Int.natCast_nonneg _) (Int.natCast_nonneg _) hdeg (by omega)
  · intro h3 hl hc hp hnd
    obtain ⟨r, outs, ins, hr, _, hatt, happ⟩ := add_edges_pool fuel child parent peers
      (nw.out_degree child) (nw.in_degree child) (nw.degree child) at_peer
      ( ageing.remove_edges child ( ageing.reinitialize child parent num_media nw rng cfg).1)
      ( ageing.reinitialize child parent num_media nw rng cfg).2 (nw.degree child - 2)
      (Int.natCast_nonneg _) (Int.natCast_nonneg _) hdeg (by omega) (by omega)
      (fun x => (remove_edges_isolates child _ x).1)
      (fun x => (remove_edges_isolates child _ x).2) hl hc hp hnd
    have hrc : ageing.replace_child fuel child parent peers num_media at_peer nw rng cfg
        = Outcome.value r := by
      unfold ageing.replace_child
      dsimp only
      rw [if_neg (by omega)]
      exact hr
    obtain ⟨outs2, ins2, hatt2, hlen2, _, _, hop, _⟩ := (hA r hrc).2 h3
    rw [hatt] at hatt2
    have e1 : outs = outs2 := by
      have := congrArg Prod.fst (Option.some.inj hatt2)
      exact this
    have e2 : ins = ins2 := by
      have := congrArg Prod.snd (Option.some.inj hatt2)
      exact this
    refine ⟨r, outs, ins, hrc, hatt, happ, ?_⟩
    rw [hop, ← e1, ← e2, happ]
    have hlenu : ((List.range (nw.degree child - 2)).map
        (fun i : Nat => peers.getD (toU64 (at_peer + (i : Int)) % peers.length) 0)).length
        = nw.degree child - 2 := by
      rw [List.length_map, List.length_range]
    rw [hlenu]
    have hcongr : ((List.range (nw.degree child - 2)).map
        (fun i : Nat => peers.getD (toU64 (at_peer + (i : Int)) % peers.length) 0)).map
          (fun p => (( ageing.reinitialize child parent num_media nw rng cfg).1.vertex p).opinion)
        = ((List.range (nw.degree child - 2)).map
          (fun i : Nat => peers.getD (toU64 (at_peer + (i : Int)) % peers.length) 0)).map
            (fun p => (nw.vertex p).opinion) := by
      apply List.map_congr_left
      intro p hpm
      obtain ⟨i, _, rfl⟩ := List.mem_map.1 hpm
      rw [hre, if_neg]
      intro e
      exact hc (e ▸ pool_peer_mem peers _ hl)
    rw [hcongr]

theorem Outcome.eq_value_of_isSome {β : Type} (o : Outcome β) (h : o.get?.isSome = true) :
    o = Outcome.value (o.get?.get h) := by
  cases o <;> simp [Outcome.get?] at h ⊢

/-- C17 at a concrete input: user 0 of `seniorNet` has out-edges of weight 1/3 to 2, 3 and
4; after `remove_edges(2)` vertex 2 has no in-edge and the out-weights of user 0 sum
to 1. -/
theorem remove_edges_detaches_witness :
    seniorNet.has_edge 0 2 = true ∧
    ( ageing.remove_edges 2 seniorNet).in_degree 2 = 0 ∧
    ( ageing.remove_edges 2 seniorNet).weight_sum 0 = 1 :=
  ⟨by decide!, (remove_edges_detaches 2 seniorNet).1,
    (remove_edges_detaches 2 seniorNet).2.2.2 0 (by decide) (by decide) (by decide!)
      (by decide!)⟩

/-- C19 as stated fails: the child 0 of `zeroWeightNet` has no edges left and had degree 1
(one out-edge); the parent 1 has one out-edge, of weight 0.  `add_edges` adds the edge
from the child to the parent with weight 1 and calls `normalize_weights(parent)`, which
leaves a total weight of zero as it is: the parent has out-degree 1 and its out-weights
sum to 0. -/
theorem add_edges_zero_weight_parent :
    zeroWeightNet.out 0 = [] ∧ zeroWeightNet.in_degree 0 = 0 ∧
    ∃ r, ageing.add_edges 10 0 1 [] 1 0 1 0 zeroWeightNet (intRng 0) = Outcome.value r ∧
      r.1.weight_sum 0 = 1 ∧ r.1.out_degree 1 = 1 ∧ r.1.weight_sum 1 = 0 ∧
      r.1.weight_sum 1 ≠ 1 :=
  ⟨by decide!, by decide!, _,
    Outcome.eq_value_of_isSome
      (ageing.add_edges 10 0 1 [] 1 0 1 0 zeroWeightNet (intRng 0)) (by decide!),
    by decide!, by decide!, by decide!, by decide!⟩

/-- C19, amended, at a concrete input: the senior 0 of `seniorNet` (degree 4, in 1, out 3)
is detached and reconnected to the parent 1 and the peers 2 and 3. -/
theorem add_edges_weight_sums_witness :
    ∃ r, ageing.add_edges 10 0 1 [2, 3] 3 1 4 0 ( ageing.remove_edges 0 seniorNet) (intRng 0)
        = Outcome.value r ∧
      r.1.has_edge 0 0 = false ∧ r.1.weight_sum 0 = 1 ∧ r.1.weight_sum 1 = 1 :=
  ⟨_, Outcome.eq_value_of_isSome
      (ageing.add_edges 10 0 1 [2, 3] 3 1 4 0 ( ageing.remove_edges 0 seniorNet) (intRng 0))
      (by decide!),
    by decide!,
    (add_edges_weight_sums 10 0 1 [2, 3] 3 1 4 0 ( ageing.remove_edges 0 seniorNet) (intRng 0)
      _ (by decide) (by decide) (by decide) (by decide) (by decide!) (by decide!)
      (Outcome.eq_value_of_isSome
        (ageing.add_edges 10 0 1 [2, 3] 3 1 4 0 ( ageing.remove_edges 0 seniorNet) (intRng 0))
        (by decide!))
      (by decide!)).1,
    (add_edges_weight_sums 10 0 1 [2, 3] 3 1 4 0 ( ageing.remove_edges 0 seniorNet) (intRng 0)
      _ (by decide) (by decide) (by decide) (by decide) (by decide!) (by decide!)
      (Outcome.eq_value_of_isSome
        (ageing.add_edges 10 0 1 [2, 3] 3 1 4 0 ( ageing.remove_edges 0 seniorNet) (intRng 0))
        (by decide!))
      (by decide!)).2 (by decide!) (Or.inl (by decide))⟩

/-- C20 at a concrete input: the senior 0 of `seniorNet` has degree 4 and is replaced
after the parent 1 (opinion 1/4) with the pool of peers 2 and 3 (opinions 3/4 and 1/2):
`replace_child` returns, the peers attached are 2 and 3, both by out-edges, and the
opinion of the child is `0.5 * 1/4 + 0.5 * (3/4 + 1/2) / 2 = 7/16`. -/
theorem replace_child_opinion_witness :
    3 ≤ seniorNet.degree 0 ∧
    ageing.attached_peers 10 0 1 [2, 3] (seniorNet.out_degree 0) (seniorNet.in_degree 0)
      (seniorNet.degree 0) 0
      ( ageing.remove_edges 0 ( ageing.reinitialize 0 1 1 seniorNet (intRng 0)
        scenarioCfg.custom).1)
      ( ageing.reinitialize 0 1 1 seniorNet (intRng 0) scenarioCfg.custom).2
        = some ([2, 3], []) ∧
    ∃ r, ageing.replace_child 10 0 1 [2, 3] 1 0 seniorNet (intRng 0) scenarioCfg.custom
        = Outcome.value r ∧
      (r.1.vertex 0).opinion = 7 / 16 ∧
      r.1.has_edge 0 2 = true ∧ r.1.has_edge 0 3 = true ∧
      0 ≤ (r.1.vertex 0).opinion ∧ (r.1.vertex 0).opinion ≤ 1 := by
  have hval : ageing.attached_peers 10 0 1 [2, 3] (seniorNet.out_degree 0)
      (seniorNet.in_degree 0) (seniorNet.degree 0) 0
      ( ageing.remove_edges 0 ( ageing.reinitialize 0 1 1 seniorNet (intRng 0)
        scenarioCfg.custom).1)
      ( ageing.reinitialize 0 1 1 seniorNet (intRng 0) scenarioCfg.custom).2
        = some ([2, 3], []) := by decide!
  obtain ⟨r, outs, ins, hr, _, _, hop⟩ :=
    (replace_child_opinion 10 0 1 [2, 3] 1 0 seniorNet (intRng 0) scenarioCfg.custom).2.2
      (by decide!) (by decide) (by decide) (by decide) (by decide!)
  obtain ⟨outs2, ins2, hatt, _, he, _, _, hunit⟩ :=
    ((replace_child_opinion 10 0 1 [2, 3] 1 0 seniorNet (intRng 0) scenarioCfg.custom).1 r
      hr).2 (by decide!)
  rw [hval] at hatt
  have e1 : outs2 = [2, 3] := (congrArg Prod.fst (Option.some.inj hatt)).symm
  rw [e1] at he
  have hall : ∀ x, 0 ≤ (seniorNet.vertex x).opinion ∧ (seniorNet.vertex x).opinion ≤ 1 := by
    intro x
    unfold seniorNet
    dsimp only
    split_ifs <;> norm_num
  refine ⟨by decide!, hval, r, hr, ?_, he 2 (by decide), he 3 (by decide), hunit hall⟩
  rw [hop]
  decide!

/-! ### C21: the clamp of the media opinion -/

theorem media_revision_eq [LinearOrderedField α] (coin : Nat) (nw_m : Network_m α)
    (rng : Rng α) :
    revision.media_revision coin nw_m rng
      = (revision.media_finish (random_medium nw_m rng).1
          (revision.media_shift coin (revision.decayed nw_m (random_medium nw_m rng).1)
            (random_medium nw_m rng).1), (random_medium nw_m rng).2) := rfl

theorem normalize_ads_vertex [LinearOrderedField α] (nw : Network_m α) (x : Nat) :
    ((revision.normalize_ads nw).vertex x).opinion = (nw.vertex x).opinion ∧
    ((revision.normalize_ads nw).vertex x).tolerance = (nw.vertex x).tolerance ∧
    ((revision.normalize_ads nw).vertex x).susceptibility = (nw.vertex x).susceptibility ∧
    ((revision.normalize_ads nw).vertex x).persuasiveness = (nw.vertex x).persuasiveness ∧
    ((revision.normalize_ads nw).vertex x).users = (nw.vertex x).users := by
  unfold revision.normalize_ads
  dsimp only
  split_ifs <;> exact ⟨rfl, rfl, rfl, rfl, rfl⟩

theorem media_shift_other [LinearOrderedField α] (coin : Nat) (nw1 : Network_m α) (v w : Nat)
    (hw : w ≠ v) : (revision.media_shift coin nw1 v).vertex w = nw1.vertex w := by
  unfold revision.media_shift
  dsimp only
  split_ifs <;> simp [Network_m.setVertex, hw]

theorem media_finish_other [LinearOrderedField α] (nw2 : Network_m α) (v w : Nat)
    (hw : w ≠ v) :
    ((revision.media_finish v nw2).vertex w).opinion = (nw2.vertex w).opinion ∧
    ((revision.media_finish v nw2).vertex w).tolerance = (nw2.vertex w).tolerance ∧
    ((revision.media_finish v nw2).vertex w).susceptibility = (nw2.vertex w).susceptibility ∧
    ((revision.media_finish v nw2).vertex w).persuasiveness = (nw2.vertex w).persuasiveness ∧
    ((revision.media_finish v nw2).vertex w).users = (nw2.vertex w).users := by
  have hfin : ∀ g : Network_m α, ∀ d : Medium α, (g.setVertex v d).vertex w = g.vertex w :=
    fun g d => by simp [Network_m.setVertex, hw]
  unfold revision.media_finish
  dsimp only
  rw [hfin]
  have hn := fun g : Network_m α => normalize_ads_vertex g w
  rw [(hn _).1, (hn _).2.1, (hn _).2.2.1, (hn _).2.2.2.1, (hn _).2.2.2.2, hfin]
  split_ifs <;> simp [hfin]

theorem media_finish_self [LinearOrderedField α] (nw2 : Network_m α) (v : Nat) :
    ((revision.media_finish v nw2).vertex v).opinion
      = if (nw2.vertex v).opinion < 0 then 0
        else if (nw2.vertex v).opinion > 1 then 1 else (nw2.vertex v).opinion := by
  unfold revision.media_finish
  dsimp only
  simp only [Network_m.setVertex, if_true, (normalize_ads_vertex _ v).1]
  by_cases h1 : (nw2.vertex v).opinion < 0
  · simp only [h1, if_true]
    split_ifs with h2
    · exact absurd h2 (not_lt.2 zero_le_one)
    · simp
  · simp only [h1, if_false]
    split_ifs <;> simp

/-- C21: for every media graph state, every value of the coin and every state of the
random stream, after `media_revision` the opinion of the chosen medium `v` lies in
[0,1], and every other medium has the opinion, tolerance, susceptibility,
persuasiveness and users it had. -/
theorem media_revision_clamps_opinion [LinearOrderedField α] (coin : Nat)
    (nw_m : Network_m α) (rng : Rng α) :
    0 ≤ ((revision.media_revision coin nw_m rng).1.vertex (random_medium nw_m rng).1).opinion ∧
    ((revision.media_revision coin nw_m rng).1.vertex (random_medium nw_m rng).1).opinion ≤ 1 ∧
    ∀ w, w ≠ (random_medium nw_m rng).1 →
      ((revision.media_revision coin nw_m rng).1.vertex w).opinion = (nw_m.vertex w).opinion ∧
      ((revision.media_revision coin nw_m rng).1.vertex w).tolerance
        = (nw_m.vertex w).tolerance ∧
      ((revision.media_revision coin nw_m rng).1.vertex w).susceptibility
        = (nw_m.vertex w).susceptibility ∧
      ((revision.media_revision coin nw_m rng).1.vertex w).persuasiveness
        = (nw_m.vertex w).persuasiveness ∧
      ((revision.media_revision coin nw_m rng).1.vertex w).users = (nw_m.vertex w).users := by
  rw [media_revision_eq]
  generalize (random_medium nw_m rng).1 = v
  dsimp only
  refine ⟨?_, ?_, ?_⟩
  · rw [media_finish_self]
    split_ifs with h1 h2
    · exact le_refl 0
    · exact zero_le_one
    · exact not_lt.1 h1
  · rw [media_finish_self]
    split_ifs with h1 h2
    · exact zero_le_one
    · exact le_refl 1
    · exact not_lt.1 h2
  · intro w hw
    obtain ⟨e1, e2, e3, e4, e5⟩ := media_finish_other
      (revision.media_shift coin (revision.decayed nw_m v) v) v w hw
    rw [e1, e2, e3, e4, e5, media_shift_other _ _ _ _ hw]
    have hd : (revision.decayed nw_m v).vertex w = nw_m.vertex w := by
      simp [revision.decayed, Network_m.setVertex, hw]
    rw [hd]
    exact ⟨rfl, rfl, rfl, rfl, rfl⟩

/-! ### C22: the fittest neighbour -/

theorem fittest_scan_congr [LinearOrderedField α] (g h : Network_m α) (v : Nat)
    (ho : ∀ x, (g.vertex x).opinion = (h.vertex x).opinion)
    (ht : (g.vertex v).tolerance = (h.vertex v).tolerance)
    (hu : ∀ x, (g.vertex x).users = (h.vertex x).users) (l : List (Nat × α)) (s : Nat × Bool) :
    revision.fittest_scan g v l s = revision.fittest_scan h v l s := by
  induction l generalizing s with
  | nil => rfl
  | cons e es ih =>
    simp only [revision.fittest_scan, ho, ht, hu, ih]

theorem fittest_scan_decayed [LinearOrderedField α] (nw_m : Network_m α) (v : Nat)
    (l : List (Nat × α)) (s : Nat × Bool) :
    revision.fittest_scan (revision.decayed nw_m v) v l s = revision.fittest_scan nw_m v l s := by
  apply fittest_scan_congr
  · intro x
    by_cases hx : x = v <;> simp [revision.decayed, Network_m.setVertex, hx]
  · simp [revision.decayed, Network_m.setVertex]
  · intro x
    by_cases hx : x = v <;> simp [revision.decayed, Network_m.setVertex, hx]

theorem fittest_scan_facts [LinearOrderedField α] (nw : Network_m α) (v : Nat)
    (l : List (Nat × α)) (s : Nat × Bool) :
    (revision.fittest_scan nw v l s = s ∨
      ((revision.fittest_scan nw v l s).2 = true ∧
        ∃ e ∈ l, e.1 = (revision.fittest_scan nw v l s).1 ∧
          |(nw.vertex v).opinion - (nw.vertex e.1).opinion| ≤ (nw.vertex v).tolerance)) ∧
    (nw.vertex s.1).users ≤ (nw.vertex (revision.fittest_scan nw v l s).1).users ∧
    ∀ e ∈ l, |(nw.vertex v).opinion - (nw.vertex e.1).opinion| ≤ (nw.vertex v).tolerance →
      (nw.vertex e.1).users ≤ (nw.vertex (revision.fittest_scan nw v l s).1).users := by
  induction l generalizing s with
  | nil =>
    refine ⟨Or.inl rfl, le_refl _, ?_⟩
    intro e he
    simp at he
  | cons e es ih =>
    by_cases hc : |(nw.vertex v).opinion - (nw.vertex e.1).opinion| ≤ (nw.vertex v).tolerance
        ∧ (nw.vertex e.1).users > (nw.vertex s.1).users
    · have hstep : revision.fittest_scan nw v (e :: es) s
          = revision.fittest_scan nw v es (e.1, true) := by
        simp only [revision.fittest_scan, hc, and_self, if_true]
      rw [hstep]
      obtain ⟨h1, h2, h3⟩ := ih (e.1, true)
      refine ⟨Or.inr ?_, ?_, ?_⟩
      · rcases h1 with h1 | ⟨hf, e2, he2, hh⟩
        · rw [h1]
          exact ⟨rfl, e, List.mem_cons_self _ _, rfl, hc.1⟩
        · exact ⟨hf, e2, List.mem_cons_of_mem _ he2, hh⟩
      · exact le_trans (le_of_lt hc.2) h2
      · intro x hx hw
        rcases List.mem_cons.1 hx with rfl | hx
        · exact h2
        · exact h3 x hx hw
    · have hstep : revision.fittest_scan nw v (e :: es) s = revision.fittest_scan nw v es s := by
        simp only [revision.fittest_scan, hc, if_false]
      rw [hstep]
      obtain ⟨h1, h2, h3⟩ := ih s
      refine ⟨?_, h2, ?_⟩
      · rcases h1 with h1 | ⟨hf, e2, he2, hh⟩
        · exact Or.inl h1
        · exact Or.inr ⟨hf, e2, List.mem_cons_of_mem _ he2, hh⟩
      · intro x hx hw
        rcases List.mem_cons.1 hx with rfl | hx
        · have : ¬ (nw.vertex x.1).users > (nw.vertex s.1).users := fun h => hc ⟨hw, h⟩
          exact le_trans (not_lt.1 this) h2
        · exact h3 x hx hw

/-- C22 as stated fails: medium 0 of `pairMedia 5 3` has 5 users and its only
neighbour, medium 1, has the same opinion (so it is within tolerance) and 3 users.
The scan starts from `v` itself as the fittest candidate and finds no neighbour:
`found` stays false and `media_revision` leaves the opinion of medium 0 as it is. -/
theorem fittest_scan_keeps_optimum :
    (random_medium (pairMedia 5 3) (intRng 0)).1 = 0 ∧
    (pairMedia 5 3).adj 0 = [(1, 1)] ∧
    |((pairMedia 5 3).vertex 0).opinion - ((pairMedia 5 3).vertex 1).opinion|
      ≤ ((pairMedia 5 3).vertex 0).tolerance ∧
    revision.fittest_scan (revision.decayed (pairMedia 5 3) 0) 0
      ((revision.decayed (pairMedia 5 3) 0).adj 0) (0, false) = (0, false) ∧
    ((revision.media_revision 0 (pairMedia 5 3) (intRng 0)).1.vertex 0).opinion
      = ((pairMedia 5 3).vertex 0).opinion := by
  refine ⟨?_, ?_, ?_, ?_, ?_⟩ <;> decide!

/-- C22, amended: if a medium `v` (as the one chosen by `media_revision`) has an adjacent
medium within its tolerance that has more users than `v` itself, then the scan of
`media_revision` finds a fittest neighbour; it is an adjacent medium within the
tolerance of `v`, it has more users than `v`, and no adjacent medium within tolerance
has more users than it. -/
theorem fittest_neighbour_found [LinearOrderedField α] (nw_m : Network_m α) (v : Nat)
    (hex : ∃ e ∈ nw_m.adj v,
      |(nw_m.vertex v).opinion - (nw_m.vertex e.1).opinion| ≤ (nw_m.vertex v).tolerance
        ∧ (nw_m.vertex v).users < (nw_m.vertex e.1).users) :
    (revision.fittest_scan (revision.decayed nw_m v) v ((revision.decayed nw_m v).adj v)
      (v, false)).2 = true ∧
    (∃ e ∈ nw_m.adj v, e.1 = (revision.fittest_scan (revision.decayed nw_m v) v
      ((revision.decayed nw_m v).adj v) (v, false)).1) ∧
    |(nw_m.vertex v).opinion - (nw_m.vertex (revision.fittest_scan (revision.decayed nw_m v) v
      ((revision.decayed nw_m v).adj v) (v, false)).1).opinion| ≤ (nw_m.vertex v).tolerance ∧
    (nw_m.vertex v).users < (nw_m.vertex (revision.fittest_scan (revision.decayed nw_m v) v
      ((revision.decayed nw_m v).adj v) (v, false)).1).users ∧
    ∀ e ∈ nw_m.adj v,
      |(nw_m.vertex v).opinion - (nw_m.vertex e.1).opinion| ≤ (nw_m.vertex v).tolerance →
      (nw_m.vertex e.1).users ≤ (nw_m.vertex (revision.fittest_scan (revision.decayed nw_m v) v
        ((revision.decayed nw_m v).adj v) (v, false)).1).users := by
  have hadj : (revision.decayed nw_m v).adj v = nw_m.adj v := rfl
  rw [fittest_scan_decayed, hadj]
  obtain ⟨h1, _, h3⟩ := fittest_scan_facts nw_m v (nw_m.adj v) (v, false)
  obtain ⟨e, he, hw, hu⟩ := hex
  have hlt : (nw_m.vertex v).users
      < (nw_m.vertex (revision.fittest_scan nw_m v (nw_m.adj v) (v, false)).1).users :=
    lt_of_lt_of_le hu (h3 e he hw)
  rcases h1 with h1 | ⟨hf, e2, he2, hh, hw2⟩
  · rw [h1] at hlt
    exact absurd hlt (lt_irrefl _)
  · refine ⟨hf, ⟨e2, he2, hh⟩, ?_, hlt, h3⟩
    rw [← hh]
    exact hw2

/-- C22, amended, at a concrete input: medium 0 of `pairMedia 1 5` has 1 user, its
neighbour 5. -/
theorem fittest_neighbour_found_witness :
    (revision.fittest_scan (revision.decayed (pairMedia 1 5) 0) 0
      ((revision.decayed (pairMedia 1 5) 0).adj 0) (0, false)).2 = true ∧
    ((pairMedia 1 5).vertex 0).users < ((pairMedia 1 5).vertex
      (revision.fittest_scan (revision.decayed (pairMedia 1 5) 0) 0
        ((revision.decayed (pairMedia 1 5) 0).adj 0) (0, false)).1).users :=
  ⟨(fittest_neighbour_found (pairMedia 1 5) 0
      ⟨(1, 1), by decide!, by decide!, by decide!⟩).1,
   (fittest_neighbour_found (pairMedia 1 5) 0
      ⟨(1, 1), by decide!, by decide!, by decide!⟩).2.2.2.1⟩

/-! ### C23: the jump of a medium next to its fittest neighbour -/

/-- C23: if the scan of `media_revision` for the chosen medium `v` has found the
fittest neighbour `f` and the opinions of `v` and `f` are at most `tolerance(v)/3`
apart, then the opinion given to `v` before clamping is `opinion(f) - tolerance(v)/3`
when `v` was below `f`, `opinion(f) + tolerance(v)/3` when `v` was above `f`, and one of
the two when the opinions were equal; its distance from the opinion of `f` is exactly
`tolerance(v)/3`; and the opinion of `v` after `media_revision` is that value clamped
to [0,1]. -/
theorem media_small_gap_jump [LinearOrderedField α] (coin : Nat) (nw_m : Network_m α)
    (rng : Rng α) (v f : Nat) (hv : v = (random_medium nw_m rng).1)
    (hfound : revision.fittest_scan (revision.decayed nw_m v) v
      ((revision.decayed nw_m v).adj v) (v, false) = (f, true))
    (hgap : |(nw_m.vertex v).opinion - (nw_m.vertex f).opinion| ≤ (nw_m.vertex v).tolerance / 3) :
    ((nw_m.vertex v).opinion < (nw_m.vertex f).opinion →
      revision.shifted_opinion coin (revision.decayed nw_m v) v f
        = (nw_m.vertex f).opinion - (nw_m.vertex v).tolerance / 3) ∧
    ((nw_m.vertex f).opinion < (nw_m.vertex v).opinion →
      revision.shifted_opinion coin (revision.decayed nw_m v) v f
        = (nw_m.vertex f).opinion + (nw_m.vertex v).tolerance / 3) ∧
    ((nw_m.vertex v).opinion = (nw_m.vertex f).opinion →
      revision.shifted_opinion coin (revision.decayed nw_m v) v f
          = (nw_m.vertex f).opinion - (nw_m.vertex v).tolerance / 3 ∨
        revision.shifted_opinion coin (revision.decayed nw_m v) v f
          = (nw_m.vertex f).opinion + (nw_m.vertex v).tolerance / 3) ∧
    |revision.shifted_opinion coin (revision.decayed nw_m v) v f - (nw_m.vertex f).opinion|
      = (nw_m.vertex v).tolerance / 3 ∧
    ((revision.media_revision coin nw_m rng).1.vertex v).opinion
      = if revision.shifted_opinion coin (revision.decayed nw_m v) v f < 0 then 0
        else if revision.shifted_opinion coin (revision.decayed nw_m v) v f > 1 then 1
        else revision.shifted_opinion coin (revision.decayed nw_m v) v f := by
  have hov : ((revision.decayed nw_m v).vertex v).opinion = (nw_m.vertex v).opinion := by
    simp [revision.decayed, Network_m.setVertex]
  have htv : ((revision.decayed nw_m v).vertex v).tolerance = (nw_m.vertex v).tolerance := by
    simp [revision.decayed, Network_m.setVertex]
  have hof : ((revision.decayed nw_m v).vertex f).opinion = (nw_m.vertex f).opinion := by
    by_cases hx : f = v <;> simp [revision.decayed, Network_m.setVertex, hx]
  have ht0 : 0 ≤ (nw_m.vertex v).tolerance / 3 := le_trans (abs_nonneg _) hgap
  have hsh : revision.shifted_opinion coin (revision.decayed nw_m v) v f
      = (nw_m.vertex f).opinion
        + (((if (nw_m.vertex v).opinion = (nw_m.vertex f).opinion
              then 2 * ((coin : Int) % 2) - 1
              else if (nw_m.vertex v).opinion ≠ (nw_m.vertex f).opinion
                ∧ (nw_m.vertex v).opinion < (nw_m.vertex f).opinion then -1 else 1 : Int) : α))
          * (nw_m.vertex v).tolerance / 3 := by
    unfold revision.shifted_opinion
    rw [hov, htv, hof, if_neg (not_lt.2 hgap)]
  have hcoin : (2 * ((coin : Int) % 2) - 1 = -1) ∨ (2 * ((coin : Int) % 2) - 1 = 1) := by
    omega
  refine ⟨?_, ?_, ?_, ?_, ?_⟩
  · intro hlt
    rw [hsh, if_neg (ne_of_lt hlt), if_pos ⟨ne_of_lt hlt, hlt⟩]
    push_cast
    ring
  · intro hlt
    rw [hsh, if_neg (ne_of_gt hlt), if_neg (fun h => absurd h.2 (not_lt.2 (le_of_lt hlt)))]
    push_cast
    ring
  · intro heq
    rw [hsh, if_pos heq]
    rcases hcoin with h | h
    · left
      rw [h]
      push_cast
      ring
    · right
      rw [h]
      push_cast
      ring
  · rw [hsh]
    have key : ∀ s : Int, s = -1 ∨ s = 1 →
        |(nw_m.vertex f).opinion + (s : α) * (nw_m.vertex v).tolerance / 3
          - (nw_m.vertex f).opinion| = (nw_m.vertex v).tolerance / 3 := by
      intro s hs
      rcases hs with rfl | rfl
      · have : (nw_m.vertex f).opinion + ((-1 : Int) : α) * (nw_m.vertex v).tolerance / 3
            - (nw_m.vertex f).opinion = -((nw_m.vertex v).tolerance / 3) := by
          push_cast
          ring
        rw [this, abs_neg, abs_of_nonneg ht0]
      · have : (nw_m.vertex f).opinion + ((1 : Int) : α) * (nw_m.vertex v).tolerance / 3
            - (nw_m.vertex f).opinion = (nw_m.vertex v).tolerance / 3 := by
          push_cast
          ring
        rw [this, abs_of_nonneg ht0]
    apply key
    split_ifs
    · exact hcoin
    · exact Or.inl rfl
    · exact Or.inr rfl
  · rw [media_revision_eq, ← hv]
    dsimp only
    rw [media_finish_self]
    have hne : (revision.decayed nw_m v).out_degree v ≠ 0 := by
      intro h0
      have hnil : (revision.decayed nw_m v).adj v = [] := List.length_eq_zero.1 h0
      rw [hnil] at hfound
      simp [revision.fittest_scan] at hfound
    have hshift : ((revision.media_shift coin (revision.decayed nw_m v) v).vertex v).opinion
        = revision.shifted_opinion coin (revision.decayed nw_m v) v f := by
      unfold revision.media_shift
      dsimp only
      rw [if_pos hne, hfound]
      simp [Network_m.setVertex]
    rw [hshift]

/-- C23 at a concrete input: medium 0 of `pairMedia 1 5` has the opinion 1/2 of its
fittest neighbour 1; with the coin 0 it jumps to `1/2 - 1/10`. -/
theorem media_small_gap_jump_witness :
    revision.fittest_scan (revision.decayed (pairMedia 1 5) 0) 0
      ((revision.decayed (pairMedia 1 5) 0).adj 0) (0, false) = (1, true) ∧
    |revision.shifted_opinion 0 (revision.decayed (pairMedia 1 5) 0) 0 1
      - ((pairMedia 1 5).vertex 1).opinion| = ((pairMedia 1 5).vertex 0).tolerance / 3 ∧
    ((revision.media_revision 0 (pairMedia 1 5) (intRng 0)).1.vertex 0).opinion = 2 / 5 := by
  have h := media_small_gap_jump 0 (pairMedia 1 5) (intRng 0) 0 1 (by decide!) (by decide!)
    (by decide!)
  refine ⟨by decide!, h.2.2.2.1, ?_⟩
  rw [h.2.2.2.2]
  decide!

/-! ### C24: opinion groups -/

theorem getLast?_snoc {β : Type} (l : List β) (a : β) : (l ++ [a]).getLast? = some a := by
  simp

theorem cut_runs_join [LinearOrderedField α] (tolerance : α) (L : List (α × Nat))
    (cur : List Nat) : (cut_runs tolerance L cur).flatten = cur ++ L.map Prod.snd := by
  induction L generalizing cur with
  | nil => simp [cut_runs]
  | cons x r ih =>
    cases r with
    | nil => simp [cut_runs]
    | cons y r =>
      unfold cut_runs
      split_ifs
      · rw [List.flatten_cons, ih]
        simp
      · rw [ih]
        simp

theorem cut_runs_head [LinearOrderedField α] (tolerance : α) (x : α × Nat)
    (r : List (α × Nat)) (cur : List Nat) :
    ∃ t rest, cut_runs tolerance (x :: r) cur = (cur ++ x.2 :: t) :: rest := by
  induction r generalizing x cur with
  | nil => exact ⟨[], [], by simp [cut_runs]⟩
  | cons y r ih =>
    unfold cut_runs
    split_ifs
    · exact ⟨[], cut_runs tolerance (y :: r) [], by simp⟩
    · obtain ⟨t, rest, h⟩ := ih y (cur ++ [x.2])
      exact ⟨y.2 :: t, rest, by rw [h]; simp⟩

theorem cut_runs_ne_nil [LinearOrderedField α] (tolerance : α) (x : α × Nat)
    (r : List (α × Nat)) (cur : List Nat) :
    ∀ g ∈ cut_runs tolerance (x :: r) cur, g ≠ [] := by
  induction r generalizing x cur with
  | nil =>
    intro g hg
    simp [cut_runs] at hg
    simp [hg]
  | cons y r ih =>
    intro g hg
    unfold cut_runs at hg
    split_ifs at hg
    · rcases List.mem_cons.1 hg with rfl | hg
      · simp
      · exact ih y [] g hg
    · exact ih y _ g hg

theorem cut_runs_close [LinearOrderedField α] (tolerance : α) (op : Nat → α)
    (x : α × Nat) (r : List (α × Nat)) (cur : List Nat)
    (hop : ∀ p ∈ x :: r, p.1 = op p.2)
    (hcur : (cur ++ [x.2]).Chain' (fun a b => |op a - op b| < tolerance)) :
    ∀ g ∈ cut_runs tolerance (x :: r) cur,
      g.Chain' (fun a b => |op a - op b| < tolerance) := by
  induction r generalizing x cur with
  | nil =>
    intro g hg
    simp [cut_runs] at hg
    rw [hg]
    exact hcur
  | cons y r ih =>
    intro g hg
    have hop2 : ∀ p ∈ y :: r, p.1 = op p.2 := fun p hp => hop p (List.mem_cons_of_mem _ hp)
    unfold cut_runs at hg
    split_ifs at hg with hfar
    · rcases List.mem_cons.1 hg with rfl | hg
      · exact hcur
      · exact ih y [] hop2 (by simp) g hg
    · apply ih y (cur ++ [x.2]) hop2 _ g hg
      have hxy : |op x.2 - op y.2| < tolerance := by
        rw [← hop x (List.mem_cons_self _ _),
          ← hop y (List.mem_cons_of_mem _ (List.mem_cons_self _ _))]
        exact not_le.1 hfar
      apply List.Chain'.append hcur (List.chain'_singleton _)
      intro a ha b hb
      rw [getLast?_snoc] at ha
      simp only [Option.mem_def, Option.some.injEq] at ha
      simp only [List.head?_cons, Option.mem_def, Option.some.injEq] at hb
      rw [← ha, ← hb]
      exact hxy

theorem cut_runs_far [LinearOrderedField α] (tolerance : α) (op : Nat → α)
    (x : α × Nat) (r : List (α × Nat)) (cur : List Nat)
    (hop : ∀ p ∈ x :: r, p.1 = op p.2) :
    (cut_runs tolerance (x :: r) cur).Chain'
      (fun g h => ∀ a ∈ g.getLast?, ∀ b ∈ h.head?, tolerance ≤ |op a - op b|) := by
  induction r generalizing x cur with
  | nil => simp [cut_runs]
  | cons y r ih =>
    have hop2 : ∀ p ∈ y :: r, p.1 = op p.2 := fun p hp => hop p (List.mem_cons_of_mem _ hp)
    unfold cut_runs
    split_ifs with hfar
    · rw [List.chain'_cons']
      refine ⟨?_, ih y [] hop2⟩
      obtain ⟨t, rest, ht⟩ := cut_runs_head tolerance y r []
      rw [ht]
      intro h hh a ha b hb
      simp only [List.head?_cons, Option.mem_def, Option.some.injEq] at hh
      subst hh
      rw [getLast?_snoc] at ha
      simp only [Option.mem_def, Option.some.injEq] at ha
      simp only [List.nil_append, List.head?_cons, Option.mem_def, Option.some.injEq] at hb
      rw [← ha, ← hb, ← hop x (List.mem_cons_self _ _),
        ← hop y (List.mem_cons_of_mem _ (List.mem_cons_self _ _))]
      exact hfar
    · exact ih y _ hop2

theorem slice_succ {β : Type} (L : List β) (s k : Nat) (hs : s ≤ k) (hk : k < L.length) :
    (L.drop s).take (k + 1 - s) = (L.drop s).take (k - s) ++ [L.get ⟨k, hk⟩] := by
  have e : k + 1 - s = (k - s) + 1 := by omega
  rw [e, List.take_succ, List.getElem?_drop]
  have e2 : s + (k - s) = k := by omega
  rw [e2, List.getElem?_eq_getElem hk]
  rfl

theorem cut_runs_cons_cons [LinearOrderedField α] (tolerance : α) (x y : α × Nat)
    (r : List (α × Nat)) (cur : List Nat) :
    cut_runs tolerance (x :: y :: r) cur
      = if |x.1 - y.1| ≥ tolerance then (cur ++ [x.2]) :: cut_runs tolerance (y :: r) []
        else cut_runs tolerance (y :: r) (cur ++ [x.2]) := by
  rw [cut_runs]

theorem cut_runs_single [LinearOrderedField α] (tolerance : α) (x : α × Nat) (cur : List Nat) :
    cut_runs tolerance [x] cur = [cur ++ [x.2]] := by
  rw [cut_runs]

theorem groups_fold_inv [LinearOrderedField α] (tolerance : α) (L : List (α × Nat)) (k : Nat)
    (hk : k + 1 ≤ L.length) :
    ((List.range k).foldl (opinion_groups_step L tolerance) (0, [])).1 ≤ k ∧
    ((List.range k).foldl (opinion_groups_step L tolerance) (0, [])).2
        ++ cut_runs tolerance (L.drop k)
          (((L.drop ((List.range k).foldl (opinion_groups_step L tolerance) (0, [])).1).take
            (k - ((List.range k).foldl (opinion_groups_step L tolerance) (0, [])).1)).map
              Prod.snd)
      = cut_runs tolerance L [] := by
  induction k with
  | zero => simp
  | succ k ih =>
    obtain ⟨ih1, ih2⟩ := ih (by omega)
    rw [List.range_succ, List.foldl_append]
    simp only [List.foldl_cons, List.foldl_nil]
    generalize hst : (List.range k).foldl (opinion_groups_step L tolerance) (0, []) = st
      at ih1 ih2
    have hk0 : k < L.length := by omega
    have hk1 : k + 1 < L.length := by omega
    have hd0 : L.drop k = L.get ⟨k, hk0⟩ :: L.drop (k + 1) := List.drop_eq_getElem_cons hk0
    have hd1 : L.drop (k + 1) = L.get ⟨k + 1, hk1⟩ :: L.drop (k + 2) :=
      List.drop_eq_getElem_cons hk1
    have hg0 : L.getD k (0, 0) = L.get ⟨k, hk0⟩ := List.getD_eq_getElem _ _ hk0
    have hg1 : L.getD (k + 1) (0, 0) = L.get ⟨k + 1, hk1⟩ := List.getD_eq_getElem _ _ hk1
    have hsl := slice_succ L st.1 k ih1 hk0
    rw [hd0, hd1, cut_runs_cons_cons] at ih2
    unfold opinion_groups_step
    rw [hg0, hg1]
    by_cases hfar : |(L.get ⟨k, hk0⟩).1 - (L.get ⟨k + 1, hk1⟩).1| ≥ tolerance
    · rw [if_pos hfar] at ih2 ⊢
      refine ⟨le_refl _, ?_⟩
      dsimp only
      rw [← ih2, hsl, ← hd1]
      simp
    · rw [if_neg hfar] at ih2 ⊢
      refine ⟨by omega, ?_⟩
      rw [← ih2, hsl, ← hd1]
      simp

theorem opinion_groups_eq_cut_runs [LinearOrderedField α] (nw : Network_u α) (tolerance : α)
    (h : (sorted_opinions nw).length ≠ 0) :
    opinion_groups nw tolerance = Outcome.value (cut_runs tolerance (sorted_opinions nw) []) := by
  unfold opinion_groups
  dsimp only
  rw [if_neg h]
  generalize sorted_opinions nw = L at h
  have hlen : L.length - 1 + 1 ≤ L.length := by omega
  obtain ⟨h1, h2⟩ := groups_fold_inv tolerance L (L.length - 1) hlen
  generalize (List.range (L.length - 1)).foldl (opinion_groups_step L tolerance) (0, []) = st
    at h1 h2
  have hk0 : L.length - 1 < L.length := by omega
  have hd0 : L.drop (L.length - 1) = [L.get ⟨L.length - 1, hk0⟩] := by
    rw [List.drop_eq_getElem_cons hk0]
    have : L.length - 1 + 1 = L.length := by omega
    rw [this, List.drop_length]
    rfl
  rw [hd0, cut_runs_single] at h2
  have hsl := slice_succ L st.1 (L.length - 1) h1 hk0
  have hfull : (L.drop st.1).take (L.length - 1 + 1 - st.1) = L.drop st.1 := by
    apply List.take_of_length_le
    rw [List.length_drop]
    omega
  rw [hfull] at hsl
  have e : (L.drop st.1).map Prod.snd
      = ((L.drop st.1).take (L.length - 1 - st.1)).map Prod.snd
        ++ [(L.get ⟨L.length - 1, hk0⟩).2] := by
    conv_lhs => rw [hsl]
    simp
  rw [← h2, e]

theorem pair_le_total [LinearOrderedField α] (a b : α × Nat) : pair_le a b ∨ pair_le b a := by
  unfold pair_le
  rcases lt_trichotomy a.1 b.1 with h | h | h
  · exact Or.inl (Or.inl h)
  · rcases le_total a.2 b.2 with h2 | h2
    · exact Or.inl (Or.inr ⟨h, h2⟩)
    · exact Or.inr (Or.inr ⟨h.symm, h2⟩)
  · exact Or.inr (Or.inl h)

theorem pair_le_trans [LinearOrderedField α] (a b c : α × Nat) (h1 : pair_le a b)
    (h2 : pair_le b c) : pair_le a c := by
  unfold pair_le at *
  rcases h1 with h1 | ⟨h1, h1'⟩
  · rcases h2 with h2 | ⟨h2, _⟩
    · exact Or.inl (lt_trans h1 h2)
    · exact Or.inl (h2 ▸ h1)
  · rcases h2 with h2 | ⟨h2, h2'⟩
    · exact Or.inl (h1 ▸ h2)
    · exact Or.inr ⟨h1.trans h2, le_trans h1' h2'⟩

theorem sorted_opinions_perm [LinearOrderedField α] (nw : Network_u α) :
    (sorted_opinions nw).Perm
      ((List.range nw.num_vertices).map (fun v => ((nw.vertex v).opinion, v))) :=
  List.perm_insertionSort _ _

theorem sorted_opinions_sorted [LinearOrderedField α] (nw : Network_u α) :
    (sorted_opinions nw).Pairwise (fun p q => p.1 ≤ q.1) := by
  haveI : IsTotal (α × Nat) pair_le := ⟨pair_le_total⟩
  haveI : IsTrans (α × Nat) pair_le := ⟨pair_le_trans⟩
  have h : (sorted_opinions nw).Sorted pair_le := List.sorted_insertionSort _ _
  refine List.Pairwise.imp ?_ h
  intro p q hpq
  rcases hpq with hlt | ⟨he, _⟩
  · exact le_of_lt hlt
  · exact le_of_eq he

theorem sorted_opinions_mem [LinearOrderedField α] (nw : Network_u α) :
    ∀ p ∈ sorted_opinions nw, p.1 = (nw.vertex p.2).opinion := by
  intro p hp
  have := (sorted_opinions_perm nw).mem_iff.1 hp
  obtain ⟨v, _, rfl⟩ := List.mem_map.1 this
  rfl

theorem sorted_opinions_vertices [LinearOrderedField α] (nw : Network_u α) :
    ((sorted_opinions nw).map Prod.snd).Perm (List.range nw.num_vertices) := by
  have h := (sorted_opinions_perm nw).map Prod.snd
  have e : ((List.range nw.num_vertices).map (fun v => ((nw.vertex v).opinion, v))).map Prod.snd
      = List.range nw.num_vertices := by
    induction List.range nw.num_vertices with
    | nil => rfl
    | cons a l ih => simp only [List.map_cons, ih]
  rw [e] at h
  exact h

/-- C24: for every graph with at least one vertex and every tolerance, `opinion_groups`
returns a list of groups, none of them empty, whose concatenation holds every vertex
exactly once, in ascending order of opinion; consecutive opinions inside a group differ
by less than `tolerance`, and the last opinion of a group and the first opinion of the
next group differ by at least `tolerance`. -/
theorem opinion_groups_partition [LinearOrderedField α] (nw : Network_u α) (tolerance : α)
    (hN : 0 < nw.num_vertices) :
    ∃ gs, opinion_groups nw tolerance = Outcome.value gs ∧
      (∀ g ∈ gs, g ≠ []) ∧
      gs.flatten.Perm (List.range nw.num_vertices) ∧
      gs.flatten.Pairwise (fun a b => (nw.vertex a).opinion ≤ (nw.vertex b).opinion) ∧
      (∀ g ∈ gs, g.Chain'
        (fun a b => |(nw.vertex a).opinion - (nw.vertex b).opinion| < tolerance)) ∧
      gs.Chain' (fun g h => ∀ a ∈ g.getLast?, ∀ b ∈ h.head?,
        tolerance ≤ |(nw.vertex a).opinion - (nw.vertex b).opinion|) := by
  have hlen : (sorted_opinions nw).length = nw.num_vertices := by
    rw [(sorted_opinions_perm nw).length_eq, List.length_map, List.length_range]
  have hne : (sorted_opinions nw).length ≠ 0 := by omega
  refine ⟨_, opinion_groups_eq_cut_runs nw tolerance hne, ?_⟩
  have hmem := sorted_opinions_mem nw
  have hsorted := sorted_opinions_sorted nw
  have hperm := sorted_opinions_vertices nw
  generalize sorted_opinions nw = L at hne hmem hsorted hperm
  cases L with
  | nil => exact absurd rfl hne
  | cons x r =>
    refine ⟨cut_runs_ne_nil tolerance x r [], ?_, ?_,
      cut_runs_close tolerance (fun v => (nw.vertex v).opinion) x r [] hmem (by simp),
      cut_runs_far tolerance (fun v => (nw.vertex v).opinion) x r [] hmem⟩
    · rw [cut_runs_join, List.nil_append]
      exact hperm
    · rw [cut_runs_join, List.nil_append, List.pairwise_map]
      refine List.Pairwise.imp_of_mem ?_ hsorted
      intro p q hp hq hpq
      rw [← hmem p hp, ← hmem q hq]
      exact hpq

/-- C24 at a concrete input: the users of `seniorNet` have the opinions 1/2, 1/4, 3/4, 1/2
and 1/2; with tolerance 1/4 the groups are 1, then 0, 3 and 4, then 2. -/
theorem opinion_groups_partition_witness :
    (opinion_groups seniorNet (1 / 4)).get? = some [[1], [0, 3, 4], [2]] ∧
    ∃ gs, opinion_groups seniorNet (1 / 4) = Outcome.value gs ∧
      (∀ g ∈ gs, g ≠ []) ∧
      gs.flatten.Perm (List.range seniorNet.num_vertices) ∧
      gs.flatten.Pairwise
        (fun a b => (seniorNet.vertex a).opinion ≤ (seniorNet.vertex b).opinion) ∧
      (∀ g ∈ gs, g.Chain'
        (fun a b => |(seniorNet.vertex a).opinion - (seniorNet.vertex b).opinion| < 1 / 4)) ∧
      gs.Chain' (fun g h => ∀ a ∈ g.getLast?, ∀ b ∈ h.head?,
        1 / 4 ≤ |(seniorNet.vertex a).opinion - (seniorNet.vertex b).opinion|) :=
  ⟨by decide!, opinion_groups_partition seniorNet (1 / 4) (by decide)⟩

/-! ### Flood fill: shared lemmas for C25 and C26 -/

theorem visit_each_append (f : Nat → List Nat → Option (List Nat)) (a b c : List Nat) :
    visit_each f (a ++ b) c
      = match visit_each f a c with
        | none => none
        | some c1 => visit_each f b c1 := by
  induction a generalizing c with
  | nil => rfl
  | cons w ws ih =>
    simp only [List.cons_append, visit_each]
    cases f w c with
    | none => rfl
    | some c1 => exact ih c1

theorem fill_community_eq_flood (nw : Network_u α) (fuel v : Nat) (c : List Nat) :
    fill_community nw fuel v c = flood (fun x => (nw.out x).map Prod.fst) fuel v c := by
  induction fuel generalizing v c with
  | zero => rfl
  | succ fuel ih =>
    have e : (fun w c1 => fill_community nw fuel w c1)
        = flood (fun x => (nw.out x).map Prod.fst) fuel := by
      funext w c1
      exact ih w c1
    rw [fill_community, flood, e]

theorem fill_opinion_cluster_eq_flood [LinearOrderedField α] (nw : Network_u α)
    (fuel v : Nat) (c : List Nat) (tolerance : α) :
    fill_opinion_cluster nw fuel v c tolerance = flood (cluster_nexts nw) fuel v c := by
  induction fuel generalizing v c tolerance with
  | zero => rfl
  | succ fuel ih =>
    have e : (fun w c1 => fill_opinion_cluster nw fuel w c1 (nw.vertex v).susceptibility)
        = flood (cluster_nexts nw) fuel := by
      funext w c1
      exact ih w c1 _
    rw [fill_opinion_cluster, flood, e]
    split_ifs
    · rfl
    · rw [cluster_nexts, visit_each_append]

theorem length_le_of_nodup_of_lt (N : Nat) (c : List Nat) (hnd : c.Nodup)
    (hlt : ∀ x ∈ c, x < N) : c.length ≤ N := by
  have hsub : c ⊆ List.range N := fun x hx => List.mem_range.2 (hlt x hx)
  have := (List.subperm_of_subset hnd hsub).length_le
  rwa [List.length_range] at this

theorem visit_each_post (nexts : Nat → List Nat) (N K : Nat)
    (f : Nat → List Nat → Option (List Nat))
    (hf : ∀ w c, w < N → c.Nodup → (∀ x ∈ c, x < N) → K ≤ c.length →
      ∃ c1, f w c = some c1 ∧ FloodPost nexts N c [w] c1)
    (ws c : List Nat) (hws : ∀ w ∈ ws, w < N) (hnd : c.Nodup) (hlt : ∀ x ∈ c, x < N)
    (hK : K ≤ c.length) :
    ∃ c1, visit_each f ws c = some c1 ∧ FloodPost nexts N c ws c1 := by
  induction ws generalizing c with
  | nil =>
    exact ⟨c, rfl, ⟨[], by simp⟩, hnd, hlt, fun x hx => Or.inl hx⟩
  | cons w ws ih =>
    obtain ⟨c1, hc1, ⟨t1, ht1⟩, hnd1, hlt1, hfrom1⟩ :=
      hf w c (hws w (List.mem_cons_self _ _)) hnd hlt hK
    have hK1 : K ≤ c1.length := by
      rw [ht1, List.length_append]
      omega
    obtain ⟨c2, hc2, ⟨t2, ht2⟩, hnd2, hlt2, hfrom2⟩ :=
      ih c1 (fun x hx => hws x (List.mem_cons_of_mem _ hx)) hnd1 hlt1 hK1
    refine ⟨c2, ?_, ⟨t1 ++ t2, by rw [ht2, ht1, List.append_assoc]⟩, hnd2, hlt2, ?_⟩
    · simp only [visit_each, hc1]
      exact hc2
    · intro x hx
      rcases hfrom2 x hx with h | h | h
      · rcases hfrom1 x h with h' | h' | ⟨y, hy, hxy⟩
        · exact Or.inl h'
        · right; left
          rw [List.mem_singleton] at h'
          rw [h']
          exact List.mem_cons_self _ _
        · right; right
          refine ⟨y, ?_, hxy⟩
          rw [ht2]
          exact List.mem_append_left _ hy
      · right; left
        exact List.mem_cons_of_mem _ h
      · exact Or.inr (Or.inr h)

theorem flood_post (nexts : Nat → List Nat) (N : Nat)
    (hwf : ∀ v, v < N → ∀ w ∈ nexts v, w < N) (fuel v : Nat) (c : List Nat)
    (hv : v < N) (hnd : c.Nodup) (hlt : ∀ x ∈ c, x < N) (hfuel : N < fuel + c.length) :
    ∃ c1, flood nexts fuel v c = some c1 ∧ FloodPost nexts N c [v] c1 ∧ v ∈ c1 ∧
      (v ∉ c → ∃ t, c1 = c ++ v :: t) := by
  induction fuel generalizing v c with
  | zero =>
    have := length_le_of_nodup_of_lt N c hnd hlt
    omega
  | succ fuel ih =>
    by_cases hvc : v ∈ c
    · refine ⟨c, by simp [flood, hvc], ⟨⟨[], by simp⟩, hnd, hlt, fun x hx => Or.inl hx⟩, hvc,
        fun h => absurd hvc h⟩
    · have hnd1 : (c ++ [v]).Nodup := by
        rw [List.nodup_append]
        refine ⟨hnd, List.nodup_singleton v, ?_⟩
        intro x hx hx2
        rw [List.mem_singleton] at hx2
        exact hvc (hx2 ▸ hx)
      have hlt1 : ∀ x ∈ c ++ [v], x < N := by
        intro x hx
        rcases List.mem_append.1 hx with h | h
        · exact hlt x h
        · rw [List.mem_singleton] at h
          exact h ▸ hv
      have hK : N + 1 - fuel ≤ (c ++ [v]).length := by
        rw [List.length_append, List.length_singleton]
        omega
      obtain ⟨c1, hc1, ⟨t, ht⟩, hnd2, hlt2, hfrom⟩ :=
        visit_each_post nexts N (N + 1 - fuel) (flood nexts fuel)
          (fun w c' hw hnd' hlt' hK' => by
            obtain ⟨c2, h1, h2, _, _⟩ := ih w c' hw hnd' hlt' (by omega)
            exact ⟨c2, h1, h2⟩)
          (nexts v) (c ++ [v]) (hwf v hv) hnd1 hlt1 hK
      have hvc1 : v ∈ c1 := by
        rw [ht]
        simp
      refine ⟨c1, by simp only [flood, hvc, if_false]; exact hc1,
        ⟨⟨[v] ++ t, by rw [ht, List.append_assoc]⟩, hnd2, hlt2, ?_⟩, hvc1,
        fun _ => ⟨t, by rw [ht, List.append_assoc]; rfl⟩⟩
      intro x hx
      rcases hfrom x hx with h | h | h
      · rcases List.mem_append.1 h with h' | h'
        · exact Or.inl h'
        · exact Or.inr (Or.inl h')
      · exact Or.inr (Or.inr ⟨v, hvc1, h⟩)
      · exact Or.inr (Or.inr h)

/-! ### C25: opinion clusters -/

theorem cluster_nexts_lt [LinearOrderedField α] (nw : Network_u α)
    (hwf : ∀ v, v < nw.num_vertices → ∀ e ∈ nw.out v, e.1 < nw.num_vertices) :
    ∀ v, v < nw.num_vertices → ∀ w ∈ cluster_nexts nw v, w < nw.num_vertices := by
  intro v hv w hw
  unfold cluster_nexts at hw
  rcases List.mem_append.1 hw with h | h
  · obtain ⟨e, he, rfl⟩ := List.mem_map.1 (List.mem_filter.1 h).1
    exact hwf v hv e he
  · have := (List.mem_filter.1 h).1
    unfold Network_u.in_sources at this
    exact List.mem_range.1 (List.mem_filter.1 this).1

theorem opinion_clusters_loop_post [LinearOrderedField α] (fuel : Nat) (nw : Network_u α)
    (tolerance : α)
    (hwf : ∀ v, v < nw.num_vertices → ∀ e ∈ nw.out v, e.1 < nw.num_vertices)
    (hfuel : nw.num_vertices < fuel) (vs : List Nat) (cs : List (List Nat))
    (hvs : ∀ v ∈ vs, v < nw.num_vertices) (hnd : ∀ c ∈ cs, c.Nodup)
    (hpw : cs.Pairwise (fun c d => ∀ x ∈ d.head?, x ∉ c)) :
    ∃ cs1, opinion_clusters_loop fuel nw tolerance vs cs = some cs1 ∧
      (∃ new, cs1 = cs ++ new) ∧ (∀ v ∈ vs, ∃ c ∈ cs1, v ∈ c) ∧ (∀ c ∈ cs1, c.Nodup) ∧
      cs1.Pairwise (fun c d => ∀ x ∈ d.head?, x ∉ c) := by
  induction vs generalizing cs with
  | nil =>
    exact ⟨cs, rfl, ⟨[], by simp⟩, fun v hv => absurd hv (List.not_mem_nil v), hnd, hpw⟩
  | cons v vs ih =>
    have hvs2 : ∀ x ∈ vs, x < nw.num_vertices := fun x hx => hvs x (List.mem_cons_of_mem _ hx)
    by_cases hin : cs.any (fun c => decide (v ∈ c)) = true
    · obtain ⟨cs1, h1, ⟨new, hnew⟩, hcov, hnd1, hpw1⟩ := ih cs hvs2 hnd hpw
      refine ⟨cs1, ?_, ⟨new, hnew⟩, ?_, hnd1, hpw1⟩
      · simp only [opinion_clusters_loop, hin, if_true]
        exact h1
      · intro x hx
        rcases List.mem_cons.1 hx with rfl | hx
        · obtain ⟨c, hc, hxc⟩ := List.any_eq_true.1 hin
          refine ⟨c, ?_, of_decide_eq_true hxc⟩
          rw [hnew]
          exact List.mem_append_left _ hc
        · exact hcov x hx
    · obtain ⟨t, ht, ⟨_, hndt, _, _⟩, hvt, hhead⟩ :=
        flood_post (cluster_nexts nw) nw.num_vertices (cluster_nexts_lt nw hwf) fuel v []
          (hvs v (List.mem_cons_self _ _)) List.nodup_nil (fun x hx => absurd hx (List.not_mem_nil x))
          (by simp only [List.length_nil]; omega)
      obtain ⟨t', ht'⟩ := hhead (List.not_mem_nil v)
      have hnd' : ∀ c ∈ cs ++ [t], c.Nodup := by
        intro c hc
        rcases List.mem_append.1 hc with h | h
        · exact hnd c h
        · rw [List.mem_singleton] at h
          exact h ▸ hndt
      have hpw' : (cs ++ [t]).Pairwise (fun c d => ∀ x ∈ d.head?, x ∉ c) := by
        rw [List.pairwise_append]
        refine ⟨hpw, List.pairwise_singleton _ _, ?_⟩
        intro c hc d hd x hx hxc
        rw [List.mem_singleton] at hd
        rw [hd, ht'] at hx
        simp only [List.nil_append, List.head?_cons, Option.mem_def, Option.some.injEq] at hx
        apply hin
        rw [List.any_eq_true]
        exact ⟨c, hc, decide_eq_true (hx ▸ hxc)⟩
      obtain ⟨cs1, h1, ⟨new, hnew⟩, hcov, hnd1, hpw1⟩ := ih (cs ++ [t]) hvs2 hnd' hpw'
      refine ⟨cs1, ?_, ⟨[t] ++ new, by rw [hnew, List.append_assoc]⟩, ?_, hnd1, hpw1⟩
      · simp only [opinion_clusters_loop, hin, fill_opinion_cluster_eq_flood, ht]
        exact h1
      · intro x hx
        rcases List.mem_cons.1 hx with rfl | hx
        · refine ⟨t, ?_, hvt⟩
          rw [hnew]
          simp
        · exact hcov x hx

/-- C25 as stated fails: in `lopsidedNet` user 0 (opinion 0, susceptibility 0) has an
edge to user 1 (opinion 1/2, susceptibility 1).  The fill from 0 stops at 0, because
the opinion of 1 is not within the susceptibility of 0; the fill from 1 follows the
in-edge back to 0, because the opinion of 0 is within the susceptibility of 1.  The
clusters are `[0]` and `[1, 0]`: vertex 0 belongs to two clusters. -/
theorem opinion_clusters_overlap :
    (opinion_clusters 10 lopsidedNet (1 / 4)).map
        (fun cs => (cs, (cs.filter (fun c => decide (0 ∈ c))).length))
      = some ([[0], [1, 0]], 2) := by
  decide!

/-- C25, amended: for every graph whose edges lead to vertices of the graph,
`opinion_clusters` returns (with a recursion depth above the number of vertices) a list
of clusters that covers every vertex; no cluster lists a vertex twice, and the first
vertex of a cluster, from which it was filled, belongs to no earlier cluster. -/
theorem opinion_clusters_cover [LinearOrderedField α] (fuel : Nat) (nw : Network_u α)
    (tolerance : α)
    (hwf : ∀ v, v < nw.num_vertices → ∀ e ∈ nw.out v, e.1 < nw.num_vertices)
    (hfuel : nw.num_vertices < fuel) :
    ∃ cs, opinion_clusters fuel nw tolerance = some cs ∧
      (∀ v, v < nw.num_vertices → ∃ c ∈ cs, v ∈ c) ∧ (∀ c ∈ cs, c.Nodup) ∧
      cs.Pairwise (fun c d => ∀ x ∈ d.head?, x ∉ c) := by
  obtain ⟨cs, h1, _, hcov, hnd, hpw⟩ := opinion_clusters_loop_post fuel nw tolerance hwf hfuel
    (List.range nw.num_vertices) [] (fun v hv => List.mem_range.1 hv)
    (fun c hc => absurd hc (List.not_mem_nil c)) List.Pairwise.nil
  exact ⟨cs, h1, fun v hv => hcov v (List.mem_range.2 hv), hnd, hpw⟩

/-- C25, amended, at a concrete input: the two clusters of `lopsidedNet` cover the
vertices 0 and 1. -/
theorem opinion_clusters_cover_witness :
    ∃ cs, opinion_clusters 10 lopsidedNet (1 / 4) = some cs ∧
      (∀ v, v < lopsidedNet.num_vertices → ∃ c ∈ cs, v ∈ c) ∧ (∀ c ∈ cs, c.Nodup) ∧
      cs.Pairwise (fun c d => ∀ x ∈ d.head?, x ∉ c) :=
  opinion_clusters_cover 10 lopsidedNet (1 / 4)
    (by
      intro v hv e he
      have hv2 : v < 2 := hv
      interval_cases v
      · simp [lopsidedNet] at he
        subst he
        decide
      · simp [lopsidedNet] at he)
    (by decide)

/-! ### C26: closed communities -/

theorem filter_map_stable {β : Type} (p : β → Bool) (f : β → β) (l : List β)
    (h1 : ∀ x ∈ l, p x = true → f x = x) (h2 : ∀ x ∈ l, p x = false → p (f x) = false) :
    (l.map f).filter p = l.filter p := by
  induction l with
  | nil => rfl
  | cons a l ih =>
    have ih' := ih (fun x hx => h1 x (List.mem_cons_of_mem _ hx))
      (fun x hx => h2 x (List.mem_cons_of_mem _ hx))
    rw [List.map_cons]
    cases hp : p a with
    | true =>
      rw [h1 a (List.mem_cons_self _ _) hp, List.filter_cons_of_pos hp,
        List.filter_cons_of_pos hp, ih']
    | false =>
      have hq := h2 a (List.mem_cons_self _ _) hp
      rw [List.filter_cons_of_neg (by simp [hq]), List.filter_cons_of_neg (by simp [hp]), ih']

theorem no_in_edge_of_in_degree_zero (nw : Network_u α) (v0 : Nat)
    (h : nw.in_degree v0 = 0) : ∀ y, y < nw.num_vertices → nw.has_edge y v0 = false := by
  intro y hy
  unfold Network_u.in_degree at h
  have hnil := List.length_eq_zero.1 h
  have := List.filter_eq_nil_iff.1 hnil y (List.mem_range.2 hy)
  simpa using this

theorem out_targets_lt (nw : Network_u α)
    (hwf : ∀ v, v < nw.num_vertices → ∀ e ∈ nw.out v, e.1 < nw.num_vertices) :
    ∀ v, v < nw.num_vertices → ∀ w ∈ (nw.out v).map Prod.fst, w < nw.num_vertices := by
  intro v hv w hw
  obtain ⟨e, he, rfl⟩ := List.mem_map.1 hw
  exact hwf v hv e he

theorem has_edge_of_mem_targets (nw : Network_u α) (y x : Nat)
    (h : x ∈ (nw.out y).map Prod.fst) : nw.has_edge y x = true := by
  obtain ⟨e, he, rfl⟩ := List.mem_map.1 h
  unfold Network_u.has_edge
  rw [List.any_eq_true]
  exact ⟨e, he, by simp⟩

theorem closed_communities_loop_cover (fuel : Nat) (nw : Network_u α)
    (hwf : ∀ v, v < nw.num_vertices → ∀ e ∈ nw.out v, e.1 < nw.num_vertices)
    (hfuel : nw.num_vertices < fuel) (vs : List Nat) (cc : List (List Nat))
    (hvs : ∀ v ∈ vs, v < nw.num_vertices) :
    ∃ cc1, closed_communities_loop fuel nw vs cc = some cc1 ∧
      (∀ x, (∃ c ∈ cc, x ∈ c) → ∃ c ∈ cc1, x ∈ c) ∧ (∀ v ∈ vs, ∃ c ∈ cc1, v ∈ c) := by
  induction vs generalizing cc with
  | nil => exact ⟨cc, rfl, fun x h => h, fun v hv => absurd hv (List.not_mem_nil v)⟩
  | cons v vs ih =>
    have hvs2 : ∀ x ∈ vs, x < nw.num_vertices := fun x hx => hvs x (List.mem_cons_of_mem _ hx)
    by_cases hin : cc.any (fun c => decide (v ∈ c)) = true
    · obtain ⟨cc1, h1, hkeep, hcov⟩ := ih cc hvs2
      refine ⟨cc1, ?_, hkeep, ?_⟩
      · simp only [closed_communities_loop, hin, if_true]
        exact h1
      · intro x hx
        rcases List.mem_cons.1 hx with rfl | hx
        · obtain ⟨c, hc, hxc⟩ := List.any_eq_true.1 hin
          exact hkeep x ⟨c, hc, of_decide_eq_true hxc⟩
        · exact hcov x hx
    · by_cases hl : nw.in_degree v < 2 ∧ cc.any (fun c => c.any (fun w => nw.has_edge v w)) = true
      · obtain ⟨cc1, h1, hkeep, hcov⟩ := ih
          (cc.map (fun c => if c.any (fun w => nw.has_edge v w) then c ++ [v] else c)) hvs2
        have hgrow : ∀ x, (∃ c ∈ cc, x ∈ c) → ∃ c ∈ cc.map
            (fun c => if c.any (fun w => nw.has_edge v w) then c ++ [v] else c), x ∈ c := by
          rintro x ⟨c, hc, hxc⟩
          refine ⟨_, List.mem_map.2 ⟨c, hc, rfl⟩, ?_⟩
          split_ifs
          · exact List.mem_append_left _ hxc
          · exact hxc
        refine ⟨cc1, ?_, fun x hx => hkeep x (hgrow x hx), ?_⟩
        · simp only [closed_communities_loop, hin, hl, and_self, if_true]
          exact h1
        · intro x hx
          rcases List.mem_cons.1 hx with rfl | hx
          · obtain ⟨c, hc, hxc⟩ := List.any_eq_true.1 hl.2
            apply hkeep
            refine ⟨_, List.mem_map.2 ⟨c, hc, rfl⟩, ?_⟩
            rw [if_pos hxc]
            simp
          · exact hcov x hx
      · obtain ⟨t, ht, _, hvt, _⟩ :=
          flood_post (fun x => (nw.out x).map Prod.fst) nw.num_vertices (out_targets_lt nw hwf)
            fuel v [] (hvs v (List.mem_cons_self _ _)) List.nodup_nil
            (fun x hx => absurd hx (List.not_mem_nil x)) (by simp only [List.length_nil]; omega)
        obtain ⟨cc1, h1, hkeep, hcov⟩ := ih (cc ++ [t]) hvs2
        refine ⟨cc1, ?_, ?_, ?_⟩
        · simp only [closed_communities_loop, hin, hl, if_false, fill_community_eq_flood, ht]
          exact h1
        · rintro x ⟨c, hc, hxc⟩
          exact hkeep x ⟨c, List.mem_append_left _ hc, hxc⟩
        · intro x hx
          rcases List.mem_cons.1 hx with rfl | hx
          · exact hkeep x ⟨t, by simp, hvt⟩
          · exact hcov x hx

theorem closed_communities_loop_isolated (fuel : Nat) (nw : Network_u α)
    (hwf : ∀ v, v < nw.num_vertices → ∀ e ∈ nw.out v, e.1 < nw.num_vertices)
    (hfuel : nw.num_vertices < fuel) (v0 : Nat) (hin0 : nw.in_degree v0 = 0)
    (hout0 : nw.out_degree v0 = 0) (vs : List Nat) (cc cc1 : List (List Nat))
    (hvs : ∀ v ∈ vs, v < nw.num_vertices) (hnd : vs.Nodup)
    (hloop : closed_communities_loop fuel nw vs cc = some cc1) :
    (cc.filter (fun c => decide (v0 ∈ c)) = [[v0]] → v0 ∉ vs →
      cc1.filter (fun c => decide (v0 ∈ c)) = [[v0]]) ∧
    (cc.filter (fun c => decide (v0 ∈ c)) = [] → v0 ∉ vs →
      cc1.filter (fun c => decide (v0 ∈ c)) = []) ∧
    (cc.filter (fun c => decide (v0 ∈ c)) = [] → v0 ∈ vs →
      cc1.filter (fun c => decide (v0 ∈ c)) = [[v0]]) := by
  have hnoin := no_in_edge_of_in_degree_zero nw v0 hin0
  have hnoout : nw.out v0 = [] := List.length_eq_zero.1 hout0
  induction vs generalizing cc with
  | nil =>
    simp only [closed_communities_loop, Option.some.injEq] at hloop
    subst hloop
    exact ⟨fun h _ => h, fun h _ => h, fun _ h => absurd h (List.not_mem_nil v0)⟩
  | cons v vs ih =>
    have hvs2 : ∀ x ∈ vs, x < nw.num_vertices := fun x hx => hvs x (List.mem_cons_of_mem _ hx)
    have hv : v < nw.num_vertices := hvs v (List.mem_cons_self _ _)
    have hnd2 : vs.Nodup := (List.nodup_cons.1 hnd).2
    have hvvs : v ∉ vs := (List.nodup_cons.1 hnd).1
    by_cases hin : cc.any (fun c => decide (v ∈ c)) = true
    · -- the vertex is already a member: the list of communities is as it was
      simp only [closed_communities_loop, hin, if_true] at hloop
      obtain ⟨i1, i2, i3⟩ := ih cc hvs2 hnd2 hloop
      refine ⟨fun h hn => i1 h (fun hm => hn (List.mem_cons_of_mem _ hm)),
        fun h hn => i2 h (fun hm => hn (List.mem_cons_of_mem _ hm)), ?_⟩
      intro h hm
      rcases List.mem_cons.1 hm with rfl | hm
      · exfalso
        obtain ⟨c, hc, hxc⟩ := List.any_eq_true.1 hin
        have : c ∈ cc.filter (fun c => decide (v0 ∈ c)) := List.mem_filter.2 ⟨hc, hxc⟩
        rw [h] at this
        exact List.not_mem_nil c this
      · exact i3 h hm
    · by_cases hl : nw.in_degree v < 2 ∧ cc.any (fun c => c.any (fun w => nw.has_edge v w)) = true
      · -- the vertex is pushed to the communities it has an edge into
        simp only [closed_communities_loop, hin, hl, and_self, if_true] at hloop
        have hvne : v ≠ v0 := by
          rintro rfl
          obtain ⟨c, _, hxc⟩ := List.any_eq_true.1 hl.2
          obtain ⟨w, _, hw⟩ := List.any_eq_true.1 hxc
          simp [Network_u.has_edge, hnoout] at hw
        have hstable : (∀ c ∈ cc, v0 ∈ c → c = [v0]) →
            (cc.map (fun c => if c.any (fun w => nw.has_edge v w) then c ++ [v]
              else c)).filter (fun c => decide (v0 ∈ c))
            = cc.filter (fun c => decide (v0 ∈ c)) := by
          intro hsingle
          apply filter_map_stable
          · intro c hcc hc
            have hv0c : v0 ∈ c := of_decide_eq_true hc
            rw [hsingle c hcc hv0c]
            simp [hnoin v hv]
          · intro c _ hc
            have hv0c : v0 ∉ c := of_decide_eq_false hc
            split_ifs
            · apply decide_eq_false
              intro hm
              rcases List.mem_append.1 hm with h | h
              · exact hv0c h
              · rw [List.mem_singleton] at h
                exact hvne h.symm
            · exact hc
        have hs1 : cc.filter (fun c => decide (v0 ∈ c)) = [[v0]] →
            ∀ c ∈ cc, v0 ∈ c → c = [v0] := by
          intro h c hc hv0c
          have : c ∈ cc.filter (fun c => decide (v0 ∈ c)) :=
            List.mem_filter.2 ⟨hc, decide_eq_true hv0c⟩
          rw [h] at this
          exact List.mem_singleton.1 this
        have hs2 : cc.filter (fun c => decide (v0 ∈ c)) = [] →
            ∀ c ∈ cc, v0 ∈ c → c = [v0] := by
          intro h c hc hv0c
          have : c ∈ cc.filter (fun c => decide (v0 ∈ c)) :=
            List.mem_filter.2 ⟨hc, decide_eq_true hv0c⟩
          rw [h] at this
          exact absurd this (List.not_mem_nil c)
        obtain ⟨i1, i2, i3⟩ := ih _ hvs2 hnd2 hloop
        refine ⟨fun h hn => i1 ((hstable (hs1 h)).trans h)
            (fun hm => hn (List.mem_cons_of_mem _ hm)),
          fun h hn => i2 ((hstable (hs2 h)).trans h) (fun hm => hn (List.mem_cons_of_mem _ hm)),
          ?_⟩
        intro h hm
        rcases List.mem_cons.1 hm with e | hm
        · exact absurd e.symm hvne
        · exact i3 ((hstable (hs2 h)).trans h) hm
      · -- the vertex starts a community of its own
        obtain ⟨t, ht, ⟨_, _, hlt, hfrom⟩, hvt, _⟩ :=
          flood_post (fun x => (nw.out x).map Prod.fst) nw.num_vertices (out_targets_lt nw hwf)
            fuel v [] hv List.nodup_nil
            (fun x hx => absurd hx (List.not_mem_nil x)) (by simp only [List.length_nil]; omega)
        simp only [closed_communities_loop, hin, hl, if_false, fill_community_eq_flood, ht]
          at hloop
        obtain ⟨i1, i2, i3⟩ := ih _ hvs2 hnd2 hloop
        have hfilter : (cc ++ [t]).filter (fun c => decide (v0 ∈ c))
            = cc.filter (fun c => decide (v0 ∈ c)) ++ (if v0 ∈ t then [t] else []) := by
          rw [List.filter_append]
          congr 1
          by_cases h : v0 ∈ t <;> simp [h]
        have hother : v ≠ v0 → v0 ∉ t := by
          intro hne hm
          rcases hfrom v0 hm with h | h | ⟨y, hy, hxy⟩
          · exact List.not_mem_nil v0 h
          · rw [List.mem_singleton] at h
            exact hne h.symm
          · have h1 := has_edge_of_mem_targets nw y v0 hxy
            rw [hnoin y (hlt y hy)] at h1
            exact absurd h1 (by decide)
        refine ⟨?_, ?_, ?_⟩
        · intro h hn
          have hne : v ≠ v0 := fun e => hn (e ▸ List.mem_cons_self _ _)
          apply i1 _ (fun hm => hn (List.mem_cons_of_mem _ hm))
          rw [hfilter, if_neg (hother hne), List.append_nil]
          exact h
        · intro h hn
          have hne : v ≠ v0 := fun e => hn (e ▸ List.mem_cons_self _ _)
          apply i2 _ (fun hm => hn (List.mem_cons_of_mem _ hm))
          rw [hfilter, if_neg (hother hne), List.append_nil]
          exact h
        · intro h hm
          by_cases hne : v = v0
          · subst hne
            have ht1 : t = [v] := by
              cases fuel with
              | zero => omega
              | succ fuel =>
                simp only [flood, List.not_mem_nil, if_false, hnoout, List.map_nil,
                  visit_each, List.nil_append, Option.some.injEq] at ht
                exact ht.symm
            apply i1 _ hvvs
            rw [hfilter, h, ht1]
            simp
          · rcases List.mem_cons.1 hm with e | hm
            · exact absurd e.symm hne
            · apply i3 _ hm
              rw [hfilter, if_neg (hother hne), List.append_nil]
              exact h

/-- C26 as stated fails: in `forkNet` user 2 has an edge to each of the users 0 and 1,
which form the communities `[0]` and `[1]` when user 2 is visited.  User 2 has no
in-edge, so it is pushed to every community that holds a target of its edges: the
result is `[0, 2]` and `[1, 2]`, and vertex 2 is listed in two communities.  In
`chainNet`, user 1 has two in-edges and an edge to user 0, so its fill, which follows
out-edges, lists user 0 again: the communities are `[0]` and `[1, 0, 2, 3]`. -/
theorem closed_communities_overlap :
    (closed_communities 10 forkNet).map
        (fun cc => (cc, (cc.filter (fun c => decide (2 ∈ c))).length))
      = some ([[0, 2], [1, 2]], 2) ∧
    (closed_communities 10 chainNet).map
        (fun cc => (cc, (cc.filter (fun c => decide (0 ∈ c))).length))
      = some ([[0], [1, 0, 2, 3]], 2) := by
  constructor <;> decide!

/-- C26, amended: for every graph whose edges lead to vertices of the graph,
`closed_communities` returns (with a recursion depth above the number of vertices)
communities that cover every vertex, and every isolated vertex (in-degree 0 and
out-degree 0) is listed in exactly one community, which is the singleton holding
it. -/
theorem closed_communities_cover (fuel : Nat) (nw : Network_u α)
    (hwf : ∀ v, v < nw.num_vertices → ∀ e ∈ nw.out v, e.1 < nw.num_vertices)
    (hfuel : nw.num_vertices < fuel) :
    ∃ cc, closed_communities fuel nw = some cc ∧
      (∀ v, v < nw.num_vertices → ∃ c ∈ cc, v ∈ c) ∧
      (∀ v, v < nw.num_vertices → nw.in_degree v = 0 → nw.out_degree v = 0 →
        cc.filter (fun c => decide (v ∈ c)) = [[v]]) := by
  obtain ⟨cc, h1, _, hcov⟩ := closed_communities_loop_cover fuel nw hwf hfuel
    (List.range nw.num_vertices) [] (fun v hv => List.mem_range.1 hv)
  refine ⟨cc, h1, fun v hv => hcov v (List.mem_range.2 hv), ?_⟩
  intro v hv hin hout
  exact (closed_communities_loop_isolated fuel nw hwf hfuel v hin hout
    (List.range nw.num_vertices) [] cc (fun x hx => List.mem_range.1 hx)
    (List.nodup_range _) h1).2.2 rfl (List.mem_range.2 hv)

/-- C26, amended, at a concrete input: `seniorNet`, whose user 1 is isolated. -/
theorem closed_communities_cover_witness :
    (seniorNet.in_degree 1, seniorNet.out_degree 1) = (0, 0) ∧
    closed_communities 10 seniorNet = some [[0, 2, 3, 4], [1]] ∧
    ∃ cc, closed_communities 10 seniorNet = some cc ∧
      (∀ v, v < seniorNet.num_vertices → ∃ c ∈ cc, v ∈ c) ∧
      (∀ v, v < seniorNet.num_vertices → seniorNet.in_degree v = 0 →
        seniorNet.out_degree v = 0 → cc.filter (fun c => decide (v ∈ c)) = [[v]]) :=
  ⟨by decide!, by decide!, closed_communities_cover 10 seniorNet
    (by
      intro v hv e he
      have hv2 : v < 5 := hv
      interval_cases v <;> simp [seniorNet] at he
      · rcases he with rfl | rfl | rfl <;> decide
      · subst he
        decide)
    (by decide)⟩

/-! ### C27: reproducibility -/

/-- C27, the code at a failing input: medium 0 of `pairMedia 1 5` has the opinion of its
fittest neighbour, so `media_revision` takes the sign of the jump from `rand()`.  From
the same media graph and the same state of the shared random stream the opinion of
medium 0 becomes 2/5 when `rand()` returns 0 and 3/5 when it returns 1: the result of
`media_revision` is not a function of the graph and the stream it is passed. -/
theorem media_revision_depends_on_rand :
    ((revision.media_revision 0 (pairMedia 1 5) (intRng 0)).1.vertex 0).opinion = 2 / 5 ∧
    ((revision.media_revision 1 (pairMedia 1 5) (intRng 0)).1.vertex 0).opinion = 3 / 5 ∧
    (revision.media_revision 0 (pairMedia 1 5) (intRng 0)).2.pos
      = (revision.media_revision 1 (pairMedia 1 5) (intRng 0)).2.pos ∧
    ¬ ∃ f : Network_m ℚ → Rng ℚ → Network_m ℚ × Rng ℚ,
      ∀ coin nw_m rng, revision.media_revision coin nw_m rng = f nw_m rng := by
  have h0 : ((revision.media_revision 0 (pairMedia 1 5) (intRng 0)).1.vertex 0).opinion
      = 2 / 5 := by decide!
  have h1 : ((revision.media_revision 1 (pairMedia 1 5) (intRng 0)).1.vertex 0).opinion
      = 3 / 5 := by decide!
  refine ⟨h0, h1, by decide!, ?_⟩
  rintro ⟨f, hf⟩
  have e : revision.media_revision 0 (pairMedia 1 5) (intRng 0)
      = revision.media_revision 1 (pairMedia 1 5) (intRng 0) := by
    rw [hf 0, hf 1]
  rw [e, h1] at h0
  exact absurd h0 (by decide!)

/-! ### C28: the step pipeline and the model mode -/

theorem user_revision_isolated [LinearOrderedField α] (m : Libm α) (model_mode : Mode)
    (nw_u : Network_u α) (weighting rewiring : α) (rewiring_count : Nat)
    (prob_distr : UniformReal α) (k : α) (rng : Rng α)
    (h : nw_u.out_degree (random_vertex nw_u rng).1 = 0) :
    revision.user_revision m model_mode nw_u weighting rewiring rewiring_count prob_distr k rng
      = (nw_u, rewiring_count, (random_vertex nw_u rng).2) := by
  unfold revision.user_revision
  dsimp only
  rw [if_neg (not_not.2 h)]

theorem information_revision_stay [LinearOrderedField α] (m : Libm α) (nw_u : Network_u α)
    (nw_m : Network_m α) (prob_distr : UniformReal α) (k : α) (rng : Rng α)
    (h : ¬ (prob_distr.draw (prob_distr.draw (random_vertex nw_u rng).2).2).1 ≤
      (revision.user_char_BC (nw_u.vertex (random_vertex nw_u rng).1).opinion
        (nw_m.vertex ((revision.choose_medium (prob_distr.draw (random_vertex nw_u rng).2).1 nw_m
          (List.range nw_m.num_vertices) 0).getD 0)).opinion
        (nw_u.vertex (random_vertex nw_u rng).1).tolerance false).1) :
    revision.information_revision m nw_u nw_m prob_distr k rng
      = (nw_u, nw_m, (prob_distr.draw (prob_distr.draw (random_vertex nw_u rng).2).2).2) := by
  unfold revision.information_revision
  dsimp only
  rw [if_neg h]

/-- C28, the code at a failing input: the conditions of the three blocks of
`perform_step` have an enumerator as the right operand of `or`, which is true whatever
the mode, so the step of every mode is the step of mode `Ageing_and_Media`.  In mode
`None`, at time 1, on a state with one user without edges (a plain `user_revision`
changes nothing and draws nothing there), `perform_step` also runs
`information_revision`, which consumes two draws, and the ageing engine, which makes
the user one year older. -/
theorem perform_step_ignores_mode [LinearOrderedField α] [FloorRing α] (m : Libm α)
    (mq : Libm ℚ) :
    (∀ (shuffle : List Nat → Rng α → List Nat × Rng α) (fuel coin : Nat) (model_mode : Mode)
        (p : StepParams α) (time : Nat) (s : ModelState α),
      perform_step m shuffle fuel coin model_mode p time s
        = perform_step m shuffle fuel coin Mode.Ageing_and_Media p time s) ∧
    revision.user_revision mq Mode.None loneState.nw_u loneParams.weighting loneParams.rewiring
        loneState.rewiring_count loneParams.uniform_distr_prob_val
        loneParams.radicalisation_parameter loneState.rng
      = (loneState.nw_u, loneState.rewiring_count, loneState.rng) ∧
    ((loneState.nw_u.vertex 0).age, loneState.rng.pos) = (30, 0) ∧
    (perform_step mq keepOrder 10 0 Mode.None loneParams 1 loneState).get?.map
        (fun s => ((s.nw_u.vertex 0).age, s.rng.pos)) = some (31, 2) := by
  refine ⟨?_, ?_, by decide!, ?_⟩
  · intro shuffle fuel coin model_mode p time s
    cases model_mode <;> rfl
  · rw [user_revision_isolated _ _ _ _ _ _ _ _ _ (by decide!)]
    rfl
  · have h1 : ∀ mode, revision.user_revision mq mode loneState.nw_u loneParams.weighting
        loneParams.rewiring loneState.rewiring_count loneParams.uniform_distr_prob_val
        loneParams.radicalisation_parameter loneState.rng
        = (loneState.nw_u, loneState.rewiring_count, loneState.rng) := by
      intro mode
      rw [user_revision_isolated _ _ _ _ _ _ _ _ _ (by decide!)]
      rfl
    have h2 : revision.information_revision mq loneState.nw_u loneState.nw_m
        loneParams.uniform_distr_prob_val loneParams.radicalisation_parameter loneState.rng
        = (loneState.nw_u, loneState.nw_m, loneState.rng.advance.advance) := by
      rw [information_revision_stay _ _ _ _ _ _ (by decide!)]
      rfl
    have hs : ∀ s : ModelState ℚ,
        ({ nw_u := s.nw_u, nw_m := s.nw_m, rewiring_count := s.rewiring_count, rng := s.rng }
          : ModelState ℚ) = s := fun s => rfl
    have e1 : perform_step_users mq Mode.None loneParams loneState = loneState := by
      unfold perform_step_users
      rw [h1]
      rfl
    have e2 : perform_step_media mq 0 Mode.None loneParams 1 loneState
        = Outcome.value { loneState with rng := loneState.rng.advance.advance } := by
      unfold perform_step_media
      rw [h2]
      rfl
    have e3 : perform_step_ageing mq keepOrder 10 Mode.None loneParams 1
          { loneState with rng := loneState.rng.advance.advance }
        = perform_step_ageing (Libm.mk (fun x _ => x) (fun x => x) (fun x => x)) keepOrder 10
          Mode.None loneParams 1 { loneState with rng := loneState.rng.advance.advance } := by
      unfold perform_step_ageing
      have h3 : ∀ mm : Libm ℚ, revision.user_revision mm Mode.Ageing
          ({ loneState with rng := loneState.rng.advance.advance } : ModelState ℚ).nw_u
          loneParams.weighting loneParams.rewiring
          ({ loneState with rng := loneState.rng.advance.advance } : ModelState ℚ).rewiring_count
          loneParams.uniform_distr_prob_val loneParams.radicalisation_parameter
          ({ loneState with rng := loneState.rng.advance.advance } : ModelState ℚ).rng
          = (loneState.nw_u, loneState.rewiring_count, loneState.rng.advance.advance) := by
        intro mm
        rw [user_revision_isolated _ _ _ _ _ _ _ _ _ (by decide!)]
        rfl
      rw [h3, h3]
    unfold perform_step
    rw [e1, e2]
    dsimp only
    rw [e3]
    decide!

/-! ### C29: the mode strings of the program -/

/-- C29, the code at a failing input: with `user_ageing` "off" and `media_status` "on"
the program constructs and runs the model of mode `Media` and then, because the test
for "off" is a second `if` and not an `else if`, throws `invalid_argument` from its
`else` branch: the exit code is 1 although both strings are valid.  The other three
valid combinations run one model of the matching mode and return 0, and a string
other than "on" and "off" gives exit code 1 without a run. -/
theorem main_media_only_fails :
    main "off" "on" = ([Mode.Media], 1) ∧
    main "on" "on" = ([Mode.Ageing_and_Media], 0) ∧
    main "on" "off" = ([Mode.Ageing], 0) ∧
    main "off" "off" = ([Mode.None], 0) ∧
    ∀ ageing media : String,
      (ageing ≠ "on" ∧ ageing ≠ "off") ∨ (media ≠ "on" ∧ media ≠ "off") →
      main ageing media = ([], 1) := by
  refine ⟨by decide, by decide, by decide, by decide, ?_⟩
  intro ageing media h
  unfold main
  rcases h with ⟨h1, h2⟩ | ⟨h1, h2⟩
  · simp [h1, h2]
  · by_cases ha : ageing = "on"
    · simp [ha, h1, h2]
    · by_cases hb : ageing = "off"
      · simp [ha, hb, h1, h2]
      · simp [ha, hb]

/-! ### C30: uniform initialisation -/

/-- C30: `set_init_uniform` on the interval `(a, b)`, at `ValType = double` and at
`ValType = int`, with a uniform draw `u` of the unit interval: for `a == b` the result is
`a` and the random stream is as it was; for `b > a` the result lies in `[a, b]`; for
`b < a` the result is 0 (and nothing is drawn). -/
theorem set_init_uniform_cases [LinearOrderedField α] [FloorRing α] (a b : α) (ai bi : Int)
    (rng : Rng α) (hu0 : 0 ≤ rng.peek.u) (hu1 : rng.peek.u ≤ 1) :
    (a = b → utils.set_init_uniform (a, b) rng = (a, rng)) ∧
    (a < b → a ≤ ( utils.set_init_uniform (a, b) rng).1 ∧
      ( utils.set_init_uniform (a, b) rng).1 ≤ b) ∧
    (b < a → utils.set_init_uniform (a, b) rng = (0, rng)) ∧
    (ai = bi → utils.set_init_uniform_int (ai, bi) rng = (ai, rng)) ∧
    (ai < bi → ai ≤ ( utils.set_init_uniform_int (ai, bi) rng).1 ∧
      ( utils.set_init_uniform_int (ai, bi) rng).1 ≤ bi) ∧
    (bi < ai → utils.set_init_uniform_int (ai, bi) rng = (0, rng)) := by
  have hrange : ∀ x y : α, x < y → x ≤ x + rng.peek.u * (y - x) ∧ x + rng.peek.u * (y - x) ≤ y := by
    intro x y hxy
    have h1 : 0 ≤ rng.peek.u * (y - x) := mul_nonneg hu0 (by linarith)
    have h2 : rng.peek.u * (y - x) ≤ 1 * (y - x) :=
      mul_le_mul_of_nonneg_right hu1 (by linarith)
    constructor <;> linarith
  refine ⟨?_, ?_, ?_, ?_, ?_, ?_⟩
  · intro h
    simp [utils.set_init_uniform, h]
  · intro h
    have e : utils.set_init_uniform (a, b) rng = utils.get_rand_double a b rng := by
      simp [utils.set_init_uniform, ne_of_lt h, h]
    rw [e]
    exact hrange a b h
  · intro h
    simp [utils.set_init_uniform, ne_of_gt h, not_lt.2 (le_of_lt h)]
  · intro h
    simp [utils.set_init_uniform_int, h]
  · intro h
    have e : utils.set_init_uniform_int (ai, bi) rng
        = (truncToInt ((ai : α) + rng.peek.u * ((bi : α) - (ai : α))), rng.advance) := by
      simp [utils.set_init_uniform_int, utils.get_rand_double, ne_of_lt h, h]
    rw [e]
    have hab : (ai : α) < (bi : α) := Int.cast_lt.2 h
    obtain ⟨h1, h2⟩ := hrange (ai : α) (bi : α) hab
    dsimp only
    unfold truncToInt
    split_ifs
    · exact ⟨Int.le_floor.2 h1, Int.cast_le.1 (le_trans (Int.floor_le _) h2)⟩
    · exact ⟨Int.cast_le.1 (le_trans h1 (Int.le_ceil _)), Int.ceil_le.2 h2⟩
  · intro h
    simp [utils.set_init_uniform_int, ne_of_gt h, not_lt.2 (le_of_lt h)]

/-- C30 on the values of `test_inits`: the interval (0.8, 0.8) gives 0.8, the integer
interval (45, 45) gives 45 and (1, 100) gives an age between 1 and 100. -/
theorem set_init_uniform_cases_witness :
    utils.set_init_uniform ((4 / 5 : ℚ), (4 / 5 : ℚ)) (uniformRng (1 / 2))
      = (4 / 5, uniformRng (1 / 2)) ∧
    utils.set_init_uniform_int (45, 45) (uniformRng (1 / 2 : ℚ)) = (45, uniformRng (1 / 2)) ∧
    1 ≤ ( utils.set_init_uniform_int (1, 100) (uniformRng (1 / 2 : ℚ))).1 ∧
    ( utils.set_init_uniform_int (1, 100) (uniformRng (1 / 2 : ℚ))).1 ≤ 100 :=
  ⟨(set_init_uniform_cases (4 / 5 : ℚ) (4 / 5) 45 45 (uniformRng (1 / 2)) (by decide!)
      (by decide!)).1 rfl,
   (set_init_uniform_cases (4 / 5 : ℚ) (4 / 5) 45 45 (uniformRng (1 / 2)) (by decide!)
      (by decide!)).2.2.2.1 rfl,
   ((set_init_uniform_cases (4 / 5 : ℚ) (4 / 5) 1 100 (uniformRng (1 / 2)) (by decide!)
      (by decide!)).2.2.2.2.1 (by decide)).1,
   ((set_init_uniform_cases (4 / 5 : ℚ) (4 / 5) 1 100 (uniformRng (1 / 2)) (by decide!)
      (by decide!)).2.2.2.2.1 (by decide)).2⟩

/-! ### C31: the age term of the weight reduction and the model mode -/

/-- C31, the code at a failing input: the condition
`model_mode == Mode::Ageing or Mode::Ageing_and_Media` of `update_weights` is true in
every mode, so the reduction factor of every mode is the one of mode `Ageing`.  In mode
`None`, for the edge `0 → 1` of `farApart` (opinions 0 and 1, equal ages, weight 1) and
`weighting = 1/2`, the weight becomes `(1 - 1/2) + exp 0 = 3/2`, not `1 - 1/2`. -/
theorem update_weights_age_term_in_every_mode :
    (∀ (m : Libm ℝ) (model_mode : Mode) (v : Nat) (nw : Network_u ℝ) (weighting : ℝ) (t : Nat)
        (a : ℝ), revision.reduced_weight m model_mode v nw weighting t a
          = revision.reduced_weight m Mode.Ageing v nw weighting t a) ∧
    (1 : ℝ) * (1 - 1 / 2 * |((farApart : Network_u ℝ).vertex 1).opinion
      - ((farApart : Network_u ℝ).vertex 0).opinion|) = 1 / 2 ∧
    revision.reduced_weight (Libm.mk (fun x y : ℝ => x ^ y) Real.exp Real.log) Mode.None 0
        farApart (1 / 2) 1 1 = 3 / 2 ∧
    (revision.update_weights (Libm.mk (fun x y : ℝ => x ^ y) Real.exp Real.log) Mode.None 0
        farApart (1 / 2) 0 0 ⟨0, 1⟩ (constRng ⟨1 / 2, 0, 0⟩)).1.out 0 = [(1, 3 / 2)] := by
  refine ⟨?_, ?_, ?_, ?_⟩
  · intro m model_mode v nw weighting t a
    cases model_mode <;> rfl
  · norm_num [farApart]
  · norm_num [revision.reduced_weight, revision.age_branch, Mode.toNat, farApart, subU32]
  · norm_num [revision.update_weights, revision.reduce_loop, revision.reduced_weight,
      revision.age_branch, Mode.toNat, farApart, subU32, constRng, Rng.peek, Rng.advance,
      Network_u.out_degree, UniformReal.draw, revision.rewire_loop, Network_u.setOut]

/-! ### C32: the rewiring counter -/

/-- C32, the code at a failing input: `update_weights` takes `rewiring_count` by value, so
the counter of the caller of `user_revision` is the same after every call.  In
`rewireNet` with `rewiring = 1` the edge `0 → 1` is beyond the tolerance of user 0, is
marked and is rewired to user 2: `update_weights` counts one added edge in its local
copy, and the counter handed to `user_revision` is still 0. -/
theorem user_revision_keeps_rewiring_count :
    (∀ (m : Libm ℝ) (model_mode : Mode) (nw_u : Network_u ℝ) (weighting rewiring : ℝ)
        (rewiring_count : Nat) (prob_distr : UniformReal ℝ) (k : ℝ) (rng : Rng ℝ),
      (revision.user_revision m model_mode nw_u weighting rewiring rewiring_count prob_distr
        k rng).2.1 = rewiring_count) ∧
    (rewireNet : Network_u ℝ).out 0 = [(1, 1)] ∧
    (revision.user_revision (Libm.mk (fun x y : ℝ => x ^ y) Real.exp Real.log) Mode.None
        rewireNet (1 / 2) 1 0 ⟨0, 1⟩ 0 (stepRng (1 / 2) 0 2)).1.out 0 = [(2, 1)] ∧
    (revision.user_revision (Libm.mk (fun x y : ℝ => x ^ y) Real.exp Real.log) Mode.None
        rewireNet (1 / 2) 1 0 ⟨0, 1⟩ 0 (stepRng (1 / 2) 0 2)).2.1 = 0 ∧
    (revision.update_weights (Libm.mk (fun x y : ℝ => x ^ y) Real.exp Real.log) Mode.None 0
        rewireNet (1 / 2) 1 0 ⟨0, 1⟩ (constRng ⟨1 / 2, 0, 2⟩)).2.1 = 1 := by
  have hgen : ∀ (m : Libm ℝ) (model_mode : Mode) (nw_u : Network_u ℝ) (weighting rewiring : ℝ)
      (rewiring_count : Nat) (prob_distr : UniformReal ℝ) (k : ℝ) (rng : Rng ℝ),
      (revision.user_revision m model_mode nw_u weighting rewiring rewiring_count prob_distr
        k rng).2.1 = rewiring_count := by
    intro m model_mode nw_u weighting rewiring rewiring_count prob_distr k rng
    unfold revision.user_revision
    dsimp only
    split_ifs <;> rfl
  refine ⟨hgen, ?_, ?_, hgen _ _ _ _ _ _ _ _ _, ?_⟩
  · simp [rewireNet]
  · norm_num [revision.user_revision, random_vertex, rewireNet, stepRng, Rng.peek, Rng.advance,
      Network_u.out_degree, revision.pairwise_weighted_update, UniformReal.draw,
      revision.choose_partner, update.opinion, update.tolerance, Network_u.setVertex,
      revision.update_weights, revision.reduce_loop, revision.reduced_weight,
      revision.age_branch, Mode.toNat, subU32, revision.rewire_loop, Network_u.setOut,
      revision.normalize_weights, revision.rewire_candidate, utils.get_rand_nb,
      utils.get_rand_int, Network_u.has_edge, Network_u.remove_edge, Network_u.add_edge,
      insertEdge, Network_u.weight]
  · norm_num [rewireNet, constRng, Rng.peek, Rng.advance,
      Network_u.out_degree, UniformReal.draw,
      revision.update_weights, revision.reduce_loop, revision.reduced_weight,
      revision.age_branch, Mode.toNat, subU32, revision.rewire_loop, Network_u.setOut,
      revision.rewire_candidate, utils.get_rand_nb, random_vertex,
      utils.get_rand_int, Network_u.has_edge, Network_u.remove_edge, Network_u.add_edge,
      insertEdge, Network_u.weight]

/-! ### Rewiring: shared lemmas for C33, C34 and C35 -/

theorem mem_targets_of_has_edge (nw : Network_u α) (y x : Nat)
    (h : nw.has_edge y x = true) : x ∈ (nw.out y).map Prod.fst := by
  unfold Network_u.has_edge at h
  obtain ⟨e, he, hb⟩ := List.any_eq_true.1 h
  have : e.1 = x := by simpa using hb
  exact this ▸ List.mem_map_of_mem Prod.fst he

theorem reduce_loop_targets [LinearOrderedField α] (m : Libm α) (model_mode : Mode)
    (v : Nat) (nw : Network_u α) (weighting rewiring : α) (prob_distr : UniformReal α)
    (es : List (Nat × α)) (to_drop : List Nat) (sum : α) (rng : Rng α) :
    (revision.reduce_loop m model_mode v nw weighting rewiring prob_distr es
      to_drop sum rng).edges.map Prod.fst = es.map Prod.fst := by
  induction es generalizing to_drop sum rng with
  | nil => rfl
  | cons x xs ih =>
    simp only [revision.reduce_loop, List.map_cons]
    rw [ih]

theorem reduce_loop_to_drop [LinearOrderedField α] (m : Libm α) (model_mode : Mode)
    (v : Nat) (nw : Network_u α) (weighting rewiring : α) (prob_distr : UniformReal α)
    (es : List (Nat × α)) (to_drop : List Nat) (sum : α) (rng : Rng α) :
    ∃ l, (revision.reduce_loop m model_mode v nw weighting rewiring prob_distr es
        to_drop sum rng).to_drop = to_drop ++ l ∧ l.Sublist (es.map Prod.fst) ∧
      ∀ t ∈ l, |(nw.vertex t).opinion - (nw.vertex v).opinion| > (nw.vertex v).tolerance := by
  induction es generalizing to_drop sum rng with
  | nil => exact ⟨[], by simp [revision.reduce_loop], List.Sublist.refl _, by simp⟩
  | cons x xs ih =>
    simp only [revision.reduce_loop, List.map_cons]
    by_cases h1 : |(nw.vertex x.1).opinion - (nw.vertex v).opinion| > (nw.vertex v).tolerance
    · by_cases h2 : (prob_distr.draw rng).1 < rewiring
      · rw [if_pos h1, if_pos h2]
        obtain ⟨l, hl, hs, hb⟩ := ih (to_drop ++ [x.1])
          (sum + revision.reduced_weight m model_mode v nw weighting x.1 x.2)
          (prob_distr.draw rng).2
        refine ⟨x.1 :: l, ?_, hs.cons₂ _, ?_⟩
        · rw [hl, List.append_assoc]
          rfl
        · intro t ht
          rcases List.mem_cons.1 ht with e | e
          · rw [e]
            exact h1
          · exact hb t e
      · rw [if_pos h1, if_neg h2]
        obtain ⟨l, hl, hs, hb⟩ := ih to_drop
          (sum + revision.reduced_weight m model_mode v nw weighting x.1 x.2)
          (prob_distr.draw rng).2
        exact ⟨l, hl, hs.cons _, hb⟩
    · rw [if_neg h1]
      obtain ⟨l, hl, hs, hb⟩ := ih to_drop
        (sum + revision.reduced_weight m model_mode v nw weighting x.1 x.2) rng
      exact ⟨l, hl, hs.cons _, hb⟩

theorem reduce_loop_no_mark [LinearOrderedField α] (m : Libm α) (model_mode : Mode)
    (v : Nat) (nw : Network_u α) (weighting rewiring : α) (prob_distr : UniformReal α)
    (es : List (Nat × α)) (to_drop : List Nat) (sum : α) (rng : Rng α)
    (hdraw : ∀ i, ¬ (prob_distr.draw { rng with pos := i }).1 < rewiring) :
    (revision.reduce_loop m model_mode v nw weighting rewiring prob_distr es
        to_drop sum rng).to_drop = to_drop := by
  induction es generalizing to_drop sum rng with
  | nil => rfl
  | cons x xs ih =>
    simp only [revision.reduce_loop]
    have h2 : ¬ (prob_distr.draw rng).1 < rewiring := hdraw rng.pos
    by_cases h1 : |(nw.vertex x.1).opinion - (nw.vertex v).opinion| > (nw.vertex v).tolerance
    · rw [if_pos h1, if_neg h2]
      exact ih to_drop _ _ hdraw
    · rw [if_neg h1]
      exact ih to_drop _ _ hdraw

theorem remove_edge_out_other (g : Network_u α) (u t y : Nat) (h : y ≠ u) :
    (g.remove_edge u t).out y = g.out y := by
  simp [Network_u.remove_edge, Network_u.setOut, h]

theorem remove_edge_out_self (g : Network_u α) (u t : Nat) :
    (g.remove_edge u t).out u = (g.out u).filter (fun e => e.1 != t) := by
  simp [Network_u.remove_edge, Network_u.setOut]

theorem rewire_loop_out_other [LinearOrderedField α] (v : Nat) (to_drop ds : List Nat)
    (s : RewireState α) (x : Nat) (hx : x ≠ v) :
    (revision.rewire_loop v to_drop ds s).nw.out x = s.nw.out x := by
  induction ds generalizing s with
  | nil => rfl
  | cons d ds ih =>
    simp only [revision.rewire_loop]
    split_ifs with h
    · rw [ih]
      exact remove_edge_out_other s.nw v d x hx
    · rw [ih]

theorem rewire_loop_has_edge [LinearOrderedField α] (v : Nat) (to_drop ds : List Nat)
    (s : RewireState α) (t : Nat) (ht : t ∉ ds) :
    (revision.rewire_loop v to_drop ds s).nw.has_edge v t = s.nw.has_edge v t := by
  induction ds generalizing s with
  | nil => rfl
  | cons d ds ih =>
    have htd : t ≠ d := fun e => ht (e ▸ List.mem_cons_self _ _)
    have hts : t ∉ ds := fun e => ht (List.mem_cons_of_mem _ e)
    simp only [revision.rewire_loop]
    split_ifs with h
    · rw [ih _ hts]
      unfold Network_u.has_edge
      rw [remove_edge_out_self]
      exact any_filter_ne d t htd _
    · rw [ih _ hts]

theorem foldl_add_edge_has_edge_mono (v : Nat) (w : α) (ts : List Nat) (g : Network_u α)
    (a b : Nat) (h : g.has_edge a b = true) :
    (ts.foldl (fun g t => g.add_edge v t w) g).has_edge a b = true := by
  induction ts generalizing g with
  | nil => exact h
  | cons t ts ih =>
    rw [List.foldl_cons]
    exact ih _ (has_edge_add_edge_mono g v t a b w h)

theorem foldl_add_edge_out_other (v : Nat) (w : α) (ts : List Nat) (g : Network_u α)
    (x : Nat) (hx : x ≠ v) :
    (ts.foldl (fun g t => g.add_edge v t w) g).out x = g.out x := by
  induction ts generalizing g with
  | nil => rfl
  | cons t ts ih =>
    rw [List.foldl_cons, ih]
    exact add_edge_out_other g v t x w hx

theorem insertEdge_targets_perm (t : Nat) (w : α) (l : List (Nat × α))
    (h : t ∉ l.map Prod.fst) :
    ((insertEdge t w l).map Prod.fst).Perm (t :: l.map Prod.fst) := by
  induction l with
  | nil => exact List.Perm.refl _
  | cons e es ih =>
    have h1 : ¬ e.1 = t := fun e1 => h (by rw [List.map_cons, e1]; exact List.mem_cons_self _ _)
    have h2 : t ∉ es.map Prod.fst := fun e2 => h (by
      rw [List.map_cons]
      exact List.mem_cons_of_mem _ e2)
    simp only [insertEdge, if_neg h1]
    split_ifs
    · exact List.Perm.refl _
    · rw [List.map_cons, List.map_cons]
      exact ((ih h2).cons e.1).trans (List.Perm.swap t e.1 _)

theorem foldl_add_edge_targets_perm (v : Nat) (w : α) (ts : List Nat) (g : Network_u α)
    (hts : ts.Nodup) (hnew : ∀ t ∈ ts, t ∉ (g.out v).map Prod.fst) :
    (((ts.foldl (fun g t => g.add_edge v t w) g).out v).map Prod.fst).Perm
      ((g.out v).map Prod.fst ++ ts) := by
  induction ts generalizing g with
  | nil => simp
  | cons t ts ih =>
    rw [List.foldl_cons]
    have hp : (((g.add_edge v t w).out v).map Prod.fst).Perm (t :: (g.out v).map Prod.fst) := by
      rw [add_edge_out_self]
      exact insertEdge_targets_perm t w _ (hnew t (List.mem_cons_self _ _))
    have hnd := List.nodup_cons.1 hts
    have hnew2 : ∀ x ∈ ts, x ∉ ((g.add_edge v t w).out v).map Prod.fst := by
      intro x hx hmem
      rcases List.mem_cons.1 (hp.subset hmem) with e | e
      · exact hnd.1 (e ▸ hx)
      · exact hnew x (List.mem_cons_of_mem _ hx) e
    refine (ih _ hnd.2 hnew2).trans ?_
    refine (List.Perm.append_right ts hp).trans ?_
    exact (List.perm_middle).symm

theorem length_filter_ne_of_nodup (l : List (Nat × α)) (d : Nat)
    (hnd : (l.map Prod.fst).Nodup) (hd : d ∈ l.map Prod.fst) :
    (l.filter (fun e => e.1 != d)).length + 1 = l.length := by
  induction l with
  | nil => simp at hd
  | cons e es ih =>
    rw [List.map_cons] at hnd hd
    have hn := List.nodup_cons.1 hnd
    by_cases h : e.1 = d
    · have hall : es.filter (fun e => e.1 != d) = es := by
        rw [List.filter_eq_self]
        intro a ha
        have : a.1 ≠ d := fun e2 => hn.1 (by rw [h, ← e2]; exact List.mem_map_of_mem Prod.fst ha)
        simpa using this
      rw [List.filter_cons_of_neg (by simp [h]), hall, List.length_cons]
    · have hd2 : d ∈ es.map Prod.fst := by
        rcases List.mem_cons.1 hd with e2 | e2
        · exact absurd e2.symm h
        · exact e2
      rw [List.filter_cons_of_pos (by simp [h]), List.length_cons, List.length_cons,
        ih hn.2 hd2]

theorem mem_targets_filter_ne (l : List (Nat × α)) (d t : Nat) :
    t ∈ (l.filter (fun e => e.1 != d)).map Prod.fst ↔ t ∈ l.map Prod.fst ∧ t ≠ d := by
  simp only [List.mem_map, List.mem_filter]
  constructor
  · rintro ⟨e, ⟨he, hne⟩, rfl⟩
    exact ⟨⟨e, he, rfl⟩, by simpa using hne⟩
  · rintro ⟨⟨e, he, rfl⟩, hne⟩
    exact ⟨e, ⟨he, by simpa using hne⟩, rfl⟩

theorem rewire_loop_inv [LinearOrderedField α] (v : Nat) (to_drop ds : List Nat)
    (s : RewireState α) (hT : ((s.nw.out v).map Prod.fst).Nodup) (hds : ds.Nodup)
    (hsub : ∀ d ∈ ds, d ∈ (s.nw.out v).map Prod.fst) (hadd : s.to_add.Nodup)
    (hnew : ∀ w ∈ s.to_add, w ∉ (s.nw.out v).map Prod.fst ∧ w ≠ v) :
    (((revision.rewire_loop v to_drop ds s).nw.out v).map Prod.fst).Nodup ∧
    (revision.rewire_loop v to_drop ds s).to_add.Nodup ∧
    (∀ w ∈ (revision.rewire_loop v to_drop ds s).to_add,
      w ∉ ((revision.rewire_loop v to_drop ds s).nw.out v).map Prod.fst ∧ w ≠ v) ∧
    ((revision.rewire_loop v to_drop ds s).nw.out v).length
        + (revision.rewire_loop v to_drop ds s).to_add.length
      = (s.nw.out v).length + s.to_add.length ∧
    ∀ t ∈ ((revision.rewire_loop v to_drop ds s).nw.out v).map Prod.fst,
      t ∈ (s.nw.out v).map Prod.fst := by
  induction ds generalizing s with
  | nil => exact ⟨hT, hadd, hnew, rfl, fun t ht => ht⟩
  | cons d ds ih =>
    have hdn := List.nodup_cons.1 hds
    simp only [revision.rewire_loop]
    split_ifs with h
    · obtain ⟨hc1, hc2, hc3⟩ := h
      have hcT : (revision.rewire_candidate v to_drop s.nw s.rng).1
          ∉ (s.nw.out v).map Prod.fst :=
        fun hm => hc1 (has_edge_of_mem_targets s.nw v _ hm)
      obtain ⟨a1, a2, a3, a4, a5⟩ := ih
        { nw := s.nw.remove_edge v d,
          to_add := s.to_add ++ [(revision.rewire_candidate v to_drop s.nw s.rng).1],
          sum_of_reduced_weights := s.sum_of_reduced_weights - s.nw.weight v d,
          rng := (revision.rewire_candidate v to_drop s.nw s.rng).2 }
        (by
          rw [remove_edge_out_self]
          exact List.Nodup.sublist ((List.filter_sublist _).map Prod.fst) hT)
        hdn.2
        (by
          intro x hx
          rw [remove_edge_out_self, mem_targets_filter_ne]
          exact ⟨hsub x (List.mem_cons_of_mem _ hx), fun e => hdn.1 (e ▸ hx)⟩)
        (by
          rw [List.nodup_append]
          refine ⟨hadd, List.nodup_singleton _, ?_⟩
          intro x hx hx2
          rw [List.mem_singleton] at hx2
          exact hc2 (hx2 ▸ hx))
        (by
          intro w hw
          rw [remove_edge_out_self, mem_targets_filter_ne]
          rcases List.mem_append.1 hw with e | e
          · exact ⟨fun hm => (hnew w e).1 hm.1, (hnew w e).2⟩
          · rw [List.mem_singleton] at e
            rw [e]
            exact ⟨fun hm => hcT hm.1, fun e2 => hc3 e2.symm⟩)
      refine ⟨a1, a2, a3, ?_, ?_⟩
      · rw [a4]
        simp only [remove_edge_out_self, List.length_append, List.length_singleton]
        have := length_filter_ne_of_nodup (s.nw.out v) d hT (hsub d (List.mem_cons_self _ _))
        omega
      · intro t ht
        have := a5 t ht
        rw [remove_edge_out_self, mem_targets_filter_ne] at this
        exact this.1
    · exact ih { s with rng := (revision.rewire_candidate v to_drop s.nw s.rng).2 } hT hdn.2
        (fun x hx => hsub x (List.mem_cons_of_mem _ hx)) hadd hnew

theorem foldl_add_edge_props (v : Nat) (w : α) (ts : List Nat) (g : Network_u α)
    (hts : ts.Nodup) (hnew : ∀ t ∈ ts, t ∉ (g.out v).map Prod.fst ∧ t ≠ v)
    (hT : ((g.out v).map Prod.fst).Nodup) :
    (((ts.foldl (fun g t => g.add_edge v t w) g).out v).map Prod.fst).Nodup ∧
    ((ts.foldl (fun g t => g.add_edge v t w) g).out v).length = (g.out v).length + ts.length ∧
    ∀ t ∈ ((ts.foldl (fun g t => g.add_edge v t w) g).out v).map Prod.fst,
      t ∈ (g.out v).map Prod.fst ∨ t ≠ v := by
  have hp := foldl_add_edge_targets_perm v w ts g hts (fun t ht => (hnew t ht).1)
  refine ⟨?_, ?_, ?_⟩
  · refine (List.Perm.nodup_iff hp).2 ?_
    rw [List.nodup_append]
    exact ⟨hT, hts, fun x hx hx2 => (hnew x hx2).1 hx⟩
  · have h1 := hp.length_eq
    rw [List.length_map, List.length_append, List.length_map] at h1
    exact h1
  · intro t ht
    rcases List.mem_append.1 (hp.subset ht) with e | e
    · exact Or.inl e
    · exact Or.inr (hnew t e).2

/-- What `update_weights` does to the out-edges of `v` when no target is listed twice:
the targets afterwards are again distinct, they are as many as before, each is an old
target or a vertex other than `v`, and the out-edges of every other vertex are as
before. -/
theorem update_weights_targets [LinearOrderedField α] (m : Libm α) (model_mode : Mode)
    (v : Nat) (nw : Network_u α) (weighting rewiring : α) (rewiring_count : Nat)
    (prob_distr : UniformReal α) (rng : Rng α) (hnd : ((nw.out v).map Prod.fst).Nodup) :
    (((revision.update_weights m model_mode v nw weighting rewiring rewiring_count
      prob_distr rng).1.out v).map Prod.fst).Nodup ∧
    ((revision.update_weights m model_mode v nw weighting rewiring rewiring_count
      prob_distr rng).1.out v).length = (nw.out v).length ∧
    (∀ t ∈ ((revision.update_weights m model_mode v nw weighting rewiring rewiring_count
      prob_distr rng).1.out v).map Prod.fst, t ∈ (nw.out v).map Prod.fst ∨ t ≠ v) ∧
    ∀ x, x ≠ v → (revision.update_weights m model_mode v nw weighting rewiring
      rewiring_count prob_distr rng).1.out x = nw.out x := by
  unfold revision.update_weights
  by_cases hd : nw.out_degree v ≠ 0
  · rw [if_pos hd]
    dsimp only
    obtain ⟨l, hl, hs, _⟩ := reduce_loop_to_drop m model_mode v nw weighting rewiring prob_distr
      (nw.out v) [] 0 rng
    rw [List.nil_append] at hl
    have htg := reduce_loop_targets m model_mode v nw weighting rewiring prob_distr
      (nw.out v) [] 0 rng
    obtain ⟨a1, a2, a3, a4, a5⟩ := rewire_loop_inv v
      (revision.reduce_loop m model_mode v nw weighting rewiring prob_distr
        (nw.out v) [] 0 rng).to_drop
      (revision.reduce_loop m model_mode v nw weighting rewiring prob_distr
        (nw.out v) [] 0 rng).to_drop
      { nw := nw.setOut v (revision.reduce_loop m model_mode v nw weighting rewiring prob_distr
          (nw.out v) [] 0 rng).edges,
        to_add := [],
        sum_of_reduced_weights := (revision.reduce_loop m model_mode v nw weighting rewiring
          prob_distr (nw.out v) [] 0 rng).sum_of_reduced_weights,
        rng := (revision.reduce_loop m model_mode v nw weighting rewiring prob_distr
          (nw.out v) [] 0 rng).rng }
      (by rw [setOut_out_self, htg]; exact hnd)
      (by rw [hl]; exact List.Nodup.sublist hs hnd)
      (by
        intro d hd2
        rw [setOut_out_self, htg]
        rw [hl] at hd2
        exact hs.subset hd2)
      List.nodup_nil
      (fun w hw => absurd hw (List.not_mem_nil w))
    simp only [setOut_out_self, List.length_nil, add_zero] at a4 a5
    have key := fun w : α => foldl_add_edge_props v w _ _ a2 a3 a1
    have hlen : (revision.reduce_loop m model_mode v nw weighting rewiring prob_distr
        (nw.out v) [] 0 rng).edges.length = (nw.out v).length := by
      have := congrArg List.length htg
      rwa [List.length_map, List.length_map] at this
    refine ⟨(key _).1, ((key _).2.1).trans (a4.trans hlen), ?_, ?_⟩
    · intro t ht
      rcases (key _).2.2 t ht with e | e
      · left
        have := a5 t e
        rwa [htg] at this
      · exact Or.inr e
    · intro x hx
      rw [foldl_add_edge_out_other _ _ _ _ x hx, rewire_loop_out_other _ _ _ _ x hx]
      simp [Network_u.setOut, hx]
  · rw [if_neg hd]
    exact ⟨hnd, rfl, fun t ht => Or.inl ht, fun x _ => rfl⟩

/-! ### C33: the user network stays simple -/

theorem user_revision_simple [LinearOrderedField α] (m : Libm α) (model_mode : Mode)
    (nw : Network_u α) (weighting rewiring : α) (rewiring_count : Nat)
    (prob_distr : UniformReal α) (k : α) (rng : Rng α)
    (hloop : ∀ x, nw.has_edge x x = false)
    (hpar : ∀ x, ((nw.out x).map Prod.fst).Nodup) (x : Nat) :
    (revision.user_revision m model_mode nw weighting rewiring rewiring_count prob_distr
      k rng).1.has_edge x x = false ∧
    (((revision.user_revision m model_mode nw weighting rewiring rewiring_count prob_distr
      k rng).1.out x).map Prod.fst).Nodup := by
  have hno : ∀ (g : Network_u α), x ∉ (g.out x).map Prod.fst → g.has_edge x x = false := by
    intro g hg
    cases h : g.has_edge x x with
    | false => rfl
    | true => exact absurd (mem_targets_of_has_edge g x x h) hg
  have hx0 : x ∉ (nw.out x).map Prod.fst := by
    intro hm
    have := has_edge_of_mem_targets nw x x hm
    rw [hloop x] at this
    exact Bool.noConfusion this
  unfold revision.user_revision
  dsimp only
  by_cases hd : nw.out_degree (random_vertex nw rng).1 ≠ 0
  · rw [if_pos hd]
    dsimp only
    have hpo := pairwise_weighted_update_out m (random_vertex nw rng).1 nw prob_distr
      (random_vertex nw rng).2 k
    obtain ⟨a1, _, a3, a4⟩ := update_weights_targets m model_mode (random_vertex nw rng).1
      (revision.pairwise_weighted_update m (random_vertex nw rng).1 nw prob_distr
        (random_vertex nw rng).2 k).1 weighting rewiring rewiring_count prob_distr
      (revision.pairwise_weighted_update m (random_vertex nw rng).1 nw prob_distr
        (random_vertex nw rng).2 k).2 (by rw [hpo]; exact hpar _)
    rw [hpo] at a3
    constructor
    · apply hno
      rw [normalize_weights_targets]
      by_cases hx : x = (random_vertex nw rng).1
      · rw [hx]
        intro hm
        rcases a3 _ hm with e | e
        · exact hx0 (by rw [hx]; exact e)
        · exact e rfl
      · rw [a4 x hx, hpo]
        exact hx0
    · rw [normalize_weights_targets]
      by_cases hx : x = (random_vertex nw rng).1
      · rw [hx]
        exact a1
      · rw [a4 x hx, hpo]
        exact hpar x
  · rw [if_neg hd]
    exact ⟨hloop x, hpar x⟩

/-- C33, the code at a failing input: `user_revision` keeps a user graph free of
self-loops and of parallel edges, and the ageing engine does not.  `seniorNet` after the
selection pass has no self-loop and no out-edge list with a target twice;
`replace_child` for the child 0, the parent 1 and the single peer 2 meets, in the
second out-edge round of `add_edges`, the edge `0 → 2` it has just added, falls back
to `random_vertex`, draws the child itself and adds the self-loop `0 → 0`. -/
theorem add_edges_adds_self_loop :
    (∀ (m : Libm ℝ) (model_mode : Mode) (nw : Network_u ℝ) (weighting rewiring : ℝ)
        (rewiring_count : Nat) (prob_distr : UniformReal ℝ) (k : ℝ) (rng : Rng ℝ),
      (∀ x, nw.has_edge x x = false) → (∀ x, ((nw.out x).map Prod.fst).Nodup) →
      ∀ x, (revision.user_revision m model_mode nw weighting rewiring rewiring_count
          prob_distr k rng).1.has_edge x x = false ∧
        (((revision.user_revision m model_mode nw weighting rewiring rewiring_count
          prob_distr k rng).1.out x).map Prod.fst).Nodup) ∧
    (∀ v, v < 5 →
      (ageing.user_selection_and_ageing keepOrder [] [] [] (0, 10) (20, 40) (70, 1000) (1 / 5)
        seniorNet (constRng ⟨0, 0, 0⟩) scenarioCfg.custom).2.1.has_edge v v = false ∧
      (((ageing.user_selection_and_ageing keepOrder [] [] [] (0, 10) (20, 40) (70, 1000) (1 / 5)
        seniorNet (constRng ⟨0, 0, 0⟩) scenarioCfg.custom).2.1.out v).map Prod.fst).Nodup) ∧
    ( ageing.replace_child 10 0 1 [2] 1 0
        (ageing.user_selection_and_ageing keepOrder [] [] [] (0, 10) (20, 40) (70, 1000) (1 / 5)
          seniorNet (constRng ⟨0, 0, 0⟩) scenarioCfg.custom).2.1
        (constRng ⟨0, 0, 0⟩) scenarioCfg.custom).get?.map
          (fun r => (r.1.has_edge 0 0, (r.1.out 0).map Prod.fst))
      = some (true, [0, 1, 2]) := by
  refine ⟨?_, ?_, ?_⟩
  · intro m model_mode nw weighting rewiring rewiring_count prob_distr k rng hloop hpar x
    exact user_revision_simple m model_mode nw weighting rewiring rewiring_count prob_distr k
      rng hloop hpar x
  · intro v hv
    interval_cases v <;> exact ⟨by decide!, by decide!⟩
  · decide!

/-! ### C34: rewiring only beyond the tolerance -/

theorem update_weights_removed_beyond [LinearOrderedField α] (m : Libm α) (model_mode : Mode)
    (v : Nat) (nw : Network_u α) (weighting rewiring : α) (rewiring_count : Nat)
    (prob_distr : UniformReal α) (rng : Rng α) (t : Nat) (h1 : nw.has_edge v t = true)
    (h2 : (revision.update_weights m model_mode v nw weighting rewiring rewiring_count
      prob_distr rng).1.has_edge v t = false) :
    |(nw.vertex t).opinion - (nw.vertex v).opinion| > (nw.vertex v).tolerance := by
  by_contra hnot
  have hres : (revision.update_weights m model_mode v nw weighting rewiring rewiring_count
      prob_distr rng).1.has_edge v t = true := by
    unfold revision.update_weights
    by_cases hd : nw.out_degree v ≠ 0
    · rw [if_pos hd]
      dsimp only
      apply foldl_add_edge_has_edge_mono
      obtain ⟨l, hl, _, hb⟩ := reduce_loop_to_drop m model_mode v nw weighting rewiring
        prob_distr (nw.out v) [] 0 rng
      rw [List.nil_append] at hl
      rw [rewire_loop_has_edge]
      · rw [← h1]
        apply has_edge_eq_of_targets
        rw [setOut_out_self]
        exact reduce_loop_targets _ _ _ _ _ _ _ _ _ _ _
      · rw [hl]
        exact fun hm => hnot (hb t hm)
    · rw [if_neg hd]
      exact h1
  rw [hres] at h2
  exact Bool.noConfusion h2

theorem update_weights_no_mark [LinearOrderedField α] (m : Libm α) (model_mode : Mode)
    (v : Nat) (nw : Network_u α) (weighting rewiring : α) (rewiring_count : Nat)
    (prob_distr : UniformReal α) (rng : Rng α)
    (hdraw : ∀ i, ¬ (prob_distr.draw { rng with pos := i }).1 < rewiring) (x : Nat) :
    ((revision.update_weights m model_mode v nw weighting rewiring rewiring_count
      prob_distr rng).1.out x).map Prod.fst = (nw.out x).map Prod.fst := by
  unfold revision.update_weights
  by_cases hd : nw.out_degree v ≠ 0
  · rw [if_pos hd]
    dsimp only
    rw [reduce_loop_no_mark m model_mode v nw weighting rewiring prob_distr (nw.out v) [] 0 rng
      hdraw]
    simp only [revision.rewire_loop, List.foldl_nil]
    by_cases hx : x = v
    · rw [hx, setOut_out_self]
      exact reduce_loop_targets _ _ _ _ _ _ _ _ _ _ _
    · simp [Network_u.setOut, hx]
  · rw [if_neg hd]

/-- C34: an out-edge `v → t` that `update_weights` removes had
`|opinion(t) - opinion(v)| > tolerance(v)`; and with rewiring probability 0 and draws
that are not negative, `user_revision` leaves the targets of the out-edges of every
vertex as they are: no edge is removed and none is added. -/
theorem rewiring_only_beyond_tolerance [LinearOrderedField α] (m : Libm α) (model_mode : Mode)
    (nw : Network_u α) (weighting : α) (rewiring_count : Nat) (prob_distr : UniformReal α)
    (k : α) (rng : Rng α) :
    (∀ (rewiring : α) (v t : Nat), nw.has_edge v t = true →
      (revision.update_weights m model_mode v nw weighting rewiring rewiring_count
        prob_distr rng).1.has_edge v t = false →
      |(nw.vertex t).opinion - (nw.vertex v).opinion| > (nw.vertex v).tolerance) ∧
    ((∀ i, 0 ≤ (prob_distr.draw { rng with pos := i }).1) →
      ∀ x, ((revision.user_revision m model_mode nw weighting 0 rewiring_count prob_distr
        k rng).1.out x).map Prod.fst = (nw.out x).map Prod.fst) := by
  refine ⟨fun rewiring v t h1 h2 => update_weights_removed_beyond m model_mode v nw weighting
    rewiring rewiring_count prob_distr rng t h1 h2, ?_⟩
  intro hdraw x
  unfold revision.user_revision
  dsimp only
  by_cases hd : nw.out_degree (random_vertex nw rng).1 ≠ 0
  · rw [if_pos hd]
    dsimp only
    rw [normalize_weights_targets, update_weights_no_mark, pairwise_weighted_update_out]
    intro i
    have hs : ({ (revision.pairwise_weighted_update m (random_vertex nw rng).1 nw prob_distr
        (random_vertex nw rng).2 k).2 with pos := i } : Rng α) = { rng with pos := i } := by
      unfold revision.pairwise_weighted_update random_vertex
      split_ifs <;> rfl
    rw [hs]
    exact not_lt.2 (hdraw i)
  · rw [if_neg hd]

/-- C34 at a concrete input: in `rewireNet` the edge `0 → 1` is removed with rewiring
probability 1, and it is beyond the tolerance of user 0; with rewiring probability 0
and the constant draw 1/2, `user_revision` keeps the targets of the out-edges of
user 0. -/
theorem rewiring_only_beyond_tolerance_witness :
    ((rewireNet : Network_u ℝ).has_edge 0 1 = true ∧
      (revision.update_weights (Libm.mk (fun x y : ℝ => x ^ y) Real.exp Real.log) Mode.None 0
        rewireNet (1 / 2) 1 0 ⟨0, 1⟩ (constRng ⟨1 / 2, 0, 2⟩)).1.has_edge 0 1 = false ∧
      |((rewireNet : Network_u ℝ).vertex 1).opinion - ((rewireNet : Network_u ℝ).vertex 0).opinion|
        > ((rewireNet : Network_u ℝ).vertex 0).tolerance) ∧
    (∀ i, (0 : ℝ) ≤ ((⟨0, 1⟩ : UniformReal ℝ).draw
      { (constRng ⟨1 / 2, 0, 2⟩ : Rng ℝ) with pos := i }).1) ∧
    ((revision.user_revision (Libm.mk (fun x y : ℝ => x ^ y) Real.exp Real.log) Mode.None
      rewireNet (1 / 2) 0 0 ⟨0, 1⟩ 0 (constRng ⟨1 / 2, 0, 2⟩)).1.out 0).map Prod.fst
      = ((rewireNet : Network_u ℝ).out 0).map Prod.fst :=
  have h1 : (rewireNet : Network_u ℝ).has_edge 0 1 = true := by
    simp [rewireNet, Network_u.has_edge]
  have h2 : (revision.update_weights (Libm.mk (fun x y : ℝ => x ^ y) Real.exp Real.log)
      Mode.None 0 rewireNet (1 / 2) 1 0 ⟨0, 1⟩ (constRng ⟨1 / 2, 0, 2⟩)).1.has_edge 0 1
        = false := by
    norm_num [rewireNet, constRng, Rng.peek, Rng.advance,
      Network_u.out_degree, UniformReal.draw,
      revision.update_weights, revision.reduce_loop, revision.reduced_weight,
      revision.age_branch, Mode.toNat, subU32, revision.rewire_loop, Network_u.setOut,
      revision.rewire_candidate, utils.get_rand_nb, random_vertex,
      utils.get_rand_int, Network_u.has_edge, Network_u.remove_edge, Network_u.add_edge,
      insertEdge, Network_u.weight]
  have h : ∀ i, (0 : ℝ) ≤ ((⟨0, 1⟩ : UniformReal ℝ).draw
      { (constRng ⟨1 / 2, 0, 2⟩ : Rng ℝ) with pos := i }).1 := by
    intro i
    norm_num [UniformReal.draw, constRng, Rng.peek]
  ⟨⟨h1, h2, (rewiring_only_beyond_tolerance (Libm.mk (fun x y : ℝ => x ^ y) Real.exp Real.log)
      Mode.None rewireNet (1 / 2) 0 ⟨0, 1⟩ 0 (constRng ⟨1 / 2, 0, 2⟩)).1 1 0 1 h1 h2⟩, h,
    (rewiring_only_beyond_tolerance (Libm.mk (fun x y : ℝ => x ^ y) Real.exp Real.log)
      Mode.None rewireNet (1 / 2) 0 ⟨0, 1⟩ 0 (constRng ⟨1 / 2, 0, 2⟩)).2 h 0⟩

/-! ### C35: the out-degree under rewiring -/

/-- C35: for a vertex `v` whose out-edge list names no target twice, and every random
stream, `update_weights` leaves the out-degree of `v` as it is: the targets that are
new are as many as the targets that are gone; and the out-edges of every other vertex
are the same as before. -/
theorem update_weights_preserves_out_degree [LinearOrderedField α] (m : Libm α)
    (model_mode : Mode) (v : Nat) (nw : Network_u α) (weighting rewiring : α)
    (rewiring_count : Nat) (prob_distr : UniformReal α) (rng : Rng α)
    (hnd : ((nw.out v).map Prod.fst).Nodup) :
    (revision.update_weights m model_mode v nw weighting rewiring rewiring_count
      prob_distr rng).1.out_degree v = nw.out_degree v ∧
    ((((revision.update_weights m model_mode v nw weighting rewiring rewiring_count
        prob_distr rng).1.out v).map Prod.fst).toFinset
      \ ((nw.out v).map Prod.fst).toFinset).card
      = (((nw.out v).map Prod.fst).toFinset
        \ (((revision.update_weights m model_mode v nw weighting rewiring rewiring_count
          prob_distr rng).1.out v).map Prod.fst).toFinset).card ∧
    ∀ x, x ≠ v → (revision.update_weights m model_mode v nw weighting rewiring
      rewiring_count prob_distr rng).1.out x = nw.out x := by
  obtain ⟨h1, h2, _, h4⟩ := update_weights_targets m model_mode v nw weighting rewiring
    rewiring_count prob_distr rng hnd
  refine ⟨h2, ?_, h4⟩
  apply Finset.card_sdiff_comm
  rw [List.toFinset_card_of_nodup h1, List.toFinset_card_of_nodup hnd, List.length_map,
    List.length_map, h2]

/-- C35 at a concrete input: in `rewireNet` the only out-edge `0 → 1` of user 0 is
rewired to `0 → 2`, and the out-degree of user 0 is 1 before and after. -/
theorem update_weights_preserves_out_degree_witness :
    (revision.update_weights (Libm.mk (fun x y : ℝ => x ^ y) Real.exp Real.log) Mode.None 0
      rewireNet (1 / 2) 1 0 ⟨0, 1⟩ (constRng ⟨1 / 2, 0, 2⟩)).1.out_degree 0
      = (rewireNet : Network_u ℝ).out_degree 0 ∧
    (rewireNet : Network_u ℝ).out_degree 0 = 1 :=
  ⟨(update_weights_preserves_out_degree (Libm.mk (fun x y : ℝ => x ^ y) Real.exp Real.log)
    Mode.None 0 rewireNet (1 / 2) 1 0 ⟨0, 1⟩ (constRng ⟨1 / 2, 0, 2⟩)
    (by simp [rewireNet])).1, by simp [rewireNet, Network_u.out_degree]⟩

/-! ### Weighted flood fill: shared lemmas for C36 and C37 -/

theorem fill_weighted_opinion_cluster_eq_flood [LinearOrderedField α] (nw : Network_u α)
    (fuel v : Nat) (c : List Nat) (min_weight : α) :
    fill_weighted_opinion_cluster nw fuel v c min_weight
      = flood (weighted_nexts nw min_weight) fuel v c := by
  induction fuel generalizing v c with
  | zero => rfl
  | succ fuel ih =>
    have e : (fun w c1 => fill_weighted_opinion_cluster nw fuel w c1 min_weight)
        = flood (weighted_nexts nw min_weight) fuel := by
      funext w c1
      exact ih w c1
    rw [fill_weighted_opinion_cluster, flood, e]
    split_ifs
    · rfl
    · rw [weighted_nexts, visit_each_append]

theorem opinion_clusters_loop_eq_of_fill [LinearOrderedField α] (fuel : Nat) (nw : Network_u α)
    (tolerance min_weight : α)
    (h : ∀ v, fill_weighted_opinion_cluster nw fuel v [] min_weight
      = fill_opinion_cluster nw fuel v [] tolerance)
    (vs : List Nat) (cs : List (List Nat)) :
    weighted_opinion_clusters_loop fuel nw min_weight vs cs
      = opinion_clusters_loop fuel nw tolerance vs cs := by
  induction vs generalizing cs with
  | nil => rfl
  | cons v vs ih =>
    rw [weighted_opinion_clusters_loop, opinion_clusters_loop, h v]
    split_ifs
    · exact ih cs
    · cases fill_opinion_cluster nw fuel v [] tolerance with
      | none => rfl
      | some temp_c => exact ih _

/-! ### C36: weighted clusters and unweighted clusters -/

theorem visit_each_sound (nexts : Nat → List Nat) (f : Nat → List Nat → Option (List Nat))
    (hf : ∀ w c c1, f w c = some c1 →
      ∀ x ∈ c1, x ∈ c ∨ Relation.ReflTransGen (fun y z => z ∈ nexts y) w x)
    (ws c c1 : List Nat) (h : visit_each f ws c = some c1) :
    ∀ x ∈ c1, x ∈ c ∨ ∃ w ∈ ws, Relation.ReflTransGen (fun y z => z ∈ nexts y) w x := by
  induction ws generalizing c with
  | nil =>
    simp only [visit_each, Option.some.injEq] at h
    subst h
    exact fun x hx => Or.inl hx
  | cons w ws ih =>
    simp only [visit_each] at h
    cases hfw : f w c with
    | none => simp [hfw] at h
    | some c2 =>
      rw [hfw] at h
      intro x hx
      rcases ih c2 h x hx with h1 | ⟨w2, hw2, hr⟩
      · rcases hf w c c2 hfw x h1 with h2 | h2
        · exact Or.inl h2
        · exact Or.inr ⟨w, List.mem_cons_self _ _, h2⟩
      · exact Or.inr ⟨w2, List.mem_cons_of_mem _ hw2, hr⟩

theorem flood_sound (nexts : Nat → List Nat) (fuel v : Nat) (c c1 : List Nat)
    (h : flood nexts fuel v c = some c1) :
    ∀ x ∈ c1, x ∈ c ∨ Relation.ReflTransGen (fun y z => z ∈ nexts y) v x := by
  induction fuel generalizing v c c1 with
  | zero => simp [flood] at h
  | succ fuel ih =>
    rw [flood] at h
    by_cases hvc : v ∈ c
    · rw [if_pos hvc, Option.some.injEq] at h
      subst h
      exact fun x hx => Or.inl hx
    · rw [if_neg hvc] at h
      intro x hx
      rcases visit_each_sound nexts (flood nexts fuel) (fun w c c1 => ih w c c1) _ _ _ h x hx
        with h1 | ⟨w, hw, hr⟩
      · rcases List.mem_append.1 h1 with h2 | h2
        · exact Or.inl h2
        · rw [List.mem_singleton] at h2
          rw [h2]
          exact Or.inr Relation.ReflTransGen.refl
      · exact Or.inr (Relation.ReflTransGen.head hw hr)

theorem visit_each_closed (nexts : Nat → List Nat) (f : Nat → List Nat → Option (List Nat))
    (hf : ∀ w c c1, f w c = some c1 →
      (∀ x ∈ c, x ∈ c1) ∧ w ∈ c1 ∧ ∀ y ∈ c1, y ∉ c → ∀ x ∈ nexts y, x ∈ c1)
    (ws c c1 : List Nat) (h : visit_each f ws c = some c1) :
    (∀ x ∈ c, x ∈ c1) ∧ (∀ w ∈ ws, w ∈ c1) ∧ ∀ y ∈ c1, y ∉ c → ∀ x ∈ nexts y, x ∈ c1 := by
  induction ws generalizing c with
  | nil =>
    simp only [visit_each, Option.some.injEq] at h
    subst h
    exact ⟨fun x hx => hx, fun w hw => absurd hw (List.not_mem_nil w),
      fun y hy hyc => absurd hy hyc⟩
  | cons w ws ih =>
    simp only [visit_each] at h
    cases hfw : f w c with
    | none => simp [hfw] at h
    | some c2 =>
      rw [hfw] at h
      obtain ⟨a1, a2, a3⟩ := hf w c c2 hfw
      obtain ⟨b1, b2, b3⟩ := ih c2 h
      refine ⟨fun x hx => b1 x (a1 x hx), ?_, ?_⟩
      · intro w2 hw2
        rcases List.mem_cons.1 hw2 with e | e
        · rw [e]
          exact b1 w a2
        · exact b2 w2 e
      · intro y hy hyc x hx
        by_cases hy2 : y ∈ c2
        · exact b1 x (a3 y hy2 hyc x hx)
        · exact b3 y hy hy2 x hx

theorem flood_closed (nexts : Nat → List Nat) (fuel v : Nat) (c c1 : List Nat)
    (h : flood nexts fuel v c = some c1) :
    (∀ x ∈ c, x ∈ c1) ∧ v ∈ c1 ∧ ∀ y ∈ c1, y ∉ c → ∀ x ∈ nexts y, x ∈ c1 := by
  induction fuel generalizing v c c1 with
  | zero => simp [flood] at h
  | succ fuel ih =>
    rw [flood] at h
    by_cases hvc : v ∈ c
    · rw [if_pos hvc, Option.some.injEq] at h
      subst h
      exact ⟨fun x hx => hx, hvc, fun y hy hyc => absurd hy hyc⟩
    · rw [if_neg hvc] at h
      obtain ⟨b1, b2, b3⟩ :=
        visit_each_closed nexts (flood nexts fuel) (fun w c c1 => ih w c c1) _ _ _ h
      have hv1 : v ∈ c1 := b1 v (List.mem_append_right _ (List.mem_singleton_self v))
      refine ⟨fun x hx => b1 x (List.mem_append_left _ hx), hv1, ?_⟩
      intro y hy hyc x hx
      by_cases hyv : y = v
      · rw [hyv] at hx
        exact b2 x hx
      · refine b3 y hy ?_ x hx
        intro hmem
        rcases List.mem_append.1 hmem with e | e
        · exact hyc e
        · exact hyv (List.mem_singleton.1 e)

theorem flood_subset_of_nexts_subset (n1 n2 : Nat → List Nat)
    (hsub : ∀ y x, x ∈ n1 y → x ∈ n2 y) (f1 f2 v : Nat) (W U : List Nat)
    (hW : flood n1 f1 v [] = some W) (hU : flood n2 f2 v [] = some U) :
    ∀ x ∈ W, x ∈ U := by
  obtain ⟨_, hvU, hcl⟩ := flood_closed n2 f2 v [] U hU
  have hreach : ∀ x, Relation.ReflTransGen (fun y z => z ∈ n1 y) v x → x ∈ U := by
    intro x h
    induction h with
    | refl => exact hvU
    | tail _ hbc ih => exact hcl _ ih (List.not_mem_nil _) _ (hsub _ _ hbc)
  intro x hx
  rcases flood_sound n1 f1 v [] W hW x hx with h | h
  · exact absurd h (List.not_mem_nil x)
  · exact hreach x h

theorem weighted_nexts_subset [LinearOrderedField α] (nw : Network_u α) (min_weight : α)
    (y x : Nat) (h : x ∈ weighted_nexts nw min_weight y) : x ∈ cluster_nexts nw y := by
  unfold weighted_nexts at h
  unfold cluster_nexts
  rcases List.mem_append.1 h with h1 | h1
  · obtain ⟨a, b⟩ := List.mem_filter.1 h1
    exact List.mem_append_left _ (List.mem_filter.2 ⟨a, decide_eq_true (of_decide_eq_true b).1⟩)
  · obtain ⟨a, b⟩ := List.mem_filter.1 h1
    exact List.mem_append_right _ (List.mem_filter.2 ⟨a, decide_eq_true (of_decide_eq_true b).1⟩)

theorem weight_nonneg [LinearOrderedField α] (nw : Network_u α)
    (hnn : ∀ v, ∀ e ∈ nw.out v, 0 ≤ e.2) (u v : Nat) : 0 ≤ nw.weight u v := by
  unfold Network_u.weight
  cases hf : (nw.out u).find? (fun e => e.1 == v) with
  | none => exact le_refl 0
  | some e => exact hnn u e (List.mem_of_find?_eq_some hf)

theorem weighted_nexts_zero [LinearOrderedField α] (nw : Network_u α)
    (hnn : ∀ v, ∀ e ∈ nw.out v, 0 ≤ e.2) : weighted_nexts nw 0 = cluster_nexts nw := by
  funext v
  unfold weighted_nexts cluster_nexts
  congr 1
  · apply List.filter_congr
    intro w _
    have : nw.weight v w * (nw.out_degree v : α) ≥ 0 :=
      mul_nonneg (weight_nonneg nw hnn v w) (Nat.cast_nonneg _)
    simp [this]
  · apply List.filter_congr
    intro w _
    have : nw.weight w v * (nw.out_degree w : α) ≥ 0 :=
      mul_nonneg (weight_nonneg nw hnn w v) (Nat.cast_nonneg _)
    simp [this]

/-- C36: for every graph with non-negative edge weights, `weighted_opinion_clusters`
with `min_weight = 0` returns the same list of clusters as `opinion_clusters`; for
every `min_weight` and start vertex, every vertex of the weighted cluster filled from
it is in the unweighted cluster filled from it; and when the edges lead to vertices of
the graph and the recursion bound is above the number of vertices, both routines and
both fill calls return. -/
theorem weighted_clusters_refine [LinearOrderedField α] (fuel : Nat) (nw : Network_u α)
    (tolerance : α) (hnn : ∀ v, ∀ e ∈ nw.out v, 0 ≤ e.2) :
    weighted_opinion_clusters fuel nw tolerance 0 = opinion_clusters fuel nw tolerance ∧
    (∀ (min_weight : α) (f1 f2 v : Nat) (W U : List Nat),
      fill_weighted_opinion_cluster nw f1 v [] min_weight = some W →
      fill_opinion_cluster nw f2 v [] tolerance = some U → ∀ x ∈ W, x ∈ U) ∧
    ((∀ v, v < nw.num_vertices → ∀ e ∈ nw.out v, e.1 < nw.num_vertices) →
      nw.num_vertices < fuel →
      (∃ cs, opinion_clusters fuel nw tolerance = some cs ∧
        weighted_opinion_clusters fuel nw tolerance 0 = some cs) ∧
      ∀ (min_weight : α) (v : Nat), v < nw.num_vertices →
        ∃ W U, fill_weighted_opinion_cluster nw fuel v [] min_weight = some W ∧
          fill_opinion_cluster nw fuel v [] tolerance = some U ∧ ∀ x ∈ W, x ∈ U) := by
  have heq : weighted_opinion_clusters fuel nw tolerance 0
      = opinion_clusters fuel nw tolerance := by
    unfold weighted_opinion_clusters opinion_clusters
    rw [if_neg (lt_irrefl 0)]
    apply opinion_clusters_loop_eq_of_fill
    intro v
    rw [fill_weighted_opinion_cluster_eq_flood, fill_opinion_cluster_eq_flood,
      weighted_nexts_zero nw hnn]
  have hsub : ∀ (min_weight : α) (f1 f2 v : Nat) (W U : List Nat),
      fill_weighted_opinion_cluster nw f1 v [] min_weight = some W →
      fill_opinion_cluster nw f2 v [] tolerance = some U → ∀ x ∈ W, x ∈ U := by
    intro min_weight f1 f2 v W U hW hU
    rw [fill_weighted_opinion_cluster_eq_flood] at hW
    rw [fill_opinion_cluster_eq_flood] at hU
    exact flood_subset_of_nexts_subset _ _ (weighted_nexts_subset nw min_weight) f1 f2 v W U
      hW hU
  refine ⟨heq, hsub, ?_⟩
  intro hwf hfuel
  constructor
  · obtain ⟨cs, h1, _⟩ := opinion_clusters_loop_post fuel nw tolerance hwf hfuel
      (List.range nw.num_vertices) [] (fun v hv => List.mem_range.1 hv)
      (fun c hc => absurd hc (List.not_mem_nil c)) List.Pairwise.nil
    exact ⟨cs, h1, by rw [heq]; exact h1⟩
  · intro min_weight v hv
    obtain ⟨W, hW, _⟩ := flood_post (weighted_nexts nw min_weight) nw.num_vertices
      (fun y hy w hw => cluster_nexts_lt nw hwf y hy w (weighted_nexts_subset nw min_weight y w hw))
      fuel v [] hv List.nodup_nil (fun x hx => absurd hx (List.not_mem_nil x))
      (by simpa using hfuel)
    obtain ⟨U, hU, _⟩ := flood_post (cluster_nexts nw) nw.num_vertices
      (cluster_nexts_lt nw hwf) fuel v [] hv List.nodup_nil
      (fun x hx => absurd hx (List.not_mem_nil x)) (by simpa using hfuel)
    rw [← fill_weighted_opinion_cluster_eq_flood] at hW
    rw [← fill_opinion_cluster_eq_flood nw fuel v [] tolerance] at hU
    exact ⟨W, U, hW, hU, hsub min_weight fuel fuel v W U hW hU⟩

theorem seniorNet_weights_nonneg : ∀ v, ∀ e ∈ seniorNet.out v, 0 ≤ e.2 := by
  intro v e he
  unfold seniorNet at he
  dsimp only at he
  split_ifs at he
  · simp only [List.mem_cons, List.mem_singleton, List.not_mem_nil, or_false] at he
    rcases he with h | h | h <;> rw [h] <;> decide!
  · simp only [List.mem_singleton] at he
    rw [he]
    decide!
  · exact absurd he (List.not_mem_nil e)

/-- C36 at a concrete input: in `seniorNet` (weights 1/3 and 1) the weighted clusters
with `min_weight = 0` are the clusters `[[0, 2, 3, 4], [1]]` of `opinion_clusters`, and
with `min_weight = 2` the weighted cluster filled from 0 is `[0]`. -/
theorem weighted_clusters_refine_witness :
    opinion_clusters 10 seniorNet (1 / 4) = some [[0, 2, 3, 4], [1]] ∧
    fill_weighted_opinion_cluster seniorNet 10 0 [] 2 = some [0] ∧
    weighted_opinion_clusters 10 seniorNet (1 / 4) 0 = opinion_clusters 10 seniorNet (1 / 4) ∧
    ∀ x ∈ [0], x ∈ [0, 2, 3, 4] :=
  ⟨by decide!, by decide!, (weighted_clusters_refine 10 seniorNet (1 / 4)
      seniorNet_weights_nonneg).1,
    (weighted_clusters_refine 10 seniorNet (1 / 4) seniorNet_weights_nonneg).2.1 2 10 10 0
      [0] [0, 2, 3, 4] (by decide!) (by decide!)⟩

/-! ### C37: the tolerance argument of the cluster routines -/

theorem opinion_clusters_loop_tolerance [LinearOrderedField α] (fuel : Nat) (nw : Network_u α)
    (t1 t2 : α) (vs : List Nat) (cs : List (List Nat)) :
    opinion_clusters_loop fuel nw t1 vs cs = opinion_clusters_loop fuel nw t2 vs cs := by
  induction vs generalizing cs with
  | nil => rfl
  | cons v vs ih =>
    rw [opinion_clusters_loop, opinion_clusters_loop, fill_opinion_cluster_eq_flood nw fuel v [] t1,
      fill_opinion_cluster_eq_flood nw fuel v [] t2]
    split_ifs
    · exact ih cs
    · cases flood (cluster_nexts nw) fuel v [] with
      | none => rfl
      | some temp_c => exact ih _

/-- C37: the tolerance argument of the cluster routines is not read.  For every graph,
every recursion bound and any two tolerances `t1`, `t2`, `opinion_clusters` returns the
same with `t1` as with `t2`, and so does `weighted_opinion_clusters` for every
`min_weight`; a fill call returns the same for both, namely the flood along
`cluster_nexts`, the neighbours within the susceptibility of the vertex visited. -/
theorem cluster_routines_ignore_tolerance [LinearOrderedField α] (fuel : Nat)
    (nw : Network_u α) (t1 t2 min_weight : α) :
    opinion_clusters fuel nw t1 = opinion_clusters fuel nw t2 ∧
    weighted_opinion_clusters fuel nw t1 min_weight
      = weighted_opinion_clusters fuel nw t2 min_weight ∧
    ∀ (v : Nat) (c : List Nat),
      fill_opinion_cluster nw fuel v c t1 = fill_opinion_cluster nw fuel v c t2 ∧
      fill_opinion_cluster nw fuel v c t1 = flood (cluster_nexts nw) fuel v c := by
  refine ⟨opinion_clusters_loop_tolerance fuel nw t1 t2 _ _, rfl, fun v c => ⟨?_, ?_⟩⟩
  · rw [fill_opinion_cluster_eq_flood, fill_opinion_cluster_eq_flood]
  · exact fill_opinion_cluster_eq_flood nw fuel v c t1

/-! ### C38: the age distance of the weight reduction -/

/-- C38, the code at a failing input: the ages are `unsigned int` and `fabs` is applied
to their difference after it has been taken modulo 2^32.  For a target that is not
younger than `v` the difference is the true one; for a younger target it is
`2^32 - (age(v) - age(t))`.  With `age(v) = 80` and `age(t) = 30` the age term is
`exp(ln(0.5)/0.5 * 4294967246 / 80)`, smaller than the term for the distance 50. -/
theorem age_distance_wraps_around :
    (∀ a b : Nat, a < 4294967296 → b < 4294967296 →
      (b ≤ a → subU32 a b = a - b) ∧ (a < b → subU32 a b = 4294967296 - (b - a))) ∧
    subU32 30 80 = 4294967246 ∧
    revision.reduced_weight (Libm.mk (fun x y : ℝ => x ^ y) Real.exp Real.log) Mode.Ageing 0
        (twoKinds 2 ⟨1 / 2, 1 / 2, 1 / 2, 30, 0⟩ 0 ⟨1 / 2, 1 / 2, 1 / 2, 80, 0⟩) (1 / 2) 1 1
      = 1 + Real.exp (Real.log 0.5 / 0.5 * 4294967246 / 80) ∧
    Real.exp (Real.log 0.5 / 0.5 * 4294967246 / 80)
      < Real.exp (Real.log 0.5 / 0.5 * 50 / 80) := by
  refine ⟨?_, by decide, ?_, ?_⟩
  · intro a b ha hb
    unfold subU32
    constructor <;> intro h <;> omega
  · have hpos : ¬ (1 + Real.exp (Real.log 0.5 / 0.5 * 4294967246 / 80) < 0) := by
      have := Real.exp_pos (Real.log 0.5 / 0.5 * 4294967246 / 80)
      linarith
    have hs : subU32 30 80 = 4294967246 := by decide
    simp only [revision.reduced_weight, revision.age_branch, twoKinds, if_true]
    norm_num [hs, Mode.toNat]
    intro h
    have hpos := Real.exp_pos (Real.log (1 / 2) / (1 / 2) * 4294967246 / 80)
    linarith
  · apply Real.exp_lt_exp.2
    have hlog : Real.log 0.5 < 0 := Real.log_neg (by norm_num) (by norm_num)
    have h1 : Real.log 0.5 / 0.5 * 4294967246 / 80 = Real.log 0.5 * (4294967246 / 40) := by
      ring
    have h2 : Real.log 0.5 / 0.5 * 50 / 80 = Real.log 0.5 * (50 / 40) := by ring
    rw [h1, h2]
    exact mul_lt_mul_of_neg_left (by norm_num) hlog

/-! ### C39: the susceptibility curve on validated configurations -/

/-- C39, counterexample: the validation of `utils::initialize` accepts `val_at_peak = 0`,
`val_at_0 = 0` and `val_at_0 > val_at_peak`.  With `val_at_peak = 0` the denominator
`s_2` is zero; with `val_at_0 = 0` the denominator `c*s_1*s_0^2` is zero; with peak 1,
`val_at_0 = 1` and `val_at_peak = 3/4` the denominator `c*(1+b*(age-s_0)^2)` is zero at
age 3, and at age 4 no denominator is zero and the result is `-3/5`. -/
theorem susceptibility_validated_not_total :
    (( utils.initialize_age 0 0 { scenarioCfg with custom := ⟨40, 1 / 10, 0⟩ }
        (constRng ⟨0, 0, 0⟩)).get?.isSome = true ∧
      (utils.susceptibility_denominators (⟨40, 1 / 10, 0⟩ : CurveConfig ℚ) 0).1 = 0) ∧
    (( utils.initialize_age 0 0 { scenarioCfg with custom := ⟨40, 0, 9 / 10⟩ }
        (constRng ⟨0, 0, 0⟩)).get?.isSome = true ∧
      (utils.susceptibility_denominators (⟨40, 0, 9 / 10⟩ : CurveConfig ℚ) 0).2.1 = 0) ∧
    (( utils.initialize_age 0 3 { scenarioCfg with custom := ⟨1, 1, 3 / 4⟩ }
        (constRng ⟨0, 0, 0⟩)).get?.isSome = true ∧
      (utils.susceptibility_denominators (⟨1, 1, 3 / 4⟩ : CurveConfig ℚ) 3).2.2 = 0) ∧
    (( utils.initialize_age 0 4 { scenarioCfg with custom := ⟨1, 1, 3 / 4⟩ }
        (constRng ⟨0, 0, 0⟩)).get?.map Prod.fst = some (-3 / 5) ∧
      (utils.susceptibility_denominators (⟨1, 1, 3 / 4⟩ : CurveConfig ℚ) 4).1 ≠ 0 ∧
      (utils.susceptibility_denominators (⟨1, 1, 3 / 4⟩ : CurveConfig ℚ) 4).2.1 ≠ 0 ∧
      (utils.susceptibility_denominators (⟨1, 1, 3 / 4⟩ : CurveConfig ℚ) 4).2.2 ≠ 0) := by
  refine ⟨⟨?_, ?_⟩, ⟨?_, ?_⟩, ⟨?_, ?_⟩, ?_, ?_, ?_, ?_⟩ <;> decide!

theorem susceptibility_eq_inv_denominator [LinearOrderedField α] (cfg : CurveConfig α)
    (age : Int) :
    utils.susceptibility cfg age = 1 / (utils.susceptibility_denominators cfg age).2.2 := rfl

/-- C39 as amended: for an age-dependent configuration with `peak > 0` and
`0 < val_at_0 ≤ val_at_peak ≤ 1` the validation of `utils::initialize` passes, and at
every age none of the denominators `s_2`, `c*s_1*s_0^2`, `c*(1+b*(age-s_0)^2)` of
`utils::susceptibility` is zero and the result lies in [0, 1]. -/
theorem susceptibility_total_on_ordered [LinearOrderedField α] (fuel : Nat) (cfg : Config α)
    (age : Int) (rng : Rng α) (htype : cfg.distribution_type = "age-dependent")
    (hp : 0 < cfg.custom.peak) (h0 : 0 < cfg.custom.val_at_0)
    (h01 : cfg.custom.val_at_0 ≤ cfg.custom.val_at_peak) (h1 : cfg.custom.val_at_peak ≤ 1) :
    utils.initialize_age fuel age cfg rng
        = Outcome.value ( utils.susceptibility cfg.custom age, rng) ∧
    (utils.susceptibility_denominators cfg.custom age).1 ≠ 0 ∧
    (utils.susceptibility_denominators cfg.custom age).2.1 ≠ 0 ∧
    (utils.susceptibility_denominators cfg.custom age).2.2 ≠ 0 ∧
    0 ≤ utils.susceptibility cfg.custom age ∧ utils.susceptibility cfg.custom age ≤ 1 := by
  have h2 : 0 < cfg.custom.val_at_peak := lt_of_lt_of_le h0 h01
  have hc : 0 < 1 / cfg.custom.val_at_peak := one_div_pos.2 h2
  have hd2 : 0 < 1 / cfg.custom.val_at_peak * cfg.custom.val_at_0 * cfg.custom.peak ^ 2 :=
    mul_pos (mul_pos hc h0) (pow_pos hp 2)
  have hcs : 1 / cfg.custom.val_at_peak * cfg.custom.val_at_0 ≤ 1 := by
    rw [one_div, inv_mul_le_iff₀ h2, mul_one]
    exact h01
  have hb : 0 ≤ (1 - 1 / cfg.custom.val_at_peak * cfg.custom.val_at_0)
      / (1 / cfg.custom.val_at_peak * cfg.custom.val_at_0 * cfg.custom.peak ^ 2) :=
    div_nonneg (sub_nonneg.2 hcs) hd2.le
  have hone : 1 ≤ 1 + (1 - 1 / cfg.custom.val_at_peak * cfg.custom.val_at_0)
      / (1 / cfg.custom.val_at_peak * cfg.custom.val_at_0 * cfg.custom.peak ^ 2)
      * ((age : α) - cfg.custom.peak) ^ 2 :=
    le_add_of_nonneg_right (mul_nonneg hb (sq_nonneg _))
  have hc1 : 1 ≤ 1 / cfg.custom.val_at_peak := by
    rw [le_div_iff₀ h2, one_mul]
    exact h1
  have hd3 : 1 ≤ 1 / cfg.custom.val_at_peak
      * (1 + (1 - 1 / cfg.custom.val_at_peak * cfg.custom.val_at_0)
      / (1 / cfg.custom.val_at_peak * cfg.custom.val_at_0 * cfg.custom.peak ^ 2)
      * ((age : α) - cfg.custom.peak) ^ 2) := by
    calc (1 : α) = 1 * 1 := (one_mul 1).symm
      _ ≤ _ := mul_le_mul hc1 hone zero_le_one hc.le
  refine ⟨?_, ne_of_gt h2, ne_of_gt hd2, ne_of_gt (lt_of_lt_of_le zero_lt_one hd3), ?_, ?_⟩
  · unfold utils.initialize_age
    rw [if_pos htype]
    dsimp only
    rw [if_neg (not_lt.2 hp.le), if_neg, if_neg]
    · intro h
      rcases h with h | h
      · exact absurd h (not_lt.2 h2.le)
      · exact absurd h (not_lt.2 h1)
    · intro h
      rcases h with h | h
      · exact absurd h (not_lt.2 h0.le)
      · exact absurd h (not_lt.2 (le_trans h01 h1))
  · rw [susceptibility_eq_inv_denominator]
    exact div_nonneg zero_le_one (le_trans zero_le_one hd3)
  · rw [susceptibility_eq_inv_denominator]
    exact (div_le_iff₀ (lt_of_lt_of_le zero_lt_one hd3)).2 (by rw [one_mul]; exact hd3)

/-- C39, the amended statement at the configuration of the susceptibility scenario
(peak 40, value 0.1 at age 0, value 0.9 at the peak) and age 20. -/
theorem susceptibility_total_on_ordered_witness :
    (0 : ℚ) < scenarioCfg.custom.peak ∧
    utils.initialize_age 0 20 scenarioCfg (constRng ⟨0, 0, 0⟩)
        = Outcome.value ( utils.susceptibility scenarioCfg.custom 20, constRng ⟨0, 0, 0⟩) ∧
    (utils.susceptibility_denominators scenarioCfg.custom 20).1 ≠ 0 ∧
    (utils.susceptibility_denominators scenarioCfg.custom 20).2.1 ≠ 0 ∧
    (utils.susceptibility_denominators scenarioCfg.custom 20).2.2 ≠ 0 ∧
    0 ≤ utils.susceptibility scenarioCfg.custom 20 ∧
    utils.susceptibility scenarioCfg.custom 20 ≤ 1 :=
  ⟨by decide!, susceptibility_total_on_ordered 0 scenarioCfg 20 (constRng ⟨0, 0, 0⟩) (by decide)
    (by decide!) (by decide!) (by decide!) (by decide!)⟩

/-! ### C40: the peer pool of the ageing engine -/

/-- C40, the code at a failing input: in `noYouthNet` nobody is of child age, so the
selection pass collects the child 0 (degree 4), the parent 1 and no peer.  `ageing`
checks that there is a parent but not that there is a peer: `add_edges` reaches its
out-edge loop with two edges to add and evaluates `j % peers.size()` with an empty
pool, a remainder by zero. -/
theorem ageing_empty_peer_pool :
    (ageing.user_selection_and_ageing keepOrder [] [] [] (0, 10) (20, 40) (70, 1000) (1 / 5)
        noYouthNet (constRng ⟨0, 0, 0⟩) scenarioCfg.custom).1
      = { children := [0], parents := [1], peers := [], peers_to_add := 2 } ∧
    noYouthNet.degree 0 = 4 ∧
    ( ageing.replace_child 10 0 1 [] 1 0
        (ageing.user_selection_and_ageing keepOrder [] [] [] (0, 10) (20, 40) (70, 1000) (1 / 5)
          noYouthNet (constRng ⟨0, 0, 0⟩) scenarioCfg.custom).2.1
        (constRng ⟨0, 0, 0⟩) scenarioCfg.custom).isUndefined = true ∧
    ( ageing.ageing keepOrder 10 (1 / 5) 1 (0, 10) (20, 40) (70, 1000) noYouthNet
        (constRng ⟨0, 0, 0⟩) scenarioCfg.custom).isUndefined = true := by
  refine ⟨?_, ?_, ?_, ?_⟩ <;> decide!

end OpDyn
